import Mathlib

/-!
# TFS: a verification development for `fs/operations.c`

The filesystem API of `fs/operations.c` is embedded as pure functions on an
explicit state.  A C string is the list of its bytes before the terminating
NUL, `size_t` values are naturals reduced modulo `2 ^ 64`, and an `int` is an
integer.  A call either returns (`Run.done`), stops the process
(`Run.abort`: a failed `ALWAYS_ASSERT`, an access through an invalid
reference, or a `memcpy` of `tfs_write` that would write outside the block or
read outside the buffer), or exhausts the recursion bound of the model
(`Run.out_of_fuel`).  A `tfs_read` whose `memcpy` reads past the end of the
block returns, as in the source.
-/

namespace TFS

/-! ## Machine arithmetic -/

/-- Number of values of the 64-bit `size_t`. -/
def SIZE_MOD : Nat := 2 ^ 64

/-- Addition of two `size_t` values. -/
def size_add (a b : Nat) : Nat := (a + b) % SIZE_MOD

/-- Subtraction of two `size_t` values (`b < SIZE_MOD`). -/
def size_sub (a b : Nat) : Nat := (a + SIZE_MOD - b) % SIZE_MOD

/-- The cast `(ssize_t)n` of a `size_t` value. -/
def to_ssize (n : Nat) : Int :=
  if n < 2 ^ 63 then (n : Int) else (n : Int) - (SIZE_MOD : Int)

/-! ## Outcome of a call -/

/-- Outcome of running a call of the API. -/
inductive Run (α : Type) where
  | done (a : α)
  | abort
  | out_of_fuel
deriving DecidableEq, Repr

/-! ## Data model -/

/-- Modelled from the spec: `config.h` is not part of the sources; the spec
fixes `MAX_FILE_NAME = 40` (scenario 2 of its section 8). -/
def MAX_FILE_NAME : Nat := 40

/-- Modelled from the spec: `ROOT_DIR_INUM` is the inumber returned by the
first `inode_create` after initialisation, which first-fit allocation makes
0. -/
def ROOT_DIR_INUM : Int := 0

/-- Modelled from the spec: size of one (name, inumber) directory slot, a
name buffer of `MAX_FILE_NAME` bytes followed by a 4-byte inumber. -/
def entry_size : Nat := MAX_FILE_NAME + 4

/-- The byte `'/'`. -/
def SLASH : Nat := 47

/-- The record `tfs_params`. -/
structure tfs_params where
  max_inode_count : Nat
  max_block_count : Nat
  max_open_files_count : Nat
  block_size : Nat
deriving DecidableEq, Repr

/-- The open mode: `mode & TFS_O_X` is the field `X` (the spec leaves the bit
values free and only tests the four flags separately). -/
structure tfs_file_mode_t where
  creat : Bool
  trunc : Bool
  append : Bool
  strict_create : Bool
deriving DecidableEq, Repr

/-- Type of an inode. -/
inductive inode_type where
  | T_FILE
  | T_DIRECTORY
deriving DecidableEq, Repr

/-- Modelled from the spec: the inode record of section 3 (the lock is left
out); `origin_path` is the symlink target, the name `operations.c` uses. -/
structure inode_t where
  i_node_type : inode_type
  i_size : Nat
  i_data_block : Int
  i_hard_link_count : Int
  origin_path : List Nat
deriving DecidableEq, Repr

/-- Modelled from the spec: a directory entry; `d_inumber = -1` marks an
empty slot. -/
structure dir_entry_t where
  d_name : List Nat
  d_inumber : Int
deriving DecidableEq, Repr

/-- Content of a data block: the bytes of a file, or the slot array of the
root directory. -/
inductive block_t where
  | bytes (b : List Nat)
  | entries (es : List dir_entry_t)
deriving DecidableEq, Repr

/-- Modelled from the spec: an open-file entry (the mutex is left out). -/
structure open_file_entry_t where
  of_inumber : Int
  of_offset : Nat
deriving DecidableEq, Repr

/-- One slot of an allocator table: its bit of the free/used bitmap and its
content. -/
structure slot (α : Type) where
  taken : Bool
  val : α
deriving DecidableEq, Repr

/-- Modelled from the spec: the process-wide state of `state.c`, the three
allocator tables of section 4.1 and the parameters. -/
structure tfs_state where
  params : tfs_params
  inode_table : List (slot inode_t)
  fs_data : List (slot block_t)
  open_file_table : List (slot open_file_entry_t)
deriving DecidableEq, Repr

/-! ## Allocator tables (`state.c`, modelled from the spec) -/

/-- Modelled from the spec: first-fit scan of a free bitmap (section 4.1). -/
def first_free {α : Type} : List (slot α) → Option Nat
  | [] => none
  | x :: xs => if x.taken then (first_free xs).map (fun i => i + 1) else some 0

/-- Index of a table denoted by a C `int`. -/
def at_index {α : Type} (l : List α) (i : Int) : Option α :=
  if 0 ≤ i then l[i.toNat]? else none

/-- Store at a table index denoted by a C `int`. -/
def set_index {α : Type} (l : List α) (i : Int) (a : α) : List α :=
  if 0 ≤ i then l.set i.toNat a else l

/-- A zeroed inode. -/
def zero_inode : inode_t :=
  { i_node_type := .T_FILE, i_size := 0, i_data_block := 0,
    i_hard_link_count := 0, origin_path := [] }

/-- A zeroed block of `n` bytes. -/
def zero_block (n : Nat) : block_t := .bytes (List.replicate n 0)

/-- A zeroed open-file entry. -/
def zero_file : open_file_entry_t := { of_inumber := 0, of_offset := 0 }

/-- An empty directory slot. -/
def empty_entry : dir_entry_t := { d_name := [], d_inumber := -1 }

/-- Modelled from the spec: `state_block_size` gives the block size of the
parameters. -/
def state_block_size (s : tfs_state) : Nat := s.params.block_size

/-- Modelled from the spec: number of slots of the root directory,
`block_size / entry_size` (section 4.2). -/
def MAX_DIR_ENTRIES (s : tfs_state) : Nat := s.params.block_size / entry_size

/-- Modelled from the spec: `state_init` builds the three tables, every slot
free and zeroed. -/
def state_init (p : tfs_params) : tfs_state :=
  { params := p,
    inode_table := List.replicate p.max_inode_count ⟨false, zero_inode⟩,
    fs_data := List.replicate p.max_block_count ⟨false, zero_block p.block_size⟩,
    open_file_table := List.replicate p.max_open_files_count ⟨false, zero_file⟩ }

/-- Modelled from the spec: `inode_get` gives a reference to the slot of an
inumber, `NULL` (`none`) when the inumber is outside the table; reading
through the reference gives the slot content. -/
def inode_get (inumber : Int) (s : tfs_state) : Option inode_t :=
  (at_index s.inode_table inumber).map (fun x => x.val)

/-- Store through the reference `inode_get inumber`. -/
def inode_put (inumber : Int) (v : inode_t) (s : tfs_state) : tfs_state :=
  match at_index s.inode_table inumber with
  | none => s
  | some x => { s with inode_table := set_index s.inode_table inumber ⟨x.taken, v⟩ }

/-- Modelled from the spec: `data_block_get` gives a reference to the
`block_size` bytes of a block, `NULL` when the index is outside the pool. -/
def data_block_get (b : Int) (s : tfs_state) : Option block_t :=
  (at_index s.fs_data b).map (fun x => x.val)

/-- Store through the reference `data_block_get b`. -/
def data_block_put (b : Int) (v : block_t) (s : tfs_state) : tfs_state :=
  match at_index s.fs_data b with
  | none => s
  | some x => { s with fs_data := set_index s.fs_data b ⟨x.taken, v⟩ }

/-- Modelled from the spec: `data_block_alloc` marks the first free block
used and returns its index, or returns -1 when there is none. -/
def data_block_alloc (s : tfs_state) : Int × tfs_state :=
  match first_free s.fs_data with
  | none => (-1, s)
  | some i =>
    match s.fs_data[i]? with
    | none => (-1, s)
    | some x => ((i : Int), { s with fs_data := s.fs_data.set i ⟨true, x.val⟩ })

/-- Modelled from the spec: `data_block_free` marks the block unused and
zeroes it. -/
def data_block_free (b : Int) (s : tfs_state) : tfs_state :=
  match at_index s.fs_data b with
  | none => s
  | some _ =>
    { s with fs_data := set_index s.fs_data b ⟨false, zero_block s.params.block_size⟩ }

/-- Modelled from the spec: content of a fresh inode, size 0,
`hard_link_count = 1`, empty symlink target and no data block. -/
def fresh_inode (t : inode_type) : inode_t :=
  { i_node_type := t, i_size := 0, i_data_block := -1,
    i_hard_link_count := 1, origin_path := [] }

/-- Modelled from the spec: `inode_create` takes the first free inode slot
and initialises it (size 0, `hard_link_count = 1`, empty symlink target, no
data block); -1 when the table is full. -/
def inode_create (t : inode_type) (s : tfs_state) : Int × tfs_state :=
  match first_free s.inode_table with
  | none => (-1, s)
  | some i =>
    ((i : Int), { s with inode_table := s.inode_table.set i ⟨true, fresh_inode t⟩ })

/-- Modelled from the spec: `inode_delete` frees the data block the inode
owns (it owns one when its size is positive), then releases and zeroes the
inode slot. -/
def inode_delete (inumber : Int) (s : tfs_state) : tfs_state :=
  match inode_get inumber s with
  | none => s
  | some ino =>
    let s1 := if 0 < ino.i_size then data_block_free ino.i_data_block s else s
    { s1 with inode_table := set_index s1.inode_table inumber ⟨false, zero_inode⟩ }

/-- Modelled from the spec: `add_to_open_file_table` fills the first free
entry with (inumber, offset) and returns its handle, or -1. -/
def add_to_open_file_table (inumber : Int) (offset : Nat) (s : tfs_state) :
    Int × tfs_state :=
  match first_free s.open_file_table with
  | none => (-1, s)
  | some h =>
    ((h : Int),
     { s with open_file_table := s.open_file_table.set h (slot.mk true
        { of_inumber := inumber, of_offset := offset }) })

/-- Modelled from the spec: `get_open_file_entry` gives the entry of a
handle, `NULL` when the handle is outside the table or not open. -/
def get_open_file_entry (fhandle : Int) (s : tfs_state) : Option open_file_entry_t :=
  match at_index s.open_file_table fhandle with
  | none => none
  | some x => if x.taken then some x.val else none

/-- Store through the reference `get_open_file_entry fhandle`. -/
def open_file_put (fhandle : Int) (v : open_file_entry_t) (s : tfs_state) : tfs_state :=
  { s with open_file_table := set_index s.open_file_table fhandle ⟨true, v⟩ }

/-- Modelled from the spec: `remove_from_open_file_table` marks the entry
unused and zeroes it. -/
def remove_from_open_file_table (fhandle : Int) (s : tfs_state) : tfs_state :=
  match at_index s.open_file_table fhandle with
  | none => s
  | some _ =>
    { s with open_file_table := set_index s.open_file_table fhandle ⟨false, zero_file⟩ }

/-- Modelled from the spec: `is_in_open_file_table` tells whether some open
entry holds the inumber (`contains` of section 4.1). -/
def is_in_open_file_table (inumber : Int) (s : tfs_state) : Bool :=
  s.open_file_table.any (fun x => x.taken && decide (x.val.of_inumber = inumber))

/-! ## Directory layer (`state.c`, modelled from the spec) -/

/-- Linear scan of the slot array for a used slot with exactly this name. -/
def find_entry (name : List Nat) : List dir_entry_t → Int
  | [] => -1
  | e :: es =>
    if e.d_inumber ≠ -1 ∧ e.d_name = name then e.d_inumber else find_entry name es

/-- The slot array with the first used slot of this name emptied, if there
is one. -/
def clear_entry (name : List Nat) : List dir_entry_t → Option (List dir_entry_t)
  | [] => none
  | e :: es =>
    if e.d_inumber ≠ -1 ∧ e.d_name = name then some (empty_entry :: es)
    else (clear_entry name es).map (fun r => e :: r)

/-- The slot array with its first empty slot filled, if there is one. -/
def fill_entry (name : List Nat) (inumber : Int) :
    List dir_entry_t → Option (List dir_entry_t)
  | [] => none
  | e :: es =>
    if e.d_inumber = -1 then some ({ d_name := name, d_inumber := inumber } :: es)
    else (fill_entry name inumber es).map (fun r => e :: r)

/-- Modelled from the spec: `find_in_dir`, a linear scan of the directory
for an exact match of the name; -1 when there is none (and when the slot
array is not allocated yet). -/
def find_in_dir (dir : Int) (sub_name : List Nat) (s : tfs_state) : Run Int :=
  match inode_get dir s with
  | none => .abort
  | some d =>
    if d.i_data_block = -1 then .done (-1)
    else
      match data_block_get d.i_data_block s with
      | some (.entries es) => .done (find_entry sub_name es)
      | _ => .abort

/-- Modelled from the spec: `add_dir_entry` rejects a name that contains
`'/'` or is longer than `MAX_FILE_NAME - 1`, allocates the slot array at the
first insertion, rejects a name that already exists, and otherwise writes
the entry into the first free slot; 0 on success, -1 on rejection. -/
def add_dir_entry (dir : Int) (sub_name : List Nat) (sub_inumber : Int)
    (s : tfs_state) : Run (Int × tfs_state) :=
  if SLASH ∈ sub_name ∨ MAX_FILE_NAME - 1 < sub_name.length then .done (-1, s)
  else
    match inode_get dir s with
    | none => .abort
    | some d =>
      if d.i_data_block = -1 then
        match data_block_alloc s with
        | (b, s1) =>
          if b = -1 then .done (-1, s1)
          else
            match fill_entry sub_name sub_inumber
                (List.replicate (MAX_DIR_ENTRIES s) empty_entry) with
            | none =>
              .done (-1, inode_put dir { d with i_data_block := b }
                (data_block_put b
                  (.entries (List.replicate (MAX_DIR_ENTRIES s) empty_entry)) s1))
            | some es =>
              .done (0, inode_put dir { d with i_data_block := b }
                (data_block_put b (.entries es) s1))
      else
        match data_block_get d.i_data_block s with
        | some (.entries es) =>
          if find_entry sub_name es ≠ -1 then .done (-1, s)
          else
            match fill_entry sub_name sub_inumber es with
            | none => .done (-1, s)
            | some es1 => .done (0, data_block_put d.i_data_block (.entries es1) s)
        | _ => .abort

/-- Modelled from the spec: `clear_dir_entry` marks the slot of the name
empty; 0 on success, -1 when the name is not in the directory. -/
def clear_dir_entry (dir : Int) (sub_name : List Nat) (s : tfs_state) :
    Run (Int × tfs_state) :=
  match inode_get dir s with
  | none => .abort
  | some d =>
    if d.i_data_block = -1 then .done (-1, s)
    else
      match data_block_get d.i_data_block s with
      | some (.entries es) =>
        match clear_entry sub_name es with
        | none => .done (-1, s)
        | some es1 => .done (0, data_block_put d.i_data_block (.entries es1) s)
      | _ => .abort

/-! ## The filesystem API (`fs/operations.c`) -/

/-- The flag `TFS_O_CREAT`. -/
def TFS_O_CREAT : tfs_file_mode_t :=
  { creat := true, trunc := false, append := false, strict_create := false }

/-- The flag `TFS_O_TRUNC`. -/
def TFS_O_TRUNC : tfs_file_mode_t :=
  { creat := false, trunc := true, append := false, strict_create := false }

/-- The flag `TFS_O_APPEND`. -/
def TFS_O_APPEND : tfs_file_mode_t :=
  { creat := false, trunc := false, append := true, strict_create := false }

/-- The flag `TFS_O_STRICT_CREATE`. -/
def TFS_O_STRICT_CREATE : tfs_file_mode_t :=
  { creat := false, trunc := false, append := false, strict_create := true }

/-- The mode 0, no flag set. -/
def TFS_O_NONE : tfs_file_mode_t :=
  { creat := false, trunc := false, append := false, strict_create := false }

/-- The union `a | b` of two modes. -/
def mode_or (a b : tfs_file_mode_t) : tfs_file_mode_t :=
  { creat := a.creat || b.creat, trunc := a.trunc || b.trunc,
    append := a.append || b.append,
    strict_create := a.strict_create || b.strict_create }

/-- The function `tfs_default_params`. -/
def tfs_default_params : tfs_params :=
  { max_inode_count := 64, max_block_count := 1024,
    max_open_files_count := 16, block_size := 1024 }

/-- The function `tfs_init`: `state_init` (taken to succeed), then the root
inode is created and must get `ROOT_DIR_INUM`. -/
def tfs_init (params_ptr : Option tfs_params) : Int × tfs_state :=
  let params := match params_ptr with
    | some p => p
    | none => tfs_default_params
  match inode_create .T_DIRECTORY (state_init params) with
  | (root, s) => if root ≠ ROOT_DIR_INUM then (-1, s) else (0, s)

/-- The function `valid_pathname`; a name is never `NULL` here. -/
def valid_pathname (name : List Nat) : Bool :=
  decide (1 < name.length) && (name.head? == some SLASH) &&
    decide (name.length < MAX_FILE_NAME)

/-- The function `tfs_lookup`; `root_inode` is the inumber whose slot the
pointer refers to. -/
def tfs_lookup (name : List Nat) (root_inode : Int) (s : tfs_state) : Run Int :=
  match inode_get root_inode s with
  | none => .abort
  | some r =>
    if r.i_node_type ≠ .T_DIRECTORY then .abort
    else if !valid_pathname name then .done (-1)
    else find_in_dir root_inode (name.drop 1) s

/-- The function `tfs_open`; the first argument bounds the depth of the
recursion through symbolic links. -/
def tfs_open : Nat → List Nat → tfs_file_mode_t → tfs_state → Run (Int × tfs_state)
  | 0, _, _, _ => .out_of_fuel
  | fuel + 1, name, mode, s =>
    if !valid_pathname name then .done (-1, s)
    else
      match inode_get ROOT_DIR_INUM s with
      | none => .abort
      | some _ =>
        match tfs_lookup name ROOT_DIR_INUM s with
        | .abort => .abort
        | .out_of_fuel => .out_of_fuel
        | .done inum =>
          if 0 ≤ inum then
            if mode.strict_create then .done (-1, s)
            else
              match inode_get inum s with
              | none => .abort
              | some inode =>
                if inode.origin_path ≠ [] then tfs_open fuel inode.origin_path mode s
                else if mode.trunc ∧ 0 < inode.i_size then
                  .done (add_to_open_file_table inum 0
                    (inode_put inum { inode with i_size := 0 }
                      (data_block_free inode.i_data_block s)))
                else
                  .done (add_to_open_file_table inum
                    (if mode.append then inode.i_size else 0) s)
          else if mode.creat then
            match inode_create .T_FILE s with
            | (inum1, s1) =>
              if inum1 = -1 then .done (-1, s1)
              else
                match add_dir_entry ROOT_DIR_INUM (name.drop 1) inum1 s1 with
                | .abort => .abort
                | .out_of_fuel => .out_of_fuel
                | .done (r, s2) =>
                  if r = -1 then .done (-1, inode_delete inum1 s2)
                  else .done (add_to_open_file_table inum1 0 s2)
          else .done (-1, s)

/-- The function `tfs_sym_link`; the result of `inode_create` is not checked,
so the `strncpy` goes through `inode_get(-1)` when the table is full
(`Run.abort`). -/
def tfs_sym_link (target link_name : List Nat) (s : tfs_state) :
    Run (Int × tfs_state) :=
  match inode_create .T_FILE s with
  | (link_inumber, s1) =>
    match inode_get link_inumber s1 with
    | none => .abort
    | some link_inode =>
      let s2 := inode_put link_inumber
        { link_inode with origin_path := target.take (MAX_FILE_NAME - 1) } s1
      match tfs_lookup target ROOT_DIR_INUM s2 with
      | .abort => .abort
      | .out_of_fuel => .out_of_fuel
      | .done r =>
        if r = -1 then .done (-1, s2)
        else
          match link_name with
          | [] => .abort
          | _ :: sub_name =>
            match add_dir_entry ROOT_DIR_INUM sub_name link_inumber s2 with
            | .abort => .abort
            | .out_of_fuel => .out_of_fuel
            | .done (a, s3) => if a ≠ 0 then .done (-1, s3) else .done (0, s3)

/-- The function `tfs_link`; `link_name + 1` is the tail of the list, and of
an empty string it points past the terminator (`Run.abort`). -/
def tfs_link (target link_name : List Nat) (s : tfs_state) : Run (Int × tfs_state) :=
  match tfs_lookup target ROOT_DIR_INUM s with
  | .abort => .abort
  | .out_of_fuel => .out_of_fuel
  | .done inumber =>
    if inumber < 0 then .done (-1, s)
    else
      match inode_get inumber s with
      | none => .abort
      | some file_inode =>
        if file_inode.origin_path ≠ [] then .done (-1, s)
        else
          match link_name with
          | [] => .abort
          | _ :: sub_name =>
            match add_dir_entry ROOT_DIR_INUM sub_name inumber s with
            | .abort => .abort
            | .out_of_fuel => .out_of_fuel
            | .done (a, s1) =>
              if a ≠ 0 then .done (-1, s1)
              else
                match inode_get inumber s1 with
                | none => .abort
                | some f1 =>
                  .done (0, inode_put inumber
                    { f1 with i_hard_link_count := f1.i_hard_link_count + 1 } s1)

/-- The function `tfs_close`. -/
def tfs_close (fhandle : Int) (s : tfs_state) : Int × tfs_state :=
  match get_open_file_entry fhandle s with
  | none => (-1, s)
  | some _ => (0, remove_from_open_file_table fhandle s)

/-- The `memcpy` of `tfs_write`: `n` bytes of `src` go into the block at
`off`; `none` when the copy would leave the block or the source. -/
def memcpy_to_block (blk : List Nat) (off : Nat) (src : List Nat) (n : Nat) :
    Option (List Nat) :=
  if off + n ≤ blk.length ∧ n ≤ src.length then
    some (blk.take off ++ src.take n ++ blk.drop (off + n))
  else none

/-- The bytes of a data block.  A block that holds the slot array of the
directory has no bytes in this embedding. -/
def block_bytes : block_t → List Nat
  | .bytes blk => blk
  | .entries _ => []

/-- The `memcpy` of `tfs_read`: the `n` bytes of the block at `off`.  The
source makes no test that `off + n` stays within the block; of a copy that
runs past the end of the block, the bytes taken from the block are kept here
(the bytes behind the block are not part of the state of the file). -/
def memcpy_from_block (blk : List Nat) (off n : Nat) : List Nat :=
  (blk.drop off).take n

/-- Lines 259 to 269 of `tfs_write`: the copy into the block of the inode and
the update of offset and size. -/
def tfs_write_copy (fhandle : Int) (file : open_file_entry_t) (inode : inode_t)
    (buffer : List Nat) (to_write : Nat) (s : tfs_state) : Run (Int × tfs_state) :=
  match data_block_get inode.i_data_block s with
  | some (.bytes blk) =>
    match memcpy_to_block blk file.of_offset buffer to_write with
    | none => .abort
    | some blk1 =>
      let of_offset := size_add file.of_offset to_write
      .done (to_ssize to_write,
        inode_put file.of_inumber
          { inode with i_size := if inode.i_size < of_offset then of_offset else inode.i_size }
          (open_file_put fhandle { file with of_offset := of_offset }
            (data_block_put inode.i_data_block (.bytes blk1) s)))
  | _ => .abort

/-- The function `tfs_write`; `buffer` holds the bytes at the pointer. -/
def tfs_write (fhandle : Int) (buffer : List Nat) (to_write : Nat) (s : tfs_state) :
    Run (Int × tfs_state) :=
  match get_open_file_entry fhandle s with
  | none => .done (-1, s)
  | some file =>
    match inode_get file.of_inumber s with
    | none => .abort
    | some inode =>
      let block_size := state_block_size s
      let n := if block_size < size_add to_write file.of_offset
        then size_sub block_size file.of_offset else to_write
      if 0 < n then
        if inode.i_size = 0 then
          match data_block_alloc s with
          | (bnum, s1) =>
            if bnum = -1 then .done (-1, s1)
            else tfs_write_copy fhandle file { inode with i_data_block := bnum }
              buffer n s1
        else tfs_write_copy fhandle file inode buffer n s
      else .done (to_ssize n, s)

/-- The function `tfs_read`; the second component of the result is what the
call copied to the start of the buffer.  As in the source, the only tests
are those of the two references (`inode_get`, `data_block_get`): the copy and
the store `file->of_offset += to_read` follow for every `to_read > 0`, also
when `of_offset + to_read` is past the end of the block. -/
def tfs_read (fhandle : Int) (len : Nat) (s : tfs_state) :
    Run (Int × List Nat × tfs_state) :=
  match get_open_file_entry fhandle s with
  | none => .done (-1, [], s)
  | some file =>
    match inode_get file.of_inumber s with
    | none => .abort
    | some inode =>
      let to_read := if len < size_sub inode.i_size file.of_offset
        then len else size_sub inode.i_size file.of_offset
      if 0 < to_read then
        match data_block_get inode.i_data_block s with
        | none => .abort
        | some block =>
          .done (to_ssize to_read,
            memcpy_from_block (block_bytes block) file.of_offset to_read,
            open_file_put fhandle
              { file with of_offset := size_add file.of_offset to_read } s)
      else .done (to_ssize to_read, [], s)

/-- The function `tfs_unlink`; the reference `inode_get(inumber)`, taken
before the checks in the source, is read where the source reads through it,
after `clear_dir_entry`. -/
def tfs_unlink (target : List Nat) (s : tfs_state) : Run (Int × tfs_state) :=
  match tfs_lookup target ROOT_DIR_INUM s with
  | .abort => .abort
  | .out_of_fuel => .out_of_fuel
  | .done inumber =>
    if !valid_pathname target then .done (-1, s)
    else if is_in_open_file_table inumber s then .done (-1, s)
    else
      match clear_dir_entry ROOT_DIR_INUM (target.drop 1) s with
      | .abort => .abort
      | .out_of_fuel => .out_of_fuel
      | .done (c, s1) =>
        if c ≠ 0 then .done (-1, s1)
        else
          match inode_get inumber s1 with
          | none => .abort
          | some file_inode =>
            let s2 := inode_put inumber
              { file_inode with i_hard_link_count := file_inode.i_hard_link_count - 1 } s1
            if file_inode.i_hard_link_count - 1 = 0 then .done (0, inode_delete inumber s2)
            else .done (0, s2)

/-! ## The state invariant -/

/-- Data block of the root directory, -1 while its slot array is not
allocated. -/
def root_block (s : tfs_state) : Int :=
  match at_index s.inode_table ROOT_DIR_INUM with
  | some x => x.val.i_data_block
  | none => -1

/-- A used slot of the directory. -/
def used (e : dir_entry_t) : Prop := e.d_inumber ≠ -1

/-- No two used slots of a directory carry the same name. -/
def dir_unique (es : List dir_entry_t) : Prop :=
  es.Pairwise (fun a b => used a → used b → a.d_name ≠ b.d_name)

/-- The slot array of the root directory, empty while it is not allocated. -/
def dir_entries (s : tfs_state) : List dir_entry_t :=
  match data_block_get (root_block s) s with
  | some (.entries es) => es
  | _ => []

/-- The directory can take one more entry: its slot array has an empty slot,
or it is not allocated yet and can be, with at least one slot. -/
def dir_has_room (s : tfs_state) : Prop :=
  (∃ e ∈ dir_entries s, e.d_inumber = -1) ∨
    (root_block s = -1 ∧ (∃ x ∈ s.fs_data, x.taken = false) ∧ 0 < MAX_DIR_ENTRIES s)

/-- The invariant of the filesystem state that the API maintains. -/
structure Inv (s : tfs_state) : Prop where
  root : ∃ r, at_index s.inode_table ROOT_DIR_INUM = some ⟨true, r⟩ ∧
    r.i_node_type = .T_DIRECTORY
  dir : root_block s = -1 ∨
    ∃ es, at_index s.fs_data (root_block s) = some ⟨true, .entries es⟩ ∧
      dir_unique es ∧
      ∀ e ∈ es, used e → 0 < e.d_inumber ∧ (inode_get e.d_inumber s).isSome
  blocks : ∀ (b : Int) (x : slot block_t), at_index s.fs_data b = some x →
    b ≠ root_block s → ∃ l, x.val = .bytes l ∧ l.length = s.params.block_size
  files : ∀ (h : Int) (x : slot open_file_entry_t),
    at_index s.open_file_table h = some x → x.taken = true →
      0 < x.val.of_inumber ∧ (inode_get x.val.of_inumber s).isSome ∧
        root_block s ≠ -1
  own : ∀ (i : Int) (x : slot inode_t), at_index s.inode_table i = some x →
    0 < x.val.i_size →
      x.val.i_data_block ≠ root_block s ∧ root_block s ≠ -1 ∧
        (at_index s.fs_data x.val.i_data_block).isSome

/-- Number of used slots of a directory that point at inumber `i`. -/
def links_to (i : Int) (es : List dir_entry_t) : Nat :=
  es.countP (fun e => decide (e.d_inumber ≠ -1) && decide (e.d_inumber = i))

/-- What the link count of a slot of the inode table depends on: its bit of
the bitmap and its `hard_link_count`. -/
def link_view (x : slot inode_t) : Bool × Int := (x.taken, x.val.i_hard_link_count)

/-- The invariant of the link counts: the `hard_link_count` of an inode is at
least the number of directory entries that point at it, and no entry points
at a free inode. -/
structure LinkInv (s : tfs_state) : Prop where
  count : ∀ (i : Int) (x : slot inode_t), at_index s.inode_table i = some x →
    (links_to i (dir_entries s) : Int) ≤ x.val.i_hard_link_count
  free : ∀ (i : Int) (x : slot inode_t), at_index s.inode_table i = some x →
    x.taken = false → links_to i (dir_entries s) = 0

/-- The states the public operations reach from a successful `tfs_init`, one
call after the other. -/
inductive Reachable : tfs_state → Prop where
  | init (params_ptr : Option tfs_params) (s : tfs_state) :
      tfs_init params_ptr = (0, s) → Reachable s
  | open_ (s s1 : tfs_state) (fuel : Nat) (name : List Nat) (mode : tfs_file_mode_t)
      (r : Int) : Reachable s → tfs_open fuel name mode s = .done (r, s1) → Reachable s1
  | close (s : tfs_state) (fhandle : Int) :
      Reachable s → Reachable (tfs_close fhandle s).2
  | read (s s1 : tfs_state) (fhandle : Int) (len : Nat) (r : Int) (out : List Nat) :
      Reachable s → tfs_read fhandle len s = .done (r, out, s1) → Reachable s1
  | write (s s1 : tfs_state) (fhandle : Int) (buffer : List Nat) (to_write : Nat)
      (r : Int) : Reachable s → tfs_write fhandle buffer to_write s = .done (r, s1) →
      Reachable s1
  | link (s s1 : tfs_state) (target link_name : List Nat) (r : Int) :
      Reachable s → tfs_link target link_name s = .done (r, s1) → Reachable s1
  | sym_link (s s1 : tfs_state) (target link_name : List Nat) (r : Int) :
      Reachable s → tfs_sym_link target link_name s = .done (r, s1) → Reachable s1
  | unlink (s s1 : tfs_state) (target : List Nat) (r : Int) :
      Reachable s → tfs_unlink target s = .done (r, s1) → Reachable s1

/-- The sequence of the round-trip law: `h = tfs_open(p, CREAT | TRUNC)`,
`tfs_write(h, data, |data|)`, `tfs_close(h)`, `h2 = tfs_open(p, 0)`,
`tfs_read(h2, buf, len)`; the result is what `tfs_read` returns and what it
copied into the buffer. -/
def write_read_round_trip (fuel : Nat) (p data : List Nat) (len : Nat)
    (s : tfs_state) : Run (Int × List Nat) :=
  match tfs_open fuel p (mode_or TFS_O_CREAT TFS_O_TRUNC) s with
  | .abort => .abort
  | .out_of_fuel => .out_of_fuel
  | .done (h, s1) =>
    match tfs_write h data data.length s1 with
    | .abort => .abort
    | .out_of_fuel => .out_of_fuel
    | .done (_, s2) =>
      match tfs_open fuel p TFS_O_NONE (tfs_close h s2).2 with
      | .abort => .abort
      | .out_of_fuel => .out_of_fuel
      | .done (h2, s3) =>
        match tfs_read h2 len s3 with
        | .abort => .abort
        | .out_of_fuel => .out_of_fuel
        | .done (r, buf, _) => .done (r, buf)

/-! ## Concrete runs -/

/-- State after a call, or `d` when the call did not return. -/
def state_after {α : Type} (r : Run (α × tfs_state)) (d : tfs_state) : tfs_state :=
  match r with
  | .done (_, s) => s
  | _ => d

/-- Small parameters for concrete runs: 4 inodes, 3 blocks, 3 open files and
blocks of 88 bytes (two directory slots). -/
def ex_params : tfs_params :=
  { max_inode_count := 4, max_block_count := 3, max_open_files_count := 3,
    block_size := 88 }

/-- The state after `tfs_init` with `ex_params`. -/
def ex_init : tfs_state := (tfs_init (some ex_params)).2

/-- The path `"/a"`. -/
def path_a : List Nat := [47, 97]

/-- The path `"/b"`. -/
def path_b : List Nat := [47, 98]

/-- The state after `tfs_open("/a", TFS_O_CREAT)` on `ex_init`, which returns
handle 0. -/
def ex_a_open : tfs_state := state_after (tfs_open 1 path_a TFS_O_CREAT ex_init) ex_init

/-- The state after `tfs_close(0)` on `ex_a_open`: the file `"/a"` exists and
no file is open. -/
def ex_a : tfs_state := (tfs_close 0 ex_a_open).2

/-- Parameters with two blocks only: one for the slot array of the directory
and one for the data of one file. -/
def ex_two_blocks : tfs_params :=
  { max_inode_count := 4, max_block_count := 2, max_open_files_count := 3,
    block_size := 88 }

/-- The state after `tfs_init` with `ex_two_blocks`. -/
def ex_tb_init : tfs_state := (tfs_init (some ex_two_blocks)).2

/-- Then `tfs_open("/a", TFS_O_CREAT)`, which returns handle 0. -/
def ex_tb_a : tfs_state := state_after (tfs_open 1 path_a TFS_O_CREAT ex_tb_init) ex_tb_init

/-- Then `tfs_write(0, "x", 1)`, which takes the last free block. -/
def ex_tb_written : tfs_state := state_after (tfs_write 0 [120] 1 ex_tb_a) ex_tb_a

/-- Then `tfs_open("/b", TFS_O_CREAT)`, which returns handle 1 on the empty
file `"/b"`; no block is free in this state. -/
def ex_tb_full : tfs_state :=
  state_after (tfs_open 1 path_b TFS_O_CREAT ex_tb_written) ex_tb_written

/-- The state after `tfs_write(0, "abc", 3)` on `ex_a_open`: handle 0 is at
offset 3 of `"/a"`, of size 3. -/
def ex_a_written : tfs_state := state_after (tfs_write 0 [97, 98, 99] 3 ex_a_open) ex_a_open

/-- Then `tfs_open("/a", TFS_O_TRUNC)`, which returns handle 1 and truncates
the file: handle 0 is at offset 3 of a file of size 0. -/
def ex_truncated : tfs_state :=
  state_after (tfs_open 1 path_a TFS_O_TRUNC ex_a_written) ex_a_written

/-- A path of `MAX_FILE_NAME` bytes, `'/'` followed by 39 bytes `'1'`. -/
def path_40 : List Nat := SLASH :: List.replicate 39 49

/-- A path of `MAX_FILE_NAME - 1` bytes, `'/'` followed by 38 bytes `'1'`. -/
def path_39 : List Nat := SLASH :: List.replicate 38 49

/-- The path `"/a/b"`, valid for `valid_pathname` with a second `'/'`. -/
def path_a_b : List Nat := [47, 97, 47, 98]

/-- Parameters whose block holds one directory slot only. -/
def ex_one_slot : tfs_params :=
  { max_inode_count := 4, max_block_count := 3, max_open_files_count := 3,
    block_size := 44 }

/-- The state after `tfs_init` with `ex_one_slot`, `tfs_open("/a", TFS_O_CREAT)`
(handle 0) and `tfs_close(0)`: the file `"/a"` fills the directory. -/
def ex_os_a : tfs_state :=
  (tfs_close 0 (state_after (tfs_open 1 path_a TFS_O_CREAT
    (tfs_init (some ex_one_slot)).2) (tfs_init (some ex_one_slot)).2)).2

/-! ## External copy -/

/-- The call `strlen(buffer)` on the array `buffer`: the number of bytes
before the first NUL; `none` when the array holds no NUL and the scan leaves
it. -/
def strlen : List Nat → Option Nat
  | [] => none
  | b :: bs => if b = 0 then some 0 else (strlen bs).map (fun n => n + 1)

/-- The `while` loop of `tfs_copy_from_external_fs`, followed by the
`fclose`, the `tfs_close` and the `return 0`.  `rest` is what the host file
still holds, `fread` moves up to `BUFSIZ` bytes of it to the start of
`buffer`, and the `ssize_t` that `tfs_write` returns is converted to `size_t`
for the comparison with `numRead`.  The first argument bounds the number of
iterations. -/
def copy_chunks (BUFSIZ : Nat) (outputFp : Int) :
    Nat → List Nat → List Nat → tfs_state → Run (Int × tfs_state)
  | 0, rest, _, s =>
    if (rest.take BUFSIZ).length = 0 then .done (0, (tfs_close outputFp s).2)
    else .out_of_fuel
  | fuel + 1, rest, buffer, s =>
    let numRead := (rest.take BUFSIZ).length
    if numRead = 0 then .done (0, (tfs_close outputFp s).2)
    else
      let buffer1 := rest.take BUFSIZ ++ buffer.drop numRead
      match strlen buffer1 with
      | none => .abort
      | some n =>
        match tfs_write outputFp buffer1 n s with
        | .abort => .abort
        | .out_of_fuel => .out_of_fuel
        | .done (w, s1) =>
          if (w % (SIZE_MOD : Int)).toNat ≠ numRead then .done (-1, s1)
          else copy_chunks BUFSIZ outputFp fuel (rest.drop BUFSIZ) buffer1 s1

/-- The function `tfs_copy_from_external_fs`.  `BUFSIZ` is the macro of
`<stdio.h>`, `source` is the content of the host file at `source_path`
(`none` when `fopen` returns `NULL`), and `fuel` bounds the recursion of
`tfs_open`; the loop runs at most once per byte of the host file. -/
def tfs_copy_from_external_fs (BUFSIZ fuel : Nat) (source : Option (List Nat))
    (dest_path : List Nat) (s : tfs_state) : Run (Int × tfs_state) :=
  match tfs_open fuel dest_path (mode_or TFS_O_CREAT TFS_O_TRUNC) s with
  | .abort => .abort
  | .out_of_fuel => .out_of_fuel
  | .done (outputFp, s1) =>
    match source with
    | none => .done (-1, s1)
    | some content =>
      if outputFp = -1 then .done (-1, s1)
      else copy_chunks BUFSIZ outputFp content.length content (List.replicate BUFSIZ 0) s1

/-! ## More views and invariants -/

/-- Number of allocated inodes. -/
def live_inodes (s : tfs_state) : Nat := s.inode_table.countP (fun x => x.taken)

/-- The invariant of the open files: every open-file entry holds the inumber
of an allocated inode, and the size of every inode but the root is at most
the block size. -/
structure FileInv (s : tfs_state) : Prop where
  live : ∀ (h : Int) (x : slot open_file_entry_t),
    at_index s.open_file_table h = some x → x.taken = true →
      ∃ y, at_index s.inode_table x.val.of_inumber = some y ∧ y.taken = true
  size : ∀ (i : Int) (y : slot inode_t), i ≠ ROOT_DIR_INUM →
    at_index s.inode_table i = some y → y.val.i_size ≤ s.params.block_size

/-! ## More concrete runs -/

/-- The path `"/c"`. -/
def path_c : List Nat := [47, 99]

/-- The state after `tfs_sym_link("/b", "/c")` on `ex_a`, where `"/b"` does
not exist. -/
def ex_a_leak : tfs_state := state_after (tfs_sym_link path_b path_c ex_a) ex_a

/-- Parameters with two inodes only: the root and one file. -/
def ex_two_inodes : tfs_params :=
  { max_inode_count := 2, max_block_count := 3, max_open_files_count := 3,
    block_size := 88 }

/-- The state after `tfs_init` with `ex_two_inodes`. -/
def ex_ti_init : tfs_state := (tfs_init (some ex_two_inodes)).2

/-- Then `tfs_open("/a", TFS_O_CREAT)`, which returns handle 0. -/
def ex_ti_open : tfs_state :=
  state_after (tfs_open 1 path_a TFS_O_CREAT ex_ti_init) ex_ti_init

/-- Then `tfs_close(0)`: the file `"/a"` exists, no file is open and the
inode table is full. -/
def ex_ti_a : tfs_state := (tfs_close 0 ex_ti_open).2

/-- The state after `tfs_sym_link("/a", "/b")` on `ex_a`. -/
def ex_ab : tfs_state := state_after (tfs_sym_link path_a path_b ex_a) ex_a

/-- Then `tfs_unlink("/a")`: the symbolic link `"/b"` dangles. -/
def ex_b : tfs_state := state_after (tfs_unlink path_a ex_ab) ex_ab

/-- Then `tfs_sym_link("/b", "/a")`: `"/a"` and `"/b"` are symbolic links to
each other. -/
def ex_cycle : tfs_state := state_after (tfs_sym_link path_b path_a ex_b) ex_b

/-- The state after `tfs_sym_link("/a", "/b")` on `ex_a_open`, where handle 0
is still open on `"/a"`. -/
def ex_open_ab : tfs_state :=
  state_after (tfs_sym_link path_a path_b ex_a_open) ex_a_open

/-- A host file of three bytes, `'A'`, NUL, `'B'`. -/
def host_nul : List Nat := [65, 0, 66]

/-- A host file of the two bytes `"hi"`. -/
def host_hi : List Nat := [104, 105]

/-- What a call returned, `none` when it did not return. -/
def returned {α β : Type} (r : Run (α × β)) : Option α :=
  match r with
  | .done (a, _) => some a
  | _ => none

/-- The calls `h = tfs_open(p, mode)`, `tfs_read(h, buf, len)`: what
`tfs_read` returns and what it copied into the buffer. -/
def open_read (fuel : Nat) (p : List Nat) (mode : tfs_file_mode_t) (len : Nat)
    (s : tfs_state) : Run (Int × List Nat) :=
  match tfs_open fuel p mode s with
  | .abort => .abort
  | .out_of_fuel => .out_of_fuel
  | .done (h, s1) =>
    match tfs_read h len s1 with
    | .abort => .abort
    | .out_of_fuel => .out_of_fuel
    | .done (r, buf, _) => .done (r, buf)

/-- The state after `tfs_write(0, "hi", 2)` on `ex_a_open`. -/
def ex_hi_open : tfs_state := state_after (tfs_write 0 host_hi 2 ex_a_open) ex_a_open

/-- Then `tfs_close(0)`: the file `"/a"` holds `"hi"` and nothing is open. -/
def ex_hi : tfs_state := (tfs_close 0 ex_hi_open).2

/-- Then `tfs_sym_link("/a", "/b")`. -/
def ex_hi_link : tfs_state := state_after (tfs_sym_link path_a path_b ex_hi) ex_hi


/-- The state after the calls `tfs_close(h)` for the handles `h` of a list,
in the order of the list. -/
def close_all (hs : List Int) (s : tfs_state) : tfs_state :=
  hs.foldl (fun st h => (tfs_close h st).2) s

/-- The state after `tfs_open("/a", 0)` on `ex_a_open`, which returns handle
1: the handles 0 and 1 are open on `"/a"`. -/
def ex_a_twice : tfs_state := state_after (tfs_open 1 path_a TFS_O_NONE ex_a_open) ex_a_open

/-- Parameters whose block holds three directory slots: 4 inodes, 3 blocks,
3 open files and blocks of 132 bytes. -/
def ex_three_slots : tfs_params :=
  { max_inode_count := 4, max_block_count := 3, max_open_files_count := 3,
    block_size := 132 }

/-- The state after `tfs_init` with `ex_three_slots`. -/
def ex_ts_init : tfs_state := (tfs_init (some ex_three_slots)).2

/-- Then `tfs_open(path_39, TFS_O_CREAT)`, which returns handle 0. -/
def ex_ts_open : tfs_state :=
  state_after (tfs_open 1 path_39 TFS_O_CREAT ex_ts_init) ex_ts_init

/-- Then `tfs_close(0)`: the file of the 39-byte path exists and nothing is
open. -/
def ex_ts_file : tfs_state := (tfs_close 0 ex_ts_open).2

/-- Then `tfs_sym_link(path_39, "/b")`. -/
def ex_ts_link : tfs_state := state_after (tfs_sym_link path_39 path_b ex_ts_file) ex_ts_file

/-- Then `tfs_unlink(path_39)`: the symbolic link `"/b"` dangles. -/
def ex_ts_dangling : tfs_state := state_after (tfs_unlink path_39 ex_ts_link) ex_ts_link

/-- Then `tfs_sym_link("/b", path_39)`: the 39-byte path and `"/b"` are
symbolic links to each other; one inode, one directory slot, two blocks and
every open-file entry are free. -/
def ex_ts_cycle : tfs_state :=
  state_after (tfs_sym_link path_b path_39 ex_ts_dangling) ex_ts_dangling

/-- The state after `tfs_read(0, buf, 100)` on `ex_truncated`, which returns
100: handle 0 is at offset 103, past the block size 88. -/
def ex_overrun : tfs_state :=
  match tfs_read 0 100 ex_truncated with
  | .done (_, _, s) => s
  | _ => ex_truncated

/-- The name that `tfs_open` goes on with when `name` resolves to a symbolic
link (operations.c 117-122): the `origin_path` of the inode found, when it is
not empty. -/
def link_target (name : List Nat) (s : tfs_state) : Option (List Nat) :=
  match tfs_lookup name ROOT_DIR_INUM s with
  | .done inum =>
    if 0 ≤ inum then
      match inode_get inum s with
      | some inode => if inode.origin_path ≠ [] then some inode.origin_path else none
      | none => none
    else none
  | _ => none

/-- The name at which the recursion of `tfs_open` through symbolic links
ends, from `name`, after at most `n` links; `none` when the name reached
after `n` links is a symbolic link again. -/
def chain_end : Nat → List Nat → tfs_state → Option (List Nat)
  | 0, name, s =>
    match link_target name s with
    | none => some name
    | some _ => none
  | n + 1, name, s =>
    match link_target name s with
    | none => some name
    | some t => chain_end n t s

/-- The state after `tfs_open("/a", TFS_O_CREAT)` and `tfs_close(0)` on
`ex_ts_init`: the file `"/a"` exists and nothing is open. -/
def ex_ts_a : tfs_state :=
  (tfs_close 0 (state_after (tfs_open 1 path_a TFS_O_CREAT ex_ts_init) ex_ts_init)).2

/-- Then `tfs_sym_link("/a", path_39)`: the 39-byte path is a symbolic link
to the regular file `"/a"`. -/
def ex_ts_alias : tfs_state := state_after (tfs_sym_link path_a path_39 ex_ts_a) ex_ts_a
/-! ## Table lemmas -/

theorem at_index_neg {α : Type} (l : List α) (i : Int) (h : i < 0) :
    at_index l i = none := by
  unfold at_index
  rw [if_neg (by omega)]

theorem at_index_natCast {α : Type} (l : List α) (n : Nat) :
    at_index l (n : Int) = l[n]? := by
  simp [at_index]

theorem at_index_some_nonneg {α : Type} {l : List α} {i : Int} {a : α}
    (h : at_index l i = some a) : 0 ≤ i := by
  by_contra hn
  rw [at_index_neg l i (by omega)] at h
  cases h

theorem at_index_set_index_same {α : Type} (l : List α) (i : Int) (a : α) :
    at_index (set_index l i a) i = (at_index l i).map (fun _ => a) := by
  unfold at_index set_index
  by_cases h : 0 ≤ i
  · simp only [if_pos h]
    by_cases hl : i.toNat < l.length
    · simp [List.getElem?_set, hl]
    · simp [List.getElem?_set, hl, List.getElem?_eq_none (Nat.le_of_not_lt hl)]
  · simp [if_neg h]

theorem at_index_set_index_other {α : Type} (l : List α) (i j : Int) (a : α)
    (h : i ≠ j) : at_index (set_index l i a) j = at_index l j := by
  unfold at_index set_index
  by_cases hi : 0 ≤ i
  · by_cases hj : 0 ≤ j
    · simp only [if_pos hi, if_pos hj]
      rw [List.getElem?_set_ne]
      omega
    · simp [if_neg hj]
  · simp [if_neg hi]

theorem length_set_index {α : Type} (l : List α) (i : Int) (a : α) :
    (set_index l i a).length = l.length := by
  unfold set_index
  split <;> simp

theorem set_index_natCast {α : Type} (l : List α) (n : Nat) (a : α) :
    set_index l (n : Int) a = l.set n a := by
  simp [set_index]

theorem mem_set_index {α : Type} {l : List α} {i : Int} {a x : α}
    (h : x ∈ set_index l i a) : x = a ∨ x ∈ l := by
  unfold set_index at h
  split at h
  · rcases List.mem_or_eq_of_mem_set h with h1 | h1
    · exact Or.inr h1
    · exact Or.inl h1
  · exact Or.inr h

theorem at_index_mem {α : Type} {l : List α} {i : Int} {a : α}
    (h : at_index l i = some a) : a ∈ l := by
  unfold at_index at h
  split at h
  · exact List.getElem?_mem h
  · cases h

theorem first_free_spec {α : Type} :
    ∀ (l : List (slot α)) (i : Nat), first_free l = some i →
      ∃ x, l[i]? = some x ∧ x.taken = false
  | [], i, h => by simp [first_free] at h
  | x :: xs, i, h => by
    unfold first_free at h
    by_cases hx : x.taken = true
    · rw [if_pos hx] at h
      cases hf : first_free xs with
      | none => rw [hf] at h; simp at h
      | some j =>
        rw [hf] at h
        simp only [Option.map_some', Option.some.injEq] at h
        subst h
        obtain ⟨y, hy, hy2⟩ := first_free_spec xs j hf
        exact ⟨y, by simpa using hy, hy2⟩
    · rw [if_neg hx] at h
      simp only [Option.some.injEq] at h
      subst h
      exact ⟨x, by simp, by simpa using hx⟩

theorem first_free_none {α : Type} :
    ∀ (l : List (slot α)), first_free l = none → ∀ x ∈ l, x.taken = true
  | [], _, x, hx => by cases hx
  | y :: ys, h, x, hx => by
    unfold first_free at h
    by_cases hy : y.taken = true
    · rw [if_pos hy] at h
      have h1 : first_free ys = none := by
        cases hf : first_free ys with
        | none => rfl
        | some j => rw [hf] at h; simp at h
      rcases List.mem_cons.mp hx with hx | hx
      · subst hx; exact hy
      · exact first_free_none ys h1 x hx
    · rw [if_neg hy] at h
      cases h

theorem first_free_some_of_free {α : Type} :
    ∀ (l : List (slot α)) (x : slot α), x ∈ l → x.taken = false →
      ∃ i, first_free l = some i := by
  intro l x hx hf
  cases h : first_free l with
  | some i => exact ⟨i, rfl⟩
  | none =>
    have := first_free_none l h x hx
    rw [hf] at this
    cases this

/-! ## Effect of the table primitives -/

@[simp] theorem inode_put_fs_data (i : Int) (v : inode_t) (s : tfs_state) :
    (inode_put i v s).fs_data = s.fs_data := by
  unfold inode_put; split <;> rfl

@[simp] theorem inode_put_open_file_table (i : Int) (v : inode_t) (s : tfs_state) :
    (inode_put i v s).open_file_table = s.open_file_table := by
  unfold inode_put; split <;> rfl

@[simp] theorem inode_put_params (i : Int) (v : inode_t) (s : tfs_state) :
    (inode_put i v s).params = s.params := by
  unfold inode_put; split <;> rfl

theorem inode_put_at_same (i : Int) (v : inode_t) (s : tfs_state) :
    at_index (inode_put i v s).inode_table i =
      (at_index s.inode_table i).map (fun x => ⟨x.taken, v⟩) := by
  unfold inode_put
  cases h : at_index s.inode_table i with
  | none => simp [h]
  | some x => simp [at_index_set_index_same, h]

theorem inode_put_at_other (i j : Int) (v : inode_t) (s : tfs_state) (h : i ≠ j) :
    at_index (inode_put i v s).inode_table j = at_index s.inode_table j := by
  unfold inode_put
  cases hx : at_index s.inode_table i with
  | none => rfl
  | some x => simp [at_index_set_index_other _ _ _ _ h]

theorem inode_get_inode_put_same (i : Int) (v : inode_t) (s : tfs_state) :
    inode_get i (inode_put i v s) = (inode_get i s).map (fun _ => v) := by
  unfold inode_get
  rw [inode_put_at_same]
  cases at_index s.inode_table i <;> rfl

theorem inode_get_inode_put_other (i j : Int) (v : inode_t) (s : tfs_state)
    (h : i ≠ j) : inode_get j (inode_put i v s) = inode_get j s := by
  unfold inode_get
  rw [inode_put_at_other _ _ _ _ h]

theorem inode_get_isSome_inode_put (i j : Int) (v : inode_t) (s : tfs_state) :
    (inode_get j (inode_put i v s)).isSome = (inode_get j s).isSome := by
  by_cases h : i = j
  · subst h
    rw [inode_get_inode_put_same]
    cases inode_get i s <;> rfl
  · rw [inode_get_inode_put_other _ _ _ _ h]

@[simp] theorem data_block_put_inode_table (b : Int) (v : block_t) (s : tfs_state) :
    (data_block_put b v s).inode_table = s.inode_table := by
  unfold data_block_put; split <;> rfl

@[simp] theorem data_block_put_open_file_table (b : Int) (v : block_t) (s : tfs_state) :
    (data_block_put b v s).open_file_table = s.open_file_table := by
  unfold data_block_put; split <;> rfl

@[simp] theorem data_block_put_params (b : Int) (v : block_t) (s : tfs_state) :
    (data_block_put b v s).params = s.params := by
  unfold data_block_put; split <;> rfl

theorem data_block_put_at_same (b : Int) (v : block_t) (s : tfs_state) :
    at_index (data_block_put b v s).fs_data b =
      (at_index s.fs_data b).map (fun x => ⟨x.taken, v⟩) := by
  unfold data_block_put
  cases h : at_index s.fs_data b with
  | none => simp [h]
  | some x => simp [at_index_set_index_same, h]

theorem data_block_put_at_other (b c : Int) (v : block_t) (s : tfs_state) (h : b ≠ c) :
    at_index (data_block_put b v s).fs_data c = at_index s.fs_data c := by
  unfold data_block_put
  cases hx : at_index s.fs_data b with
  | none => rfl
  | some x => simp [at_index_set_index_other _ _ _ _ h]

@[simp] theorem inode_get_data_block_put (i b : Int) (v : block_t) (s : tfs_state) :
    inode_get i (data_block_put b v s) = inode_get i s := by
  simp [inode_get]

@[simp] theorem data_block_free_inode_table (b : Int) (s : tfs_state) :
    (data_block_free b s).inode_table = s.inode_table := by
  unfold data_block_free; split <;> rfl

@[simp] theorem data_block_free_open_file_table (b : Int) (s : tfs_state) :
    (data_block_free b s).open_file_table = s.open_file_table := by
  unfold data_block_free; split <;> rfl

@[simp] theorem data_block_free_params (b : Int) (s : tfs_state) :
    (data_block_free b s).params = s.params := by
  unfold data_block_free; split <;> rfl

theorem data_block_free_at_same (b : Int) (s : tfs_state) :
    at_index (data_block_free b s).fs_data b =
      (at_index s.fs_data b).map (fun _ => ⟨false, zero_block s.params.block_size⟩) := by
  unfold data_block_free
  cases h : at_index s.fs_data b with
  | none => simp [h]
  | some x => simp [at_index_set_index_same, h]

theorem data_block_free_at_other (b c : Int) (s : tfs_state) (h : b ≠ c) :
    at_index (data_block_free b s).fs_data c = at_index s.fs_data c := by
  unfold data_block_free
  cases hx : at_index s.fs_data b with
  | none => rfl
  | some x => simp [at_index_set_index_other _ _ _ _ h]

@[simp] theorem inode_get_data_block_free (i b : Int) (s : tfs_state) :
    inode_get i (data_block_free b s) = inode_get i s := by
  simp [inode_get]

@[simp] theorem open_file_put_inode_table (h : Int) (v : open_file_entry_t)
    (s : tfs_state) : (open_file_put h v s).inode_table = s.inode_table := rfl

@[simp] theorem open_file_put_fs_data (h : Int) (v : open_file_entry_t)
    (s : tfs_state) : (open_file_put h v s).fs_data = s.fs_data := rfl

@[simp] theorem open_file_put_params (h : Int) (v : open_file_entry_t)
    (s : tfs_state) : (open_file_put h v s).params = s.params := rfl

@[simp] theorem inode_get_open_file_put (i h : Int) (v : open_file_entry_t)
    (s : tfs_state) : inode_get i (open_file_put h v s) = inode_get i s := rfl

@[simp] theorem remove_inode_table (h : Int) (s : tfs_state) :
    (remove_from_open_file_table h s).inode_table = s.inode_table := by
  unfold remove_from_open_file_table; split <;> rfl

@[simp] theorem remove_fs_data (h : Int) (s : tfs_state) :
    (remove_from_open_file_table h s).fs_data = s.fs_data := by
  unfold remove_from_open_file_table; split <;> rfl

@[simp] theorem remove_params (h : Int) (s : tfs_state) :
    (remove_from_open_file_table h s).params = s.params := by
  unfold remove_from_open_file_table; split <;> rfl

@[simp] theorem add_open_inode_table (i : Int) (o : Nat) (s : tfs_state) :
    (add_to_open_file_table i o s).2.inode_table = s.inode_table := by
  unfold add_to_open_file_table; split <;> rfl

@[simp] theorem add_open_fs_data (i : Int) (o : Nat) (s : tfs_state) :
    (add_to_open_file_table i o s).2.fs_data = s.fs_data := by
  unfold add_to_open_file_table; split <;> rfl

@[simp] theorem add_open_params (i : Int) (o : Nat) (s : tfs_state) :
    (add_to_open_file_table i o s).2.params = s.params := by
  unfold add_to_open_file_table; split <;> rfl

/-- The views of the state that only read the inode table and the block
pool agree on two states with the same tables. -/
theorem root_block_congr {s t : tfs_state} (h : t.inode_table = s.inode_table) :
    root_block t = root_block s := by
  unfold root_block; rw [h]

theorem inode_get_congr {s t : tfs_state} (h : t.inode_table = s.inode_table)
    (i : Int) : inode_get i t = inode_get i s := by
  unfold inode_get; rw [h]

theorem data_block_get_congr {s t : tfs_state} (h : t.fs_data = s.fs_data)
    (b : Int) : data_block_get b t = data_block_get b s := by
  unfold data_block_get; rw [h]

theorem find_in_dir_congr {s t : tfs_state} (h1 : t.inode_table = s.inode_table)
    (h2 : t.fs_data = s.fs_data) (d : Int) (n : List Nat) :
    find_in_dir d n t = find_in_dir d n s := by
  unfold find_in_dir
  rw [inode_get_congr h1, ]
  cases inode_get d s with
  | none => rfl
  | some r => simp only [data_block_get_congr h2]

theorem tfs_lookup_congr {s t : tfs_state} (h1 : t.inode_table = s.inode_table)
    (h2 : t.fs_data = s.fs_data) (n : List Nat) (d : Int) :
    tfs_lookup n d t = tfs_lookup n d s := by
  unfold tfs_lookup
  rw [inode_get_congr h1]
  cases inode_get d s with
  | none => rfl
  | some r => simp only [find_in_dir_congr h1 h2]

/-! ## The slot array of the directory -/

theorem find_entry_eq_neg_one_iff (name : List Nat) :
    ∀ es : List dir_entry_t,
      find_entry name es = -1 ↔ ∀ e ∈ es, used e → e.d_name ≠ name
  | [] => by simp [find_entry]
  | e :: es => by
    unfold find_entry
    by_cases h : e.d_inumber ≠ -1 ∧ e.d_name = name
    · rw [if_pos h]
      constructor
      · intro h1; exact absurd h1 h.1
      · intro h1; exact absurd h.2 (h1 e (List.mem_cons_self _ _) h.1)
    · rw [if_neg h, find_entry_eq_neg_one_iff name es]
      constructor
      · intro h1 x hx hu
        rcases List.mem_cons.mp hx with hx | hx
        · subst hx
          intro hn; exact h ⟨hu, hn⟩
        · exact h1 x hx hu
      · intro h1 x hx hu
        exact h1 x (List.mem_cons_of_mem _ hx) hu

theorem find_entry_mem (name : List Nat) :
    ∀ es : List dir_entry_t, find_entry name es ≠ -1 →
      ∃ e ∈ es, used e ∧ e.d_name = name ∧ e.d_inumber = find_entry name es
  | [], h => by simp [find_entry] at h
  | e :: es, h => by
    unfold find_entry at h ⊢
    by_cases hc : e.d_inumber ≠ -1 ∧ e.d_name = name
    · rw [if_pos hc]
      exact ⟨e, List.mem_cons_self _ _, hc.1, hc.2, rfl⟩
    · rw [if_neg hc] at h ⊢
      obtain ⟨x, hx, hu, hn, hi⟩ := find_entry_mem name es h
      exact ⟨x, List.mem_cons_of_mem _ hx, hu, hn, hi⟩

theorem clear_entry_isSome (name : List Nat) :
    ∀ es : List dir_entry_t, find_entry name es ≠ -1 →
      ∃ es1, clear_entry name es = some es1
  | [], h => by simp [find_entry] at h
  | e :: es, h => by
    unfold find_entry at h
    unfold clear_entry
    by_cases hc : e.d_inumber ≠ -1 ∧ e.d_name = name
    · rw [if_pos hc]; exact ⟨_, rfl⟩
    · rw [if_neg hc] at h ⊢
      obtain ⟨r, hr⟩ := clear_entry_isSome name es h
      exact ⟨e :: r, by rw [hr]; rfl⟩

theorem clear_entry_none (name : List Nat) :
    ∀ es : List dir_entry_t, find_entry name es = -1 → clear_entry name es = none
  | [], _ => rfl
  | e :: es, h => by
    unfold find_entry at h
    unfold clear_entry
    by_cases hc : e.d_inumber ≠ -1 ∧ e.d_name = name
    · rw [if_pos hc] at h; exact absurd h hc.1
    · rw [if_neg hc] at h ⊢
      rw [clear_entry_none name es h]; rfl

/-- What `clear_entry` leaves: every slot of the result is a slot of the
array or the empty slot. -/
theorem clear_entry_mem (name : List Nat) :
    ∀ (es es1 : List dir_entry_t), clear_entry name es = some es1 →
      ∀ x ∈ es1, x = empty_entry ∨ x ∈ es
  | [], es1, h, _, _ => by simp [clear_entry] at h
  | e :: es, es1, h, x, hx => by
    unfold clear_entry at h
    by_cases hc : e.d_inumber ≠ -1 ∧ e.d_name = name
    · rw [if_pos hc] at h
      cases h
      rcases List.mem_cons.mp hx with hx | hx
      · exact Or.inl hx
      · exact Or.inr (List.mem_cons_of_mem _ hx)
    · rw [if_neg hc] at h
      cases hr : clear_entry name es with
      | none => rw [hr] at h; cases h
      | some r =>
        rw [hr] at h
        cases h
        rcases List.mem_cons.mp hx with hx | hx
        · exact Or.inr (hx ▸ List.mem_cons_self _ _)
        · rcases clear_entry_mem name es r hr x hx with h1 | h1
          · exact Or.inl h1
          · exact Or.inr (List.mem_cons_of_mem _ h1)

theorem not_used_empty_entry : ¬ used empty_entry := by
  simp [used, empty_entry]

theorem clear_entry_unique (name : List Nat) :
    ∀ (es es1 : List dir_entry_t), clear_entry name es = some es1 →
      dir_unique es → dir_unique es1
  | [], es1, h, _ => by simp [clear_entry] at h
  | e :: es, es1, h, hu => by
    unfold dir_unique at hu ⊢
    rw [List.pairwise_cons] at hu
    unfold clear_entry at h
    by_cases hc : e.d_inumber ≠ -1 ∧ e.d_name = name
    · rw [if_pos hc] at h
      cases h
      rw [List.pairwise_cons]
      exact ⟨fun b _ h1 => absurd h1 not_used_empty_entry, hu.2⟩
    · rw [if_neg hc] at h
      cases hr : clear_entry name es with
      | none => rw [hr] at h; cases h
      | some r =>
        rw [hr] at h
        cases h
        rw [List.pairwise_cons]
        refine ⟨?_, clear_entry_unique name es r hr hu.2⟩
        intro b hb h1 h2
        rcases clear_entry_mem name es r hr b hb with hb1 | hb1
        · subst hb1; exact absurd h2 not_used_empty_entry
        · exact hu.1 b hb1 h1 h2

/-- After `clear_entry` of a name in a directory without duplicates the name
is not found any more. -/
theorem find_entry_clear_entry (name : List Nat) :
    ∀ (es es1 : List dir_entry_t), clear_entry name es = some es1 →
      dir_unique es → find_entry name es1 = -1
  | [], es1, h, _ => by simp [clear_entry] at h
  | e :: es, es1, h, hu => by
    unfold dir_unique at hu
    rw [List.pairwise_cons] at hu
    unfold clear_entry at h
    by_cases hc : e.d_inumber ≠ -1 ∧ e.d_name = name
    · rw [if_pos hc] at h
      cases h
      rw [find_entry_eq_neg_one_iff]
      intro x hx hux
      rcases List.mem_cons.mp hx with hx | hx
      · subst hx; exact absurd hux not_used_empty_entry
      · have := hu.1 x hx hc.1 hux
        rw [hc.2] at this
        exact fun h => this h.symm
    · rw [if_neg hc] at h
      cases hr : clear_entry name es with
      | none => rw [hr] at h; cases h
      | some r =>
        rw [hr] at h
        cases h
        unfold find_entry
        rw [if_neg hc]
        exact find_entry_clear_entry name es r hr hu.2

/-- The function `clear_entry` does not change what another name finds. -/
theorem find_entry_clear_entry_other (name q : List Nat) (hq : q ≠ name) :
    ∀ (es es1 : List dir_entry_t), clear_entry name es = some es1 →
      find_entry q es1 = find_entry q es
  | [], es1, h => by simp [clear_entry] at h
  | e :: es, es1, h => by
    unfold clear_entry at h
    by_cases hc : e.d_inumber ≠ -1 ∧ e.d_name = name
    · rw [if_pos hc] at h
      cases h
      unfold find_entry
      rw [if_neg (fun h => not_used_empty_entry h.1),
        if_neg (fun h => hq (h.2.symm.trans hc.2))]
    · rw [if_neg hc] at h
      cases hr : clear_entry name es with
      | none => rw [hr] at h; cases h
      | some r =>
        rw [hr] at h
        cases h
        unfold find_entry
        rw [find_entry_clear_entry_other name q hq es r hr]

theorem fill_entry_mem (name : List Nat) (i : Int) :
    ∀ (es es1 : List dir_entry_t), fill_entry name i es = some es1 →
      ∀ x ∈ es1, x = { d_name := name, d_inumber := i } ∨ x ∈ es
  | [], es1, h, _, _ => by simp [fill_entry] at h
  | e :: es, es1, h, x, hx => by
    unfold fill_entry at h
    by_cases hc : e.d_inumber = -1
    · rw [if_pos hc] at h
      cases h
      rcases List.mem_cons.mp hx with hx | hx
      · exact Or.inl hx
      · exact Or.inr (List.mem_cons_of_mem _ hx)
    · rw [if_neg hc] at h
      cases hr : fill_entry name i es with
      | none => rw [hr] at h; cases h
      | some r =>
        rw [hr] at h
        cases h
        rcases List.mem_cons.mp hx with hx | hx
        · exact Or.inr (hx ▸ List.mem_cons_self _ _)
        · rcases fill_entry_mem name i es r hr x hx with h1 | h1
          · exact Or.inl h1
          · exact Or.inr (List.mem_cons_of_mem _ h1)

theorem fill_entry_unique (name : List Nat) (i : Int) :
    ∀ (es es1 : List dir_entry_t), fill_entry name i es = some es1 →
      find_entry name es = -1 → dir_unique es → dir_unique es1
  | [], es1, h, _, _ => by simp [fill_entry] at h
  | e :: es, es1, h, hf, hu => by
    have hf1 := (find_entry_eq_neg_one_iff name (e :: es)).mp hf
    unfold dir_unique at hu ⊢
    rw [List.pairwise_cons] at hu
    unfold fill_entry at h
    by_cases hc : e.d_inumber = -1
    · rw [if_pos hc] at h
      cases h
      rw [List.pairwise_cons]
      refine ⟨?_, hu.2⟩
      intro b hb _ h2
      exact fun hn => hf1 b (List.mem_cons_of_mem _ hb) h2 hn.symm
    · rw [if_neg hc] at h
      cases hr : fill_entry name i es with
      | none => rw [hr] at h; cases h
      | some r =>
        rw [hr] at h
        cases h
        have hf2 : find_entry name es = -1 := by
          rw [find_entry_eq_neg_one_iff]
          intro x hx; exact hf1 x (List.mem_cons_of_mem _ hx)
        rw [List.pairwise_cons]
        refine ⟨?_, fill_entry_unique name i es r hr hf2 hu.2⟩
        intro b hb h1 h2
        rcases fill_entry_mem name i es r hr b hb with hb1 | hb1
        · subst hb1
          exact hf1 e (List.mem_cons_self _ _) h1
        · exact hu.1 b hb1 h1 h2

/-- After `fill_entry` of a name that was not in the directory, the name
finds the inumber stored. -/
theorem find_entry_fill_entry (name : List Nat) (i : Int) (hi : i ≠ -1) :
    ∀ (es es1 : List dir_entry_t), fill_entry name i es = some es1 →
      find_entry name es = -1 → find_entry name es1 = i
  | [], es1, h, _ => by simp [fill_entry] at h
  | e :: es, es1, h, hf => by
    have hf1 := (find_entry_eq_neg_one_iff name (e :: es)).mp hf
    unfold fill_entry at h
    by_cases hc : e.d_inumber = -1
    · rw [if_pos hc] at h
      cases h
      unfold find_entry
      rw [if_pos ⟨hi, rfl⟩]
    · rw [if_neg hc] at h
      cases hr : fill_entry name i es with
      | none => rw [hr] at h; cases h
      | some r =>
        rw [hr] at h
        cases h
        have hf2 : find_entry name es = -1 := by
          rw [find_entry_eq_neg_one_iff]
          intro x hx; exact hf1 x (List.mem_cons_of_mem _ hx)
        unfold find_entry
        rw [if_neg (fun h => hf1 e (List.mem_cons_self _ _) h.1 h.2)]
        exact find_entry_fill_entry name i hi es r hr hf2

/-- The function `fill_entry` does not change what another name finds. -/
theorem find_entry_fill_entry_other (name q : List Nat) (i : Int) (hq : q ≠ name) :
    ∀ (es es1 : List dir_entry_t), fill_entry name i es = some es1 →
      find_entry q es1 = find_entry q es
  | [], es1, h => by simp [fill_entry] at h
  | e :: es, es1, h => by
    unfold fill_entry at h
    by_cases hc : e.d_inumber = -1
    · rw [if_pos hc] at h
      cases h
      unfold find_entry
      rw [if_neg (fun h => hq h.2.symm), if_neg (fun h => h.1 hc)]
    · rw [if_neg hc] at h
      cases hr : fill_entry name i es with
      | none => rw [hr] at h; cases h
      | some r =>
        rw [hr] at h
        cases h
        unfold find_entry
        rw [find_entry_fill_entry_other name q i hq es r hr]

/-- The function `fill_entry` succeeds when the array has an empty slot. -/
theorem fill_entry_isSome (name : List Nat) (i : Int) :
    ∀ es : List dir_entry_t, (∃ e ∈ es, e.d_inumber = -1) →
      ∃ es1, fill_entry name i es = some es1
  | [], h => by obtain ⟨e, he, _⟩ := h; cases he
  | e :: es, h => by
    unfold fill_entry
    by_cases hc : e.d_inumber = -1
    · rw [if_pos hc]; exact ⟨_, rfl⟩
    · rw [if_neg hc]
      obtain ⟨x, hx, hx1⟩ := h
      rcases List.mem_cons.mp hx with hx | hx
      · subst hx; exact absurd hx1 hc
      · obtain ⟨r, hr⟩ := fill_entry_isSome name i es ⟨x, hx, hx1⟩
        exact ⟨e :: r, by rw [hr]; rfl⟩

theorem find_entry_replicate_empty (name : List Nat) (n : Nat) :
    find_entry name (List.replicate n empty_entry) = -1 := by
  rw [find_entry_eq_neg_one_iff]
  intro e he hu
  rw [List.eq_of_mem_replicate he] at hu
  exact absurd hu not_used_empty_entry

theorem dir_unique_replicate_empty (n : Nat) :
    dir_unique (List.replicate n empty_entry) := by
  unfold dir_unique
  rw [List.pairwise_replicate]
  right
  intro h; exact absurd h not_used_empty_entry

/-! ## Preservation of the invariant by the table primitives -/

/-- A change of the open-file table alone keeps the invariant when the new
table meets its clause. -/
theorem Inv.of_files {s t : tfs_state} (hi : Inv s)
    (h1 : t.inode_table = s.inode_table) (h2 : t.fs_data = s.fs_data)
    (h3 : t.params = s.params)
    (hf : ∀ (h : Int) (x : slot open_file_entry_t),
      at_index t.open_file_table h = some x → x.taken = true →
        0 < x.val.of_inumber ∧ (inode_get x.val.of_inumber s).isSome ∧
          root_block s ≠ -1) : Inv t := by
  have hr : root_block t = root_block s := root_block_congr h1
  constructor
  · rw [h1]; exact hi.root
  · rw [hr, h2]
    rcases hi.dir with hd | ⟨es, he, hu, hm⟩
    · exact Or.inl hd
    · refine Or.inr ⟨es, he, hu, ?_⟩
      intro e hes hue
      rw [inode_get_congr h1]
      exact hm e hes hue
  · rw [hr, h2, h3]; exact hi.blocks
  · intro h x hx ht
    rw [hr, inode_get_congr h1]
    exact hf h x hx ht
  · rw [hr, h1, h2]; exact hi.own

/-- A change of the inode table that leaves the root slot alone keeps the
invariant when the new table meets the ownership clause. -/
theorem Inv.of_inodes {s t : tfs_state} (hi : Inv s)
    (h0 : at_index t.inode_table ROOT_DIR_INUM = at_index s.inode_table ROOT_DIR_INUM)
    (hs : ∀ i : Int, (inode_get i s).isSome → (inode_get i t).isSome)
    (h2 : t.fs_data = s.fs_data) (h3 : t.open_file_table = s.open_file_table)
    (h4 : t.params = s.params)
    (ho : ∀ (i : Int) (x : slot inode_t), at_index t.inode_table i = some x →
      0 < x.val.i_size →
        x.val.i_data_block ≠ root_block s ∧ root_block s ≠ -1 ∧
          (at_index s.fs_data x.val.i_data_block).isSome) : Inv t := by
  have hr : root_block t = root_block s := by unfold root_block; rw [h0]
  constructor
  · rw [h0]; exact hi.root
  · rw [hr, h2]
    rcases hi.dir with hd | ⟨es, he, hu, hm⟩
    · exact Or.inl hd
    · refine Or.inr ⟨es, he, hu, ?_⟩
      intro e hes hue
      exact ⟨(hm e hes hue).1, hs _ (hm e hes hue).2⟩
  · rw [hr, h2, h4]; exact hi.blocks
  · intro h x hx ht
    rw [hr]
    rw [h3] at hx
    obtain ⟨a, b, c⟩ := hi.files h x hx ht
    exact ⟨a, hs _ b, c⟩
  · intro i x hx hp
    rw [hr, h2]
    exact ho i x hx hp

/-- A change of the block pool that leaves the block of the directory alone
keeps the invariant when the other blocks stay byte blocks of the block
size. -/
theorem Inv.of_blocks {s t : tfs_state} (hi : Inv s)
    (h1 : t.inode_table = s.inode_table) (h3 : t.open_file_table = s.open_file_table)
    (h4 : t.params = s.params)
    (hd : at_index t.fs_data (root_block s) = at_index s.fs_data (root_block s))
    (hb : ∀ (b : Int) (x : slot block_t), at_index t.fs_data b = some x →
      b ≠ root_block s → ∃ l, x.val = .bytes l ∧ l.length = s.params.block_size)
    (hs : ∀ b : Int, (at_index s.fs_data b).isSome → (at_index t.fs_data b).isSome) :
    Inv t := by
  have hr : root_block t = root_block s := root_block_congr h1
  constructor
  · rw [h1]; exact hi.root
  · rw [hr, hd]
    rcases hi.dir with hd1 | ⟨es, he, hu, hm⟩
    · exact Or.inl hd1
    · refine Or.inr ⟨es, he, hu, ?_⟩
      intro e hes hue
      rw [inode_get_congr h1]
      exact hm e hes hue
  · rw [hr, h4]; exact hb
  · intro h x hx ht
    rw [hr, inode_get_congr h1]
    rw [h3] at hx
    exact hi.files h x hx ht
  · intro i x hx hp
    rw [hr]
    rw [h1] at hx
    obtain ⟨a, b, c⟩ := hi.own i x hx hp
    exact ⟨a, b, hs _ c⟩

theorem inv_add_to_open_file_table {s : tfs_state} (hi : Inv s) (inum : Int)
    (off : Nat) (h1 : 0 < inum) (h2 : (inode_get inum s).isSome)
    (h3 : root_block s ≠ -1) : Inv (add_to_open_file_table inum off s).2 := by
  apply hi.of_files (by simp) (by simp) (by simp)
  intro h x hx ht
  unfold add_to_open_file_table at hx
  cases hf : first_free s.open_file_table with
  | none =>
    rw [hf] at hx
    exact hi.files h x hx ht
  | some k =>
    rw [hf] at hx
    simp only [← set_index_natCast] at hx
    by_cases hk : (k : Int) = h
    · subst hk
      rw [at_index_set_index_same] at hx
      cases ha : at_index s.open_file_table (k : Int) with
      | none => rw [ha] at hx; cases hx
      | some y =>
        rw [ha] at hx
        simp only [Option.map_some', Option.some.injEq] at hx
        subst hx
        exact ⟨h1, h2, h3⟩
    · rw [at_index_set_index_other _ _ _ _ hk] at hx
      exact hi.files h x hx ht

theorem inv_open_file_put {s : tfs_state} (hi : Inv s) (fh : Int)
    (v : open_file_entry_t) (h1 : 0 < v.of_inumber)
    (h2 : (inode_get v.of_inumber s).isSome) (h3 : root_block s ≠ -1) :
    Inv (open_file_put fh v s) := by
  apply hi.of_files (by simp) (by simp) (by simp)
  intro h x hx ht
  unfold open_file_put at hx
  simp only at hx
  by_cases hk : fh = h
  · subst hk
    rw [at_index_set_index_same] at hx
    cases ha : at_index s.open_file_table fh with
    | none => rw [ha] at hx; cases hx
    | some y =>
      rw [ha] at hx
      simp only [Option.map_some', Option.some.injEq] at hx
      subst hx
      exact ⟨h1, h2, h3⟩
  · rw [at_index_set_index_other _ _ _ _ hk] at hx
    exact hi.files h x hx ht

theorem inv_remove_from_open_file_table {s : tfs_state} (hi : Inv s) (fh : Int) :
    Inv (remove_from_open_file_table fh s) := by
  apply hi.of_files (by simp) (by simp) (by simp)
  intro h x hx ht
  unfold remove_from_open_file_table at hx
  cases ha : at_index s.open_file_table fh with
  | none =>
    rw [ha] at hx
    exact hi.files h x hx ht
  | some y =>
    rw [ha] at hx
    simp only at hx
    by_cases hk : fh = h
    · subst hk
      rw [at_index_set_index_same, ha] at hx
      simp only [Option.map_some', Option.some.injEq] at hx
      subst hx
      cases ht
    · rw [at_index_set_index_other _ _ _ _ hk] at hx
      exact hi.files h x hx ht

theorem inv_inode_put {s : tfs_state} (hi : Inv s) (i : Int) (v : inode_t)
    (h0 : i ≠ ROOT_DIR_INUM)
    (hv : 0 < v.i_size → v.i_data_block ≠ root_block s ∧ root_block s ≠ -1 ∧
      (at_index s.fs_data v.i_data_block).isSome) : Inv (inode_put i v s) := by
  apply hi.of_inodes (inode_put_at_other _ _ _ _ h0)
    (fun j h => by rw [inode_get_isSome_inode_put]; exact h)
    (by simp) (by simp) (by simp)
  intro j x hx hp
  by_cases hj : i = j
  · subst hj
    rw [inode_put_at_same] at hx
    cases ha : at_index s.inode_table i with
    | none => rw [ha] at hx; cases hx
    | some y =>
      rw [ha] at hx
      simp only [Option.map_some', Option.some.injEq] at hx
      subst hx
      exact hv hp
  · rw [inode_put_at_other _ _ _ _ hj] at hx
    exact hi.own j x hx hp

theorem inv_data_block_free {s : tfs_state} (hi : Inv s) (b : Int)
    (hb : b ≠ root_block s) : Inv (data_block_free b s) := by
  apply hi.of_blocks (by simp) (by simp) (by simp)
    (data_block_free_at_other _ _ _ hb)
  · intro c x hx hc
    by_cases hbc : b = c
    · subst hbc
      rw [data_block_free_at_same] at hx
      cases ha : at_index s.fs_data b with
      | none => rw [ha] at hx; cases hx
      | some y =>
        rw [ha] at hx
        simp only [Option.map_some', Option.some.injEq] at hx
        subst hx
        exact ⟨_, rfl, by simp⟩
    · rw [data_block_free_at_other _ _ _ hbc] at hx
      exact hi.blocks c x hx hc
  · intro c hc
    by_cases hbc : b = c
    · subst hbc
      rw [data_block_free_at_same]
      cases ha : at_index s.fs_data b with
      | none => rw [ha] at hc; cases hc
      | some y => rfl
    · rw [data_block_free_at_other _ _ _ hbc]; exact hc

theorem inv_data_block_put_bytes {s : tfs_state} (hi : Inv s) (b : Int)
    (l : List Nat) (hb : b ≠ root_block s) (hl : l.length = s.params.block_size) :
    Inv (data_block_put b (.bytes l) s) := by
  apply hi.of_blocks (by simp) (by simp) (by simp)
    (data_block_put_at_other _ _ _ _ hb)
  · intro c x hx hc
    by_cases hbc : b = c
    · subst hbc
      rw [data_block_put_at_same] at hx
      cases ha : at_index s.fs_data b with
      | none => rw [ha] at hx; cases hx
      | some y =>
        rw [ha] at hx
        simp only [Option.map_some', Option.some.injEq] at hx
        subst hx
        exact ⟨l, rfl, hl⟩
    · rw [data_block_put_at_other _ _ _ _ hbc] at hx
      exact hi.blocks c x hx hc
  · intro c hc
    by_cases hbc : b = c
    · subst hbc
      rw [data_block_put_at_same]
      cases ha : at_index s.fs_data b with
      | none => rw [ha] at hc; cases hc
      | some y => rfl
    · rw [data_block_put_at_other _ _ _ _ hbc]; exact hc

/-- Overwriting an inode slot other than the root with an empty inode keeps
the invariant. -/
theorem inv_set_inode {s : tfs_state} (hi : Inv s) (i : Int) (v : slot inode_t)
    (h0 : i ≠ ROOT_DIR_INUM) (hv : v.val.i_size = 0) :
    Inv { s with inode_table := set_index s.inode_table i v } := by
  refine hi.of_inodes ?_ ?_ ?_ ?_ ?_ ?_
  rotate_left 5
  · intro j x hx hp
    simp only at hx
    by_cases hj : i = j
    · subst hj
      rw [at_index_set_index_same] at hx
      cases ha : at_index s.inode_table i with
      | none => rw [ha] at hx; cases hx
      | some y =>
        rw [ha] at hx
        simp only [Option.map_some', Option.some.injEq] at hx
        subst hx
        omega
    · rw [at_index_set_index_other _ _ _ _ hj] at hx
      exact hi.own j x hx hp
  · exact at_index_set_index_other _ _ _ _ h0
  · intro j hj
    unfold inode_get at hj ⊢
    simp only
    by_cases hij : i = j
    · subst hij
      rw [at_index_set_index_same]
      cases ha : at_index s.inode_table i with
      | none => rw [ha] at hj; cases hj
      | some y => rfl
    · rw [at_index_set_index_other _ _ _ _ hij]; exact hj
  · rfl
  · rfl
  · rfl

/-- What `inode_create` does: nothing when the table is full, and otherwise
it stores a fresh inode in a slot that was free. -/
theorem inode_create_spec (t : inode_type) (s : tfs_state) :
    (inode_create t s = (-1, s) ∧ ∀ x ∈ s.inode_table, x.taken = true) ∨
    ∃ k : Nat, ∃ x, s.inode_table[k]? = some x ∧ x.taken = false ∧
      inode_create t s = ((k : Int),
        { s with inode_table := set_index s.inode_table (k : Int) ⟨true, fresh_inode t⟩ }) := by
  unfold inode_create
  cases hf : first_free s.inode_table with
  | none => exact Or.inl ⟨rfl, first_free_none _ hf⟩
  | some k =>
    obtain ⟨x, hx, hx1⟩ := first_free_spec _ _ hf
    exact Or.inr ⟨k, x, hx, hx1, by simp [set_index_natCast]⟩

theorem inv_inode_create {s : tfs_state} (hi : Inv s) (t : inode_type) :
    Inv (inode_create t s).2 ∧
      ((inode_create t s).1 = -1 ∨
        (0 < (inode_create t s).1 ∧
          inode_get (inode_create t s).1 (inode_create t s).2 = some (fresh_inode t))) := by
  rcases inode_create_spec t s with ⟨h, _⟩ | ⟨k, x, hx, hx1, h⟩
  · rw [h]; exact ⟨hi, Or.inl rfl⟩
  · rw [h]
    have hk : (k : Int) ≠ ROOT_DIR_INUM := by
      intro hk
      obtain ⟨r, hr, _⟩ := hi.root
      rw [← hk, at_index_natCast, hx] at hr
      cases hr
      cases hx1
    refine ⟨inv_set_inode hi _ _ hk rfl, Or.inr ⟨?_, ?_⟩⟩
    · simp only [ROOT_DIR_INUM] at hk ⊢; omega
    · unfold inode_get
      simp only
      rw [at_index_set_index_same, at_index_natCast, hx]
      rfl

theorem inv_inode_delete {s : tfs_state} (hi : Inv s) (i : Int)
    (h0 : i ≠ ROOT_DIR_INUM) : Inv (inode_delete i s) := by
  unfold inode_delete
  cases hg : inode_get i s with
  | none => exact hi
  | some ino =>
    simp only
    by_cases hp : 0 < ino.i_size
    · rw [if_pos hp]
      unfold inode_get at hg
      cases ha : at_index s.inode_table i with
      | none => rw [ha] at hg; cases hg
      | some y =>
        rw [ha] at hg
        simp only [Option.map_some', Option.some.injEq] at hg
        subst hg
        have := (hi.own i y ha hp).1
        exact inv_set_inode (inv_data_block_free hi _ this) i _ h0 rfl
    · rw [if_neg hp]
      exact inv_set_inode hi i _ h0 rfl

/-- What `data_block_alloc` does: nothing when the pool is full, and
otherwise it marks a block that was free. -/
theorem data_block_alloc_spec (s : tfs_state) :
    (data_block_alloc s = (-1, s) ∧ ∀ x ∈ s.fs_data, x.taken = true) ∨
    ∃ k : Nat, ∃ x, s.fs_data[k]? = some x ∧ x.taken = false ∧
      data_block_alloc s =
        ((k : Int), { s with fs_data := set_index s.fs_data (k : Int) ⟨true, x.val⟩ }) := by
  unfold data_block_alloc
  cases hf : first_free s.fs_data with
  | none => exact Or.inl ⟨rfl, first_free_none _ hf⟩
  | some k =>
    obtain ⟨x, hx, hx1⟩ := first_free_spec _ _ hf
    exact Or.inr ⟨k, x, hx, hx1, by simp [set_index_natCast, hx]⟩

/-- A block that is free is not the block of the directory. -/
theorem free_block_ne_root {s : tfs_state} (hi : Inv s) (k : Nat) (x : slot block_t)
    (hx : s.fs_data[k]? = some x) (hx1 : x.taken = false) : (k : Int) ≠ root_block s := by
  intro hk
  rcases hi.dir with hd | ⟨es, he, _⟩
  · rw [hd] at hk; omega
  · rw [← hk, at_index_natCast, hx] at he
    cases he
    cases hx1

theorem inv_mark_block {s : tfs_state} (hi : Inv s) (k : Nat) (x : slot block_t)
    (hx : s.fs_data[k]? = some x) (hx1 : x.taken = false) :
    Inv { s with fs_data := set_index s.fs_data (k : Int) ⟨true, x.val⟩ } := by
  have hk := free_block_ne_root hi k x hx hx1
  refine hi.of_blocks ?_ ?_ ?_ ?_ ?_ ?_
  rotate_left 4
  · intro c y hy hc
    simp only at hy
    by_cases hbc : (k : Int) = c
    · subst hbc
      rw [at_index_set_index_same, at_index_natCast, hx] at hy
      simp only [Option.map_some', Option.some.injEq] at hy
      subst hy
      exact hi.blocks (k : Int) x (by rw [at_index_natCast]; exact hx) hk
    · rw [at_index_set_index_other _ _ _ _ hbc] at hy
      exact hi.blocks c y hy hc
  · intro c hc
    simp only
    by_cases hbc : (k : Int) = c
    · subst hbc
      rw [at_index_set_index_same, at_index_natCast, hx]; rfl
    · rw [at_index_set_index_other _ _ _ _ hbc]; exact hc
  · rfl
  · rfl
  · rfl
  · exact at_index_set_index_other _ _ _ _ hk

theorem inv_data_block_alloc {s : tfs_state} (hi : Inv s) :
    Inv (data_block_alloc s).2 := by
  rcases data_block_alloc_spec s with ⟨h, _⟩ | ⟨k, x, hx, hx1, h⟩
  · rw [h]; exact hi
  · rw [h]; exact inv_mark_block hi k x hx hx1

/-! ## The directory under the invariant -/

theorem inv_root {s : tfs_state} (hi : Inv s) :
    ∃ r, inode_get ROOT_DIR_INUM s = some r ∧ r.i_node_type = .T_DIRECTORY ∧
      r.i_data_block = root_block s ∧
      at_index s.inode_table ROOT_DIR_INUM = some ⟨true, r⟩ := by
  obtain ⟨r, hr, ht⟩ := hi.root
  refine ⟨r, ?_, ht, ?_, hr⟩
  · unfold inode_get; rw [hr]; rfl
  · unfold root_block; rw [hr]

theorem dir_entries_unallocated {s : tfs_state} (h : root_block s = -1) :
    dir_entries s = [] := by
  unfold dir_entries data_block_get
  rw [h, at_index_neg _ _ (by omega)]
  rfl

theorem inv_dir_entries {s : tfs_state} (hi : Inv s) (h : root_block s ≠ -1) :
    at_index s.fs_data (root_block s) = some ⟨true, .entries (dir_entries s)⟩ ∧
      data_block_get (root_block s) s = some (.entries (dir_entries s)) := by
  rcases hi.dir with hd | ⟨es, he, _⟩
  · exact absurd hd h
  · have : dir_entries s = es := by
      unfold dir_entries data_block_get
      rw [he]; rfl
    rw [this]
    refine ⟨he, ?_⟩
    unfold data_block_get
    rw [he]; rfl

theorem inv_dir_unique {s : tfs_state} (hi : Inv s) : dir_unique (dir_entries s) := by
  rcases hi.dir with hd | ⟨es, he, hu, _⟩
  · rw [dir_entries_unallocated hd]; exact List.Pairwise.nil
  · have : dir_entries s = es := by
      unfold dir_entries data_block_get
      rw [he]; rfl
    rw [this]; exact hu

theorem inv_dir_used {s : tfs_state} (hi : Inv s) :
    ∀ e ∈ dir_entries s, used e → 0 < e.d_inumber ∧ (inode_get e.d_inumber s).isSome := by
  rcases hi.dir with hd | ⟨es, he, _, hm⟩
  · rw [dir_entries_unallocated hd]; intro e he; cases he
  · have : dir_entries s = es := by
      unfold dir_entries data_block_get
      rw [he]; rfl
    rw [this]; exact hm

/-- Under the invariant `find_in_dir` on the root scans the slot array. -/
theorem find_in_dir_root {s : tfs_state} (hi : Inv s) (name : List Nat) :
    find_in_dir ROOT_DIR_INUM name s = .done (find_entry name (dir_entries s)) := by
  obtain ⟨r, hr, _, hb, _⟩ := inv_root hi
  unfold find_in_dir
  rw [hr]
  simp only [hb]
  by_cases hd : root_block s = -1
  · rw [if_pos hd, dir_entries_unallocated hd]; rfl
  · rw [if_neg hd, (inv_dir_entries hi hd).2]

/-- Under the invariant `tfs_lookup` on the root returns, with the inumber
the slot array gives to the name of a valid path and -1 for another path. -/
theorem tfs_lookup_root {s : tfs_state} (hi : Inv s) (name : List Nat) :
    tfs_lookup name ROOT_DIR_INUM s =
      .done (if valid_pathname name then find_entry (name.drop 1) (dir_entries s)
        else -1) := by
  obtain ⟨r, hr, ht, _, _⟩ := inv_root hi
  unfold tfs_lookup
  rw [hr]
  simp only [ht, ne_eq, not_true_eq_false, if_false]
  by_cases hv : valid_pathname name = true
  · simp [hv, find_in_dir_root hi]
  · simp [hv]

/-- What a lookup finds under the invariant is the inumber of an inode other
than the root. -/
theorem find_entry_inv {s : tfs_state} (hi : Inv s) (name : List Nat)
    (h : find_entry name (dir_entries s) ≠ -1) :
    0 < find_entry name (dir_entries s) ∧
      (inode_get (find_entry name (dir_entries s)) s).isSome := by
  obtain ⟨e, he, hu, _, hn⟩ := find_entry_mem name _ h
  rw [← hn]
  exact inv_dir_used hi e he hu

/-- Replacing the slot array of an allocated directory keeps the invariant
when the new array meets its clause. -/
theorem inv_put_dir {s : tfs_state} (hi : Inv s) (hd : root_block s ≠ -1)
    (es1 : List dir_entry_t) (hu : dir_unique es1)
    (hm : ∀ e ∈ es1, used e → 0 < e.d_inumber ∧ (inode_get e.d_inumber s).isSome) :
    Inv (data_block_put (root_block s) (.entries es1) s) := by
  have hr : root_block (data_block_put (root_block s) (.entries es1) s) = root_block s :=
    root_block_congr (by simp)
  have hsome : ∀ c : Int, (at_index s.fs_data c).isSome →
      (at_index (data_block_put (root_block s) (.entries es1) s).fs_data c).isSome := by
    intro c hc
    by_cases hbc : root_block s = c
    · subst hbc
      rw [data_block_put_at_same]
      cases ha : at_index s.fs_data (root_block s) with
      | none => rw [ha] at hc; cases hc
      | some y => rfl
    · rw [data_block_put_at_other _ _ _ _ hbc]; exact hc
  constructor
  · simp only [data_block_put_inode_table]; exact hi.root
  · right
    rw [hr]
    refine ⟨es1, ?_, hu, ?_⟩
    · rw [data_block_put_at_same, (inv_dir_entries hi hd).1]; rfl
    · intro e he hue
      rw [inode_get_data_block_put]
      exact hm e he hue
  · intro c x hx hc
    rw [hr] at hc
    rw [data_block_put_at_other _ _ _ _ (Ne.symm hc)] at hx
    simp only [data_block_put_params]
    exact hi.blocks c x hx hc
  · intro h x hx ht
    rw [hr, inode_get_data_block_put]
    simp only [data_block_put_open_file_table] at hx
    exact hi.files h x hx ht
  · intro i x hx hp
    rw [hr]
    simp only [data_block_put_inode_table] at hx
    obtain ⟨a, b, c⟩ := hi.own i x hx hp
    exact ⟨a, b, hsome _ c⟩

theorem dir_entries_put_dir {s : tfs_state} (hi : Inv s) (hd : root_block s ≠ -1)
    (es1 : List dir_entry_t) :
    dir_entries (data_block_put (root_block s) (.entries es1) s) = es1 := by
  have hr : root_block (data_block_put (root_block s) (.entries es1) s) = root_block s :=
    root_block_congr (by simp)
  unfold dir_entries data_block_get
  rw [hr, data_block_put_at_same, (inv_dir_entries hi hd).1]
  rfl

/-! ## `clear_dir_entry` and `add_dir_entry` under the invariant -/

theorem clear_dir_entry_missing {s : tfs_state} (hi : Inv s) (name : List Nat)
    (h : find_entry name (dir_entries s) = -1) :
    clear_dir_entry ROOT_DIR_INUM name s = .done (-1, s) := by
  obtain ⟨r, hr, _, hb, _⟩ := inv_root hi
  unfold clear_dir_entry
  rw [hr]
  simp only [hb]
  by_cases hd : root_block s = -1
  · rw [if_pos hd]
  · rw [if_neg hd, (inv_dir_entries hi hd).2]
    simp only
    rw [clear_entry_none name _ h]

theorem clear_dir_entry_found {s : tfs_state} (hi : Inv s) (name : List Nat)
    (h : find_entry name (dir_entries s) ≠ -1) :
    root_block s ≠ -1 ∧
    ∃ es1, clear_entry name (dir_entries s) = some es1 ∧
      clear_dir_entry ROOT_DIR_INUM name s =
        .done (0, data_block_put (root_block s) (.entries es1) s) := by
  obtain ⟨r, hr, _, hb, _⟩ := inv_root hi
  have hd : root_block s ≠ -1 := by
    intro hd
    rw [dir_entries_unallocated hd] at h
    exact h rfl
  obtain ⟨es1, he⟩ := clear_entry_isSome name _ h
  refine ⟨hd, es1, he, ?_⟩
  unfold clear_dir_entry
  rw [hr]
  simp only [hb]
  rw [if_neg hd, (inv_dir_entries hi hd).2]
  simp only
  rw [he]

theorem inv_clear_dir_entry {s : tfs_state} (hi : Inv s) (name : List Nat)
    (c : Int) (s1 : tfs_state)
    (h : clear_dir_entry ROOT_DIR_INUM name s = .done (c, s1)) : Inv s1 := by
  by_cases hf : find_entry name (dir_entries s) = -1
  · rw [clear_dir_entry_missing hi name hf] at h
    cases h
    exact hi
  · obtain ⟨hd, es1, he, hc⟩ := clear_dir_entry_found hi name hf
    rw [hc] at h
    cases h
    apply inv_put_dir hi hd es1 (clear_entry_unique name _ _ he (inv_dir_unique hi))
    intro e hes hue
    rcases clear_entry_mem name _ _ he e hes with h1 | h1
    · subst h1; exact absurd hue not_used_empty_entry
    · exact inv_dir_used hi e h1 hue

theorem add_dir_entry_bad_name (d : Int) (name : List Nat) (i : Int) (s : tfs_state)
    (h : SLASH ∈ name ∨ MAX_FILE_NAME - 1 < name.length) :
    add_dir_entry d name i s = .done (-1, s) := by
  unfold add_dir_entry
  rw [if_pos h]

theorem add_dir_entry_allocated {s : tfs_state} (hi : Inv s) (name : List Nat)
    (i : Int) (hn : ¬ (SLASH ∈ name ∨ MAX_FILE_NAME - 1 < name.length))
    (hd : root_block s ≠ -1) :
    add_dir_entry ROOT_DIR_INUM name i s =
      if find_entry name (dir_entries s) ≠ -1 then .done (-1, s)
      else
        match fill_entry name i (dir_entries s) with
        | none => .done (-1, s)
        | some es1 => .done (0, data_block_put (root_block s) (.entries es1) s) := by
  obtain ⟨r, hr, _, hb, _⟩ := inv_root hi
  unfold add_dir_entry
  rw [if_neg hn, hr]
  simp only [hb]
  rw [if_neg hd, (inv_dir_entries hi hd).2]

/-- Allocation of the slot array: a free block becomes the block of the
directory. -/
theorem inv_alloc_dir {s : tfs_state} (hi : Inv s) (hd : root_block s = -1)
    (r : inode_t) (hr : at_index s.inode_table ROOT_DIR_INUM = some ⟨true, r⟩)
    (k : Nat) (x : slot block_t) (hx : s.fs_data[k]? = some x)
    (es : List dir_entry_t) (hu : dir_unique es)
    (hm : ∀ e ∈ es, used e → 0 < e.d_inumber ∧ (inode_get e.d_inumber s).isSome) :
    Inv (inode_put ROOT_DIR_INUM { r with i_data_block := (k : Int) }
      (data_block_put (k : Int) (.entries es)
        { s with fs_data := set_index s.fs_data (k : Int) ⟨true, x.val⟩ })) ∧
    root_block (inode_put ROOT_DIR_INUM { r with i_data_block := (k : Int) }
      (data_block_put (k : Int) (.entries es)
        { s with fs_data := set_index s.fs_data (k : Int) ⟨true, x.val⟩ })) = (k : Int) ∧
    dir_entries (inode_put ROOT_DIR_INUM { r with i_data_block := (k : Int) }
      (data_block_put (k : Int) (.entries es)
        { s with fs_data := set_index s.fs_data (k : Int) ⟨true, x.val⟩ })) = es := by
  generalize hs3 : inode_put ROOT_DIR_INUM { r with i_data_block := (k : Int) }
      (data_block_put (k : Int) (.entries es)
        { s with fs_data := set_index s.fs_data (k : Int) ⟨true, x.val⟩ }) = s3
  have h0 : at_index s3.inode_table ROOT_DIR_INUM =
      some ⟨true, { r with i_data_block := (k : Int) }⟩ := by
    rw [← hs3, inode_put_at_same]
    simp only [data_block_put_inode_table, hr]
    rfl
  have hrb : root_block s3 = (k : Int) := by
    unfold root_block; rw [h0]
  have hfs : ∀ c : Int, at_index s3.fs_data c =
      if (k : Int) = c then some ⟨true, .entries es⟩ else at_index s.fs_data c := by
    intro c
    rw [← hs3]
    simp only [inode_put_fs_data]
    by_cases hc : (k : Int) = c
    · subst hc
      rw [if_pos rfl, data_block_put_at_same]
      simp only
      rw [at_index_set_index_same, at_index_natCast, hx]
      rfl
    · rw [if_neg hc, data_block_put_at_other _ _ _ _ hc]
      simp only
      rw [at_index_set_index_other _ _ _ _ hc]
  have hin : ∀ j : Int, j ≠ ROOT_DIR_INUM →
      at_index s3.inode_table j = at_index s.inode_table j := by
    intro j hj
    rw [← hs3, inode_put_at_other _ _ _ _ (Ne.symm hj)]
    simp only [data_block_put_inode_table]
  have hget : ∀ j : Int, (inode_get j s).isSome → (inode_get j s3).isSome := by
    intro j hj
    rw [← hs3, inode_get_isSome_inode_put, inode_get_data_block_put]
    exact hj
  have hde : dir_entries s3 = es := by
    unfold dir_entries data_block_get
    rw [hrb, hfs, if_pos rfl]
    rfl
  refine ⟨?_, hrb, hde⟩
  constructor
  · exact ⟨_, h0, (by
      obtain ⟨r1, hr1, ht⟩ := hi.root
      rw [hr] at hr1
      cases hr1
      exact ht)⟩
  · right
    rw [hrb]
    refine ⟨es, by rw [hfs, if_pos rfl], hu, ?_⟩
    intro e he hue
    exact ⟨(hm e he hue).1, hget _ (hm e he hue).2⟩
  · intro c y hy hc
    rw [hrb] at hc
    rw [hfs, if_neg (Ne.symm hc)] at hy
    have hp : s3.params = s.params := by rw [← hs3]; simp
    rw [hp]
    apply hi.blocks c y hy
    rw [hd]
    have := at_index_some_nonneg hy
    omega
  · intro h y hy ht
    have : s3.open_file_table = s.open_file_table := by rw [← hs3]; simp
    rw [this] at hy
    exact absurd hd (hi.files h y hy ht).2.2
  · intro j y hy hp
    by_cases hj : j = ROOT_DIR_INUM
    · subst hj
      rw [h0] at hy
      cases hy
      exact absurd hd (hi.own ROOT_DIR_INUM _ hr hp).2.1
    · rw [hin j hj] at hy
      exact absurd hd (hi.own j y hy hp).2.1

theorem fill_entry_replicate (name : List Nat) (i : Int) (n : Nat) :
    fill_entry name i (List.replicate (n + 1) empty_entry) =
      some ({ d_name := name, d_inumber := i } :: List.replicate n empty_entry) := by
  rw [List.replicate_succ]
  unfold fill_entry
  rw [if_pos (by rfl)]

theorem mem_replicate_empty_not_used {n : Nat} {e : dir_entry_t}
    (h : e ∈ List.replicate n empty_entry) : ¬ used e := by
  rw [List.eq_of_mem_replicate h]; exact not_used_empty_entry

/-- Outcome of `add_dir_entry` on the root: the call returns, keeps the
invariant, and changes at most the directory (slot array and block index of
the root); on success the name finds the inumber stored and no other name
changes, on failure no name changes. -/
theorem add_dir_entry_root {s : tfs_state} (hi : Inv s) (name : List Nat) (i : Int)
    (h1 : 0 < i) (h2 : (inode_get i s).isSome) :
    ∃ r s1, add_dir_entry ROOT_DIR_INUM name i s = .done (r, s1) ∧ Inv s1 ∧
      s1.open_file_table = s.open_file_table ∧ s1.params = s.params ∧
      (∀ j : Int, j ≠ ROOT_DIR_INUM →
        at_index s1.inode_table j = at_index s.inode_table j) ∧
      (∀ c : Int, c ≠ root_block s1 → at_index s1.fs_data c = at_index s.fs_data c) ∧
      ((r = 0 ∧ root_block s1 ≠ -1 ∧ find_entry name (dir_entries s) = -1 ∧
          find_entry name (dir_entries s1) = i ∧
          ∀ q, q ≠ name → find_entry q (dir_entries s1) = find_entry q (dir_entries s)) ∨
       (r = -1 ∧ ∀ q, find_entry q (dir_entries s1) = find_entry q (dir_entries s))) := by
  have hne : i ≠ -1 := by omega
  by_cases hn : SLASH ∈ name ∨ MAX_FILE_NAME - 1 < name.length
  · exact ⟨-1, s, add_dir_entry_bad_name _ _ _ _ hn, hi, rfl, rfl, fun _ _ => rfl,
      fun _ _ => rfl, Or.inr ⟨rfl, fun _ => rfl⟩⟩
  by_cases hd : root_block s = -1
  · -- the slot array is allocated by this call
    obtain ⟨r, hr, _, hb, hr0⟩ := inv_root hi
    have hun : add_dir_entry ROOT_DIR_INUM name i s =
        match data_block_alloc s with
        | (b, s1) =>
          if b = -1 then .done (-1, s1)
          else
            match fill_entry name i (List.replicate (MAX_DIR_ENTRIES s) empty_entry) with
            | none =>
              .done (-1, inode_put ROOT_DIR_INUM { r with i_data_block := b }
                (data_block_put b
                  (.entries (List.replicate (MAX_DIR_ENTRIES s) empty_entry)) s1))
            | some es =>
              .done (0, inode_put ROOT_DIR_INUM { r with i_data_block := b }
                (data_block_put b (.entries es) s1)) := by
      unfold add_dir_entry
      rw [if_neg hn, hr]
      simp only [hb]
      rw [if_pos hd]
    rw [hun]
    rcases data_block_alloc_spec s with ⟨ha, _⟩ | ⟨k, x, hx, hx1, ha⟩
    · rw [ha]
      exact ⟨-1, s, rfl, hi, rfl, rfl, fun _ _ => rfl, fun _ _ => rfl,
        Or.inr ⟨rfl, fun _ => rfl⟩⟩
    · rw [ha]
      simp only
      have hk : ¬ ((k : Int) = -1) := by omega
      rw [if_neg hk]
      have frame : ∀ (es : List dir_entry_t) (s3 : tfs_state),
          s3 = inode_put ROOT_DIR_INUM { r with i_data_block := (k : Int) }
            (data_block_put (k : Int) (.entries es)
              { s with fs_data := set_index s.fs_data (k : Int) ⟨true, x.val⟩ }) →
          root_block s3 = (k : Int) →
          s3.open_file_table = s.open_file_table ∧ s3.params = s.params ∧
          (∀ j : Int, j ≠ ROOT_DIR_INUM →
            at_index s3.inode_table j = at_index s.inode_table j) ∧
          (∀ c : Int, c ≠ root_block s3 → at_index s3.fs_data c = at_index s.fs_data c) := by
        intro es s3 hs3 hrb
        refine ⟨by rw [hs3]; simp, by rw [hs3]; simp, ?_, ?_⟩
        · intro j hj
          rw [hs3, inode_put_at_other _ _ _ _ (Ne.symm hj)]
          simp
        · intro c hc
          rw [hrb] at hc
          rw [hs3]
          simp only [inode_put_fs_data]
          rw [data_block_put_at_other _ _ _ _ (Ne.symm hc)]
          simp only
          rw [at_index_set_index_other _ _ _ _ (Ne.symm hc)]
      cases hcap : MAX_DIR_ENTRIES s with
      | zero =>
        simp only [List.replicate_zero, fill_entry]
        obtain ⟨hinv, hrb, hde⟩ := inv_alloc_dir hi hd r hr0 k x hx []
          List.Pairwise.nil (fun e he => by cases he)
        obtain ⟨f1, f2, f3, f4⟩ := frame [] _ rfl hrb
        refine ⟨-1, _, rfl, hinv, f1, f2, f3, f4, Or.inr ⟨rfl, ?_⟩⟩
        intro q
        rw [hde, dir_entries_unallocated hd]
      | succ n =>
        rw [fill_entry_replicate]
        simp only
        have hfill := fill_entry_replicate name i n
        obtain ⟨hinv, hrb, hde⟩ := inv_alloc_dir hi hd r hr0 k x hx
          ({ d_name := name, d_inumber := i } :: List.replicate n empty_entry)
          (fill_entry_unique name i _ _ hfill (find_entry_replicate_empty _ _)
            (dir_unique_replicate_empty _))
          (by
            intro e he hue
            rcases List.mem_cons.mp he with he | he
            · subst he; exact ⟨h1, h2⟩
            · exact absurd hue (mem_replicate_empty_not_used he))
        obtain ⟨f1, f2, f3, f4⟩ := frame _ _ rfl hrb
        refine ⟨0, _, rfl, hinv, f1, f2, f3, f4, Or.inl ⟨rfl, ?_, ?_, ?_, ?_⟩⟩
        · rw [hrb]; omega
        · rw [dir_entries_unallocated hd]; rfl
        · rw [hde]
          exact find_entry_fill_entry name i hne _ _ hfill (find_entry_replicate_empty _ _)
        · intro q hq
          rw [hde, dir_entries_unallocated hd,
            find_entry_fill_entry_other name q i hq _ _ hfill,
            find_entry_replicate_empty]
          rfl
  · -- the slot array exists
    rw [add_dir_entry_allocated hi name i hn hd]
    by_cases hf : find_entry name (dir_entries s) ≠ -1
    · rw [if_pos hf]
      exact ⟨-1, s, rfl, hi, rfl, rfl, fun _ _ => rfl, fun _ _ => rfl,
        Or.inr ⟨rfl, fun _ => rfl⟩⟩
    · rw [if_neg hf]
      have hf1 : find_entry name (dir_entries s) = -1 := by
        by_contra h; exact hf h
      cases hfill : fill_entry name i (dir_entries s) with
      | none =>
        exact ⟨-1, s, rfl, hi, rfl, rfl, fun _ _ => rfl, fun _ _ => rfl,
          Or.inr ⟨rfl, fun _ => rfl⟩⟩
      | some es1 =>
        have hinv : Inv (data_block_put (root_block s) (.entries es1) s) := by
          apply inv_put_dir hi hd es1
            (fill_entry_unique name i _ _ hfill hf1 (inv_dir_unique hi))
          intro e he hue
          rcases fill_entry_mem name i _ _ hfill e he with h | h
          · subst h; exact ⟨h1, h2⟩
          · exact inv_dir_used hi e h hue
        have hrb : root_block (data_block_put (root_block s) (.entries es1) s) =
            root_block s := root_block_congr (by simp)
        refine ⟨0, _, rfl, hinv, by simp, by simp, fun _ _ => by simp, ?_,
          Or.inl ⟨rfl, ?_, hf1, ?_, ?_⟩⟩
        · intro c hc
          rw [hrb] at hc
          exact data_block_put_at_other _ _ _ _ (Ne.symm hc)
        · rw [hrb]; exact hd
        · rw [dir_entries_put_dir hi hd]
          exact find_entry_fill_entry name i hne _ _ hfill hf1
        · intro q hq
          rw [dir_entries_put_dir hi hd]
          exact find_entry_fill_entry_other name q i hq _ _ hfill

/-! ## The operations keep the invariant -/

theorem done_pair_eq {α β : Type} {p : α × β} {a : α} {b : β}
    (h : Run.done p = Run.done (a, b)) : p.1 = a ∧ p.2 = b := by
  cases h; exact ⟨rfl, rfl⟩

theorem tfs_open_invalid (fuel : Nat) (name : List Nat) (mode : tfs_file_mode_t)
    (s : tfs_state) (hv : valid_pathname name = false) :
    tfs_open (fuel + 1) name mode s = .done (-1, s) := by
  unfold tfs_open
  simp [hv]

/-- One step of `tfs_open` on a valid path under the invariant: the lookup
is the scan of the slot array. -/
theorem tfs_open_step {s : tfs_state} (hi : Inv s) (fuel : Nat) (name : List Nat)
    (mode : tfs_file_mode_t) (hv : valid_pathname name = true) :
    tfs_open (fuel + 1) name mode s =
      if 0 ≤ find_entry (name.drop 1) (dir_entries s) then
        if mode.strict_create then .done (-1, s)
        else
          match inode_get (find_entry (name.drop 1) (dir_entries s)) s with
          | none => .abort
          | some inode =>
            if inode.origin_path ≠ [] then tfs_open fuel inode.origin_path mode s
            else if mode.trunc ∧ 0 < inode.i_size then
              .done (add_to_open_file_table (find_entry (name.drop 1) (dir_entries s)) 0
                (inode_put (find_entry (name.drop 1) (dir_entries s))
                  { inode with i_size := 0 }
                  (data_block_free inode.i_data_block s)))
            else
              .done (add_to_open_file_table (find_entry (name.drop 1) (dir_entries s))
                (if mode.append then inode.i_size else 0) s)
      else if mode.creat then
        match inode_create .T_FILE s with
        | (inum1, s1) =>
          if inum1 = -1 then .done (-1, s1)
          else
            match add_dir_entry ROOT_DIR_INUM (name.drop 1) inum1 s1 with
            | .abort => .abort
            | .out_of_fuel => .out_of_fuel
            | .done (r, s2) =>
              if r = -1 then .done (-1, inode_delete inum1 s2)
              else .done (add_to_open_file_table inum1 0 s2)
      else .done (-1, s) := by
  obtain ⟨rt, hrt, _, _, _⟩ := inv_root hi
  rw [tfs_open]
  simp only [hv, Bool.not_true, Bool.false_eq_true, if_false, hrt,
    tfs_lookup_root hi, if_true]

theorem root_block_inode_put_other (i : Int) (v : inode_t) (s : tfs_state)
    (h : i ≠ ROOT_DIR_INUM) : root_block (inode_put i v s) = root_block s := by
  unfold root_block
  rw [inode_put_at_other _ _ _ _ h]

theorem dir_entries_congr {s t : tfs_state}
    (h1 : at_index t.inode_table ROOT_DIR_INUM = at_index s.inode_table ROOT_DIR_INUM)
    (h2 : at_index t.fs_data (root_block s) = at_index s.fs_data (root_block s)) :
    dir_entries t = dir_entries s := by
  have hr : root_block t = root_block s := by unfold root_block; rw [h1]
  unfold dir_entries data_block_get
  rw [hr, h2]

theorem inode_get_of_at_index {s : tfs_state} {i : Int} {x : slot inode_t}
    (h : at_index s.inode_table i = some x) : inode_get i s = some x.val := by
  unfold inode_get; rw [h]; rfl

theorem at_index_of_inode_get {s : tfs_state} {i : Int} {v : inode_t}
    (h : inode_get i s = some v) :
    ∃ x, at_index s.inode_table i = some x ∧ x.val = v := by
  unfold inode_get at h
  cases ha : at_index s.inode_table i with
  | none => rw [ha] at h; cases h
  | some y =>
    rw [ha] at h
    simp only [Option.map_some', Option.some.injEq] at h
    exact ⟨y, rfl, h⟩

theorem inv_own_get {s : tfs_state} (hi : Inv s) {i : Int} {v : inode_t}
    (h : inode_get i s = some v) (hp : 0 < v.i_size) :
    v.i_data_block ≠ root_block s ∧ root_block s ≠ -1 ∧
      (at_index s.fs_data v.i_data_block).isSome := by
  obtain ⟨x, hx, rfl⟩ := at_index_of_inode_get h
  exact hi.own i x hx hp

theorem inv_tfs_open : ∀ (fuel : Nat) (name : List Nat) (mode : tfs_file_mode_t)
    (s s1 : tfs_state) (r : Int), Inv s →
    tfs_open fuel name mode s = .done (r, s1) → Inv s1
  | 0, _, _, _, _, _, _, h => by simp [tfs_open] at h
  | fuel + 1, name, mode, s, s1, r, hi, h => by
    by_cases hv : valid_pathname name = true
    · rw [tfs_open_step hi fuel name mode hv] at h
      by_cases hfound : 0 ≤ find_entry (name.drop 1) (dir_entries s)
      · rw [if_pos hfound] at h
        have hne : find_entry (name.drop 1) (dir_entries s) ≠ -1 := by omega
        obtain ⟨hpos, hsome⟩ := find_entry_inv hi _ hne
        have hrb : root_block s ≠ -1 := by
          intro hd
          rw [dir_entries_unallocated hd] at hne
          exact hne rfl
        by_cases hstrict : mode.strict_create = true
        · rw [if_pos hstrict] at h
          cases h; exact hi
        · rw [if_neg hstrict] at h
          cases hg : inode_get (find_entry (name.drop 1) (dir_entries s)) s with
          | none => rw [hg] at hsome; cases hsome
          | some inode =>
            rw [hg] at h
            simp only at h
            by_cases hsym : inode.origin_path ≠ []
            · rw [if_pos hsym] at h
              exact inv_tfs_open fuel _ mode s s1 r hi h
            · rw [if_neg hsym] at h
              have hn0 : find_entry (name.drop 1) (dir_entries s) ≠ ROOT_DIR_INUM := by
                simp only [ROOT_DIR_INUM]; omega
              by_cases htr : mode.trunc = true ∧ 0 < inode.i_size
              · rw [if_pos htr] at h
                obtain ⟨_, rfl⟩ := done_pair_eq h
                have hi1 := inv_data_block_free hi _ (inv_own_get hi hg htr.2).1
                have hi2 := inv_inode_put hi1 (find_entry (name.drop 1) (dir_entries s))
                  { inode with i_size := 0 } hn0 (by intro h0; simp at h0)
                apply inv_add_to_open_file_table hi2 _ _ hpos
                · rw [inode_get_isSome_inode_put, inode_get_data_block_free]; exact hsome
                · rw [root_block_inode_put_other _ _ _ hn0,
                    root_block_congr (data_block_free_inode_table _ _)]
                  exact hrb
              · rw [if_neg htr] at h
                obtain ⟨_, rfl⟩ := done_pair_eq h
                exact inv_add_to_open_file_table hi _ _ hpos hsome hrb
      · rw [if_neg hfound] at h
        by_cases hcr : mode.creat = true
        · rw [if_pos hcr] at h
          have hc := inv_inode_create hi .T_FILE
          generalize inode_create .T_FILE s = p at h hc
          obtain ⟨inum1, sc⟩ := p
          simp only at h hc
          obtain ⟨hic, hcase⟩ := hc
          rcases hcase with hm | ⟨hpos, hfresh⟩
          · rw [if_pos hm] at h
            cases h; exact hic
          · rw [if_neg (by omega)] at h
            obtain ⟨r2, s2, hadd, hi2, _, _, hfr, _, hres⟩ :=
              add_dir_entry_root hic (name.drop 1) inum1 hpos (by rw [hfresh]; rfl)
            rw [hadd] at h
            simp only at h
            have hn0 : inum1 ≠ ROOT_DIR_INUM := by simp only [ROOT_DIR_INUM]; omega
            by_cases hr2 : r2 = -1
            · rw [if_pos hr2] at h
              cases h
              exact inv_inode_delete hi2 _ hn0
            · rw [if_neg hr2] at h
              obtain ⟨_, rfl⟩ := done_pair_eq h
              rcases hres with ⟨_, hrb, _⟩ | ⟨hbad, _⟩
              · apply inv_add_to_open_file_table hi2 _ _ hpos _ hrb
                unfold inode_get
                rw [hfr _ hn0]
                obtain ⟨x, hx, _⟩ := at_index_of_inode_get hfresh
                rw [hx]; rfl
              · exact absurd hbad hr2
        · rw [if_neg hcr] at h
          cases h; exact hi
    · rw [tfs_open_invalid fuel name mode s (by simpa using hv)] at h
      cases h; exact hi

theorem get_open_file_entry_some {s : tfs_state} {fh : Int} {file : open_file_entry_t}
    (h : get_open_file_entry fh s = some file) :
    at_index s.open_file_table fh = some ⟨true, file⟩ := by
  unfold get_open_file_entry at h
  cases ha : at_index s.open_file_table fh with
  | none => rw [ha] at h; cases h
  | some x =>
    rw [ha] at h
    simp only at h
    by_cases ht : x.taken = true
    · rw [if_pos ht] at h
      cases h
      cases x
      simp only at ht
      rw [ht]
    · rw [if_neg ht] at h; cases h

theorem inv_open_file {s : tfs_state} (hi : Inv s) {fh : Int}
    {file : open_file_entry_t} (h : get_open_file_entry fh s = some file) :
    0 < file.of_inumber ∧ (inode_get file.of_inumber s).isSome ∧ root_block s ≠ -1 :=
  hi.files fh _ (get_open_file_entry_some h) rfl

theorem inv_tfs_close {s : tfs_state} (hi : Inv s) (fh : Int) :
    Inv (tfs_close fh s).2 := by
  unfold tfs_close
  cases get_open_file_entry fh s with
  | none => exact hi
  | some _ => exact inv_remove_from_open_file_table hi fh

theorem inv_tfs_read {s s1 : tfs_state} (hi : Inv s) (fh : Int) (len : Nat) (r : Int)
    (out : List Nat) (h : tfs_read fh len s = .done (r, out, s1)) : Inv s1 := by
  unfold tfs_read at h
  cases hf : get_open_file_entry fh s with
  | none => rw [hf] at h; cases h; exact hi
  | some file =>
    rw [hf] at h
    simp only at h
    obtain ⟨hp, hs, hrb⟩ := inv_open_file hi hf
    cases hg : inode_get file.of_inumber s with
    | none => rw [hg] at h; cases h
    | some inode =>
      rw [hg] at h
      simp only at h
      generalize (if len < size_sub inode.i_size file.of_offset then len
        else size_sub inode.i_size file.of_offset) = n at h
      by_cases hn : 0 < n
      · rw [if_pos hn] at h
        cases hb : data_block_get inode.i_data_block s with
        | none => rw [hb] at h; cases h
        | some block =>
          rw [hb] at h
          cases h
          exact inv_open_file_put hi fh _ hp hs hrb
      · rw [if_neg hn] at h
        cases h; exact hi

theorem length_memcpy_to_block {blk src blk1 : List Nat} {off n : Nat}
    (h : memcpy_to_block blk off src n = some blk1) : blk1.length = blk.length := by
  unfold memcpy_to_block at h
  split at h
  · rename_i hc
    cases h
    simp only [List.length_append, List.length_take, List.length_drop]
    omega
  · cases h

/-- A block that holds bytes is not the block of the directory. -/
theorem bytes_block_ne_root {s : tfs_state} (hi : Inv s) {b : Int} {l : List Nat}
    (h : data_block_get b s = some (.bytes l)) : b ≠ root_block s := by
  intro hb
  subst hb
  by_cases hd : root_block s = -1
  · unfold data_block_get at h
    rw [hd, at_index_neg _ _ (by omega)] at h
    cases h
  · rw [(inv_dir_entries hi hd).2] at h
    cases h

theorem inv_bytes_length {s : tfs_state} (hi : Inv s) {b : Int} {l : List Nat}
    (h : data_block_get b s = some (.bytes l)) : l.length = s.params.block_size := by
  have hb := bytes_block_ne_root hi h
  unfold data_block_get at h
  cases ha : at_index s.fs_data b with
  | none => rw [ha] at h; cases h
  | some x =>
    rw [ha] at h
    simp only [Option.map_some', Option.some.injEq] at h
    obtain ⟨l1, h1, h2⟩ := hi.blocks b x ha hb
    rw [h] at h1
    cases h1
    exact h2

theorem inv_tfs_write_copy {s s1 : tfs_state} (hi : Inv s) (fh : Int)
    (file : open_file_entry_t) (inode : inode_t) (buffer : List Nat) (n : Nat)
    (r : Int) (hf : get_open_file_entry fh s = some file)
    (h : tfs_write_copy fh file inode buffer n s = .done (r, s1)) : Inv s1 := by
  obtain ⟨hp, hs, hrb⟩ := inv_open_file hi hf
  unfold tfs_write_copy at h
  split at h
  · rename_i blk hblk
    split at h
    · cases h
    · rename_i blk1 hcp
      simp only at h
      cases h
      have hne := bytes_block_ne_root hi hblk
      have hlen : blk1.length = s.params.block_size := by
        rw [length_memcpy_to_block hcp]; exact inv_bytes_length hi hblk
      have hi1 := inv_data_block_put_bytes hi _ blk1 hne hlen
      have hi2 := inv_open_file_put hi1 fh
        { file with of_offset := size_add file.of_offset n } hp
        (by rw [inode_get_data_block_put]; exact hs)
        (by rw [root_block_congr (data_block_put_inode_table _ _ _)]; exact hrb)
      apply inv_inode_put hi2 _ _ (by simp only [ROOT_DIR_INUM]; omega)
      intro _
      have hr2 : root_block (open_file_put fh
          { file with of_offset := size_add file.of_offset n }
          (data_block_put inode.i_data_block (.bytes blk1) s)) = root_block s :=
        root_block_congr (by simp)
      rw [hr2]
      refine ⟨hne, hrb, ?_⟩
      simp only [open_file_put_fs_data]
      rw [data_block_put_at_same]
      unfold data_block_get at hblk
      cases ha : at_index s.fs_data inode.i_data_block with
      | none => rw [ha] at hblk; cases hblk
      | some x => rfl
  · cases h

theorem get_open_file_entry_congr {s t : tfs_state}
    (h : t.open_file_table = s.open_file_table) (fh : Int) :
    get_open_file_entry fh t = get_open_file_entry fh s := by
  unfold get_open_file_entry; rw [h]

theorem inv_tfs_write {s s1 : tfs_state} (hi : Inv s) (fh : Int) (buffer : List Nat)
    (to_write : Nat) (r : Int)
    (h : tfs_write fh buffer to_write s = .done (r, s1)) : Inv s1 := by
  unfold tfs_write at h
  cases hf : get_open_file_entry fh s with
  | none => rw [hf] at h; cases h; exact hi
  | some file =>
    rw [hf] at h
    simp only at h
    cases hg : inode_get file.of_inumber s with
    | none => rw [hg] at h; cases h
    | some inode =>
      rw [hg] at h
      simp only at h
      generalize (if state_block_size s < size_add to_write file.of_offset
        then size_sub (state_block_size s) file.of_offset else to_write) = n at h
      by_cases hn : 0 < n
      · rw [if_pos hn] at h
        by_cases hz : inode.i_size = 0
        · rw [if_pos hz] at h
          have ha := inv_data_block_alloc hi
          have hot : (data_block_alloc s).2.open_file_table = s.open_file_table := by
            rcases data_block_alloc_spec s with ⟨h1, _⟩ | ⟨k, x, _, _, h1⟩ <;> rw [h1]
          generalize data_block_alloc s = p at h ha hot
          obtain ⟨bnum, sa⟩ := p
          simp only at h ha hot
          by_cases hb : bnum = -1
          · rw [if_pos hb] at h
            cases h; exact ha
          · rw [if_neg hb] at h
            exact inv_tfs_write_copy ha fh file _ buffer _ r
              (by rw [get_open_file_entry_congr hot]; exact hf) h
        · rw [if_neg hz] at h
          exact inv_tfs_write_copy hi fh file _ buffer _ r hf h
      · rw [if_neg hn] at h
        cases h; exact hi

/-- Under the invariant a lookup returns -1 or the inumber of an inode other
than the root that the slot array gives to the name of a valid path. -/
theorem tfs_lookup_inv {s : tfs_state} (hi : Inv s) (name : List Nat) :
    ∃ i, tfs_lookup name ROOT_DIR_INUM s = .done i ∧
      (i = -1 ∨ (valid_pathname name = true ∧
        i = find_entry (name.drop 1) (dir_entries s) ∧ 0 < i ∧
        (inode_get i s).isSome)) := by
  rw [tfs_lookup_root hi]
  by_cases hv : valid_pathname name = true
  · rw [if_pos hv]
    by_cases hf : find_entry (name.drop 1) (dir_entries s) = -1
    · exact ⟨_, rfl, Or.inl hf⟩
    · obtain ⟨h1, h2⟩ := find_entry_inv hi _ hf
      exact ⟨_, rfl, Or.inr ⟨hv, rfl, h1, h2⟩⟩
  · rw [if_neg hv]
    exact ⟨_, rfl, Or.inl rfl⟩

theorem inv_tfs_link {s s1 : tfs_state} (hi : Inv s) (target link_name : List Nat)
    (r : Int) (h : tfs_link target link_name s = .done (r, s1)) : Inv s1 := by
  unfold tfs_link at h
  obtain ⟨i, hl, hcase⟩ := tfs_lookup_inv hi target
  rw [hl] at h
  simp only at h
  rcases hcase with hm | ⟨_, _, hpos, hsome⟩
  · rw [if_pos (by omega)] at h
    cases h; exact hi
  · rw [if_neg (by omega)] at h
    cases hg : inode_get i s with
    | none => rw [hg] at hsome; cases hsome
    | some file_inode =>
      rw [hg] at h
      simp only at h
      by_cases hsym : file_inode.origin_path ≠ []
      · rw [if_pos hsym] at h
        cases h; exact hi
      · rw [if_neg hsym] at h
        cases link_name with
        | nil => cases h
        | cons c sub_name =>
          simp only at h
          obtain ⟨a, s2, hadd, hi2, _, _, hfr, _, _⟩ :=
            add_dir_entry_root hi sub_name _ hpos hsome
          rw [hadd] at h
          simp only at h
          by_cases ha : a ≠ 0
          · rw [if_pos ha] at h
            cases h; exact hi2
          · rw [if_neg ha] at h
            cases hf1 : inode_get i s2 with
            | none => rw [hf1] at h; cases h
            | some f1 =>
              rw [hf1] at h
              cases h
              apply inv_inode_put hi2 _ _ (by simp only [ROOT_DIR_INUM]; omega)
              intro hp
              exact inv_own_get (v := f1) hi2 hf1 hp

theorem inv_tfs_sym_link {s s1 : tfs_state} (hi : Inv s) (target link_name : List Nat)
    (r : Int) (h : tfs_sym_link target link_name s = .done (r, s1)) : Inv s1 := by
  unfold tfs_sym_link at h
  have hc := inv_inode_create hi .T_FILE
  generalize inode_create .T_FILE s = p at h hc
  obtain ⟨li, sc⟩ := p
  simp only at h hc
  obtain ⟨hic, hcase⟩ := hc
  rcases hcase with hm | ⟨hpos, hfresh⟩
  · subst hm
    have : inode_get (-1) sc = none := by
      unfold inode_get; rw [at_index_neg _ _ (by omega)]; rfl
    rw [this] at h
    cases h
  · rw [hfresh] at h
    simp only at h
    have hn0 : li ≠ ROOT_DIR_INUM := by simp only [ROOT_DIR_INUM]; omega
    have hi2 := inv_inode_put hic li
      { fresh_inode .T_FILE with origin_path := target.take (MAX_FILE_NAME - 1) } hn0
      (by intro h0; simp [fresh_inode] at h0)
    obtain ⟨i, hl, _⟩ := tfs_lookup_inv hi2 target
    rw [hl] at h
    simp only at h
    by_cases hm : i = -1
    · rw [if_pos hm] at h
      cases h; exact hi2
    · rw [if_neg hm] at h
      cases link_name with
      | nil => cases h
      | cons c sub_name =>
        simp only at h
        obtain ⟨a, s3, hadd, hi3, _⟩ := add_dir_entry_root hi2 sub_name li hpos
          (by rw [inode_get_isSome_inode_put, hfresh]; rfl)
        rw [hadd] at h
        simp only at h
        by_cases ha : a ≠ 0
        · rw [if_pos ha] at h; cases h; exact hi3
        · rw [if_neg ha] at h; cases h; exact hi3

theorem inv_tfs_unlink {s s1 : tfs_state} (hi : Inv s) (target : List Nat)
    (r : Int) (h : tfs_unlink target s = .done (r, s1)) : Inv s1 := by
  unfold tfs_unlink at h
  obtain ⟨i, hl, hcase⟩ := tfs_lookup_inv hi target
  rw [hl] at h
  simp only at h
  by_cases hv : valid_pathname target = true
  · simp only [hv, Bool.not_true, Bool.false_eq_true, if_false] at h
    by_cases hopen : is_in_open_file_table i s = true
    · rw [if_pos hopen] at h
      cases h; exact hi
    · rw [if_neg hopen] at h
      by_cases hf : find_entry (target.drop 1) (dir_entries s) = -1
      · rw [clear_dir_entry_missing hi _ hf] at h
        simp only at h
        rw [if_pos (by omega)] at h
        cases h; exact hi
      · obtain ⟨hd, es1, he, hc⟩ := clear_dir_entry_found hi _ hf
        have hi1 := inv_clear_dir_entry hi _ _ _ hc
        rw [hc] at h
        simp only at h
        rw [if_neg (by omega)] at h
        rcases hcase with hm | ⟨_, hieq, hpos, _⟩
        · subst hm
          have : inode_get (-1) (data_block_put (root_block s) (.entries es1) s) = none := by
            unfold inode_get; rw [at_index_neg _ _ (by omega)]; rfl
          rw [this] at h
          cases h
        · have hn0 : i ≠ ROOT_DIR_INUM := by simp only [ROOT_DIR_INUM]; omega
          cases hfi : inode_get i (data_block_put (root_block s) (.entries es1) s) with
          | none => rw [hfi] at h; cases h
          | some fi =>
            rw [hfi] at h
            simp only at h
            have hi2 := inv_inode_put hi1 i
              { fi with i_hard_link_count := fi.i_hard_link_count - 1 } hn0
              (fun hp => inv_own_get hi1 (v := fi) hfi hp)
            by_cases hz : fi.i_hard_link_count - 1 = 0
            · rw [if_pos hz] at h
              cases h
              exact inv_inode_delete hi2 _ hn0
            · rw [if_neg hz] at h
              cases h
              exact hi2
  · simp only [hv, Bool.not_false, if_true] at h
    cases h; exact hi

/-- What a successful `tfs_init` builds: the root inode in slot 0 and every
other slot of the three tables free. -/
theorem tfs_init_state (pp : Option tfs_params) (s : tfs_state)
    (h : tfs_init pp = (0, s)) :
    ∃ (p : tfs_params) (n : Nat), p.max_inode_count = n + 1 ∧
      (pp = some p ∨ (pp = none ∧ p = tfs_default_params)) ∧
      s = { params := p,
            inode_table := ⟨true, fresh_inode .T_DIRECTORY⟩ ::
              List.replicate n ⟨false, zero_inode⟩,
            fs_data := List.replicate p.max_block_count ⟨false, zero_block p.block_size⟩,
            open_file_table := List.replicate p.max_open_files_count ⟨false, zero_file⟩ } := by
  have key : ∀ p : tfs_params,
      (match inode_create .T_DIRECTORY (state_init p) with
        | (root, s) => if root ≠ ROOT_DIR_INUM then ((-1 : Int), s) else (0, s)) = (0, s) →
      ∃ n : Nat, p.max_inode_count = n + 1 ∧
      s = { params := p,
            inode_table := ⟨true, fresh_inode .T_DIRECTORY⟩ ::
              List.replicate n ⟨false, zero_inode⟩,
            fs_data := List.replicate p.max_block_count ⟨false, zero_block p.block_size⟩,
            open_file_table := List.replicate p.max_open_files_count ⟨false, zero_file⟩ } := by
    intro p hp
    cases hn : p.max_inode_count with
    | zero =>
      simp [inode_create, state_init, hn, first_free, ROOT_DIR_INUM] at hp
    | succ n =>
      refine ⟨n, rfl, ?_⟩
      simp [inode_create, state_init, hn, first_free, ROOT_DIR_INUM,
        List.replicate_succ] at hp
      exact hp.symm
  unfold tfs_init at h
  cases pp with
  | none =>
    obtain ⟨n, h1, h2⟩ := key tfs_default_params h
    exact ⟨tfs_default_params, n, h1, Or.inr ⟨rfl, rfl⟩, h2⟩
  | some p =>
    obtain ⟨n, h1, h2⟩ := key p h
    exact ⟨p, n, h1, Or.inl rfl, h2⟩

theorem at_index_replicate {α : Type} {n : Nat} {a x : α} {i : Int}
    (h : at_index (List.replicate n a) i = some x) : x = a :=
  List.eq_of_mem_replicate (at_index_mem h)

theorem inv_tfs_init (pp : Option tfs_params) (s : tfs_state)
    (h : tfs_init pp = (0, s)) : Inv s := by
  obtain ⟨p, n, _, _, hs⟩ := tfs_init_state pp s h
  have h0 : at_index s.inode_table ROOT_DIR_INUM = some ⟨true, fresh_inode .T_DIRECTORY⟩ := by
    rw [hs]; simp [at_index, ROOT_DIR_INUM]
  have hrb : root_block s = -1 := by
    unfold root_block; rw [h0]; rfl
  constructor
  · exact ⟨_, h0, rfl⟩
  · exact Or.inl hrb
  · intro b x hx _
    rw [hs] at hx
    simp only at hx
    rw [at_index_replicate hx, hs]
    exact ⟨_, rfl, by simp⟩
  · intro fh x hx ht
    rw [hs] at hx
    simp only at hx
    rw [at_index_replicate hx] at ht
    cases ht
  · intro i x hx hp
    rw [hs] at hx
    simp only at hx
    rcases List.mem_cons.mp (at_index_mem hx) with hm | hm
    · rw [hm] at hp
      simp [fresh_inode] at hp
    · rw [List.eq_of_mem_replicate hm] at hp
      simp [zero_inode] at hp

/-- Every reachable state satisfies the invariant. -/
theorem reachable_inv {s : tfs_state} (h : Reachable s) : Inv s := by
  induction h with
  | init pp s h => exact inv_tfs_init pp s h
  | open_ s s1 fuel name mode r _ h ih => exact inv_tfs_open fuel name mode s s1 r ih h
  | close s fh _ ih => exact inv_tfs_close ih fh
  | read s s1 fh len r out _ h ih => exact inv_tfs_read ih fh len r out h
  | write s s1 fh buffer n r _ h ih => exact inv_tfs_write ih fh buffer n r h
  | link s s1 target link_name r _ h ih => exact inv_tfs_link ih target link_name r h
  | sym_link s s1 target link_name r _ h ih =>
    exact inv_tfs_sym_link ih target link_name r h
  | unlink s s1 target r _ h ih => exact inv_tfs_unlink ih target r h

/-! ## Direct consequences of the code -/

/-- With the `STRICT_CREATE` bit set `tfs_open` fails on a path that resolves
and leaves the state as it was. -/
theorem tfs_open_strict_existing (s : tfs_state) (fuel : Nat) (p : List Nat)
    (mode : tfs_file_mode_t) (i : Int)
    (hl : tfs_lookup p ROOT_DIR_INUM s = .done i) (hi : 0 ≤ i)
    (hm : mode.strict_create = true) :
    tfs_open (fuel + 1) p mode s = .done (-1, s) := by
  rw [tfs_open]
  by_cases hv : valid_pathname p = true
  · simp only [hv, Bool.not_true, Bool.false_eq_true, if_false, hl]
    cases hg : inode_get ROOT_DIR_INUM s with
    | none =>
      unfold tfs_lookup at hl
      rw [hg] at hl
      cases hl
    | some r =>
      simp only [if_pos hi, hm, if_true]
  · simp [hv]

/-- A path of `MAX_FILE_NAME` bytes or more is not valid. -/
theorem valid_pathname_too_long (p : List Nat) (h : MAX_FILE_NAME ≤ p.length) :
    valid_pathname p = false := by
  unfold valid_pathname
  simp only [Bool.and_eq_false_imp, decide_eq_false_iff_not]
  intro _
  omega

/-- A path that starts with `'/'` and has between 2 and `MAX_FILE_NAME - 1`
bytes is valid. -/
theorem valid_pathname_of_length (p : List Nat) (h0 : p.head? = some SLASH)
    (h1 : 1 < p.length) (h2 : p.length < MAX_FILE_NAME) : valid_pathname p = true := by
  unfold valid_pathname
  simp [h0, h1, h2]

theorem tfs_link_missing (s : tfs_state) (target link_name : List Nat) (i : Int)
    (hl : tfs_lookup target ROOT_DIR_INUM s = .done i) (hi : i < 0) :
    tfs_link target link_name s = .done (-1, s) := by
  unfold tfs_link
  rw [hl]
  simp only [if_pos hi]

theorem tfs_link_to_symlink (s : tfs_state) (target link_name : List Nat) (i : Int)
    (ino : inode_t) (hl : tfs_lookup target ROOT_DIR_INUM s = .done i)
    (hg : inode_get i s = some ino) (hs : ino.origin_path ≠ []) :
    tfs_link target link_name s = .done (-1, s) := by
  unfold tfs_link
  rw [hl]
  simp only
  by_cases hi : i < 0
  · rw [if_pos hi]
  · rw [if_neg hi, hg]
    simp only [if_pos hs]

/-! ## The directory across the operations -/

theorem dir_entries_add_open (i : Int) (o : Nat) (s : tfs_state) :
    dir_entries (add_to_open_file_table i o s).2 = dir_entries s :=
  dir_entries_congr (by simp) (by simp)

theorem dir_entries_remove (fh : Int) (s : tfs_state) :
    dir_entries (remove_from_open_file_table fh s) = dir_entries s :=
  dir_entries_congr (by simp) (by simp)

theorem dir_entries_tfs_close (fh : Int) (s : tfs_state) :
    dir_entries (tfs_close fh s).2 = dir_entries s := by
  unfold tfs_close
  cases get_open_file_entry fh s with
  | none => rfl
  | some _ => exact dir_entries_remove fh s

theorem dir_entries_open_file_put (fh : Int) (v : open_file_entry_t) (s : tfs_state) :
    dir_entries (open_file_put fh v s) = dir_entries s :=
  dir_entries_congr rfl rfl

theorem dir_entries_inode_put (i : Int) (v : inode_t) (s : tfs_state)
    (h : i ≠ ROOT_DIR_INUM) : dir_entries (inode_put i v s) = dir_entries s :=
  dir_entries_congr (inode_put_at_other _ _ _ _ h) (by simp)

theorem dir_entries_data_block_free (b : Int) (s : tfs_state) (h : b ≠ root_block s) :
    dir_entries (data_block_free b s) = dir_entries s :=
  dir_entries_congr (by simp) (data_block_free_at_other _ _ _ h)

theorem dir_entries_data_block_put (b : Int) (v : block_t) (s : tfs_state)
    (h : b ≠ root_block s) : dir_entries (data_block_put b v s) = dir_entries s :=
  dir_entries_congr (by simp) (data_block_put_at_other _ _ _ _ h)

theorem root_ne_of_free_inode {s : tfs_state} (hi : Inv s) {k : Nat} {x : slot inode_t}
    (hx : s.inode_table[k]? = some x) (hx1 : x.taken = false) :
    (k : Int) ≠ ROOT_DIR_INUM := by
  intro hk
  obtain ⟨r, hr, _⟩ := hi.root
  rw [← hk, at_index_natCast, hx] at hr
  cases hr
  cases hx1

/-- The function `inode_create` changes one inode slot that was free, and
nothing else. -/
theorem inode_create_frame {s : tfs_state} (hi : Inv s) (t : inode_type) :
    (inode_create t s).2.fs_data = s.fs_data ∧
    (inode_create t s).2.open_file_table = s.open_file_table ∧
    (inode_create t s).2.params = s.params ∧
    (∀ j : Int, j ≠ (inode_create t s).1 →
      at_index (inode_create t s).2.inode_table j = at_index s.inode_table j) ∧
    dir_entries (inode_create t s).2 = dir_entries s ∧
    root_block (inode_create t s).2 = root_block s := by
  rcases inode_create_spec t s with ⟨h, _⟩ | ⟨k, x, hx, hx1, h⟩
  · rw [h]; exact ⟨rfl, rfl, rfl, fun _ _ => rfl, rfl, rfl⟩
  · rw [h]
    have hk := root_ne_of_free_inode hi hx hx1
    have h0 : at_index (set_index s.inode_table (k : Int) ⟨true, fresh_inode t⟩)
        ROOT_DIR_INUM = at_index s.inode_table ROOT_DIR_INUM :=
      at_index_set_index_other _ _ _ _ hk
    refine ⟨rfl, rfl, rfl, ?_, dir_entries_congr h0 rfl, ?_⟩
    · intro j hj
      exact at_index_set_index_other _ _ _ _ (Ne.symm hj)
    · unfold root_block
      simp only
      rw [h0]

/-- The function `inode_delete` on an inode other than the root leaves the
directory alone. -/
theorem dir_entries_inode_delete {s : tfs_state} (hi : Inv s) (i : Int)
    (h0 : i ≠ ROOT_DIR_INUM) : dir_entries (inode_delete i s) = dir_entries s := by
  unfold inode_delete
  cases hg : inode_get i s with
  | none => rfl
  | some ino =>
    simp only
    by_cases hp : 0 < ino.i_size
    · rw [if_pos hp]
      have hne := (inv_own_get hi hg hp).1
      rw [← dir_entries_data_block_free _ s hne]
      apply dir_entries_congr
      · simp only
        exact at_index_set_index_other _ _ _ _ h0
      · rfl
    · rw [if_neg hp]
      apply dir_entries_congr
      · simp only
        exact at_index_set_index_other _ _ _ _ h0
      · rfl

/-- A call of `tfs_open` that returns removes no name from the directory,
and when it returns a handle its path is valid and resolves afterwards. -/
theorem tfs_open_dir : ∀ (fuel : Nat) (name : List Nat) (mode : tfs_file_mode_t)
    (s s1 : tfs_state) (r : Int), Inv s →
    tfs_open fuel name mode s = .done (r, s1) →
    (∀ q, find_entry q (dir_entries s) ≠ -1 →
      find_entry q (dir_entries s1) = find_entry q (dir_entries s)) ∧
    (0 ≤ r → valid_pathname name = true ∧
      find_entry (name.drop 1) (dir_entries s1) ≠ -1)
  | 0, _, _, _, _, _, _, h => by simp [tfs_open] at h
  | fuel + 1, name, mode, s, s1, r, hi, h => by
    by_cases hv : valid_pathname name = true
    · rw [tfs_open_step hi fuel name mode hv] at h
      by_cases hfound : 0 ≤ find_entry (name.drop 1) (dir_entries s)
      · rw [if_pos hfound] at h
        have hne : find_entry (name.drop 1) (dir_entries s) ≠ -1 := by omega
        obtain ⟨hpos, hsome⟩ := find_entry_inv hi _ hne
        by_cases hstrict : mode.strict_create = true
        · rw [if_pos hstrict] at h
          cases h
          exact ⟨fun _ _ => rfl, fun h0 => by omega⟩
        · rw [if_neg hstrict] at h
          cases hg : inode_get (find_entry (name.drop 1) (dir_entries s)) s with
          | none => rw [hg] at hsome; cases hsome
          | some inode =>
            rw [hg] at h
            simp only at h
            by_cases hsym : inode.origin_path ≠ []
            · rw [if_pos hsym] at h
              obtain ⟨ih1, _⟩ := tfs_open_dir fuel _ mode s s1 r hi h
              refine ⟨ih1, fun _ => ⟨hv, ?_⟩⟩
              rw [ih1 _ hne]; exact hne
            · rw [if_neg hsym] at h
              have hn0 : find_entry (name.drop 1) (dir_entries s) ≠ ROOT_DIR_INUM := by
                simp only [ROOT_DIR_INUM]; omega
              by_cases htr : mode.trunc = true ∧ 0 < inode.i_size
              · rw [if_pos htr] at h
                obtain ⟨_, rfl⟩ := done_pair_eq h
                have hde : dir_entries (add_to_open_file_table
                    (find_entry (name.drop 1) (dir_entries s)) 0
                    (inode_put (find_entry (name.drop 1) (dir_entries s))
                      { inode with i_size := 0 }
                      (data_block_free inode.i_data_block s))).2 = dir_entries s := by
                  rw [dir_entries_add_open, dir_entries_inode_put _ _ _ hn0,
                    dir_entries_data_block_free _ _ (inv_own_get hi hg htr.2).1]
                rw [hde]
                exact ⟨fun _ _ => rfl, fun _ => ⟨hv, hne⟩⟩
              · rw [if_neg htr] at h
                obtain ⟨_, rfl⟩ := done_pair_eq h
                rw [dir_entries_add_open]
                exact ⟨fun _ _ => rfl, fun _ => ⟨hv, hne⟩⟩
      · rw [if_neg hfound] at h
        by_cases hcr : mode.creat = true
        · rw [if_pos hcr] at h
          have hc := inv_inode_create hi .T_FILE
          have hfr := inode_create_frame hi .T_FILE
          generalize inode_create .T_FILE s = p at h hc hfr
          obtain ⟨inum1, sc⟩ := p
          simp only at h hc hfr
          obtain ⟨hic, hcase⟩ := hc
          obtain ⟨_, _, _, _, hdc, _⟩ := hfr
          rcases hcase with hm | ⟨hpos, hfresh⟩
          · rw [if_pos hm] at h
            cases h
            rw [hdc]
            exact ⟨fun _ _ => rfl, fun h0 => by omega⟩
          · rw [if_neg (by omega)] at h
            obtain ⟨r2, s2, hadd, hi2, _, _, _, _, hres⟩ :=
              add_dir_entry_root hic (name.drop 1) inum1 hpos (by rw [hfresh]; rfl)
            rw [hadd] at h
            simp only at h
            have hn0 : inum1 ≠ ROOT_DIR_INUM := by simp only [ROOT_DIR_INUM]; omega
            by_cases hr2 : r2 = -1
            · rw [if_pos hr2] at h
              cases h
              rw [dir_entries_inode_delete hi2 _ hn0]
              rcases hres with ⟨h0, _⟩ | ⟨_, hsame⟩
              · omega
              · refine ⟨fun q _ => ?_, fun h0 => by omega⟩
                rw [hsame q, hdc]
            · rw [if_neg hr2] at h
              obtain ⟨_, rfl⟩ := done_pair_eq h
              rw [dir_entries_add_open]
              rcases hres with ⟨_, _, hnew, hfind, hother⟩ | ⟨hbad, _⟩
              · refine ⟨fun q hq => ?_, fun _ => ⟨hv, ?_⟩⟩
                · have hqn : q ≠ name.drop 1 := by
                    intro hqn
                    rw [hqn, ← hdc] at hq
                    exact hq hnew
                  rw [hother q hqn, hdc]
                · rw [hfind]; omega
              · exact absurd hbad hr2
        · rw [if_neg hcr] at h
          cases h
          exact ⟨fun _ _ => rfl, fun h0 => by omega⟩
    · rw [tfs_open_invalid fuel name mode s (by simpa using hv)] at h
      cases h
      exact ⟨fun _ _ => rfl, fun h0 => by omega⟩

/-! ## Successful calls of `tfs_open` -/

theorem get_open_file_entry_set_same (s : tfs_state) (k : Nat)
    (v : open_file_entry_t) (x : slot open_file_entry_t)
    (hx : s.open_file_table[k]? = some x) :
    get_open_file_entry (k : Int)
      { s with open_file_table := s.open_file_table.set k ⟨true, v⟩ } = some v := by
  unfold get_open_file_entry
  simp only [← set_index_natCast]
  rw [at_index_set_index_same, at_index_natCast, hx]
  rfl

theorem get_open_file_entry_set_other (s : tfs_state) (k : Nat) (h : Int)
    (y : slot open_file_entry_t) (hk : (k : Int) ≠ h) :
    get_open_file_entry h { s with open_file_table := s.open_file_table.set k y } =
      get_open_file_entry h s := by
  unfold get_open_file_entry
  simp only [← set_index_natCast]
  rw [at_index_set_index_other _ _ _ _ hk]

/-- With a free entry `add_to_open_file_table` returns a handle on the pair
stored and leaves the other handles alone. -/
theorem add_to_open_file_table_free (i : Int) (o : Nat) (s : tfs_state)
    (hfree : ∃ x ∈ s.open_file_table, x.taken = false) :
    ∃ k : Nat, (add_to_open_file_table i o s).1 = (k : Int) ∧
      get_open_file_entry (k : Int) (add_to_open_file_table i o s).2 =
        some { of_inumber := i, of_offset := o } ∧
      get_open_file_entry (k : Int) s = none ∧
      ∀ h : Int, h ≠ (k : Int) →
        get_open_file_entry h (add_to_open_file_table i o s).2 =
          get_open_file_entry h s := by
  obtain ⟨x, hx, hx1⟩ := hfree
  obtain ⟨k, hk⟩ := first_free_some_of_free _ x hx hx1
  obtain ⟨y, hy, hy1⟩ := first_free_spec _ _ hk
  refine ⟨k, ?_, ?_, ?_, ?_⟩
  · unfold add_to_open_file_table; rw [hk]
  · unfold add_to_open_file_table; rw [hk]
    exact get_open_file_entry_set_same s k _ y hy
  · unfold get_open_file_entry
    rw [at_index_natCast, hy]
    simp [hy1]
  · intro h hh
    unfold add_to_open_file_table; rw [hk]
    exact get_open_file_entry_set_other s k h _ (Ne.symm hh)

theorem add_dir_entry_unallocated {s : tfs_state} (hi : Inv s) (name : List Nat)
    (i : Int) (hn : ¬ (SLASH ∈ name ∨ MAX_FILE_NAME - 1 < name.length))
    (hd : root_block s = -1) (r : inode_t)
    (hr : inode_get ROOT_DIR_INUM s = some r) :
    add_dir_entry ROOT_DIR_INUM name i s =
      match data_block_alloc s with
      | (b, s1) =>
        if b = -1 then .done (-1, s1)
        else
          match fill_entry name i (List.replicate (MAX_DIR_ENTRIES s) empty_entry) with
          | none =>
            .done (-1, inode_put ROOT_DIR_INUM { r with i_data_block := b }
              (data_block_put b
                (.entries (List.replicate (MAX_DIR_ENTRIES s) empty_entry)) s1))
          | some es =>
            .done (0, inode_put ROOT_DIR_INUM { r with i_data_block := b }
              (data_block_put b (.entries es) s1)) := by
  obtain ⟨r1, hr1, _, hb, _⟩ := inv_root hi
  rw [hr] at hr1
  cases hr1
  unfold add_dir_entry
  rw [if_neg hn, hr]
  simp only [hb]
  rw [if_pos hd]

/-- With room in the directory `add_dir_entry` stores a fresh acceptable
name. -/
theorem add_dir_entry_room {s : tfs_state} (hi : Inv s) (name : List Nat) (i : Int)
    (hn : ¬ (SLASH ∈ name ∨ MAX_FILE_NAME - 1 < name.length))
    (hf : find_entry name (dir_entries s) = -1) (hroom : dir_has_room s) :
    ∃ s1, add_dir_entry ROOT_DIR_INUM name i s = .done (0, s1) := by
  by_cases hd : root_block s = -1
  · obtain ⟨r, hr, _, _, _⟩ := inv_root hi
    rw [add_dir_entry_unallocated hi name i hn hd r hr]
    rcases hroom with ⟨e, he, _⟩ | ⟨_, ⟨x, hx, hx1⟩, hcap⟩
    · rw [dir_entries_unallocated hd] at he; cases he
    · rcases data_block_alloc_spec s with ⟨_, hfull⟩ | ⟨k, y, hy, hy1, ha⟩
      · have := hfull x hx
        rw [hx1] at this
        cases this
      · rw [ha]
        simp only
        rw [if_neg (by omega)]
        obtain ⟨n, hn1⟩ : ∃ n, MAX_DIR_ENTRIES s = n + 1 := ⟨MAX_DIR_ENTRIES s - 1, by omega⟩
        rw [hn1, fill_entry_replicate]
        exact ⟨_, rfl⟩
  · rw [add_dir_entry_allocated hi name i hn hd, if_neg (by simpa using hf)]
    rcases hroom with hslot | ⟨h0, _⟩
    · obtain ⟨es1, hes⟩ := fill_entry_isSome name i _ hslot
      rw [hes]
      exact ⟨_, rfl⟩
    · exact absurd h0 hd

theorem name_of_valid_path (p : List Nat) (hv : valid_pathname p = true) :
    ¬ (MAX_FILE_NAME - 1 < (p.drop 1).length) ∧ 1 < p.length ∧
      p.length < MAX_FILE_NAME ∧ p.head? = some SLASH := by
  unfold valid_pathname at hv
  simp only [Bool.and_eq_true, decide_eq_true_eq, beq_iff_eq] at hv
  refine ⟨?_, hv.1.1, hv.2, hv.1.2⟩
  simp only [List.length_drop]
  omega

theorem dir_has_room_congr {s t : tfs_state} (h1 : dir_entries t = dir_entries s)
    (h2 : root_block t = root_block s) (h3 : t.fs_data = s.fs_data)
    (h4 : t.params = s.params) (h : dir_has_room s) : dir_has_room t := by
  unfold dir_has_room MAX_DIR_ENTRIES at h ⊢
  rw [h1, h2, h3, h4]
  exact h

/-- A call of `tfs_open` with the `CREAT` bit on a fresh name, with a free
inode, room in the directory and a free open-file entry: the call returns a
handle at offset 0 on a fresh inode that the name finds. -/
theorem tfs_open_creates {s : tfs_state} (hi : Inv s) (fuel : Nat) (p : List Nat)
    (mode : tfs_file_mode_t) (hv : valid_pathname p = true)
    (hslash : SLASH ∉ p.drop 1)
    (hnew : find_entry (p.drop 1) (dir_entries s) = -1)
    (hcreat : mode.creat = true)
    (hino : ∃ x ∈ s.inode_table, x.taken = false)
    (hroom : dir_has_room s)
    (hfile : ∃ x ∈ s.open_file_table, x.taken = false) :
    ∃ (k : Nat) (s1 : tfs_state) (inum : Int),
      tfs_open (fuel + 1) p mode s = .done ((k : Int), s1) ∧ Inv s1 ∧ 0 < inum ∧
      get_open_file_entry (k : Int) s1 = some { of_inumber := inum, of_offset := 0 } ∧
      inode_get inum s1 = some (fresh_inode .T_FILE) ∧
      find_entry (p.drop 1) (dir_entries s1) = inum ∧
      s1.params = s.params ∧
      (∀ c : Int, c ≠ root_block s1 → at_index s1.fs_data c = at_index s.fs_data c) ∧
      (∀ q, q ≠ p.drop 1 → find_entry q (dir_entries s1) = find_entry q (dir_entries s)) ∧
      (∀ h : Int, h ≠ (k : Int) → get_open_file_entry h s1 = get_open_file_entry h s) ∧
      (∀ j : Int, j ≠ inum → j ≠ ROOT_DIR_INUM →
        at_index s1.inode_table j = at_index s.inode_table j) := by
  rw [tfs_open_step hi fuel p mode hv, if_neg (by omega), if_pos hcreat]
  have hc := inv_inode_create hi .T_FILE
  have hfr := inode_create_frame hi .T_FILE
  have hsp := inode_create_spec .T_FILE s
  generalize inode_create .T_FILE s = pr at hc hfr hsp
  obtain ⟨inum1, sc⟩ := pr
  simp only at hc hfr hsp ⊢
  obtain ⟨hic, hcase⟩ := hc
  obtain ⟨hfs, hot, hpar, hoth, hdc, hrbc⟩ := hfr
  have hpos : 0 < inum1 := by
    rcases hcase with hm | ⟨hpos, _⟩
    · rcases hsp with ⟨_, hfull⟩ | ⟨k, x, _, _, hk⟩
      · obtain ⟨x, hx, hx1⟩ := hino
        have := hfull x hx
        rw [hx1] at this
        cases this
      · have := congrArg Prod.fst hk
        simp only at this
        omega
    · exact hpos
  have hfresh : inode_get inum1 sc = some (fresh_inode .T_FILE) := by
    rcases hcase with hm | ⟨_, hf⟩
    · omega
    · exact hf
  rw [if_neg (by omega)]
  have hnm := (name_of_valid_path p hv).1
  have hn : ¬ (SLASH ∈ p.drop 1 ∨ MAX_FILE_NAME - 1 < (p.drop 1).length) := by
    intro h
    rcases h with h | h
    · exact hslash h
    · exact hnm h
  obtain ⟨s2', hadd0⟩ := add_dir_entry_room hic (p.drop 1) inum1 hn
    (by rw [hdc]; exact hnew) (dir_has_room_congr hdc hrbc hfs hpar hroom)
  obtain ⟨r2, s2, hadd, hi2, hot2, hpar2, hfr2, hfs2, hres⟩ :=
    add_dir_entry_root hic (p.drop 1) inum1 hpos (by rw [hfresh]; rfl)
  rw [hadd0] at hadd
  cases hadd
  rw [hadd0]
  simp only
  rw [if_neg (by omega)]
  have hn0 : inum1 ≠ ROOT_DIR_INUM := by simp only [ROOT_DIR_INUM]; omega
  obtain ⟨k, hk1, hk2, _, hk4⟩ := add_to_open_file_table_free inum1 0 s2'
    (by rw [hot2, hot]; exact hfile)
  refine ⟨k, (add_to_open_file_table inum1 0 s2').2, inum1, ?_, ?_, hpos, hk2, ?_, ?_,
    ?_, ?_, ?_, ?_, ?_⟩
  · rw [← hk1]
  · rcases hres with ⟨_, hrb, _⟩ | ⟨hbad, _⟩
    · apply inv_add_to_open_file_table hi2 _ _ hpos _ hrb
      unfold inode_get
      rw [hfr2 _ hn0]
      obtain ⟨x, hx, _⟩ := at_index_of_inode_get hfresh
      rw [hx]; rfl
    · omega
  · rw [inode_get_congr (add_open_inode_table _ _ _)]
    unfold inode_get
    rw [hfr2 _ hn0]
    exact hfresh
  · rw [dir_entries_add_open]
    rcases hres with ⟨_, _, _, hfind, _⟩ | ⟨hbad, _⟩
    · exact hfind
    · omega
  · simp [hpar2, hpar]
  · intro c hc
    rw [root_block_congr (add_open_inode_table _ _ _)] at hc
    simp only [add_open_fs_data]
    rw [hfs2 c hc, hfs]
  · intro q hq
    rw [dir_entries_add_open]
    rcases hres with ⟨_, _, _, _, hother⟩ | ⟨hbad, _⟩
    · rw [hother q hq, hdc]
    · omega
  · intro h hh
    rw [hk4 h hh, get_open_file_entry_congr hot2, get_open_file_entry_congr hot]
  · intro j hj hj0
    simp only [add_open_inode_table]
    rw [hfr2 j hj0, hoth j hj]

/-- A call of `tfs_open` without the `STRICT_CREATE` and `TRUNC` bits on a
name that resolves to an inode that is not a symbolic link. -/
theorem tfs_open_existing {s : tfs_state} (hi : Inv s) (fuel : Nat) (p : List Nat)
    (mode : tfs_file_mode_t) (hv : valid_pathname p = true) (ino : inode_t)
    (hfound : find_entry (p.drop 1) (dir_entries s) ≠ -1)
    (hg : inode_get (find_entry (p.drop 1) (dir_entries s)) s = some ino)
    (hsym : ino.origin_path = []) (hstrict : mode.strict_create = false)
    (htr : mode.trunc = false) :
    tfs_open (fuel + 1) p mode s =
      .done (add_to_open_file_table (find_entry (p.drop 1) (dir_entries s))
        (if mode.append then ino.i_size else 0) s) := by
  obtain ⟨hpos, _⟩ := find_entry_inv hi _ hfound
  rw [tfs_open_step hi fuel p mode hv, if_pos (by omega), hg]
  simp [hstrict, hsym, htr]

/-! ## `tfs_write` and `tfs_read` -/

theorem size_mod_eq : SIZE_MOD = 18446744073709551616 := by
  unfold SIZE_MOD; norm_num

/-- The clamp of `tfs_write` when nothing overflows. -/
theorem write_clamp (bs off len : Nat) (h1 : off ≤ bs) (h2 : bs < 2 ^ 63)
    (h3 : len + off < 2 ^ 64) :
    (if bs < size_add len off then size_sub bs off else len) = min len (bs - off) := by
  have e63 : (2 : Nat) ^ 63 = 9223372036854775808 := by norm_num
  have e64 : (2 : Nat) ^ 64 = 18446744073709551616 := by norm_num
  rw [e63] at h2
  rw [e64] at h3
  unfold size_add size_sub
  rw [size_mod_eq, Nat.mod_eq_of_lt h3]
  by_cases h : bs < len + off
  · rw [if_pos h]
    have : bs + 18446744073709551616 - off = (bs - off) + 18446744073709551616 := by omega
    rw [this, Nat.add_mod_right, Nat.mod_eq_of_lt (by omega)]
    omega
  · rw [if_neg h]; omega

theorem to_ssize_small (n : Nat) (h : n < 2 ^ 63) : to_ssize n = (n : Int) := by
  unfold to_ssize; rw [if_pos h]

theorem size_add_small (a b : Nat) (h : a + b < 2 ^ 64) : size_add a b = a + b := by
  unfold size_add SIZE_MOD; exact Nat.mod_eq_of_lt h

theorem size_sub_small (a b : Nat) (h1 : b ≤ a) (h2 : a < 2 ^ 64) :
    size_sub a b = a - b := by
  have e64 : (2 : Nat) ^ 64 = 18446744073709551616 := by norm_num
  rw [e64] at h2
  unfold size_sub
  rw [size_mod_eq]
  have : a + 18446744073709551616 - b = (a - b) + 18446744073709551616 := by omega
  rw [this, Nat.add_mod_right, Nat.mod_eq_of_lt (by omega)]

/-- The block of an inode of positive size holds bytes, as many as the block
size. -/
theorem inv_sized_block {s : tfs_state} (hi : Inv s) {i : Int} {ino : inode_t}
    (hg : inode_get i s = some ino) (hp : 0 < ino.i_size) :
    ∃ blk, data_block_get ino.i_data_block s = some (.bytes blk) ∧
      blk.length = s.params.block_size := by
  obtain ⟨hne, _, hsome⟩ := inv_own_get hi hg hp
  cases ha : at_index s.fs_data ino.i_data_block with
  | none => rw [ha] at hsome; cases hsome
  | some x =>
    obtain ⟨l, hl, hlen⟩ := hi.blocks _ x ha hne
    refine ⟨l, ?_, hlen⟩
    unfold data_block_get
    rw [ha, ← hl]; rfl

/-- The copy of `tfs_write` into a byte block that has room for it. -/
theorem tfs_write_copy_bytes (fh : Int) (file : open_file_entry_t) (inode : inode_t)
    (buffer : List Nat) (n : Nat) (s : tfs_state) (blk : List Nat)
    (hb : data_block_get inode.i_data_block s = some (.bytes blk))
    (h1 : file.of_offset + n ≤ blk.length) (h2 : n ≤ buffer.length) :
    tfs_write_copy fh file inode buffer n s =
      .done (to_ssize n,
        inode_put file.of_inumber
          { inode with i_size := if inode.i_size < size_add file.of_offset n
              then size_add file.of_offset n else inode.i_size }
          (open_file_put fh { file with of_offset := size_add file.of_offset n }
            (data_block_put inode.i_data_block
              (.bytes (blk.take file.of_offset ++ buffer.take n ++
                blk.drop (file.of_offset + n))) s))) := by
  unfold tfs_write_copy
  rw [hb]
  simp only [memcpy_to_block, if_pos (And.intro h1 h2)]

/-- The four outcomes of `tfs_write` on an open file whose offset is inside
the block, when nothing overflows; `eff` is the effective length. They are:
nothing to write, a write into the block the inode has, no block left for an
empty file, and a write into a block allocated for an empty file. -/
theorem tfs_write_cases {s : tfs_state} (hi : Inv s) (fh : Int)
    (file : open_file_entry_t) (inode : inode_t) (buffer : List Nat) (len eff : Nat)
    (hf : get_open_file_entry fh s = some file)
    (hg : inode_get file.of_inumber s = some inode)
    (hoff : file.of_offset ≤ s.params.block_size)
    (hbs : s.params.block_size < 2 ^ 63)
    (hlen : len + file.of_offset < 2 ^ 64)
    (heff : min len (s.params.block_size - file.of_offset) = eff)
    (hbuf : eff ≤ buffer.length) :
    (eff = 0 → tfs_write fh buffer len s = .done (0, s)) ∧
    (0 < eff → 0 < inode.i_size →
      ∃ blk, data_block_get inode.i_data_block s = some (.bytes blk) ∧
        blk.length = s.params.block_size ∧
        tfs_write fh buffer len s =
          .done ((eff : Int),
            inode_put file.of_inumber
              { inode with i_size := max inode.i_size (file.of_offset + eff) }
              (open_file_put fh { file with of_offset := file.of_offset + eff }
                (data_block_put inode.i_data_block
                  (.bytes (blk.take file.of_offset ++ buffer.take eff ++
                    blk.drop (file.of_offset + eff))) s)))) ∧
    (0 < eff → inode.i_size = 0 → (∀ x ∈ s.fs_data, x.taken = true) →
      tfs_write fh buffer len s = .done (-1, s)) ∧
    (0 < eff → inode.i_size = 0 → (∃ x ∈ s.fs_data, x.taken = false) →
      ∃ (k : Nat) (x : slot block_t) (blk : List Nat),
        s.fs_data[k]? = some x ∧ x.taken = false ∧ x.val = .bytes blk ∧
        blk.length = s.params.block_size ∧ (k : Int) ≠ root_block s ∧
        tfs_write fh buffer len s =
          .done ((eff : Int),
            inode_put file.of_inumber
              { inode with i_data_block := (k : Int), i_size := file.of_offset + eff }
              (open_file_put fh { file with of_offset := file.of_offset + eff }
                (data_block_put (k : Int)
                  (.bytes (blk.take file.of_offset ++ buffer.take eff ++
                    blk.drop (file.of_offset + eff)))
                  { s with fs_data := set_index s.fs_data (k : Int) ⟨true, x.val⟩ })))) := by
  have e63 : (2 : Nat) ^ 63 = 9223372036854775808 := by norm_num
  have e64 : (2 : Nat) ^ 64 = 18446744073709551616 := by norm_num
  have hle : file.of_offset + eff ≤ s.params.block_size := by omega
  have hunf : tfs_write fh buffer len s =
      if 0 < eff then
        if inode.i_size = 0 then
          match data_block_alloc s with
          | (bnum, s1) =>
            if bnum = -1 then .done (-1, s1)
            else tfs_write_copy fh file { inode with i_data_block := bnum }
              buffer eff s1
        else tfs_write_copy fh file inode buffer eff s
      else .done (to_ssize eff, s) := by
    unfold tfs_write
    rw [hf]
    simp only
    rw [hg]
    simp only [state_block_size]
    rw [write_clamp _ _ _ hoff hbs hlen, heff]
  have hss : to_ssize eff = (eff : Int) := to_ssize_small eff (by omega)
  have hsa : size_add file.of_offset eff = file.of_offset + eff :=
    size_add_small _ _ (by omega)
  refine ⟨?_, ?_, ?_, ?_⟩
  · intro h0
    rw [hunf, if_neg (by omega), hss, h0]
    rfl
  · intro hpos hsz
    obtain ⟨blk, hblk, hbl⟩ := inv_sized_block hi hg hsz
    refine ⟨blk, hblk, hbl, ?_⟩
    rw [hunf, if_pos hpos, if_neg (by omega),
      tfs_write_copy_bytes fh file inode buffer eff s blk hblk (by omega) hbuf, hss, hsa]
    have : (if inode.i_size < file.of_offset + eff then file.of_offset + eff
        else inode.i_size) = max inode.i_size (file.of_offset + eff) := by
      by_cases h : inode.i_size < file.of_offset + eff
      · rw [if_pos h]; omega
      · rw [if_neg h]; omega
    rw [this]
  · intro hpos hsz hfull
    rw [hunf, if_pos hpos, if_pos hsz]
    rcases data_block_alloc_spec s with ⟨ha, _⟩ | ⟨k, x, hx, hx1, _⟩
    · rw [ha]; rfl
    · have := hfull x (List.getElem?_mem hx)
      rw [hx1] at this
      cases this
  · intro hpos hsz hfree
    rw [hunf, if_pos hpos, if_pos hsz]
    rcases data_block_alloc_spec s with ⟨_, hfull⟩ | ⟨k, x, hx, hx1, ha⟩
    · obtain ⟨y, hy, hy1⟩ := hfree
      have := hfull y hy
      rw [hy1] at this
      cases this
    · have hk := free_block_ne_root hi k x hx hx1
      obtain ⟨blk, hbv, hbl⟩ := hi.blocks (k : Int) x
        (by rw [at_index_natCast]; exact hx) hk
      refine ⟨k, x, blk, hx, hx1, hbv, hbl, hk, ?_⟩
      rw [ha]
      simp only
      rw [if_neg (by omega)]
      have hget : data_block_get
          ({ inode with i_data_block := (k : Int) } : inode_t).i_data_block
          { s with fs_data := set_index s.fs_data (k : Int) ⟨true, x.val⟩ } =
          some (.bytes blk) := by
        unfold data_block_get
        simp only
        rw [at_index_set_index_same, at_index_natCast, hx]
        simp [hbv]
      rw [tfs_write_copy_bytes fh file _ buffer eff _ blk hget (by omega) hbuf, hss, hsa]
      simp only [hsz]
      have : (if 0 < file.of_offset + eff then file.of_offset + eff else 0) =
          file.of_offset + eff := by
        by_cases h : 0 < file.of_offset + eff
        · rw [if_pos h]
        · rw [if_neg h]; omega
      rw [this]

theorem get_open_file_entry_put_same (fh : Int) (v : open_file_entry_t) (s : tfs_state)
    (h : (at_index s.open_file_table fh).isSome) :
    get_open_file_entry fh (open_file_put fh v s) = some v := by
  unfold get_open_file_entry open_file_put
  simp only
  rw [at_index_set_index_same]
  cases ha : at_index s.open_file_table fh with
  | none => rw [ha] at h; cases h
  | some x => rfl

theorem get_open_file_entry_put_other (fh h : Int) (v : open_file_entry_t)
    (s : tfs_state) (hne : fh ≠ h) :
    get_open_file_entry h (open_file_put fh v s) = get_open_file_entry h s := by
  unfold get_open_file_entry open_file_put
  simp only
  rw [at_index_set_index_other _ _ _ _ hne]

theorem data_block_get_put_same (b : Int) (v : block_t) (s : tfs_state)
    (h : (at_index s.fs_data b).isSome) :
    data_block_get b (data_block_put b v s) = some v := by
  unfold data_block_get
  rw [data_block_put_at_same]
  cases ha : at_index s.fs_data b with
  | none => rw [ha] at h; cases h
  | some x => rfl

theorem data_block_get_put_other (b c : Int) (v : block_t) (s : tfs_state)
    (h : b ≠ c) : data_block_get c (data_block_put b v s) = data_block_get c s := by
  unfold data_block_get
  rw [data_block_put_at_other _ _ _ _ h]

/-- What a handle, an inumber and a block index give in the state a write
leaves. -/
theorem written_state (ino fh b : Int) (v : inode_t) (f : open_file_entry_t)
    (blk : block_t) (s : tfs_state)
    (h1 : (inode_get ino s).isSome) (h2 : (at_index s.open_file_table fh).isSome)
    (h3 : (at_index s.fs_data b).isSome) :
    inode_get ino (inode_put ino v (open_file_put fh f (data_block_put b blk s))) = some v ∧
    get_open_file_entry fh
      (inode_put ino v (open_file_put fh f (data_block_put b blk s))) = some f ∧
    data_block_get b
      (inode_put ino v (open_file_put fh f (data_block_put b blk s))) = some blk := by
  refine ⟨?_, ?_, ?_⟩
  · rw [inode_get_inode_put_same, inode_get_open_file_put, inode_get_data_block_put]
    cases hg : inode_get ino s with
    | none => rw [hg] at h1; cases h1
    | some x => rfl
  · rw [get_open_file_entry_congr (inode_put_open_file_table _ _ _)]
    apply get_open_file_entry_put_same
    simpa using h2
  · rw [data_block_get_congr (inode_put_fs_data _ _ _)]
    rw [data_block_get_congr (open_file_put_fs_data _ _ _)]
    exact data_block_get_put_same _ _ _ h3

/-- The function `tfs_read` on an open file whose offset is at most the size
of the file, itself at most the block size. -/
theorem tfs_read_cases {s : tfs_state} (hi : Inv s) (fh : Int)
    (file : open_file_entry_t) (inode : inode_t) (len eff : Nat)
    (hf : get_open_file_entry fh s = some file)
    (hg : inode_get file.of_inumber s = some inode)
    (hoff : file.of_offset ≤ inode.i_size)
    (hsz : inode.i_size ≤ s.params.block_size)
    (hbs : s.params.block_size < 2 ^ 63)
    (heff : min len (inode.i_size - file.of_offset) = eff) :
    (eff = 0 → tfs_read fh len s = .done (0, [], s)) ∧
    (0 < eff →
      ∃ blk, data_block_get inode.i_data_block s = some (.bytes blk) ∧
        blk.length = s.params.block_size ∧
        tfs_read fh len s =
          .done ((eff : Int), (blk.drop file.of_offset).take eff,
            open_file_put fh { file with of_offset := file.of_offset + eff } s)) := by
  have e63 : (2 : Nat) ^ 63 = 9223372036854775808 := by norm_num
  have e64 : (2 : Nat) ^ 64 = 18446744073709551616 := by norm_num
  have hsub : size_sub inode.i_size file.of_offset = inode.i_size - file.of_offset :=
    size_sub_small _ _ hoff (by omega)
  have hclamp : (if len < size_sub inode.i_size file.of_offset then len
      else size_sub inode.i_size file.of_offset) = eff := by
    rw [hsub]
    by_cases h : len < inode.i_size - file.of_offset
    · rw [if_pos h]; omega
    · rw [if_neg h]; omega
  have hunf : tfs_read fh len s =
      if 0 < eff then
        match data_block_get inode.i_data_block s with
        | none => .abort
        | some block =>
          .done (to_ssize eff,
            memcpy_from_block (block_bytes block) file.of_offset eff,
            open_file_put fh
              { file with of_offset := size_add file.of_offset eff } s)
      else .done (to_ssize eff, [], s) := by
    unfold tfs_read
    rw [hf]
    simp only
    rw [hg]
    simp only
    rw [hclamp]
  have hss : to_ssize eff = (eff : Int) := to_ssize_small eff (by omega)
  have hsa : size_add file.of_offset eff = file.of_offset + eff :=
    size_add_small _ _ (by omega)
  refine ⟨?_, ?_⟩
  · intro h0
    rw [hunf, if_neg (by omega), hss, h0]
    rfl
  · intro hpos
    obtain ⟨blk, hblk, hbl⟩ := inv_sized_block hi hg (by omega)
    refine ⟨blk, hblk, hbl, ?_⟩
    rw [hunf, if_pos hpos, hblk]
    simp only [memcpy_from_block, block_bytes]
    rw [hss, hsa]

/-! ## Handles -/

theorem add_to_open_file_table_handle (i : Int) (o : Nat) (s : tfs_state)
    (h : 0 ≤ (add_to_open_file_table i o s).1) :
    get_open_file_entry (add_to_open_file_table i o s).1 (add_to_open_file_table i o s).2 =
      some { of_inumber := i, of_offset := o } := by
  unfold add_to_open_file_table at h ⊢
  cases hf : first_free s.open_file_table with
  | none => rw [hf] at h; simp at h
  | some k =>
    obtain ⟨y, hy, _⟩ := first_free_spec _ _ hf
    exact get_open_file_entry_set_same s k _ y hy

/-- A handle that `tfs_open` returns is open in the state it leaves. -/
theorem tfs_open_handle : ∀ (fuel : Nat) (name : List Nat) (mode : tfs_file_mode_t)
    (s s1 : tfs_state) (r : Int), Inv s →
    tfs_open fuel name mode s = .done (r, s1) → 0 ≤ r →
    (get_open_file_entry r s1).isSome
  | 0, _, _, _, _, _, _, h, _ => by simp [tfs_open] at h
  | fuel + 1, name, mode, s, s1, r, hi, h, hr => by
    have key : ∀ (i : Int) (o : Nat) (t : tfs_state),
        Run.done (add_to_open_file_table i o t) = Run.done (r, s1) →
        (get_open_file_entry r s1).isSome := by
      intro i o t ht
      obtain ⟨h1, h2⟩ := done_pair_eq ht
      subst h1 h2
      rw [add_to_open_file_table_handle i o t hr]; rfl
    by_cases hv : valid_pathname name = true
    · rw [tfs_open_step hi fuel name mode hv] at h
      by_cases hfound : 0 ≤ find_entry (name.drop 1) (dir_entries s)
      · rw [if_pos hfound] at h
        by_cases hstrict : mode.strict_create = true
        · rw [if_pos hstrict] at h
          cases h; omega
        · rw [if_neg hstrict] at h
          cases hg : inode_get (find_entry (name.drop 1) (dir_entries s)) s with
          | none => rw [hg] at h; cases h
          | some inode =>
            rw [hg] at h
            simp only at h
            by_cases hsym : inode.origin_path ≠ []
            · rw [if_pos hsym] at h
              exact tfs_open_handle fuel _ mode s s1 r hi h hr
            · rw [if_neg hsym] at h
              by_cases htr : mode.trunc = true ∧ 0 < inode.i_size
              · rw [if_pos htr] at h
                exact key _ _ _ h
              · rw [if_neg htr] at h
                exact key _ _ _ h
      · rw [if_neg hfound] at h
        by_cases hcr : mode.creat = true
        · rw [if_pos hcr] at h
          generalize inode_create .T_FILE s = p at h
          obtain ⟨inum1, sc⟩ := p
          simp only at h
          by_cases hm : inum1 = -1
          · rw [if_pos hm] at h
            cases h; omega
          · rw [if_neg hm] at h
            cases hadd : add_dir_entry ROOT_DIR_INUM (name.drop 1) inum1 sc with
            | abort => rw [hadd] at h; cases h
            | out_of_fuel => rw [hadd] at h; cases h
            | done pr =>
              obtain ⟨r2, s2⟩ := pr
              rw [hadd] at h
              simp only at h
              by_cases hr2 : r2 = -1
              · rw [if_pos hr2] at h
                cases h; omega
              · rw [if_neg hr2] at h
                exact key _ _ _ h
        · rw [if_neg hcr] at h
          cases h; omega
    · rw [tfs_open_invalid fuel name mode s (by simpa using hv)] at h
      cases h; omega

theorem tfs_close_open_handle (fh : Int) (s : tfs_state)
    (h : (get_open_file_entry fh s).isSome) : (tfs_close fh s).1 = 0 := by
  unfold tfs_close
  cases hg : get_open_file_entry fh s with
  | none => rw [hg] at h; cases h
  | some _ => rfl

/-! ## `tfs_unlink` -/

theorem is_in_open_file_table_iff (i : Int) (s : tfs_state) :
    is_in_open_file_table i s = true ↔
      ∃ (h : Int) (f : open_file_entry_t),
        get_open_file_entry h s = some f ∧ f.of_inumber = i := by
  unfold is_in_open_file_table
  rw [List.any_eq_true]
  constructor
  · rintro ⟨x, hx, hp⟩
    simp only [Bool.and_eq_true, decide_eq_true_eq] at hp
    obtain ⟨n, hn⟩ := List.mem_iff_getElem?.mp hx
    refine ⟨(n : Int), x.val, ?_, hp.2⟩
    unfold get_open_file_entry
    rw [at_index_natCast, hn]
    simp [hp.1]
  · rintro ⟨h, f, hf, hi⟩
    have := get_open_file_entry_some hf
    exact ⟨_, at_index_mem this, by simp [hi]⟩

theorem is_in_open_file_table_congr {s t : tfs_state}
    (h : t.open_file_table = s.open_file_table) (i : Int) :
    is_in_open_file_table i t = is_in_open_file_table i s := by
  unfold is_in_open_file_table; rw [h]

theorem get_open_file_entry_remove_same (fh : Int) (s : tfs_state) :
    get_open_file_entry fh (remove_from_open_file_table fh s) = none := by
  unfold get_open_file_entry remove_from_open_file_table
  cases ha : at_index s.open_file_table fh with
  | none => simp [ha]
  | some x =>
    simp only
    rw [at_index_set_index_same, ha]
    rfl

theorem get_open_file_entry_remove_other (fh h : Int) (s : tfs_state) (hne : fh ≠ h) :
    get_open_file_entry h (remove_from_open_file_table fh s) =
      get_open_file_entry h s := by
  unfold get_open_file_entry remove_from_open_file_table
  cases ha : at_index s.open_file_table fh with
  | none => rfl
  | some x =>
    simp only
    rw [at_index_set_index_other _ _ _ _ hne]

/-- After `tfs_close` of an open handle, that handle is closed and the
others are as before. -/
theorem tfs_close_entries (fh : Int) (s : tfs_state)
    (ho : (get_open_file_entry fh s).isSome) :
    get_open_file_entry fh (tfs_close fh s).2 = none ∧
    ∀ h : Int, h ≠ fh →
      get_open_file_entry h (tfs_close fh s).2 = get_open_file_entry h s := by
  unfold tfs_close
  cases hg : get_open_file_entry fh s with
  | none => rw [hg] at ho; cases ho
  | some f =>
    exact ⟨get_open_file_entry_remove_same fh s,
      fun h hne => get_open_file_entry_remove_other fh h s (Ne.symm hne)⟩

/-- The function `tfs_unlink` fails on a path that is not valid. -/
theorem tfs_unlink_invalid {s : tfs_state} (hi : Inv s) (t : List Nat)
    (hv : valid_pathname t = false) : tfs_unlink t s = .done (-1, s) := by
  unfold tfs_unlink
  rw [tfs_lookup_root hi]
  simp [hv]

/-- The function `tfs_unlink` fails on a file that is open. -/
theorem tfs_unlink_busy (s : tfs_state) (t : List Nat) (i : Int)
    (hl : tfs_lookup t ROOT_DIR_INUM s = .done i)
    (hb : is_in_open_file_table i s = true) : tfs_unlink t s = .done (-1, s) := by
  unfold tfs_unlink
  rw [hl]
  simp only
  by_cases hv : valid_pathname t = true
  · simp [hv, hb]
  · simp [hv]

/-- The function `tfs_unlink` fails on a name that is not in the directory. -/
theorem tfs_unlink_missing {s : tfs_state} (hi : Inv s) (t : List Nat)
    (hf : find_entry (t.drop 1) (dir_entries s) = -1) :
    tfs_unlink t s = .done (-1, s) := by
  by_cases hv : valid_pathname t = true
  · unfold tfs_unlink
    rw [tfs_lookup_root hi, if_pos hv]
    simp only [hv, Bool.not_true, Bool.false_eq_true, if_false]
    by_cases hb : is_in_open_file_table (find_entry (t.drop 1) (dir_entries s)) s = true
    · rw [if_pos hb]
    · rw [if_neg hb, clear_dir_entry_missing hi _ hf]
      simp
  · exact tfs_unlink_invalid hi t (by simpa using hv)

/-- The function `tfs_unlink` on a valid path whose name is in the directory
and whose inode is not open: the slot of the name is cleared, the link count
goes down by one, and the inode is deleted when the count reaches 0. -/
theorem tfs_unlink_found {s : tfs_state} (hi : Inv s) (t : List Nat)
    (hv : valid_pathname t = true)
    (hf : find_entry (t.drop 1) (dir_entries s) ≠ -1)
    (hc : is_in_open_file_table (find_entry (t.drop 1) (dir_entries s)) s = false) :
    ∃ (es1 : List dir_entry_t) (fi : inode_t),
      clear_entry (t.drop 1) (dir_entries s) = some es1 ∧
      inode_get (find_entry (t.drop 1) (dir_entries s)) s = some fi ∧
      tfs_unlink t s =
        .done (0,
          if fi.i_hard_link_count - 1 = 0 then
            inode_delete (find_entry (t.drop 1) (dir_entries s))
              (inode_put (find_entry (t.drop 1) (dir_entries s))
                { fi with i_hard_link_count := fi.i_hard_link_count - 1 }
                (data_block_put (root_block s) (.entries es1) s))
          else
            inode_put (find_entry (t.drop 1) (dir_entries s))
              { fi with i_hard_link_count := fi.i_hard_link_count - 1 }
              (data_block_put (root_block s) (.entries es1) s)) := by
  obtain ⟨hd, es1, he, hcl⟩ := clear_dir_entry_found hi _ hf
  obtain ⟨_, hsome⟩ := find_entry_inv hi _ hf
  cases hg : inode_get (find_entry (t.drop 1) (dir_entries s)) s with
  | none => rw [hg] at hsome; cases hsome
  | some fi =>
    refine ⟨es1, fi, he, rfl, ?_⟩
    unfold tfs_unlink
    rw [tfs_lookup_root hi, if_pos hv]
    simp only [hv, Bool.not_true, Bool.false_eq_true, if_false, hc, hcl,
      inode_get_data_block_put, hg]
    simp only [ne_eq, not_true_eq_false, if_false]
    by_cases hz : fi.i_hard_link_count - 1 = 0
    · rw [if_pos hz, if_pos hz]
    · rw [if_neg hz, if_neg hz]

/-- What `inode_delete` leaves of an inode: its slot is free, and so is the
block it owned. -/
theorem inode_delete_released (i : Int) (ino : inode_t) (s : tfs_state)
    (hg : inode_get i s = some ino) :
    at_index (inode_delete i s).inode_table i = some ⟨false, zero_inode⟩ ∧
    (0 < ino.i_size → (at_index s.fs_data ino.i_data_block).isSome →
      at_index (inode_delete i s).fs_data ino.i_data_block =
        some ⟨false, zero_block s.params.block_size⟩) := by
  obtain ⟨x, hx, _⟩ := at_index_of_inode_get hg
  unfold inode_delete
  rw [hg]
  simp only
  refine ⟨?_, ?_⟩
  · rw [at_index_set_index_same]
    by_cases hp : 0 < ino.i_size
    · rw [if_pos hp]; simp [hx]
    · rw [if_neg hp]; simp [hx]
  · intro hp hb
    rw [if_pos hp, data_block_free_at_same]
    cases ha : at_index s.fs_data ino.i_data_block with
    | none => rw [ha] at hb; cases hb
    | some y => rfl

theorem tfs_close_tables (fh : Int) (s : tfs_state) :
    (tfs_close fh s).2.inode_table = s.inode_table ∧
    (tfs_close fh s).2.fs_data = s.fs_data := by
  unfold tfs_close
  cases get_open_file_entry fh s with
  | none => exact ⟨rfl, rfl⟩
  | some _ => exact ⟨by simp, by simp⟩

/-- On a state that satisfies the invariant, `tfs_unlink` of a valid path
that resolves to an inode no handle is open on returns 0. -/
theorem tfs_unlink_closed {s : tfs_state} (hi : Inv s) (t : List Nat) (i : Int)
    (hv : valid_pathname t = true)
    (hl : tfs_lookup t ROOT_DIR_INUM s = .done i) (h0 : 0 ≤ i)
    (hc : is_in_open_file_table i s = false) :
    ∃ s1, tfs_unlink t s = .done (0, s1) := by
  have hl2 := tfs_lookup_root hi t
  rw [if_pos hv, hl] at hl2
  cases hl2
  obtain ⟨es1, fi, _, _, hu⟩ := tfs_unlink_found hi t hv (by omega) hc
  exact ⟨_, hu⟩

/-! ## The round trip -/

theorem take_written_block (blk data : List Nat) :
    ((blk.take 0 ++ data.take data.length ++ blk.drop (0 + data.length)).drop 0).take
      data.length = data := by
  simp

/-- The round trip on a state that satisfies the invariant, for a fresh name
without `'/'`, with a free inode, room in the directory, a free open-file
entry and two free data blocks. -/
theorem round_trip_fresh_name {s : tfs_state} (hi : Inv s) (fuel : Nat)
    (p data : List Nat) (len : Nat) (hv : valid_pathname p = true)
    (hslash : SLASH ∉ p.drop 1)
    (hnew : find_entry (p.drop 1) (dir_entries s) = -1)
    (hino : ∃ x ∈ s.inode_table, x.taken = false)
    (hroom : dir_has_room s)
    (hfile : ∃ x ∈ s.open_file_table, x.taken = false)
    (hblocks : ∃ (c1 c2 : Int) (x1 x2 : slot block_t), c1 ≠ c2 ∧
      at_index s.fs_data c1 = some x1 ∧ x1.taken = false ∧
      at_index s.fs_data c2 = some x2 ∧ x2.taken = false)
    (hbs : s.params.block_size < 2 ^ 63)
    (hdata : data.length ≤ s.params.block_size) (hlen : data.length ≤ len) :
    write_read_round_trip (fuel + 1) p data len s =
      .done ((data.length : Int), data) := by
  have e63 : (2 : Nat) ^ 63 = 9223372036854775808 := by norm_num
  have e64 : (2 : Nat) ^ 64 = 18446744073709551616 := by norm_num
  obtain ⟨k, s1, inum, hopen, hi1, hpos, hk, hfresh, hfind, hpar, hfs, _, _, _⟩ :=
    tfs_open_creates hi fuel p (mode_or TFS_O_CREAT TFS_O_TRUNC) hv hslash hnew rfl
      hino hroom hfile
  have hn0 : inum ≠ ROOT_DIR_INUM := by simp only [ROOT_DIR_INUM]; omega
  -- the write
  obtain ⟨c1, _, _, c4⟩ := tfs_write_cases hi1 (k : Int) _ (fresh_inode .T_FILE) data
    data.length data.length hk hfresh (Nat.zero_le _) (by rw [hpar]; exact hbs)
    (by simp only [Nat.add_zero]; omega) (by simp only [Nat.sub_zero, hpar]; omega)
    (Nat.le_refl _)
  have hwritten : ∃ (s2 : tfs_state) (ino2 : inode_t) (r : Int),
      tfs_write (k : Int) data data.length s1 = .done (r, s2) ∧ Inv s2 ∧
      s2.params = s.params ∧
      dir_entries s2 = dir_entries s1 ∧
      inode_get inum s2 = some ino2 ∧ ino2.origin_path = [] ∧
      ino2.i_size = data.length ∧
      (get_open_file_entry (k : Int) s2).isSome ∧
      (0 < data.length → ∃ blk : List Nat,
        data_block_get ino2.i_data_block s2 =
          some (.bytes (blk.take 0 ++ data.take data.length ++
            blk.drop (0 + data.length)))) := by
    by_cases h0 : data.length = 0
    · refine ⟨s1, fresh_inode .T_FILE, 0, c1 h0, hi1, hpar, rfl, hfresh, rfl, ?_, ?_, ?_⟩
      · rw [h0]; rfl
      · rw [hk]; rfl
      · intro h; omega
    · have hfree : ∃ x ∈ s1.fs_data, x.taken = false := by
        obtain ⟨b1, b2, x1, x2, hne, hx1, hf1, hx2, hf2⟩ := hblocks
        by_cases hb : b1 = root_block s1
        · have : b2 ≠ root_block s1 := by
            intro h; exact hne (hb.trans h.symm)
          exact ⟨x2, at_index_mem (by rw [hfs b2 this]; exact hx2), hf2⟩
        · exact ⟨x1, at_index_mem (by rw [hfs b1 hb]; exact hx1), hf1⟩
      obtain ⟨kb, x, blk, hx, hx1, hxv, hbl, hkb, hw⟩ :=
        c4 (by omega) rfl hfree
      have hgs : (inode_get inum s1).isSome := by rw [hfresh]; rfl
      have hfs1 : (at_index s1.open_file_table (k : Int)).isSome := by
        rw [get_open_file_entry_some hk]; rfl
      obtain ⟨w1, w2, w3⟩ := written_state inum (k : Int) (kb : Int)
        { fresh_inode .T_FILE with
            i_data_block := (kb : Int), i_size := 0 + data.length }
        { of_inumber := inum, of_offset := 0 + data.length }
        (.bytes (blk.take 0 ++ data.take data.length ++ blk.drop (0 + data.length)))
        { s1 with fs_data := set_index s1.fs_data (kb : Int) ⟨true, x.val⟩ }
        hgs hfs1
        (by
          simp only
          rw [at_index_set_index_same, at_index_natCast, hx]; rfl)
      refine ⟨_, _, _, hw, inv_tfs_write hi1 _ _ _ _ hw, by simp [hpar], ?_, w1, rfl,
        by simp, by rw [w2]; rfl, fun _ => ⟨blk, w3⟩⟩
      apply dir_entries_congr
      · rw [inode_put_at_other _ _ _ _ hn0]
        simp
      · simp only [inode_put_fs_data, open_file_put_fs_data]
        rw [data_block_put_at_other _ _ _ _ hkb]
        simp only
        rw [at_index_set_index_other _ _ _ _ hkb]
  obtain ⟨s2, ino2, r, hw, hi2, hpar2, hde2, hg2, hsym2, hsz2, hopen2, hblk2⟩ := hwritten
  -- the close
  have hi3 := inv_tfs_close hi2 (k : Int)
  obtain ⟨hct1, hct2⟩ := tfs_close_tables (k : Int) s2
  have hfree3 : ∃ x ∈ (tfs_close (k : Int) s2).2.open_file_table, x.taken = false := by
    have hc := (tfs_close_entries (k : Int) s2 hopen2).1
    have hin : (at_index (tfs_close (k : Int) s2).2.open_file_table (k : Int)).isSome := by
      unfold tfs_close
      cases hg : get_open_file_entry (k : Int) s2 with
      | none => rw [hg] at hopen2; cases hopen2
      | some f =>
        simp only
        unfold remove_from_open_file_table
        have := get_open_file_entry_some hg
        rw [this]
        simp only
        rw [at_index_set_index_same, this]
        rfl
    cases ha : at_index (tfs_close (k : Int) s2).2.open_file_table (k : Int) with
    | none => rw [ha] at hin; cases hin
    | some y =>
      refine ⟨y, at_index_mem ha, ?_⟩
      unfold get_open_file_entry at hc
      rw [ha] at hc
      simp only at hc
      cases hy : y.taken with
      | false => rfl
      | true => rw [hy] at hc; simp at hc
  have hde3 : dir_entries (tfs_close (k : Int) s2).2 = dir_entries s1 := by
    rw [dir_entries_tfs_close, hde2]
  have hg3 : inode_get inum (tfs_close (k : Int) s2).2 = some ino2 := by
    rw [inode_get_congr hct1]; exact hg2
  -- the second open
  have hopen3 := tfs_open_existing hi3 fuel p TFS_O_NONE hv ino2
    (by rw [hde3, hfind]; omega) (by rw [hde3, hfind]; exact hg3) hsym2 rfl rfl
  rw [hde3, hfind] at hopen3
  obtain ⟨k2, hk21, hk22, _, _⟩ := add_to_open_file_table_free inum
    (if TFS_O_NONE.append then ino2.i_size else 0) (tfs_close (k : Int) s2).2 hfree3
  generalize hs4 : add_to_open_file_table inum
    (if TFS_O_NONE.append then ino2.i_size else 0) (tfs_close (k : Int) s2).2 = pr
    at hopen3 hk21 hk22
  obtain ⟨h2, s4⟩ := pr
  simp only at hk21 hk22
  have hi4 : Inv s4 := inv_tfs_open (fuel + 1) p TFS_O_NONE _ s4 h2 hi3 hopen3
  have hs4t : s4.inode_table = s2.inode_table ∧ s4.fs_data = s2.fs_data ∧
      s4.params = s2.params := by
    have e := congrArg Prod.snd hs4
    simp only at e
    rw [← e]
    refine ⟨by rw [add_open_inode_table, hct1], by rw [add_open_fs_data, hct2], ?_⟩
    rw [add_open_params]
    unfold tfs_close
    cases get_open_file_entry (k : Int) s2 with
    | none => rfl
    | some _ => simp
  have hg4 : inode_get inum s4 = some ino2 := by
    rw [inode_get_congr hs4t.1]; exact hg2
  -- the read
  subst hk21
  have hk22' : get_open_file_entry (k2 : Int) s4 =
      some { of_inumber := inum, of_offset := 0 } := hk22
  obtain ⟨r1, r2⟩ := tfs_read_cases hi4 (k2 : Int) _ ino2 len data.length hk22' hg4
    (Nat.zero_le _) (by rw [hsz2, hs4t.2.2, hpar2]; exact hdata)
    (by rw [hs4t.2.2, hpar2]; exact hbs)
    (by simp only [Nat.sub_zero, hsz2]; omega)
  unfold write_read_round_trip
  rw [hopen]
  simp only
  rw [hw]
  simp only
  rw [hopen3]
  simp only
  by_cases h0 : data.length = 0
  · rw [r1 h0]
    simp only [h0]
    have : data = [] := List.length_eq_zero.mp h0
    rw [this]
    rfl
  · obtain ⟨blk4, hb4, _, hr⟩ := r2 (by omega)
    obtain ⟨blk, hb2⟩ := hblk2 (by omega)
    rw [data_block_get_congr hs4t.2.1, hb2] at hb4
    cases hb4
    rw [hr]
    simp only
    rw [take_written_block]

/-! ## Link counts -/

theorem links_to_cons (i : Int) (e : dir_entry_t) (es : List dir_entry_t) :
    links_to i (e :: es) =
      links_to i es + (if e.d_inumber ≠ -1 ∧ e.d_inumber = i then 1 else 0) := by
  unfold links_to
  rw [List.countP_cons]
  by_cases h : e.d_inumber ≠ -1 ∧ e.d_inumber = i
  · simp [h.1, h.2]
  · rw [if_neg h]
    simp only [Bool.and_eq_true, decide_eq_true_eq]
    rw [if_neg h]

theorem links_to_nil (i : Int) : links_to i [] = 0 := rfl

theorem links_to_replicate_empty (i : Int) (n : Nat) :
    links_to i (List.replicate n empty_entry) = 0 := by
  induction n with
  | zero => rfl
  | succ n ih =>
    rw [List.replicate_succ, links_to_cons, ih]
    simp [empty_entry]

/-- The function `fill_entry` adds one link to the inumber it stores. -/
theorem links_to_fill_entry (name : List Nat) (i : Int) (hi : i ≠ -1) (j : Int) :
    ∀ (es es1 : List dir_entry_t), fill_entry name i es = some es1 →
      links_to j es1 = links_to j es + (if j = i then 1 else 0)
  | [], es1, h => by simp [fill_entry] at h
  | e :: es, es1, h => by
    unfold fill_entry at h
    by_cases hc : e.d_inumber = -1
    · rw [if_pos hc] at h
      cases h
      rw [links_to_cons, links_to_cons]
      simp only [hc, ne_eq, not_true_eq_false, false_and, if_false, Nat.add_zero]
      by_cases hj : j = i
      · subst hj; simp [hi]
      · rw [if_neg hj, if_neg (fun h => hj h.2.symm)]
    · rw [if_neg hc] at h
      cases hr : fill_entry name i es with
      | none => rw [hr] at h; cases h
      | some r =>
        rw [hr] at h
        cases h
        rw [links_to_cons, links_to_cons, links_to_fill_entry name i hi j es r hr]
        omega

/-- The function `clear_entry` removes one link from the inumber the name
finds. -/
theorem links_to_clear_entry (name : List Nat) (j : Int) :
    ∀ (es es1 : List dir_entry_t), clear_entry name es = some es1 →
      links_to j es =
        links_to j es1 + (if j = find_entry name es then 1 else 0)
  | [], es1, h => by simp [clear_entry] at h
  | e :: es, es1, h => by
    unfold clear_entry at h
    unfold find_entry
    by_cases hc : e.d_inumber ≠ -1 ∧ e.d_name = name
    · rw [if_pos hc] at h
      cases h
      rw [if_pos hc, links_to_cons, links_to_cons]
      simp only [empty_entry, ne_eq, not_true_eq_false, false_and, if_false, Nat.add_zero]
      by_cases hj : j = e.d_inumber
      · subst hj; simp [hc.1]
      · rw [if_neg hj, if_neg (fun h => hj h.2.symm)]
    · rw [if_neg hc] at h
      cases hr : clear_entry name es with
      | none => rw [hr] at h; cases h
      | some r =>
        rw [hr] at h
        cases h
        rw [if_neg hc, links_to_cons, links_to_cons,
          links_to_clear_entry name j es r hr]
        omega

/-- An inumber that a name finds has at least one link. -/
theorem links_to_pos_of_find (name : List Nat) :
    ∀ es : List dir_entry_t, find_entry name es ≠ -1 →
      0 < links_to (find_entry name es) es
  | [], h => by simp [find_entry] at h
  | e :: es, h => by
    unfold find_entry at h ⊢
    by_cases hc : e.d_inumber ≠ -1 ∧ e.d_name = name
    · rw [if_pos hc, links_to_cons]
      simp [hc.1]
    · rw [if_neg hc] at h ⊢
      rw [links_to_cons]
      have := links_to_pos_of_find name es h
      omega

/-- Two states with the same directory and the same link views of the
inodes. -/
theorem LinkInv.of_same {s t : tfs_state} (hl : LinkInv s)
    (hd : dir_entries t = dir_entries s)
    (hv : ∀ i : Int, (at_index t.inode_table i).map link_view =
      (at_index s.inode_table i).map link_view) : LinkInv t := by
  have key : ∀ (i : Int) (x : slot inode_t), at_index t.inode_table i = some x →
      ∃ y, at_index s.inode_table i = some y ∧ link_view y = link_view x := by
    intro i x hx
    have h := hv i
    rw [hx] at h
    cases hy : at_index s.inode_table i with
    | none => rw [hy] at h; cases h
    | some y =>
      rw [hy] at h
      simp only [Option.map_some', Option.some.injEq] at h
      exact ⟨y, rfl, h.symm⟩
  constructor
  · intro i x hx
    obtain ⟨y, hy, hyx⟩ := key i x hx
    have := hl.count i y hy
    unfold link_view at hyx
    rw [hd]
    have h2 := congrArg Prod.snd hyx
    simp only at h2
    omega
  · intro i x hx hf
    obtain ⟨y, hy, hyx⟩ := key i x hx
    rw [hd]
    apply hl.free i y hy
    unfold link_view at hyx
    have h1 := congrArg Prod.fst hyx
    simp only at h1
    rw [h1]; exact hf

theorem link_view_inode_put (i : Int) (v : inode_t) (s : tfs_state) (ino : inode_t)
    (hg : inode_get i s = some ino)
    (hv : v.i_hard_link_count = ino.i_hard_link_count) (j : Int) :
    (at_index (inode_put i v s).inode_table j).map link_view =
      (at_index s.inode_table j).map link_view := by
  by_cases hj : i = j
  · subst hj
    rw [inode_put_at_same]
    obtain ⟨x, hx, hxv⟩ := at_index_of_inode_get hg
    rw [hx]
    simp only [Option.map_some', link_view, hv, ← hxv]
  · rw [inode_put_at_other _ _ _ _ hj]

/-- Effect of `add_dir_entry` on the link counts: a successful call adds one
link to the inumber stored, a failed call changes no count; the link views
of the inodes do not change. -/
theorem add_dir_entry_links {s : tfs_state} (hi : Inv s) (name : List Nat) (i : Int)
    (h1 : 0 < i) (h2 : (inode_get i s).isSome) (r : Int) (s1 : tfs_state)
    (h : add_dir_entry ROOT_DIR_INUM name i s = .done (r, s1)) :
    (∀ j : Int, links_to j (dir_entries s1) =
      links_to j (dir_entries s) + (if r = 0 ∧ j = i then 1 else 0)) ∧
    (∀ j : Int, (at_index s1.inode_table j).map link_view =
      (at_index s.inode_table j).map link_view) := by
  have hne : i ≠ -1 := by omega
  have same : ∀ j : Int, links_to j (dir_entries s) =
      links_to j (dir_entries s) + (if (-1 : Int) = 0 ∧ j = i then 1 else 0) := by
    intro j
    rw [if_neg (by omega)]
    rfl
  by_cases hn : SLASH ∈ name ∨ MAX_FILE_NAME - 1 < name.length
  · rw [add_dir_entry_bad_name _ _ _ _ hn] at h
    cases h
    exact ⟨same, fun _ => rfl⟩
  by_cases hd : root_block s = -1
  · obtain ⟨rt, hrt, _, _, hr0⟩ := inv_root hi
    rw [add_dir_entry_unallocated hi name i hn hd rt hrt] at h
    rcases data_block_alloc_spec s with ⟨ha, _⟩ | ⟨k, x, hx, hx1, ha⟩
    · rw [ha] at h
      cases h
      exact ⟨same, fun _ => rfl⟩
    · rw [ha] at h
      simp only at h
      rw [if_neg (by omega)] at h
      have view : ∀ (es : List dir_entry_t) (j : Int),
          (at_index (inode_put ROOT_DIR_INUM { rt with i_data_block := (k : Int) }
            (data_block_put (k : Int) (.entries es)
              { s with fs_data := set_index s.fs_data (k : Int) ⟨true, x.val⟩ })).inode_table
            j).map link_view = (at_index s.inode_table j).map link_view := by
        intro es j
        rw [link_view_inode_put ROOT_DIR_INUM { rt with i_data_block := (k : Int) }
          (data_block_put (k : Int) (.entries es)
            { s with fs_data := set_index s.fs_data (k : Int) ⟨true, x.val⟩ }) rt (by
          rw [inode_get_data_block_put]; exact hrt) rfl j]
        simp
      cases hcap : MAX_DIR_ENTRIES s with
      | zero =>
        rw [hcap] at h
        simp only [List.replicate_zero, fill_entry] at h
        cases h
        obtain ⟨_, _, hde⟩ := inv_alloc_dir hi hd rt hr0 k x hx []
          List.Pairwise.nil (fun e he => by cases he)
        refine ⟨?_, view []⟩
        intro j
        rw [hde, dir_entries_unallocated hd, if_neg (by omega)]
        rfl
      | succ n =>
        rw [hcap, fill_entry_replicate] at h
        simp only at h
        cases h
        have hfill := fill_entry_replicate name i n
        obtain ⟨_, _, hde⟩ := inv_alloc_dir hi hd rt hr0 k x hx
          ({ d_name := name, d_inumber := i } :: List.replicate n empty_entry)
          (fill_entry_unique name i _ _ hfill (find_entry_replicate_empty _ _)
            (dir_unique_replicate_empty _))
          (by
            intro e he hue
            rcases List.mem_cons.mp he with he | he
            · subst he
              exact ⟨h1, h2⟩
            · exact absurd hue (mem_replicate_empty_not_used he))
        refine ⟨?_, view _⟩
        intro j
        rw [hde, dir_entries_unallocated hd, links_to_cons, links_to_replicate_empty,
          links_to_nil]
        simp only [ne_eq, hne, not_false_eq_true, true_and, Nat.zero_add, true_and]
        by_cases hj : j = i
        · subst hj; simp
        · rw [if_neg hj, if_neg (fun h => hj h.symm)]
  · rw [add_dir_entry_allocated hi name i hn hd] at h
    by_cases hf : find_entry name (dir_entries s) ≠ -1
    · rw [if_pos hf] at h
      cases h
      exact ⟨same, fun _ => rfl⟩
    · rw [if_neg hf] at h
      cases hfill : fill_entry name i (dir_entries s) with
      | none =>
        rw [hfill] at h
        cases h
        exact ⟨same, fun _ => rfl⟩
      | some es1 =>
        rw [hfill] at h
        cases h
        refine ⟨?_, fun _ => by simp⟩
        intro j
        rw [dir_entries_put_dir hi hd, links_to_fill_entry name i hne j _ _ hfill]
        simp

/-- The link invariant passes to a state that agrees with the first one on
the link counts and the link views, except at one inumber where the clauses
are given. -/
theorem LinkInv.of_except {s t : tfs_state} (hl : LinkInv s) (i : Int)
    (hlinks : ∀ j : Int, j ≠ i →
      links_to j (dir_entries t) = links_to j (dir_entries s))
    (hviews : ∀ j : Int, j ≠ i → (at_index t.inode_table j).map link_view =
      (at_index s.inode_table j).map link_view)
    (hcount : ∀ x : slot inode_t, at_index t.inode_table i = some x →
      (links_to i (dir_entries t) : Int) ≤ x.val.i_hard_link_count)
    (hfree : ∀ x : slot inode_t, at_index t.inode_table i = some x →
      x.taken = false → links_to i (dir_entries t) = 0) : LinkInv t := by
  have key : ∀ (j : Int) (x : slot inode_t), j ≠ i → at_index t.inode_table j = some x →
      ∃ y, at_index s.inode_table j = some y ∧ link_view y = link_view x := by
    intro j x hj hx
    have h := hviews j hj
    rw [hx] at h
    cases hy : at_index s.inode_table j with
    | none => rw [hy] at h; cases h
    | some y =>
      rw [hy] at h
      simp only [Option.map_some', Option.some.injEq] at h
      exact ⟨y, rfl, h.symm⟩
  constructor
  · intro j x hx
    by_cases hj : j = i
    · subst hj; exact hcount x hx
    · obtain ⟨y, hy, hyx⟩ := key j x hj hx
      have := hl.count j y hy
      unfold link_view at hyx
      rw [hlinks j hj]
      have h2 := congrArg Prod.snd hyx
      simp only at h2
      omega
  · intro j x hx hf
    by_cases hj : j = i
    · subst hj; exact hfree x hx hf
    · obtain ⟨y, hy, hyx⟩ := key j x hj hx
      rw [hlinks j hj]
      apply hl.free j y hy
      unfold link_view at hyx
      have h1 := congrArg Prod.fst hyx
      simp only at h1
      rw [h1]; exact hf

/-- The link invariant passes to a state with the same link counts and the
same link views. -/
theorem LinkInv.of_links {s t : tfs_state} (hl : LinkInv s)
    (hlinks : ∀ j : Int, links_to j (dir_entries t) = links_to j (dir_entries s))
    (hviews : ∀ j : Int, (at_index t.inode_table j).map link_view =
      (at_index s.inode_table j).map link_view) : LinkInv t := by
  have key : ∀ (j : Int) (x : slot inode_t), at_index t.inode_table j = some x →
      ∃ y, at_index s.inode_table j = some y ∧ link_view y = link_view x := by
    intro j x hx
    have h := hviews j
    rw [hx] at h
    cases hy : at_index s.inode_table j with
    | none => rw [hy] at h; cases h
    | some y =>
      rw [hy] at h
      simp only [Option.map_some', Option.some.injEq] at h
      exact ⟨y, rfl, h.symm⟩
  constructor
  · intro j x hx
    obtain ⟨y, hy, hyx⟩ := key j x hx
    have := hl.count j y hy
    unfold link_view at hyx
    rw [hlinks j]
    have h2 := congrArg Prod.snd hyx
    simp only at h2
    omega
  · intro j x hx hf
    obtain ⟨y, hy, hyx⟩ := key j x hx
    rw [hlinks j]
    apply hl.free j y hy
    unfold link_view at hyx
    have h1 := congrArg Prod.fst hyx
    simp only at h1
    rw [h1]; exact hf

/-- The link invariant passes to a state with the same inode table and the
same directory. -/
theorem LinkInv.of_tables {s t : tfs_state} (hl : LinkInv s)
    (h1 : t.inode_table = s.inode_table) (h2 : dir_entries t = dir_entries s) :
    LinkInv t :=
  hl.of_links (fun _ => by rw [h2]) (fun _ => by rw [h1])

theorem link_inode_put_same_count {s : tfs_state} (hl : LinkInv s) (i : Int)
    (v ino : inode_t) (h0 : i ≠ ROOT_DIR_INUM) (hg : inode_get i s = some ino)
    (hv : v.i_hard_link_count = ino.i_hard_link_count) : LinkInv (inode_put i v s) :=
  hl.of_links (fun _ => by rw [dir_entries_inode_put _ _ _ h0])
    (link_view_inode_put i v s ino hg hv)

theorem inode_delete_inode_table (i : Int) (s : tfs_state) (ino : inode_t)
    (hg : inode_get i s = some ino) :
    (inode_delete i s).inode_table = set_index s.inode_table i ⟨false, zero_inode⟩ := by
  unfold inode_delete
  rw [hg]
  simp only
  by_cases hp : 0 < ino.i_size
  · rw [if_pos hp]; simp
  · rw [if_neg hp]

theorem inode_delete_none (i : Int) (s : tfs_state) (hg : inode_get i s = none) :
    inode_delete i s = s := by
  unfold inode_delete
  rw [hg]

theorem link_inode_delete {s : tfs_state} (hi : Inv s) (hl : LinkInv s) (i : Int)
    (h0 : i ≠ ROOT_DIR_INUM) (hz : links_to i (dir_entries s) = 0) :
    LinkInv (inode_delete i s) := by
  cases hg : inode_get i s with
  | none => rw [inode_delete_none i s hg]; exact hl
  | some ino =>
    have hd := dir_entries_inode_delete hi i h0
    have ht := inode_delete_inode_table i s ino hg
    apply hl.of_except i
    · intro j _; rw [hd]
    · intro j hj
      rw [ht, at_index_set_index_other _ _ _ _ (Ne.symm hj)]
    · intro x hx
      rw [ht, at_index_set_index_same] at hx
      obtain ⟨y, hy, _⟩ := at_index_of_inode_get hg
      rw [hy] at hx
      cases hx
      rw [hd, hz]
      simp [zero_inode]
    · intro x _ _
      rw [hd]; exact hz

theorem link_inode_create {s : tfs_state} (hi : Inv s) (hl : LinkInv s)
    (t : inode_type) :
    LinkInv (inode_create t s).2 ∧
    ((inode_create t s).1 ≠ -1 →
      links_to (inode_create t s).1 (dir_entries (inode_create t s).2) = 0) := by
  obtain ⟨_, _, _, hoth, hdc, _⟩ := inode_create_frame hi t
  rcases inode_create_spec t s with ⟨h, _⟩ | ⟨k, x, hx, hx1, h⟩
  · rw [h]
    exact ⟨hl, fun hne => absurd rfl hne⟩
  · rw [h] at hoth hdc ⊢
    simp only at hoth hdc ⊢
    have hzero : links_to (k : Int) (dir_entries s) = 0 :=
      hl.free (k : Int) x (by rw [at_index_natCast]; exact hx) hx1
    refine ⟨?_, fun _ => by rw [hdc]; exact hzero⟩
    apply hl.of_except (k : Int)
    · intro j _; rw [hdc]
    · intro j hj; rw [hoth j hj]
    · intro y hy
      simp only at hy
      rw [at_index_set_index_same, at_index_natCast, hx] at hy
      cases hy
      rw [hdc, hzero]
      simp [fresh_inode]
    · intro y hy hf
      simp only at hy
      rw [at_index_set_index_same, at_index_natCast, hx] at hy
      cases hy
      cases hf

/-- After a successful `add_dir_entry` of inumber `i`, the link invariant
holds as soon as the inode `i` is in use with a link count above the count
of its links before the call. -/
theorem link_after_add {s s1 t : tfs_state} (hi : Inv s) (hl : LinkInv s)
    (name : List Nat) (i : Int) (h1 : 0 < i) (h2 : (inode_get i s).isSome) (r : Int)
    (hadd : add_dir_entry ROOT_DIR_INUM name i s = .done (r, s1))
    (ht : dir_entries t = dir_entries s1)
    (hviews : ∀ j : Int, j ≠ i → (at_index t.inode_table j).map link_view =
      (at_index s1.inode_table j).map link_view)
    (hnew : r = 0 → ∀ x : slot inode_t, at_index t.inode_table i = some x →
      x.taken = true ∧
        (links_to i (dir_entries s) : Int) + 1 ≤ x.val.i_hard_link_count)
    (hold : r ≠ 0 → (at_index t.inode_table i).map link_view =
      (at_index s.inode_table i).map link_view) : LinkInv t := by
  obtain ⟨hlinks, hv1⟩ := add_dir_entry_links hi name i h1 h2 r s1 hadd
  by_cases hr : r = 0
  · apply hl.of_except i
    · intro j hj
      rw [ht, hlinks j, if_neg (fun h => hj h.2)]
      rfl
    · intro j hj
      rw [hviews j hj, hv1 j]
    · intro x hx
      rw [ht, hlinks i, if_pos ⟨hr, rfl⟩]
      have := (hnew hr x hx).2
      push_cast
      omega
    · intro x hx hf
      rw [(hnew hr x hx).1] at hf
      cases hf
  · apply hl.of_links
    · intro j
      rw [ht, hlinks j, if_neg (fun h => hr h.1)]
      rfl
    · intro j
      by_cases hj : j = i
      · subst hj; exact hold hr
      · rw [hviews j hj, hv1 j]

/-! ## The operations keep the link invariant -/

/-- An inumber that a name of the directory finds is the inumber of an inode
in use. -/
theorem found_inode_taken {s : tfs_state} (hl : LinkInv s) (name : List Nat)
    (hf : find_entry name (dir_entries s) ≠ -1) (x : slot inode_t)
    (hx : at_index s.inode_table (find_entry name (dir_entries s)) = some x) :
    x.taken = true ∧ 1 ≤ x.val.i_hard_link_count := by
  have hpos := links_to_pos_of_find name _ hf
  have hc := hl.count _ x hx
  refine ⟨?_, by omega⟩
  cases ht : x.taken with
  | true => rfl
  | false =>
    have := hl.free _ x hx ht
    omega

theorem link_tfs_close {s : tfs_state} (hl : LinkInv s) (fh : Int) :
    LinkInv (tfs_close fh s).2 :=
  hl.of_tables (tfs_close_tables fh s).1 (dir_entries_tfs_close fh s)

theorem tfs_read_tables {s s1 : tfs_state} (fh : Int) (len : Nat) (r : Int)
    (out : List Nat) (h : tfs_read fh len s = .done (r, out, s1)) :
    s1.inode_table = s.inode_table ∧ s1.fs_data = s.fs_data := by
  unfold tfs_read at h
  cases hf : get_open_file_entry fh s with
  | none => rw [hf] at h; cases h; exact ⟨rfl, rfl⟩
  | some file =>
    rw [hf] at h
    simp only at h
    cases hg : inode_get file.of_inumber s with
    | none => rw [hg] at h; cases h
    | some inode =>
      rw [hg] at h
      simp only at h
      generalize (if len < size_sub inode.i_size file.of_offset then len
        else size_sub inode.i_size file.of_offset) = n at h
      by_cases hn : 0 < n
      · rw [if_pos hn] at h
        cases hb : data_block_get inode.i_data_block s with
        | none => rw [hb] at h; cases h
        | some block =>
          rw [hb] at h
          cases h
          exact ⟨rfl, rfl⟩
      · rw [if_neg hn] at h
        cases h; exact ⟨rfl, rfl⟩

theorem link_tfs_read {s s1 : tfs_state} (hl : LinkInv s) (fh : Int) (len : Nat)
    (r : Int) (out : List Nat) (h : tfs_read fh len s = .done (r, out, s1)) :
    LinkInv s1 := by
  obtain ⟨h1, h2⟩ := tfs_read_tables fh len r out h
  exact hl.of_tables h1 (dir_entries_congr (by rw [h1]) (by rw [h2]))

theorem link_tfs_write_copy {s s1 : tfs_state} (hi : Inv s) (hl : LinkInv s)
    (fh : Int) (file : open_file_entry_t) (inode ino0 : inode_t) (buffer : List Nat)
    (n : Nat) (r : Int) (hf : get_open_file_entry fh s = some file)
    (hg : inode_get file.of_inumber s = some ino0)
    (hc : inode.i_hard_link_count = ino0.i_hard_link_count)
    (h : tfs_write_copy fh file inode buffer n s = .done (r, s1)) : LinkInv s1 := by
  obtain ⟨hp, _, _⟩ := inv_open_file hi hf
  unfold tfs_write_copy at h
  split at h
  · rename_i blk hblk
    split at h
    · cases h
    · rename_i blk1 hcp
      simp only at h
      cases h
      have hne := bytes_block_ne_root hi hblk
      have hl1 : LinkInv (open_file_put fh
          { file with of_offset := size_add file.of_offset n }
          (data_block_put inode.i_data_block (.bytes blk1) s)) :=
        hl.of_tables (by simp)
          (by rw [dir_entries_open_file_put, dir_entries_data_block_put _ _ _ hne])
      exact link_inode_put_same_count hl1 _ _ ino0
        (by simp only [ROOT_DIR_INUM]; omega)
        (by rw [inode_get_open_file_put, inode_get_data_block_put]; exact hg) hc
  · cases h

theorem link_tfs_write {s s1 : tfs_state} (hi : Inv s) (hl : LinkInv s) (fh : Int)
    (buffer : List Nat) (to_write : Nat) (r : Int)
    (h : tfs_write fh buffer to_write s = .done (r, s1)) : LinkInv s1 := by
  unfold tfs_write at h
  cases hf : get_open_file_entry fh s with
  | none => rw [hf] at h; cases h; exact hl
  | some file =>
    rw [hf] at h
    simp only at h
    cases hg : inode_get file.of_inumber s with
    | none => rw [hg] at h; cases h
    | some inode =>
      rw [hg] at h
      simp only at h
      generalize (if state_block_size s < size_add to_write file.of_offset
        then size_sub (state_block_size s) file.of_offset else to_write) = n at h
      by_cases hn : 0 < n
      · rw [if_pos hn] at h
        by_cases hz : inode.i_size = 0
        · rw [if_pos hz] at h
          rcases data_block_alloc_spec s with ⟨ha, _⟩ | ⟨k, x, hx, hx1, ha⟩
          · rw [ha] at h
            simp only [if_true] at h
            cases h; exact hl
          · rw [ha] at h
            simp only at h
            rw [if_neg (by omega)] at h
            have hk := free_block_ne_root hi k x hx hx1
            have hia := inv_mark_block hi k x hx hx1
            have hla : LinkInv
                { s with fs_data := set_index s.fs_data (k : Int) ⟨true, x.val⟩ } :=
              hl.of_tables rfl
                (dir_entries_congr rfl (at_index_set_index_other _ _ _ _ hk))
            exact link_tfs_write_copy hia hla fh file
              { inode with i_data_block := (k : Int) } inode buffer n r hf hg rfl h
        · rw [if_neg hz] at h
          exact link_tfs_write_copy hi hl fh file inode inode buffer n r hf hg rfl h
      · rw [if_neg hn] at h
        cases h; exact hl

theorem link_tfs_open : ∀ (fuel : Nat) (name : List Nat) (mode : tfs_file_mode_t)
    (s s1 : tfs_state) (r : Int), Inv s → LinkInv s →
    tfs_open fuel name mode s = .done (r, s1) → LinkInv s1
  | 0, _, _, _, _, _, _, _, h => by simp [tfs_open] at h
  | fuel + 1, name, mode, s, s1, r, hi, hl, h => by
    by_cases hv : valid_pathname name = true
    · rw [tfs_open_step hi fuel name mode hv] at h
      by_cases hfound : 0 ≤ find_entry (name.drop 1) (dir_entries s)
      · rw [if_pos hfound] at h
        have hne : find_entry (name.drop 1) (dir_entries s) ≠ -1 := by omega
        obtain ⟨hpos, hsome⟩ := find_entry_inv hi _ hne
        by_cases hstrict : mode.strict_create = true
        · rw [if_pos hstrict] at h
          cases h; exact hl
        · rw [if_neg hstrict] at h
          cases hg : inode_get (find_entry (name.drop 1) (dir_entries s)) s with
          | none => rw [hg] at hsome; cases hsome
          | some inode =>
            rw [hg] at h
            simp only at h
            by_cases hsym : inode.origin_path ≠ []
            · rw [if_pos hsym] at h
              exact link_tfs_open fuel _ mode s s1 r hi hl h
            · rw [if_neg hsym] at h
              have hn0 : find_entry (name.drop 1) (dir_entries s) ≠ ROOT_DIR_INUM := by
                simp only [ROOT_DIR_INUM]; omega
              by_cases htr : mode.trunc = true ∧ 0 < inode.i_size
              · rw [if_pos htr] at h
                obtain ⟨_, rfl⟩ := done_pair_eq h
                have hl1 : LinkInv (data_block_free inode.i_data_block s) :=
                  hl.of_tables (by simp)
                    (dir_entries_data_block_free _ _ (inv_own_get hi hg htr.2).1)
                have hl2 := link_inode_put_same_count hl1
                  (find_entry (name.drop 1) (dir_entries s))
                  { inode with i_size := 0 } inode hn0
                  (by rw [inode_get_data_block_free]; exact hg) rfl
                exact hl2.of_tables (by simp) (dir_entries_add_open _ _ _)
              · rw [if_neg htr] at h
                obtain ⟨_, rfl⟩ := done_pair_eq h
                exact hl.of_tables (by simp) (dir_entries_add_open _ _ _)
      · rw [if_neg hfound] at h
        by_cases hcr : mode.creat = true
        · rw [if_pos hcr] at h
          have hc := inv_inode_create hi .T_FILE
          have hlc := link_inode_create hi hl .T_FILE
          have hsp := inode_create_spec .T_FILE s
          generalize inode_create .T_FILE s = p at h hc hlc hsp
          obtain ⟨inum1, sc⟩ := p
          simp only at h hc hlc hsp
          obtain ⟨hic, hcase⟩ := hc
          obtain ⟨hlsc, hzero⟩ := hlc
          rcases hcase with hm | ⟨hpos, hfresh⟩
          · rw [if_pos hm] at h
            cases h; exact hlsc
          · rw [if_neg (by omega)] at h
            have hz := hzero (by omega)
            have hsl : at_index sc.inode_table inum1 =
                some ⟨true, fresh_inode .T_FILE⟩ := by
              rcases hsp with ⟨he, _⟩ | ⟨k, x, hx, _, he⟩
              · have := congrArg Prod.fst he
                simp only at this
                omega
              · cases he
                simp only
                rw [at_index_set_index_same, at_index_natCast, hx]
                rfl
            have hsome : (inode_get inum1 sc).isSome := by rw [hfresh]; rfl
            obtain ⟨r2, s2, hadd, hi2, _, _, hfr, _, hres⟩ :=
              add_dir_entry_root hic (name.drop 1) inum1 hpos hsome
            obtain ⟨hlinks, hviews⟩ :=
              add_dir_entry_links hic (name.drop 1) inum1 hpos hsome r2 s2 hadd
            rw [hadd] at h
            simp only at h
            have hn0 : inum1 ≠ ROOT_DIR_INUM := by simp only [ROOT_DIR_INUM]; omega
            have hsl2 : at_index s2.inode_table inum1 =
                some ⟨true, fresh_inode .T_FILE⟩ := by
              rw [hfr inum1 hn0]; exact hsl
            by_cases hr2 : r2 = -1
            · rw [if_pos hr2] at h
              cases h
              have hl2 : LinkInv s2 :=
                link_after_add hic hlsc (name.drop 1) inum1 hpos hsome r2 hadd rfl
                  (fun _ _ => rfl) (fun h0 => by omega) (fun _ => hviews inum1)
              apply link_inode_delete hi2 hl2 _ hn0
              rw [hlinks inum1, if_neg (by omega), hz]
            · rw [if_neg hr2] at h
              obtain ⟨_, rfl⟩ := done_pair_eq h
              have hr0 : r2 = 0 := by
                rcases hres with ⟨h0, _⟩ | ⟨h0, _⟩
                · exact h0
                · exact absurd h0 hr2
              apply link_after_add hic hlsc (name.drop 1) inum1 hpos hsome r2 hadd
                (dir_entries_add_open _ _ _) (fun j _ => by simp)
              · intro _ x hx
                simp only [add_open_inode_table] at hx
                rw [hsl2] at hx
                cases hx
                refine ⟨rfl, ?_⟩
                rw [hz]
                simp [fresh_inode]
              · intro h0; exact absurd hr0 h0
        · rw [if_neg hcr] at h
          cases h; exact hl
    · rw [tfs_open_invalid fuel name mode s (by simpa using hv)] at h
      cases h; exact hl

theorem link_tfs_link {s s1 : tfs_state} (hi : Inv s) (hl : LinkInv s)
    (target link_name : List Nat) (r : Int)
    (h : tfs_link target link_name s = .done (r, s1)) : LinkInv s1 := by
  unfold tfs_link at h
  obtain ⟨i, hlk, hcase⟩ := tfs_lookup_inv hi target
  rw [hlk] at h
  simp only at h
  rcases hcase with hm | ⟨_, hieq, hpos, hsome⟩
  · rw [if_pos (by omega)] at h
    cases h; exact hl
  · rw [if_neg (by omega)] at h
    cases hg : inode_get i s with
    | none => rw [hg] at hsome; cases hsome
    | some file_inode =>
      rw [hg] at h
      simp only at h
      by_cases hsym : file_inode.origin_path ≠ []
      · rw [if_pos hsym] at h
        cases h; exact hl
      · rw [if_neg hsym] at h
        cases link_name with
        | nil => cases h
        | cons c sub_name =>
          simp only at h
          obtain ⟨a, s2, hadd, hi2, _, _, hfr, _, _⟩ :=
            add_dir_entry_root hi sub_name _ hpos hsome
          obtain ⟨_, hviews⟩ := add_dir_entry_links hi sub_name i hpos hsome a s2 hadd
          have hn0 : i ≠ ROOT_DIR_INUM := by simp only [ROOT_DIR_INUM]; omega
          rw [hadd] at h
          simp only at h
          by_cases ha : a ≠ 0
          · rw [if_pos ha] at h
            cases h
            exact link_after_add hi hl sub_name i hpos hsome a hadd rfl
              (fun _ _ => rfl) (fun h0 => absurd h0 ha) (fun _ => hviews i)
          · rw [if_neg ha] at h
            cases hf1 : inode_get i s2 with
            | none => rw [hf1] at h; cases h
            | some f1 =>
              rw [hf1] at h
              cases h
              apply link_after_add hi hl sub_name i hpos hsome a hadd
                (dir_entries_inode_put _ _ _ hn0)
                (fun j hj => by rw [inode_put_at_other _ _ _ _ (Ne.symm hj)])
              · intro _ x hx
                rw [inode_put_at_same] at hx
                obtain ⟨y, hy, hyv⟩ := at_index_of_inode_get hf1
                rw [hy] at hx
                simp only [Option.map_some', Option.some.injEq] at hx
                subst hx
                obtain ⟨z, hz, hzv⟩ := at_index_of_inode_get hg
                have hv := hviews i
                rw [hy, hz] at hv
                simp only [Option.map_some', Option.some.injEq, link_view,
                  Prod.mk.injEq] at hv
                have hz2 := hz
                rw [hieq] at hz2
                have hfound : find_entry (target.drop 1) (dir_entries s) ≠ -1 := by
                  omega
                obtain ⟨ht, _⟩ := found_inode_taken hl _ hfound z hz2
                have hcnt := hl.count i z hz
                refine ⟨by rw [hv.1]; exact ht, ?_⟩
                simp only
                rw [← hyv, hv.2]
                omega
              · intro h0; exact absurd h0 ha

theorem link_tfs_sym_link {s s1 : tfs_state} (hi : Inv s) (hl : LinkInv s)
    (target link_name : List Nat) (r : Int)
    (h : tfs_sym_link target link_name s = .done (r, s1)) : LinkInv s1 := by
  unfold tfs_sym_link at h
  have hc := inv_inode_create hi .T_FILE
  have hlc := link_inode_create hi hl .T_FILE
  have hsp := inode_create_spec .T_FILE s
  generalize inode_create .T_FILE s = p at h hc hlc hsp
  obtain ⟨li, sc⟩ := p
  simp only at h hc hlc hsp
  obtain ⟨hic, hcase⟩ := hc
  obtain ⟨hlsc, hzero⟩ := hlc
  rcases hcase with hm | ⟨hpos, hfresh⟩
  · subst hm
    have : inode_get (-1) sc = none := by
      unfold inode_get; rw [at_index_neg _ _ (by omega)]; rfl
    rw [this] at h
    cases h
  · rw [hfresh] at h
    simp only at h
    have hn0 : li ≠ ROOT_DIR_INUM := by simp only [ROOT_DIR_INUM]; omega
    have hz := hzero (by omega)
    have hsl : at_index sc.inode_table li = some ⟨true, fresh_inode .T_FILE⟩ := by
      rcases hsp with ⟨he, _⟩ | ⟨k, x, hx, _, he⟩
      · have := congrArg Prod.fst he
        simp only at this
        omega
      · cases he
        simp only
        rw [at_index_set_index_same, at_index_natCast, hx]
        rfl
    have hi2 := inv_inode_put hic li
      { fresh_inode .T_FILE with origin_path := target.take (MAX_FILE_NAME - 1) } hn0
      (by intro h0; simp [fresh_inode] at h0)
    have hl2 := link_inode_put_same_count hlsc li
      { fresh_inode .T_FILE with origin_path := target.take (MAX_FILE_NAME - 1) }
      (fresh_inode .T_FILE) hn0 hfresh rfl
    obtain ⟨i, hlk, _⟩ := tfs_lookup_inv hi2 target
    rw [hlk] at h
    simp only at h
    by_cases hm : i = -1
    · rw [if_pos hm] at h
      cases h; exact hl2
    · rw [if_neg hm] at h
      cases link_name with
      | nil => cases h
      | cons c sub_name =>
        simp only at h
        have hsome2 : (inode_get li (inode_put li
            { fresh_inode .T_FILE with origin_path := target.take (MAX_FILE_NAME - 1) }
            sc)).isSome := by
          rw [inode_get_isSome_inode_put, hfresh]; rfl
        obtain ⟨a, s3, hadd, hi3, _, _, hfr, _, _⟩ :=
          add_dir_entry_root hi2 sub_name li hpos hsome2
        obtain ⟨_, hviews⟩ := add_dir_entry_links hi2 sub_name li hpos hsome2 a s3 hadd
        rw [hadd] at h
        simp only at h
        have hres : s1 = s3 := by
          by_cases ha : a ≠ 0
          · rw [if_pos ha] at h; cases h; rfl
          · rw [if_neg ha] at h; cases h; rfl
        subst hres
        apply link_after_add hi2 hl2 sub_name li hpos hsome2 a hadd rfl
          (fun _ _ => rfl)
        · intro _ x hx
          rw [hfr li hn0, inode_put_at_same, hsl] at hx
          simp only [Option.map_some', Option.some.injEq] at hx
          subst hx
          refine ⟨rfl, ?_⟩
          rw [dir_entries_inode_put _ _ _ hn0, hz]
          simp [fresh_inode]
        · intro _; exact hviews li

theorem link_tfs_unlink {s s1 : tfs_state} (hi : Inv s) (hl : LinkInv s)
    (target : List Nat) (r : Int)
    (h : tfs_unlink target s = .done (r, s1)) : LinkInv s1 := by
  by_cases hv : valid_pathname target = true
  swap
  · rw [tfs_unlink_invalid hi target (by simpa using hv)] at h
    cases h; exact hl
  by_cases hf : find_entry (target.drop 1) (dir_entries s) = -1
  · rw [tfs_unlink_missing hi target hf] at h
    cases h; exact hl
  cases hb : is_in_open_file_table (find_entry (target.drop 1) (dir_entries s)) s with
  | true =>
    have hlk := tfs_lookup_root hi target
    rw [if_pos hv] at hlk
    rw [tfs_unlink_busy s target _ hlk hb] at h
    cases h; exact hl
  | false =>
    obtain ⟨es1, fi, hcl, hg, hun⟩ := tfs_unlink_found hi target hv hf hb
    obtain ⟨hpos, _⟩ := find_entry_inv hi _ hf
    obtain ⟨hd, es2, he2, hc2⟩ := clear_dir_entry_found hi _ hf
    rw [hcl] at he2
    cases he2
    have hput := inv_clear_dir_entry hi _ _ _ hc2
    have hn0 : find_entry (target.drop 1) (dir_entries s) ≠ ROOT_DIR_INUM := by
      simp only [ROOT_DIR_INUM]; omega
    have hg2 : inode_get (find_entry (target.drop 1) (dir_entries s))
        (data_block_put (root_block s) (.entries es1) s) = some fi := by
      rw [inode_get_data_block_put]; exact hg
    have hi2 : Inv (inode_put (find_entry (target.drop 1) (dir_entries s))
        { fi with i_hard_link_count := fi.i_hard_link_count - 1 }
        (data_block_put (root_block s) (.entries es1) s)) :=
      inv_inode_put hput _ _ hn0 (fun hp => inv_own_get (v := fi) hput hg2 hp)
    have hde2 : dir_entries (inode_put (find_entry (target.drop 1) (dir_entries s))
        { fi with i_hard_link_count := fi.i_hard_link_count - 1 }
        (data_block_put (root_block s) (.entries es1) s)) = es1 := by
      rw [dir_entries_inode_put _ _ _ hn0, dir_entries_put_dir hi hd]
    obtain ⟨z, hz, hzv⟩ := at_index_of_inode_get hg
    obtain ⟨htaken, _⟩ := found_inode_taken hl _ hf z hz
    have hcnt := hl.count _ z hz
    have hclr := links_to_clear_entry (target.drop 1)
      (find_entry (target.drop 1) (dir_entries s)) _ _ hcl
    rw [if_pos rfl] at hclr
    have hl2 : LinkInv (inode_put (find_entry (target.drop 1) (dir_entries s))
        { fi with i_hard_link_count := fi.i_hard_link_count - 1 }
        (data_block_put (root_block s) (.entries es1) s)) := by
      apply hl.of_except (find_entry (target.drop 1) (dir_entries s))
      · intro j hj
        rw [hde2]
        have := links_to_clear_entry (target.drop 1) j _ _ hcl
        rw [if_neg hj] at this
        omega
      · intro j hj
        rw [inode_put_at_other _ _ _ _ (Ne.symm hj)]
        simp
      · intro x hx
        rw [inode_put_at_same] at hx
        simp only [data_block_put_inode_table, hz, Option.map_some',
          Option.some.injEq] at hx
        subst hx
        rw [hde2]
        simp only
        rw [← hzv]
        omega
      · intro x hx hfr
        rw [inode_put_at_same] at hx
        simp only [data_block_put_inode_table, hz, Option.map_some',
          Option.some.injEq] at hx
        subst hx
        simp only at hfr
        rw [htaken] at hfr
        cases hfr
    rw [hun] at h
    obtain ⟨_, hs1⟩ := done_pair_eq h
    simp only at hs1
    by_cases hzero : fi.i_hard_link_count - 1 = 0
    · rw [if_pos hzero] at hs1
      subst hs1
      apply link_inode_delete hi2 hl2 _ hn0
      rw [hde2]
      rw [← hzv] at hzero
      omega
    · rw [if_neg hzero] at hs1
      subst hs1
      exact hl2

theorem link_tfs_init (pp : Option tfs_params) (s : tfs_state)
    (h : tfs_init pp = (0, s)) : LinkInv s := by
  have hi := inv_tfs_init pp s h
  obtain ⟨p, n, _, _, hs⟩ := tfs_init_state pp s h
  have h0 : at_index s.inode_table ROOT_DIR_INUM = some ⟨true, fresh_inode .T_DIRECTORY⟩ := by
    rw [hs]; simp [at_index, ROOT_DIR_INUM]
  have hrb : root_block s = -1 := by
    unfold root_block; rw [h0]; rfl
  have hd := dir_entries_unallocated hrb
  constructor
  · intro i x hx
    rw [hd, links_to_nil]
    rw [hs] at hx
    simp only at hx
    rcases List.mem_cons.mp (at_index_mem hx) with hm | hm
    · rw [hm]; simp [fresh_inode]
    · rw [List.eq_of_mem_replicate hm]; simp [zero_inode]
  · intro i x _ _
    rw [hd, links_to_nil]

/-- Every reachable state satisfies the link invariant. -/
theorem reachable_link {s : tfs_state} (h : Reachable s) : LinkInv s := by
  induction h with
  | init pp s h => exact link_tfs_init pp s h
  | open_ s s1 fuel name mode r hr h ih =>
    exact link_tfs_open fuel name mode s s1 r (reachable_inv hr) ih h
  | close s fh _ ih => exact link_tfs_close ih fh
  | read s s1 fh len r out _ h ih => exact link_tfs_read ih fh len r out h
  | write s s1 fh buffer n r hr h ih =>
    exact link_tfs_write (reachable_inv hr) ih fh buffer n r h
  | link s s1 target link_name r hr h ih =>
    exact link_tfs_link (reachable_inv hr) ih target link_name r h
  | sym_link s s1 target link_name r hr h ih =>
    exact link_tfs_sym_link (reachable_inv hr) ih target link_name r h
  | unlink s s1 target r hr h ih =>
    exact link_tfs_unlink (reachable_inv hr) ih target r h

/-! ## Opening through a symbolic link -/

/-- One step of `tfs_open` on a name that resolves to a symbolic link: the
call is the call on the stored target. -/
theorem tfs_open_symlink (fuel : Nat) (name : List Nat) (mode : tfs_file_mode_t)
    (s : tfs_state) (r ino : inode_t) (i : Int)
    (hv : valid_pathname name = true)
    (hr : inode_get ROOT_DIR_INUM s = some r)
    (hl : tfs_lookup name ROOT_DIR_INUM s = .done i) (h0 : 0 ≤ i)
    (hstrict : mode.strict_create = false)
    (hg : inode_get i s = some ino) (hsym : ino.origin_path ≠ []) :
    tfs_open (fuel + 1) name mode s = tfs_open fuel ino.origin_path mode s := by
  rw [tfs_open]
  simp only [hv, hr, hl, h0, hstrict, hg]
  simp [hsym]

/-- On `ex_cycle` the calls of `tfs_open` on `"/a"` and on `"/b"` exhaust
every recursion bound. -/
theorem tfs_open_cycle_aux (mode : tfs_file_mode_t) (h : mode.strict_create = false) :
    ∀ fuel : Nat, tfs_open fuel path_a mode ex_cycle = .out_of_fuel ∧
      tfs_open fuel path_b mode ex_cycle = .out_of_fuel
  | 0 => ⟨rfl, rfl⟩
  | fuel + 1 => by
    obtain ⟨ha, hb⟩ := tfs_open_cycle_aux mode h fuel
    constructor
    · rw [tfs_open_symlink fuel path_a mode ex_cycle _ _ 1
        (by rfl) (by rfl) (by rfl) (by decide) h (by rfl) (by decide)]
      exact hb
    · rw [tfs_open_symlink fuel path_b mode ex_cycle _ _ 2
        (by rfl) (by rfl) (by rfl) (by decide) h (by rfl) (by decide)]
      exact ha

/-! ## The invariant of the open files -/

/-- The invariant passes to a state with the same inode table, open-file
table and parameters. -/
theorem FileInv.same_tables {s t : tfs_state} (hf : FileInv s)
    (h1 : t.inode_table = s.inode_table) (h2 : t.open_file_table = s.open_file_table)
    (h3 : t.params = s.params) : FileInv t := by
  constructor
  · intro h x hx ht
    rw [h2] at hx
    rw [h1]
    exact hf.live h x hx ht
  · intro i y hi hy
    rw [h1] at hy
    rw [h3]
    exact hf.size i y hi hy

/-- The invariant passes to a state that differs in the slot of the root
inode, and in the data blocks, only. -/
theorem FileInv.of_frame {s t : tfs_state} (hi : Inv s) (hf : FileInv s)
    (h1 : ∀ j : Int, j ≠ ROOT_DIR_INUM →
      at_index t.inode_table j = at_index s.inode_table j)
    (h2 : t.open_file_table = s.open_file_table)
    (h3 : t.params = s.params) : FileInv t := by
  constructor
  · intro h x hx ht
    rw [h2] at hx
    obtain ⟨hpos, _, _⟩ := hi.files h x hx ht
    rw [h1 _ (by simp only [ROOT_DIR_INUM]; omega)]
    exact hf.live h x hx ht
  · intro i y hi0 hy
    rw [h1 i hi0] at hy
    rw [h3]
    exact hf.size i y hi0 hy

/-- A store through an inode reference keeps the invariant when the size
stored is within the block size. -/
theorem file_inode_put {s : tfs_state} (hf : FileInv s) (i : Int) (v : inode_t)
    (hv : v.i_size ≤ s.params.block_size) : FileInv (inode_put i v s) := by
  constructor
  · intro h x hx ht
    simp only [inode_put_open_file_table] at hx
    obtain ⟨y, hy, hy1⟩ := hf.live h x hx ht
    by_cases hj : i = x.val.of_inumber
    · subst hj
      rw [inode_put_at_same, hy]
      exact ⟨_, rfl, hy1⟩
    · rw [inode_put_at_other _ _ _ _ hj]
      exact ⟨y, hy, hy1⟩
  · intro j y hj0 hy
    simp only [inode_put_params]
    by_cases hj : i = j
    · subst hj
      rw [inode_put_at_same] at hy
      cases hx : at_index s.inode_table i with
      | none => rw [hx] at hy; cases hy
      | some x =>
        rw [hx] at hy
        simp only [Option.map_some', Option.some.injEq] at hy
        subst hy
        exact hv
    · rw [inode_put_at_other _ _ _ _ hj] at hy
      exact hf.size j y hj0 hy

/-- Marking an inode slot used keeps the invariant when the size stored is
within the block size. -/
theorem file_set_inode {s : tfs_state} (hf : FileInv s) (i : Int) (v : inode_t)
    (hv : v.i_size ≤ s.params.block_size) :
    FileInv { s with inode_table := set_index s.inode_table i ⟨true, v⟩ } := by
  constructor
  · intro h x hx ht
    simp only at hx ⊢
    obtain ⟨y, hy, hy1⟩ := hf.live h x hx ht
    by_cases hj : i = x.val.of_inumber
    · subst hj
      rw [at_index_set_index_same, hy]
      exact ⟨_, rfl, rfl⟩
    · rw [at_index_set_index_other _ _ _ _ hj]
      exact ⟨y, hy, hy1⟩
  · intro j y hj0 hy
    simp only at hy ⊢
    by_cases hj : i = j
    · subst hj
      rw [at_index_set_index_same] at hy
      cases hx : at_index s.inode_table i with
      | none => rw [hx] at hy; cases hy
      | some x =>
        rw [hx] at hy
        simp only [Option.map_some', Option.some.injEq] at hy
        subst hy
        exact hv
    · rw [at_index_set_index_other _ _ _ _ hj] at hy
      exact hf.size j y hj0 hy

/-- The function `inode_create` keeps the invariant. -/
theorem file_inode_create {s : tfs_state} (hf : FileInv s) (t : inode_type) :
    FileInv (inode_create t s).2 := by
  rcases inode_create_spec t s with ⟨he, _⟩ | ⟨k, x, _, _, he⟩
  · rw [he]; exact hf
  · rw [he]
    exact file_set_inode hf _ _ (Nat.zero_le _)

/-- The function `inode_delete` keeps the invariant when no open-file entry
holds the inumber. -/
theorem file_inode_delete {s : tfs_state} (hf : FileInv s) (i : Int)
    (hno : ∀ (h : Int) (x : slot open_file_entry_t),
      at_index s.open_file_table h = some x → x.taken = true → x.val.of_inumber ≠ i) :
    FileInv (inode_delete i s) := by
  cases hg : inode_get i s with
  | none => rw [inode_delete_none i s hg]; exact hf
  | some ino =>
    have htab := inode_delete_inode_table i s ino hg
    have hfiles : (inode_delete i s).open_file_table = s.open_file_table := by
      unfold inode_delete
      rw [hg]
      simp only
      split <;> simp
    have hpar : (inode_delete i s).params = s.params := by
      unfold inode_delete
      rw [hg]
      simp only
      split <;> simp
    constructor
    · intro h x hx ht
      rw [hfiles] at hx
      obtain ⟨y, hy, hy1⟩ := hf.live h x hx ht
      rw [htab, at_index_set_index_other _ _ _ _ (Ne.symm (hno h x hx ht))]
      exact ⟨y, hy, hy1⟩
    · intro j y hj0 hy
      rw [hpar]
      rw [htab] at hy
      by_cases hj : i = j
      · subst hj
        rw [at_index_set_index_same] at hy
        cases hx : at_index s.inode_table i with
        | none => rw [hx] at hy; cases hy
        | some x =>
          rw [hx] at hy
          simp only [Option.map_some', Option.some.injEq] at hy
          subst hy
          exact Nat.zero_le _
      · rw [at_index_set_index_other _ _ _ _ hj] at hy
        exact hf.size j y hj0 hy

/-- Storing an open-file entry keeps the invariant when its inumber is that
of an allocated inode. -/
theorem file_set_open_file {s : tfs_state} (hf : FileInv s) (k : Int)
    (v : slot open_file_entry_t)
    (hv : v.taken = true →
      ∃ y, at_index s.inode_table v.val.of_inumber = some y ∧ y.taken = true) :
    FileInv { s with open_file_table := set_index s.open_file_table k v } := by
  have key : ∀ (h : Int) (x : slot open_file_entry_t),
      at_index (set_index s.open_file_table k v) h = some x →
      x = v ∨ at_index s.open_file_table h = some x := by
    intro h x hx
    by_cases hk : k = h
    · subst hk
      rw [at_index_set_index_same] at hx
      cases hy : at_index s.open_file_table k with
      | none => rw [hy] at hx; cases hx
      | some y =>
        rw [hy] at hx
        simp only [Option.map_some', Option.some.injEq] at hx
        exact Or.inl hx.symm
    · rw [at_index_set_index_other _ _ _ _ hk] at hx
      exact Or.inr hx
  constructor
  · intro h x hx ht
    rcases key h x hx with hx | hx
    · subst hx; exact hv ht
    · exact hf.live h x hx ht
  · intro j y hj0 hy
    exact hf.size j y hj0 hy

/-- The function `add_to_open_file_table` keeps the invariant for the
inumber of an allocated inode. -/
theorem file_add_to_open_file_table {s : tfs_state} (hf : FileInv s) (i : Int)
    (o : Nat) (hlive : ∃ y, at_index s.inode_table i = some y ∧ y.taken = true) :
    FileInv (add_to_open_file_table i o s).2 := by
  unfold add_to_open_file_table
  cases hfree : first_free s.open_file_table with
  | none => exact hf
  | some h =>
    simp only
    rw [← set_index_natCast]
    exact file_set_open_file hf _ _ (fun _ => hlive)

/-- A store through an open-file reference keeps the invariant for the
inumber of an allocated inode. -/
theorem file_open_file_put {s : tfs_state} (hf : FileInv s) (fh : Int)
    (v : open_file_entry_t)
    (hlive : ∃ y, at_index s.inode_table v.of_inumber = some y ∧ y.taken = true) :
    FileInv (open_file_put fh v s) :=
  file_set_open_file hf _ _ (fun _ => hlive)

/-- The function `remove_from_open_file_table` keeps the invariant. -/
theorem file_remove_from_open_file_table {s : tfs_state} (hf : FileInv s) (fh : Int) :
    FileInv (remove_from_open_file_table fh s) := by
  unfold remove_from_open_file_table
  cases hx : at_index s.open_file_table fh with
  | none => exact hf
  | some x =>
    exact file_set_open_file hf _ _ (fun h => by cases h)

/-- The function `tfs_close` keeps the invariant. -/
theorem file_tfs_close {s : tfs_state} (hf : FileInv s) (fh : Int) :
    FileInv (tfs_close fh s).2 := by
  unfold tfs_close
  cases hg : get_open_file_entry fh s with
  | none => exact hf
  | some f => exact file_remove_from_open_file_table hf fh

/-- An open handle holds the inumber of an allocated inode, other than the
root. -/
theorem file_open_entry {s : tfs_state} (hi : Inv s) (hf : FileInv s) {fh : Int}
    {file : open_file_entry_t} (h : get_open_file_entry fh s = some file) :
    (∃ y, at_index s.inode_table file.of_inumber = some y ∧ y.taken = true) ∧
      file.of_inumber ≠ ROOT_DIR_INUM := by
  have hx := get_open_file_entry_some h
  obtain ⟨hpos, _, _⟩ := hi.files fh _ hx rfl
  exact ⟨hf.live fh _ hx rfl,
    by simp only [ROOT_DIR_INUM]; simp only at hpos; omega⟩

/-- The function `tfs_read` keeps the invariant: it stores an offset only. -/
theorem file_tfs_read {s s1 : tfs_state} (hi : Inv s) (hf : FileInv s) (fh : Int)
    (len : Nat) (r : Int) (out : List Nat)
    (h : tfs_read fh len s = .done (r, out, s1)) : FileInv s1 := by
  unfold tfs_read at h
  cases hg : get_open_file_entry fh s with
  | none => rw [hg] at h; cases h; exact hf
  | some file =>
    rw [hg] at h
    simp only at h
    obtain ⟨hlive, _⟩ := file_open_entry hi hf hg
    cases hino : inode_get file.of_inumber s with
    | none => rw [hino] at h; cases h
    | some inode =>
      rw [hino] at h
      simp only at h
      generalize (if len < size_sub inode.i_size file.of_offset then len
        else size_sub inode.i_size file.of_offset) = n at h
      by_cases hn : 0 < n
      · rw [if_pos hn] at h
        cases hb : data_block_get inode.i_data_block s with
        | none => rw [hb] at h; cases h
        | some blk =>
          rw [hb] at h
          cases h
          exact file_open_file_put hf fh
            { file with of_offset := size_add file.of_offset n } hlive
      · rw [if_neg hn] at h
        cases h; exact hf
/-- The copy of `tfs_write` keeps the invariant: a copy that returns has
stayed inside the block. -/
theorem file_tfs_write_copy {s s1 : tfs_state} (hi : Inv s) (hf : FileInv s)
    (fh : Int) (file : open_file_entry_t) (inode : inode_t) (buffer : List Nat)
    (n : Nat) (r : Int) (hfile : get_open_file_entry fh s = some file)
    (hsz : inode.i_size ≤ s.params.block_size)
    (h : tfs_write_copy fh file inode buffer n s = .done (r, s1)) : FileInv s1 := by
  obtain ⟨hlive, _⟩ := file_open_entry hi hf hfile
  unfold tfs_write_copy at h
  cases hb : data_block_get inode.i_data_block s with
  | none => rw [hb] at h; cases h
  | some blk =>
    rw [hb] at h
    cases blk with
    | entries es => cases h
    | bytes l =>
      simp only at h
      have hlen := inv_bytes_length hi hb
      unfold memcpy_to_block at h
      by_cases hc : file.of_offset + n ≤ l.length ∧ n ≤ buffer.length
      · rw [if_pos hc] at h
        simp only at h
        cases h
        have hnew : size_add file.of_offset n ≤ s.params.block_size := by
          unfold size_add
          exact le_trans (Nat.mod_le _ _) (by omega)
        have h1 : FileInv (data_block_put inode.i_data_block
            (.bytes (l.take file.of_offset ++ buffer.take n ++
              l.drop (file.of_offset + n))) s) :=
          hf.same_tables (by simp) (by simp) (by simp)
        have h2 := file_open_file_put h1 fh
          { file with of_offset := size_add file.of_offset n }
          (by simpa using hlive)
        apply file_inode_put h2
        simp only [open_file_put_params, data_block_put_params]
        split
        · exact hnew
        · exact hsz
      · rw [if_neg hc] at h
        cases h

/-- The function `tfs_write` keeps the invariant. -/
theorem file_tfs_write {s s1 : tfs_state} (hi : Inv s) (hf : FileInv s) (fh : Int)
    (buffer : List Nat) (to_write : Nat) (r : Int)
    (h : tfs_write fh buffer to_write s = .done (r, s1)) : FileInv s1 := by
  unfold tfs_write at h
  cases hfile : get_open_file_entry fh s with
  | none => rw [hfile] at h; cases h; exact hf
  | some file =>
    rw [hfile] at h
    simp only at h
    obtain ⟨_, hn0⟩ := file_open_entry hi hf hfile
    cases hg : inode_get file.of_inumber s with
    | none => rw [hg] at h; cases h
    | some inode =>
      rw [hg] at h
      simp only at h
      obtain ⟨y, hy, hyv⟩ := at_index_of_inode_get hg
      have hsz : inode.i_size ≤ s.params.block_size := by
        rw [← hyv]; exact hf.size _ y hn0 hy
      generalize (if state_block_size s < size_add to_write file.of_offset
        then size_sub (state_block_size s) file.of_offset else to_write) = n at h
      by_cases hn : 0 < n
      · rw [if_pos hn] at h
        by_cases hz : inode.i_size = 0
        · rw [if_pos hz] at h
          have ha := inv_data_block_alloc hi
          have hot : (data_block_alloc s).2.open_file_table = s.open_file_table := by
            rcases data_block_alloc_spec s with ⟨h1, _⟩ | ⟨k, x, _, _, h1⟩ <;> rw [h1]
          have hit : (data_block_alloc s).2.inode_table = s.inode_table := by
            rcases data_block_alloc_spec s with ⟨h1, _⟩ | ⟨k, x, _, _, h1⟩ <;> rw [h1]
          have hpt : (data_block_alloc s).2.params = s.params := by
            rcases data_block_alloc_spec s with ⟨h1, _⟩ | ⟨k, x, _, _, h1⟩ <;> rw [h1]
          have hfa : FileInv (data_block_alloc s).2 := hf.same_tables hit hot hpt
          generalize data_block_alloc s = p at h ha hot hpt hfa
          obtain ⟨bnum, sa⟩ := p
          simp only at h ha hot hpt hfa
          by_cases hb : bnum = -1
          · rw [if_pos hb] at h
            cases h; exact hfa
          · rw [if_neg hb] at h
            exact file_tfs_write_copy ha hfa fh file _ buffer _ r
              (by rw [get_open_file_entry_congr hot]; exact hfile)
              (by rw [hpt]; exact hsz) h
        · rw [if_neg hz] at h
          exact file_tfs_write_copy hi hf fh file _ buffer _ r hfile hsz h
      · rw [if_neg hn] at h
        cases h; exact hf

/-- The function `tfs_open` keeps the invariant. -/
theorem file_tfs_open : ∀ (fuel : Nat) (name : List Nat) (mode : tfs_file_mode_t)
    (s s1 : tfs_state) (r : Int), Inv s → LinkInv s → FileInv s →
    tfs_open fuel name mode s = .done (r, s1) → FileInv s1
  | 0, _, _, _, _, _, _, _, _, h => by simp [tfs_open] at h
  | fuel + 1, name, mode, s, s1, r, hi, hl, hf, h => by
    by_cases hv : valid_pathname name = true
    · rw [tfs_open_step hi fuel name mode hv] at h
      by_cases hfound : 0 ≤ find_entry (name.drop 1) (dir_entries s)
      · rw [if_pos hfound] at h
        have hne : find_entry (name.drop 1) (dir_entries s) ≠ -1 := by omega
        obtain ⟨hpos, hsome⟩ := find_entry_inv hi _ hne
        by_cases hstrict : mode.strict_create = true
        · rw [if_pos hstrict] at h
          cases h; exact hf
        · rw [if_neg hstrict] at h
          cases hg : inode_get (find_entry (name.drop 1) (dir_entries s)) s with
          | none => rw [hg] at hsome; cases hsome
          | some inode =>
            rw [hg] at h
            simp only at h
            by_cases hsym : inode.origin_path ≠ []
            · rw [if_pos hsym] at h
              exact file_tfs_open fuel _ mode s s1 r hi hl hf h
            · rw [if_neg hsym] at h
              have hn0 : find_entry (name.drop 1) (dir_entries s) ≠ ROOT_DIR_INUM := by
                simp only [ROOT_DIR_INUM]; omega
              obtain ⟨z, hz, hzv⟩ := at_index_of_inode_get hg
              obtain ⟨htaken, _⟩ := found_inode_taken hl _ hne z hz
              have hsz : inode.i_size ≤ s.params.block_size := by
                rw [← hzv]; exact hf.size _ z hn0 hz
              by_cases htr : mode.trunc = true ∧ 0 < inode.i_size
              · rw [if_pos htr] at h
                obtain ⟨_, rfl⟩ := done_pair_eq h
                have h1 : FileInv (data_block_free inode.i_data_block s) :=
                  hf.same_tables (by simp) (by simp) (by simp)
                have h2 := file_inode_put h1
                  (find_entry (name.drop 1) (dir_entries s))
                  { inode with i_size := 0 } (Nat.zero_le _)
                apply file_add_to_open_file_table h2 _ 0
                rw [inode_put_at_same]
                simp only [data_block_free_inode_table, hz, Option.map_some']
                exact ⟨_, rfl, htaken⟩
              · rw [if_neg htr] at h
                obtain ⟨_, rfl⟩ := done_pair_eq h
                exact file_add_to_open_file_table hf _ _ ⟨z, hz, htaken⟩
      · rw [if_neg hfound] at h
        by_cases hcr : mode.creat = true
        · rw [if_pos hcr] at h
          have hc := inv_inode_create hi .T_FILE
          have hfc := file_inode_create hf .T_FILE
          have hsp := inode_create_spec .T_FILE s
          have hframe := (inode_create_frame hi .T_FILE).2.1
          generalize inode_create .T_FILE s = p at h hc hfc hsp hframe
          obtain ⟨inum1, sc⟩ := p
          simp only at h hc hfc hsp hframe
          obtain ⟨hic, hcase⟩ := hc
          rcases hcase with hm | ⟨hpos, hfresh⟩
          · rw [if_pos hm] at h
            cases h; exact hfc
          · rw [if_neg (by omega)] at h
            obtain ⟨k, x, hx, hx1, he⟩ : ∃ k : Nat, ∃ x, s.inode_table[k]? = some x ∧
                x.taken = false ∧ (inum1, sc) = ((k : Int),
                  { s with inode_table :=
                      set_index s.inode_table (k : Int) ⟨true, fresh_inode .T_FILE⟩ }) := by
              rcases hsp with ⟨he, _⟩ | hsp
              · have := congrArg Prod.fst he
                simp only at this
                omega
              · exact hsp
            have hsl : at_index sc.inode_table inum1 =
                some ⟨true, fresh_inode .T_FILE⟩ := by
              cases he
              simp only
              rw [at_index_set_index_same, at_index_natCast, hx]
              rfl
            have hsome : (inode_get inum1 sc).isSome := by rw [hfresh]; rfl
            obtain ⟨r2, s2, hadd, hi2, hfiles2, hpar2, hfr, _, hres⟩ :=
              add_dir_entry_root hic (name.drop 1) inum1 hpos hsome
            have hf2 : FileInv s2 := FileInv.of_frame hic hfc hfr hfiles2 hpar2
            rw [hadd] at h
            simp only at h
            have hn0 : inum1 ≠ ROOT_DIR_INUM := by simp only [ROOT_DIR_INUM]; omega
            have hsl2 : at_index s2.inode_table inum1 =
                some ⟨true, fresh_inode .T_FILE⟩ := by
              rw [hfr inum1 hn0]; exact hsl
            by_cases hr2 : r2 = -1
            · rw [if_pos hr2] at h
              cases h
              apply file_inode_delete hf2
              intro h0 x0 hx0 ht0 heq
              rw [hfiles2, hframe] at hx0
              obtain ⟨y, hy, hy1⟩ := hf.live h0 x0 hx0 ht0
              have hk : inum1 = (k : Int) := congrArg Prod.fst he
              rw [heq, hk, at_index_natCast, hx] at hy
              cases hy
              rw [hx1] at hy1
              cases hy1
            · rw [if_neg hr2] at h
              obtain ⟨_, rfl⟩ := done_pair_eq h
              exact file_add_to_open_file_table hf2 _ 0 ⟨_, hsl2, rfl⟩
        · rw [if_neg hcr] at h
          cases h; exact hf
    · rw [tfs_open_invalid fuel name mode s (by simpa using hv)] at h
      cases h; exact hf

/-- The function `tfs_link` keeps the invariant. -/
theorem file_tfs_link {s s1 : tfs_state} (hi : Inv s) (hf : FileInv s)
    (target link_name : List Nat) (r : Int)
    (h : tfs_link target link_name s = .done (r, s1)) : FileInv s1 := by
  unfold tfs_link at h
  obtain ⟨i, hlk, hcase⟩ := tfs_lookup_inv hi target
  rw [hlk] at h
  simp only at h
  rcases hcase with hm | ⟨_, _, hpos, hsome⟩
  · rw [if_pos (by omega)] at h
    cases h; exact hf
  · rw [if_neg (by omega)] at h
    cases hg : inode_get i s with
    | none => rw [hg] at hsome; cases hsome
    | some file_inode =>
      rw [hg] at h
      simp only at h
      by_cases hsym : file_inode.origin_path ≠ []
      · rw [if_pos hsym] at h
        cases h; exact hf
      · rw [if_neg hsym] at h
        cases link_name with
        | nil => cases h
        | cons c sub_name =>
          simp only at h
          obtain ⟨a, s2, hadd, hi2, hfiles, hpar, hfr, _, _⟩ :=
            add_dir_entry_root hi sub_name _ hpos hsome
          have hf2 : FileInv s2 := FileInv.of_frame hi hf hfr hfiles hpar
          have hn0 : i ≠ ROOT_DIR_INUM := by simp only [ROOT_DIR_INUM]; omega
          rw [hadd] at h
          simp only at h
          by_cases ha : a ≠ 0
          · rw [if_pos ha] at h
            cases h; exact hf2
          · rw [if_neg ha] at h
            cases hf1 : inode_get i s2 with
            | none => rw [hf1] at h; cases h
            | some f1 =>
              rw [hf1] at h
              cases h
              obtain ⟨y, hy, hyv⟩ := at_index_of_inode_get hf1
              apply file_inode_put hf2
              show f1.i_size ≤ s2.params.block_size
              rw [← hyv]
              exact hf2.size i y hn0 hy

/-- The function `tfs_sym_link` keeps the invariant. -/
theorem file_tfs_sym_link {s s1 : tfs_state} (hi : Inv s) (hf : FileInv s)
    (target link_name : List Nat) (r : Int)
    (h : tfs_sym_link target link_name s = .done (r, s1)) : FileInv s1 := by
  unfold tfs_sym_link at h
  have hc := inv_inode_create hi .T_FILE
  have hfc := file_inode_create hf .T_FILE
  generalize inode_create .T_FILE s = p at h hc hfc
  obtain ⟨li, sc⟩ := p
  simp only at h hc hfc
  obtain ⟨hic, hcase⟩ := hc
  rcases hcase with hm | ⟨hpos, hfresh⟩
  · subst hm
    have : inode_get (-1) sc = none := by
      unfold inode_get; rw [at_index_neg _ _ (by omega)]; rfl
    rw [this] at h
    cases h
  · rw [hfresh] at h
    simp only at h
    have hn0 : li ≠ ROOT_DIR_INUM := by simp only [ROOT_DIR_INUM]; omega
    have hi2 := inv_inode_put hic li
      { fresh_inode .T_FILE with origin_path := target.take (MAX_FILE_NAME - 1) } hn0
      (by intro h0; simp [fresh_inode] at h0)
    have hf2 := file_inode_put hfc li
      { fresh_inode .T_FILE with origin_path := target.take (MAX_FILE_NAME - 1) }
      (Nat.zero_le _)
    obtain ⟨i, hlk, _⟩ := tfs_lookup_inv hi2 target
    rw [hlk] at h
    simp only at h
    by_cases hm : i = -1
    · rw [if_pos hm] at h
      cases h; exact hf2
    · rw [if_neg hm] at h
      cases link_name with
      | nil => cases h
      | cons c sub_name =>
        simp only at h
        have hsome2 : (inode_get li (inode_put li
            { fresh_inode .T_FILE with origin_path := target.take (MAX_FILE_NAME - 1) }
            sc)).isSome := by
          rw [inode_get_isSome_inode_put, hfresh]; rfl
        obtain ⟨a, s3, hadd, hi3, hfiles, hpar, hfr, _, _⟩ :=
          add_dir_entry_root hi2 sub_name li hpos hsome2
        have hf3 : FileInv s3 := FileInv.of_frame hi2 hf2 hfr hfiles hpar
        rw [hadd] at h
        simp only at h
        by_cases ha : a ≠ 0
        · rw [if_pos ha] at h; cases h; exact hf3
        · rw [if_neg ha] at h; cases h; exact hf3

/-- No open-file entry holds an inumber that `is_in_open_file_table`
denies. -/
theorem not_in_open_file_table {s : tfs_state} {i : Int}
    (hb : is_in_open_file_table i s = false) (h : Int) (x : slot open_file_entry_t)
    (hx : at_index s.open_file_table h = some x) (ht : x.taken = true) :
    x.val.of_inumber ≠ i := by
  intro heq
  have : is_in_open_file_table i s = true := by
    rw [is_in_open_file_table_iff]
    refine ⟨h, x.val, ?_, heq⟩
    unfold get_open_file_entry
    rw [hx]
    simp only [ht, if_true]
  rw [hb] at this
  cases this

/-- The function `tfs_unlink` keeps the invariant: it deletes an inode only
when no open-file entry holds its inumber. -/
theorem file_tfs_unlink {s s1 : tfs_state} (hi : Inv s) (hf : FileInv s)
    (target : List Nat) (r : Int)
    (h : tfs_unlink target s = .done (r, s1)) : FileInv s1 := by
  by_cases hv : valid_pathname target = true
  swap
  · rw [tfs_unlink_invalid hi target (by simpa using hv)] at h
    cases h; exact hf
  by_cases hfe : find_entry (target.drop 1) (dir_entries s) = -1
  · rw [tfs_unlink_missing hi target hfe] at h
    cases h; exact hf
  cases hb : is_in_open_file_table (find_entry (target.drop 1) (dir_entries s)) s with
  | true =>
    have hlk := tfs_lookup_root hi target
    rw [if_pos hv] at hlk
    rw [tfs_unlink_busy s target _ hlk hb] at h
    cases h; exact hf
  | false =>
    obtain ⟨es1, fi, hcl, hg, hun⟩ := tfs_unlink_found hi target hv hfe hb
    obtain ⟨hpos, _⟩ := find_entry_inv hi _ hfe
    have hn0 : find_entry (target.drop 1) (dir_entries s) ≠ ROOT_DIR_INUM := by
      simp only [ROOT_DIR_INUM]; omega
    obtain ⟨z, hz, hzv⟩ := at_index_of_inode_get hg
    have hsz : fi.i_size ≤ s.params.block_size := by
      rw [← hzv]; exact hf.size _ z hn0 hz
    have h1 : FileInv (data_block_put (root_block s) (.entries es1) s) :=
      hf.same_tables (by simp) (by simp) (by simp)
    have h2 := file_inode_put h1 (find_entry (target.drop 1) (dir_entries s))
      { fi with i_hard_link_count := fi.i_hard_link_count - 1 }
      (by simpa using hsz)
    rw [hun] at h
    obtain ⟨_, hs1⟩ := done_pair_eq h
    simp only at hs1
    by_cases hzero : fi.i_hard_link_count - 1 = 0
    · rw [if_pos hzero] at hs1
      subst hs1
      apply file_inode_delete h2
      intro h0 x0 hx0 ht0
      simp only [inode_put_open_file_table, data_block_put_open_file_table] at hx0
      exact not_in_open_file_table hb h0 x0 hx0 ht0
    · rw [if_neg hzero] at hs1
      subst hs1
      exact h2

/-- The state that `tfs_init` builds satisfies the invariant. -/
theorem file_tfs_init (pp : Option tfs_params) (s : tfs_state)
    (h : tfs_init pp = (0, s)) : FileInv s := by
  obtain ⟨p, n, _, _, hs⟩ := tfs_init_state pp s h
  constructor
  · intro h0 x hx ht
    rw [hs] at hx
    simp only at hx
    rw [at_index_replicate hx] at ht
    cases ht
  · intro i y _ hy
    rw [hs] at hy
    simp only at hy
    rcases List.mem_cons.mp (at_index_mem hy) with hm | hm
    · rw [hm]; exact Nat.zero_le _
    · rw [List.eq_of_mem_replicate hm]; exact Nat.zero_le _

/-- Every reachable state satisfies the invariant of the open files. -/
theorem reachable_file {s : tfs_state} (h : Reachable s) : FileInv s := by
  induction h with
  | init pp s h => exact file_tfs_init pp s h
  | open_ s s1 fuel name mode r hr h ih =>
    exact file_tfs_open fuel name mode s s1 r (reachable_inv hr) (reachable_link hr) ih h
  | close s fh _ ih => exact file_tfs_close ih fh
  | read s s1 fh len r out hr h ih =>
    exact file_tfs_read (reachable_inv hr) ih fh len r out h
  | write s s1 fh buffer n r hr h ih =>
    exact file_tfs_write (reachable_inv hr) ih fh buffer n r h
  | link s s1 target link_name r hr h ih =>
    exact file_tfs_link (reachable_inv hr) ih target link_name r h
  | sym_link s s1 target link_name r hr h ih =>
    exact file_tfs_sym_link (reachable_inv hr) ih target link_name r h
  | unlink s s1 target r hr h ih =>
    exact file_tfs_unlink (reachable_inv hr) ih target r h

/-- A successful `tfs_sym_link`: the link name resolves to a new inode that
stores the target, and nothing else changes in the inode table (the root
apart), in the lookups of the other names, in the open-file table, in the
parameters and in the data blocks (the slot array apart). -/
theorem tfs_sym_link_success {s s1 : tfs_state} (hi : Inv s) (target link_name : List Nat)
    (h : tfs_sym_link target link_name s = .done (0, s1)) :
    ∃ li : Int, 0 < li ∧ Inv s1 ∧
      (∃ x, at_index s.inode_table li = some x ∧ x.taken = false) ∧
      find_entry (link_name.drop 1) (dir_entries s) = -1 ∧
      find_entry (link_name.drop 1) (dir_entries s1) = li ∧
      inode_get li s1 = some { fresh_inode .T_FILE with
        origin_path := target.take (MAX_FILE_NAME - 1) } ∧
      (∀ q, q ≠ link_name.drop 1 →
        find_entry q (dir_entries s1) = find_entry q (dir_entries s)) ∧
      (∀ j : Int, j ≠ li → j ≠ ROOT_DIR_INUM →
        at_index s1.inode_table j = at_index s.inode_table j) ∧
      s1.open_file_table = s.open_file_table ∧ s1.params = s.params ∧
      (∀ c : Int, c ≠ root_block s1 → at_index s1.fs_data c = at_index s.fs_data c) := by
  unfold tfs_sym_link at h
  have hc := inv_inode_create hi .T_FILE
  have hsp := inode_create_spec .T_FILE s
  have hframe := inode_create_frame hi .T_FILE
  generalize inode_create .T_FILE s = p at h hc hsp hframe
  obtain ⟨li, sc⟩ := p
  simp only at h hc hsp hframe
  obtain ⟨hic, hcase⟩ := hc
  obtain ⟨hfd, hft, hfp, hfo, hfe, hfr⟩ := hframe
  rcases hcase with hm | ⟨hpos, hfresh⟩
  · subst hm
    have : inode_get (-1) sc = none := by
      unfold inode_get; rw [at_index_neg _ _ (by omega)]; rfl
    rw [this] at h
    cases h
  · rw [hfresh] at h
    simp only at h
    have hn0 : li ≠ ROOT_DIR_INUM := by simp only [ROOT_DIR_INUM]; omega
    have hwas : ∃ x, at_index s.inode_table li = some x ∧ x.taken = false := by
      rcases hsp with ⟨he, _⟩ | ⟨k, x, hx, hx1, he⟩
      · have := congrArg Prod.fst he
        simp only at this
        omega
      · have hk : li = (k : Int) := congrArg Prod.fst he
        rw [hk, at_index_natCast]
        exact ⟨x, hx, hx1⟩
    have hi2 := inv_inode_put hic li
      { fresh_inode .T_FILE with origin_path := target.take (MAX_FILE_NAME - 1) } hn0
      (by intro h0; simp [fresh_inode] at h0)
    obtain ⟨i, hlk, _⟩ := tfs_lookup_inv hi2 target
    rw [hlk] at h
    simp only at h
    by_cases hm : i = -1
    · rw [if_pos hm] at h
      cases h
    · rw [if_neg hm] at h
      cases link_name with
      | nil => cases h
      | cons c sub_name =>
        simp only at h
        have hsome2 : (inode_get li (inode_put li
            { fresh_inode .T_FILE with origin_path := target.take (MAX_FILE_NAME - 1) }
            sc)).isSome := by
          rw [inode_get_isSome_inode_put, hfresh]; rfl
        obtain ⟨a, s3, hadd, hi3, hfiles, hpar, hfr3, hblocks, hres⟩ :=
          add_dir_entry_root hi2 sub_name li hpos hsome2
        rw [hadd] at h
        simp only at h
        by_cases ha : a ≠ 0
        · rw [if_pos ha] at h; cases h
        · rw [if_neg ha] at h
          cases h
          have hde2 : dir_entries (inode_put li
              { fresh_inode .T_FILE with origin_path := target.take (MAX_FILE_NAME - 1) }
              sc) = dir_entries s := by
            rw [dir_entries_inode_put _ _ _ hn0, hfe]
          rcases hres with ⟨_, _, hnew, hfound, hothers⟩ | ⟨hbad, _⟩
          · refine ⟨li, hpos, hi3, hwas, ?_, hfound, ?_, ?_, ?_, ?_, ?_, ?_⟩
            · rw [hde2] at hnew; exact hnew
            · unfold inode_get
              rw [hfr3 li hn0, inode_put_at_same]
              obtain ⟨y, hy, hyv⟩ := at_index_of_inode_get hfresh
              rw [hy]
              rfl
            · intro q hq
              rw [hothers q hq, hde2]
            · intro j hj hj0
              rw [hfr3 j hj0, inode_put_at_other _ _ _ _ (Ne.symm hj), hfo j hj]
            · rw [hfiles, inode_put_open_file_table, hft]
            · rw [hpar, inode_put_params, hfp]
            · intro c hc
              rw [hblocks c hc, inode_put_fs_data, hfd]
          · omega

/-- A used slot of a directory counts as a link to its inumber. -/
theorem links_to_pos_of_mem (e : dir_entry_t) :
    ∀ es : List dir_entry_t, e ∈ es → used e → 0 < links_to e.d_inumber es
  | [], h, _ => by cases h
  | a :: es, h, hu => by
    rw [links_to_cons]
    rcases List.mem_cons.mp h with h | h
    · subst h
      rw [if_pos ⟨hu, rfl⟩]
      omega
    · have := links_to_pos_of_mem e es h hu
      omega

/-- Under the invariants every used slot of the directory names an allocated
inode. -/
theorem dir_entry_inode_taken {s : tfs_state} (hi : Inv s) (hl : LinkInv s)
    (e : dir_entry_t) (he : e ∈ dir_entries s) (hu : used e) :
    ∃ x, at_index s.inode_table e.d_inumber = some x ∧ x.taken = true := by
  obtain ⟨_, hsome⟩ := inv_dir_used hi e he hu
  cases hg : at_index s.inode_table e.d_inumber with
  | none =>
    unfold inode_get at hsome
    rw [hg] at hsome
    cases hsome
  | some x =>
    refine ⟨x, rfl, ?_⟩
    cases ht : x.taken with
    | true => rfl
    | false =>
      have h0 := hl.free _ x hg ht
      have h1 := links_to_pos_of_mem e _ he hu
      omega

/-! ## Allocation of inodes in `tfs_sym_link` -/

/-- With every inode allocated, `inode_create` returns -1 and changes
nothing. -/
theorem inode_create_full (t : inode_type) (s : tfs_state)
    (hfull : ∀ x ∈ s.inode_table, x.taken = true) : inode_create t s = (-1, s) := by
  rcases inode_create_spec t s with ⟨he, _⟩ | ⟨k, x, hx, hx1, _⟩
  · exact he
  · have := hfull x (List.getElem?_mem hx)
    rw [hx1] at this
    cases this

/-- With every inode allocated, `tfs_sym_link` does not return: it writes
through `inode_get(-1)`. -/
theorem tfs_sym_link_full (target link_name : List Nat) (s : tfs_state)
    (hfull : ∀ x ∈ s.inode_table, x.taken = true) :
    tfs_sym_link target link_name s = .abort := by
  unfold tfs_sym_link
  rw [inode_create_full .T_FILE s hfull]
  have : inode_get (-1) s = none := by
    unfold inode_get; rw [at_index_neg _ _ (by omega)]; rfl
  simp only [this]

/-- Marking a free slot used adds one to the number of used slots. -/
theorem countP_set_taken {α : Type} (v : α) :
    ∀ (l : List (slot α)) (k : Nat) (x : slot α), l[k]? = some x → x.taken = false →
      (l.set k ⟨true, v⟩).countP (fun y => y.taken) = l.countP (fun y => y.taken) + 1
  | [], k, x, h, _ => by simp at h
  | a :: l, 0, x, h, hx => by
    simp only [List.getElem?_cons_zero, Option.some.injEq] at h
    subst h
    simp [List.countP_cons, hx]
  | a :: l, k + 1, x, h, hx => by
    simp only [List.getElem?_cons_succ] at h
    simp only [List.set_cons_succ, List.countP_cons]
    rw [countP_set_taken v l k x h hx]
    omega

/-- Storing a content with the bit of the slot unchanged keeps the number of
used slots. -/
theorem countP_set_same {α : Type} (v : α) :
    ∀ (l : List (slot α)) (k : Nat) (x : slot α), l[k]? = some x →
      (l.set k ⟨x.taken, v⟩).countP (fun y => y.taken) = l.countP (fun y => y.taken)
  | [], k, x, h => by simp at h
  | a :: l, 0, x, h => by
    simp only [List.getElem?_cons_zero, Option.some.injEq] at h
    subst h
    simp [List.countP_cons]
  | a :: l, k + 1, x, h => by
    simp only [List.getElem?_cons_succ] at h
    simp only [List.set_cons_succ, List.countP_cons]
    rw [countP_set_same v l k x h]

/-- A store through an inode reference keeps the number of allocated
inodes. -/
theorem live_inodes_inode_put (i : Int) (v : inode_t) (s : tfs_state) :
    live_inodes (inode_put i v s) = live_inodes s := by
  unfold inode_put
  cases hx : at_index s.inode_table i with
  | none => rfl
  | some x =>
    simp only
    have h0 := at_index_some_nonneg hx
    obtain ⟨k, rfl⟩ := Int.eq_ofNat_of_zero_le h0
    rw [at_index_natCast] at hx
    unfold live_inodes
    simp only
    rw [set_index_natCast]
    exact countP_set_same v _ k x hx

/-- With a free inode, `inode_create` adds one to the number of allocated
inodes. -/
theorem live_inodes_inode_create (t : inode_type) (s : tfs_state)
    (hfree : ∃ x ∈ s.inode_table, x.taken = false) :
    live_inodes (inode_create t s).2 = live_inodes s + 1 ∧ (inode_create t s).1 ≠ -1 := by
  rcases inode_create_spec t s with ⟨_, hall⟩ | ⟨k, x, hx, hx1, he⟩
  · obtain ⟨x, hx, hx1⟩ := hfree
    have := hall x hx
    rw [hx1] at this
    cases this
  · rw [he]
    simp only
    refine ⟨?_, by omega⟩
    unfold live_inodes
    simp only
    rw [set_index_natCast]
    exact countP_set_taken _ _ k x hx hx1

/-- When the target does not resolve, `tfs_sym_link` returns -1 and keeps the
inode it has created. -/
theorem tfs_sym_link_missing_target {s : tfs_state} (hi : Inv s)
    (target link_name : List Nat)
    (hmiss : tfs_lookup target ROOT_DIR_INUM s = .done (-1))
    (hfree : ∃ x ∈ s.inode_table, x.taken = false) :
    ∃ s1, tfs_sym_link target link_name s = .done (-1, s1) ∧
      live_inodes s1 = live_inodes s + 1 := by
  unfold tfs_sym_link
  have hc := inv_inode_create hi .T_FILE
  have hlive := live_inodes_inode_create .T_FILE s hfree
  have hframe := inode_create_frame hi .T_FILE
  generalize inode_create .T_FILE s = p at hc hlive hframe
  obtain ⟨li, sc⟩ := p
  simp only at hc hlive hframe ⊢
  obtain ⟨hic, hcase⟩ := hc
  obtain ⟨_, _, _, _, hfe, _⟩ := hframe
  rcases hcase with hm | ⟨hpos, hfresh⟩
  · exact absurd hm hlive.2
  · rw [hfresh]
    simp only
    have hn0 : li ≠ ROOT_DIR_INUM := by simp only [ROOT_DIR_INUM]; omega
    have hi2 := inv_inode_put hic li
      { fresh_inode .T_FILE with origin_path := target.take (MAX_FILE_NAME - 1) } hn0
      (by intro h0; simp [fresh_inode] at h0)
    have hlk : tfs_lookup target ROOT_DIR_INUM (inode_put li
        { fresh_inode .T_FILE with origin_path := target.take (MAX_FILE_NAME - 1) } sc) =
        .done (-1) := by
      rw [tfs_lookup_root hi2, dir_entries_inode_put _ _ _ hn0, hfe, ← tfs_lookup_root hi]
      exact hmiss
    rw [hlk]
    simp only [if_true]
    exact ⟨_, rfl, by rw [live_inodes_inode_put]; exact hlive.1⟩

/-- Two inode tables with the same link views have the same number of
allocated inodes. -/
theorem live_inodes_of_views {s t : tfs_state}
    (hv : ∀ j : Int, (at_index t.inode_table j).map link_view =
      (at_index s.inode_table j).map link_view) : live_inodes t = live_inodes s := by
  have hmap : t.inode_table.map (fun x => x.taken) =
      s.inode_table.map (fun x => x.taken) := by
    apply List.ext_getElem?
    intro n
    have h := hv (n : Int)
    rw [at_index_natCast, at_index_natCast] at h
    rw [List.getElem?_map, List.getElem?_map]
    cases ht : t.inode_table[n]? with
    | none =>
      rw [ht] at h
      cases hs : s.inode_table[n]? with
      | none => rfl
      | some y => rw [hs] at h; cases h
    | some x =>
      rw [ht] at h
      cases hs : s.inode_table[n]? with
      | none => rw [hs] at h; cases h
      | some y =>
        rw [hs] at h
        simp only [Option.map_some', Option.some.injEq, link_view, Prod.mk.injEq] at h
        simp only [Option.map_some', h.1]
  unfold live_inodes
  have e : ∀ l : List (slot inode_t),
      l.countP (fun x => x.taken) = (l.map (fun x => x.taken)).countP (fun b => b) := by
    intro l
    rw [List.countP_map]
    rfl
  rw [e, e, hmap]

/-- Every `tfs_sym_link` that returns -1 has kept the inode it created. -/
theorem tfs_sym_link_failure {s s1 : tfs_state} (hi : Inv s)
    (target link_name : List Nat)
    (h : tfs_sym_link target link_name s = .done (-1, s1)) :
    live_inodes s1 = live_inodes s + 1 := by
  unfold tfs_sym_link at h
  have hc := inv_inode_create hi .T_FILE
  have hsp := inode_create_spec .T_FILE s
  generalize hp : inode_create .T_FILE s = p at h hc hsp
  obtain ⟨li, sc⟩ := p
  simp only at h hc hsp
  obtain ⟨hic, hcase⟩ := hc
  rcases hcase with hm | ⟨hpos, hfresh⟩
  · subst hm
    have : inode_get (-1) sc = none := by
      unfold inode_get; rw [at_index_neg _ _ (by omega)]; rfl
    rw [this] at h
    cases h
  · have hfree : ∃ x ∈ s.inode_table, x.taken = false := by
      rcases hsp with ⟨he, _⟩ | ⟨k, x, hx, hx1, _⟩
      · have := congrArg Prod.fst he
        simp only at this
        omega
      · exact ⟨x, List.getElem?_mem hx, hx1⟩
    have hlive : live_inodes sc = live_inodes s + 1 := by
      have := (live_inodes_inode_create .T_FILE s hfree).1
      rw [hp] at this
      exact this
    rw [hfresh] at h
    simp only at h
    have hn0 : li ≠ ROOT_DIR_INUM := by simp only [ROOT_DIR_INUM]; omega
    have hi2 := inv_inode_put hic li
      { fresh_inode .T_FILE with origin_path := target.take (MAX_FILE_NAME - 1) } hn0
      (by intro h0; simp [fresh_inode] at h0)
    obtain ⟨i, hlk, _⟩ := tfs_lookup_inv hi2 target
    rw [hlk] at h
    simp only at h
    by_cases hm : i = -1
    · rw [if_pos hm] at h
      cases h
      rw [live_inodes_inode_put]; exact hlive
    · rw [if_neg hm] at h
      cases link_name with
      | nil => cases h
      | cons c sub_name =>
        simp only at h
        have hsome2 : (inode_get li (inode_put li
            { fresh_inode .T_FILE with origin_path := target.take (MAX_FILE_NAME - 1) }
            sc)).isSome := by
          rw [inode_get_isSome_inode_put, hfresh]; rfl
        obtain ⟨a, s3, hadd, _⟩ := add_dir_entry_root hi2 sub_name li hpos hsome2
        obtain ⟨_, hviews⟩ := add_dir_entry_links hi2 sub_name li hpos hsome2 a s3 hadd
        rw [hadd] at h
        simp only at h
        by_cases ha : a ≠ 0
        · rw [if_pos ha] at h
          cases h
          rw [live_inodes_of_views hviews, live_inodes_inode_put]
          exact hlive
        · rw [if_neg ha] at h
          cases h

/-! ## The external copy stays within the reachable states -/

/-- The loop of the external copy leads from a reachable state to a reachable
state. -/
theorem reachable_copy_chunks (BUFSIZ : Nat) (outputFp : Int) :
    ∀ (fuel : Nat) (rest buffer : List Nat) (s s1 : tfs_state) (r : Int),
      Reachable s → copy_chunks BUFSIZ outputFp fuel rest buffer s = .done (r, s1) →
      Reachable s1
  | 0, rest, buffer, s, s1, r, hr, h => by
    unfold copy_chunks at h
    by_cases hz : (rest.take BUFSIZ).length = 0
    · rw [if_pos hz] at h
      cases h
      exact Reachable.close s outputFp hr
    · rw [if_neg hz] at h
      cases h
  | fuel + 1, rest, buffer, s, s1, r, hr, h => by
    unfold copy_chunks at h
    simp only at h
    by_cases hz : (rest.take BUFSIZ).length = 0
    · rw [if_pos hz] at h
      cases h
      exact Reachable.close s outputFp hr
    · rw [if_neg hz] at h
      cases hs : strlen (rest.take BUFSIZ ++ buffer.drop (rest.take BUFSIZ).length) with
      | none => rw [hs] at h; cases h
      | some n =>
        rw [hs] at h
        simp only at h
        cases hw : tfs_write outputFp
            (rest.take BUFSIZ ++ buffer.drop (rest.take BUFSIZ).length) n s with
        | abort => rw [hw] at h; cases h
        | out_of_fuel => rw [hw] at h; cases h
        | done p =>
          obtain ⟨w, s2⟩ := p
          rw [hw] at h
          simp only at h
          have hr2 : Reachable s2 := Reachable.write s s2 outputFp _ n w hr hw
          by_cases hc : (w % (SIZE_MOD : Int)).toNat ≠ (rest.take BUFSIZ).length
          · rw [if_pos hc] at h
            cases h
            exact hr2
          · rw [if_neg hc] at h
            exact reachable_copy_chunks BUFSIZ outputFp fuel _ _ s2 s1 r hr2 h

/-- The function `tfs_copy_from_external_fs` leads from a reachable state to
a reachable state: it changes the state through `tfs_open`, `tfs_write` and
`tfs_close` only. -/
theorem reachable_tfs_copy_from_external_fs (BUFSIZ fuel : Nat)
    (source : Option (List Nat)) (dest_path : List Nat) (s s1 : tfs_state) (r : Int)
    (hr : Reachable s)
    (h : tfs_copy_from_external_fs BUFSIZ fuel source dest_path s = .done (r, s1)) :
    Reachable s1 := by
  unfold tfs_copy_from_external_fs at h
  cases ho : tfs_open fuel dest_path (mode_or TFS_O_CREAT TFS_O_TRUNC) s with
  | abort => rw [ho] at h; cases h
  | out_of_fuel => rw [ho] at h; cases h
  | done p =>
    obtain ⟨fp, s2⟩ := p
    rw [ho] at h
    simp only at h
    have hr2 : Reachable s2 := Reachable.open_ s s2 fuel dest_path _ fp hr ho
    cases source with
    | none =>
      simp only at h
      cases h
      exact hr2
    | some content =>
      simp only at h
      by_cases hfp : fp = -1
      · rw [if_pos hfp] at h
        cases h
        exact hr2
      · rw [if_neg hfp] at h
        exact reachable_copy_chunks BUFSIZ fp _ _ _ s2 s1 r hr2 h

/-- The copy of `tfs_write` has no recursion: it never exhausts a bound. -/
theorem tfs_write_copy_ne_out_of_fuel (fh : Int) (file : open_file_entry_t)
    (inode : inode_t) (buffer : List Nat) (n : Nat) (s : tfs_state) :
    tfs_write_copy fh file inode buffer n s ≠ .out_of_fuel := by
  unfold tfs_write_copy
  cases hb : data_block_get inode.i_data_block s with
  | none => exact fun h => by cases h
  | some b =>
    cases b with
    | entries es => exact fun h => by cases h
    | bytes blk =>
      simp only
      cases hm : memcpy_to_block blk file.of_offset buffer n with
      | none => exact fun h => by cases h
      | some blk1 => exact fun h => by cases h

/-- The function `tfs_write` has no recursion: it never exhausts a bound. -/
theorem tfs_write_ne_out_of_fuel (fh : Int) (buffer : List Nat) (to_write : Nat)
    (s : tfs_state) : tfs_write fh buffer to_write s ≠ .out_of_fuel := by
  unfold tfs_write
  cases hf : get_open_file_entry fh s with
  | none => exact fun h => by cases h
  | some file =>
    simp only
    cases hg : inode_get file.of_inumber s with
    | none => exact fun h => by cases h
    | some inode =>
      simp only
      generalize (if state_block_size s < size_add to_write file.of_offset
        then size_sub (state_block_size s) file.of_offset else to_write) = n
      by_cases hn : 0 < n
      · rw [if_pos hn]
        by_cases hz : inode.i_size = 0
        · rw [if_pos hz]
          generalize data_block_alloc s = p
          obtain ⟨bnum, sa⟩ := p
          simp only
          by_cases hb : bnum = -1
          · rw [if_pos hb]
            exact fun h => by cases h
          · rw [if_neg hb]
            exact tfs_write_copy_ne_out_of_fuel _ _ _ _ _ _
        · rw [if_neg hz]
          exact tfs_write_copy_ne_out_of_fuel _ _ _ _ _ _
      · rw [if_neg hn]
        exact fun h => by cases h

/-- The loop of the external copy does not exhaust its bound when the bound
is the number of bytes that the host file still holds. -/
theorem copy_chunks_fuel (BUFSIZ : Nat) (outputFp : Int) :
    ∀ (fuel : Nat) (rest buffer : List Nat) (s : tfs_state), rest.length ≤ fuel →
      copy_chunks BUFSIZ outputFp fuel rest buffer s ≠ .out_of_fuel
  | 0, rest, buffer, s, hle => by
    have : rest = [] := List.eq_nil_of_length_eq_zero (by omega)
    subst this
    unfold copy_chunks
    simp
  | fuel + 1, rest, buffer, s, hle => by
    unfold copy_chunks
    simp only
    by_cases hz : (rest.take BUFSIZ).length = 0
    · rw [if_pos hz]
      exact fun h => by cases h
    · rw [if_neg hz]
      cases hs : strlen (rest.take BUFSIZ ++ buffer.drop (rest.take BUFSIZ).length) with
      | none => exact fun h => by cases h
      | some n =>
        simp only
        cases hw : tfs_write outputFp
            (rest.take BUFSIZ ++ buffer.drop (rest.take BUFSIZ).length) n s with
        | abort => exact fun h => by cases h
        | out_of_fuel => exact absurd hw (tfs_write_ne_out_of_fuel _ _ _ _)
        | done p =>
          obtain ⟨w, s2⟩ := p
          simp only
          by_cases hc : (w % (SIZE_MOD : Int)).toNat ≠ (rest.take BUFSIZ).length
          · rw [if_pos hc]
            exact fun h => by cases h
          · rw [if_neg hc]
            apply copy_chunks_fuel BUFSIZ outputFp fuel
            rw [List.length_drop]
            rw [List.length_take] at hz
            omega

/-- The external copy of the host file `"hi"` to `"/a"` on `ex_init`, for
every `BUFSIZ` from 3 up: one chunk, `strlen(buffer)` is 2, the write returns
2, and the call returns 0 in the state `ex_hi`. -/
theorem tfs_copy_text_example (BUFSIZ : Nat) (hbuf : 3 ≤ BUFSIZ) :
    tfs_copy_from_external_fs BUFSIZ 1 (some host_hi) path_a ex_init = .done (0, ex_hi) := by
  obtain ⟨m, rfl⟩ : ∃ m, BUFSIZ = m + 3 := ⟨BUFSIZ - 3, by omega⟩
  have htake : host_hi.take (m + 3) = host_hi :=
    List.take_of_length_le (by simp only [host_hi, List.length]; omega)
  have hdrop : host_hi.drop (m + 3) = [] :=
    List.drop_of_length_le (by simp only [host_hi, List.length]; omega)
  have hbuffer : host_hi ++ (List.replicate (m + 3) 0).drop 2 =
      104 :: 105 :: 0 :: List.replicate m 0 := by
    simp [host_hi, List.replicate_succ]
  have hstr : strlen (host_hi ++ (List.replicate (m + 3) 0).drop 2) = some 2 := by
    rw [hbuffer]
    simp [strlen]
  have e1 : tfs_open 1 path_a (mode_or TFS_O_CREAT TFS_O_TRUNC) ex_init =
      .done (0, ex_a_open) := by rfl
  have hw : tfs_write 0 (host_hi ++ (List.replicate (m + 3) 0).drop 2) 2 ex_a_open =
      .done (2, ex_hi_open) := by
    have f1 : get_open_file_entry 0 ex_a_open =
        some { of_inumber := 1, of_offset := 0 } := by rfl
    have f2 : inode_get 1 ex_a_open = some (fresh_inode .T_FILE) := by rfl
    have f3 : (if state_block_size ex_a_open < size_add 2 0
        then size_sub (state_block_size ex_a_open) 0 else 2) = 2 := by decide
    have f4 : (fresh_inode .T_FILE).i_size = 0 := rfl
    unfold tfs_write
    rw [f1]
    simp only
    rw [f2]
    simp only [f3]
    rw [if_pos (by decide), if_pos f4]
    have f5 : data_block_alloc ex_a_open = (1, (data_block_alloc ex_a_open).2) := by rfl
    rw [f5]
    simp only
    rw [if_neg (by decide)]
    rw [tfs_write_copy_bytes 0 { of_inumber := 1, of_offset := 0 }
      { fresh_inode .T_FILE with i_data_block := 1 }
      (host_hi ++ (List.replicate (m + 3) 0).drop 2) 2 (data_block_alloc ex_a_open).2
      (List.replicate 88 0) (by rfl) (by decide) (by rw [hbuffer]; simp)]
    have f6 : (host_hi ++ (List.replicate (m + 3) 0).drop 2).take 2 = host_hi := by
      rw [hbuffer]; rfl
    rw [f6]
    rfl
  unfold tfs_copy_from_external_fs
  rw [e1]
  simp only
  rw [if_neg (by decide)]
  show copy_chunks (m + 3) 0 (1 + 1) host_hi (List.replicate (m + 3) 0) ex_a_open = _
  rw [copy_chunks]
  simp only
  have hnum : (host_hi.take (m + 3)).length = 2 := by rw [htake]; rfl
  rw [hnum, if_neg (by decide), htake, hstr]
  simp only
  rw [hw]
  simp only
  rw [if_neg (by decide), hdrop]
  rw [copy_chunks]
  simp only [List.take_nil, List.length_nil, if_true]
  rfl


/-! ## Closing several handles -/

/-- After `tfs_close(fh)` the handle `fh` is not open, whether it was open
before or not, and the other handles are as before. -/
theorem tfs_close_entry (fh h : Int) (s : tfs_state) :
    get_open_file_entry h (tfs_close fh s).2 =
      if h = fh then none else get_open_file_entry h s := by
  by_cases hh : h = fh
  · subst hh
    rw [if_pos rfl]
    unfold tfs_close
    cases hg : get_open_file_entry h s with
    | none => exact hg
    | some f => exact get_open_file_entry_remove_same h s
  · rw [if_neg hh]
    unfold tfs_close
    cases hg : get_open_file_entry fh s with
    | none => rfl
    | some f => exact get_open_file_entry_remove_other fh h s (Ne.symm hh)

/-- The calls of `close_all` lead from a reachable state to a reachable
state. -/
theorem reachable_close_all (hs : List Int) :
    ∀ s : tfs_state, Reachable s → Reachable (close_all hs s) := by
  induction hs with
  | nil => intro s h; exact h
  | cons a l ih =>
    intro s h
    exact ih _ (Reachable.close s a h)

/-- The calls of `close_all` change neither the inode table nor the data
blocks. -/
theorem close_all_tables (hs : List Int) :
    ∀ s : tfs_state, (close_all hs s).inode_table = s.inode_table ∧
      (close_all hs s).fs_data = s.fs_data := by
  induction hs with
  | nil => intro s; exact ⟨rfl, rfl⟩
  | cons a l ih =>
    intro s
    obtain ⟨h1, h2⟩ := ih (tfs_close a s).2
    obtain ⟨c1, c2⟩ := tfs_close_tables a s
    exact ⟨h1.trans c1, h2.trans c2⟩

/-- After the calls of `close_all` the handles of the list are not open, and
the other handles are as before. -/
theorem close_all_entry (hs : List Int) :
    ∀ (s : tfs_state) (h : Int),
      get_open_file_entry h (close_all hs s) =
        if h ∈ hs then none else get_open_file_entry h s := by
  induction hs with
  | nil => intro s h; simp [close_all]
  | cons a l ih =>
    intro s h
    have e : close_all (a :: l) s = close_all l (tfs_close a s).2 := rfl
    rw [e, ih, tfs_close_entry]
    by_cases hl : h ∈ l
    · simp [hl]
    · by_cases ha : h = a
      · simp [ha]
      · simp [hl, ha]

/-- After the calls of `close_all` on a list that holds every handle open on
the inumber `i`, no handle is open on `i`. -/
theorem close_all_not_busy (hs : List Int) (s : tfs_state) (i : Int)
    (hall : ∀ (h : Int) (f : open_file_entry_t),
      get_open_file_entry h s = some f → f.of_inumber = i → h ∈ hs) :
    is_in_open_file_table i (close_all hs s) = false := by
  cases hb : is_in_open_file_table i (close_all hs s) with
  | false => rfl
  | true =>
    obtain ⟨h, f, hf, hfi⟩ := (is_in_open_file_table_iff i _).mp hb
    rw [close_all_entry] at hf
    by_cases hm : h ∈ hs
    · rw [if_pos hm] at hf
      cases hf
    · rw [if_neg hm] at hf
      exact absurd (hall h f hf hfi) hm

/-! ## More reachable states -/

theorem reachable_ex_a_twice : Reachable ex_a_twice :=
  Reachable.open_ ex_a_open _ 1 path_a TFS_O_NONE 1
    (Reachable.open_ (tfs_init (some ex_params)).2 _ 1 path_a TFS_O_CREAT 0
      (Reachable.init (some ex_params) _ (by rfl)) (by rfl)) (by rfl)

theorem reachable_ex_ts_init : Reachable ex_ts_init :=
  Reachable.init (some ex_three_slots) _ (by rfl)

theorem reachable_ex_ts_cycle : Reachable ex_ts_cycle :=
  Reachable.sym_link ex_ts_dangling _ path_b path_39 0
    (Reachable.unlink ex_ts_link _ path_39 0
      (Reachable.sym_link ex_ts_file _ path_39 path_b 0
        (Reachable.close _ 0
          (Reachable.open_ ex_ts_init _ 1 path_39 TFS_O_CREAT 0
            reachable_ex_ts_init (by rfl)))
        (by rfl))
      (by rfl))
    (by rfl)

/-- On `ex_ts_cycle` the calls of `tfs_open` on the 39-byte path and on
`"/b"` exhaust every recursion bound. -/
theorem tfs_open_ts_cycle_aux (mode : tfs_file_mode_t) (h : mode.strict_create = false) :
    ∀ fuel : Nat, tfs_open fuel path_39 mode ex_ts_cycle = .out_of_fuel ∧
      tfs_open fuel path_b mode ex_ts_cycle = .out_of_fuel
  | 0 => ⟨rfl, rfl⟩
  | fuel + 1 => by
    obtain ⟨ha, hb⟩ := tfs_open_ts_cycle_aux mode h fuel
    constructor
    · rw [tfs_open_symlink fuel path_39 mode ex_ts_cycle _ _ 1
        (by rfl) (by rfl) (by rfl) (by decide) h (by rfl) (by decide)]
      exact hb
    · rw [tfs_open_symlink fuel path_b mode ex_ts_cycle _ _ 2
        (by rfl) (by rfl) (by rfl) (by decide) h (by rfl) (by decide)]
      exact ha

theorem reachable_ex_overrun : Reachable ex_overrun :=
  Reachable.read ex_truncated _ 0 100 100 (List.replicate 85 0)
    (Reachable.open_ ex_a_written _ 1 path_a TFS_O_TRUNC 1
      (Reachable.write ex_a_open _ 0 [97, 98, 99] 3 3
        (Reachable.open_ (tfs_init (some ex_params)).2 _ 1 path_a TFS_O_CREAT 0
          (Reachable.init (some ex_params) _ (by rfl)) (by rfl))
        (by rfl))
      (by rfl))
    (by rfl)

/-! ## Chains of symbolic links -/

/-- A name with a link target resolves to a symbolic link: the call of
`tfs_open` on it is the call on the target. -/
theorem tfs_open_link_target {s : tfs_state} (hi : Inv s) (fuel : Nat)
    (name t : List Nat) (mode : tfs_file_mode_t) (hstrict : mode.strict_create = false)
    (h : link_target name s = some t) :
    tfs_open (fuel + 1) name mode s = tfs_open fuel t mode s := by
  unfold link_target at h
  have hl := tfs_lookup_root hi name
  obtain ⟨r, hr, _⟩ := inv_root hi
  by_cases hv : valid_pathname name = true
  · rw [if_pos hv] at hl
    rw [hl] at h
    simp only at h
    by_cases h0 : 0 ≤ find_entry (name.drop 1) (dir_entries s)
    · rw [if_pos h0] at h
      cases hg : inode_get (find_entry (name.drop 1) (dir_entries s)) s with
      | none => rw [hg] at h; cases h
      | some ino =>
        rw [hg] at h
        simp only at h
        by_cases hsym : ino.origin_path ≠ []
        · rw [if_pos hsym] at h
          cases h
          exact tfs_open_symlink fuel name mode s r ino _ hv hr hl h0 hstrict hg hsym
        · rw [if_neg hsym] at h
          cases h
    · rw [if_neg h0] at h
      cases h
  · rw [if_neg hv] at hl
    rw [hl] at h
    simp at h

/-- A name without link target resolves to no inode or to an inode that is
not a symbolic link. -/
theorem link_target_none {s : tfs_state} {name : List Nat}
    (h : link_target name s = none) (i : Int) (ino : inode_t)
    (hl : tfs_lookup name ROOT_DIR_INUM s = .done i)
    (hg : inode_get i s = some ino) : ino.origin_path = [] := by
  unfold link_target at h
  rw [hl] at h
  simp only at h
  obtain ⟨x, hx, _⟩ := at_index_of_inode_get hg
  rw [if_pos (at_index_some_nonneg hx), hg] at h
  simp only at h
  by_contra hsym
  rw [if_pos hsym] at h
  cases h

/-- A chain of symbolic links that ends: the call of `tfs_open` on its first
name is the call on its last name, which is not a symbolic link. -/
theorem tfs_open_chain {s : tfs_state} (hi : Inv s) (mode : tfs_file_mode_t)
    (hstrict : mode.strict_create = false) :
    ∀ (n : Nat) (name r : List Nat), chain_end n name s = some r →
      link_target r s = none ∧
      ∃ k, k ≤ n ∧ ∀ fuel : Nat,
        tfs_open (fuel + k + 1) name mode s = tfs_open (fuel + 1) r mode s
  | 0, name, r, h => by
    unfold chain_end at h
    cases ht : link_target name s with
    | none =>
      rw [ht] at h
      cases h
      exact ⟨ht, 0, le_refl _, fun _ => rfl⟩
    | some t => rw [ht] at h; cases h
  | n + 1, name, r, h => by
    unfold chain_end at h
    cases ht : link_target name s with
    | none =>
      rw [ht] at h
      cases h
      exact ⟨ht, 0, Nat.zero_le _, fun _ => rfl⟩
    | some t =>
      rw [ht] at h
      simp only at h
      obtain ⟨hr, k, hk, hopen⟩ := tfs_open_chain hi mode hstrict n t r h
      refine ⟨hr, k + 1, by omega, ?_⟩
      intro fuel
      rw [show fuel + (k + 1) + 1 = (fuel + k + 1) + 1 from by omega,
        tfs_open_link_target hi (fuel + k + 1) name t mode hstrict ht]
      exact hopen fuel

/-- A chain of symbolic links that does not end: the call of `tfs_open` on
its first name exhausts every recursion bound. -/
theorem tfs_open_endless_chain {s : tfs_state} (hi : Inv s) (mode : tfs_file_mode_t)
    (hstrict : mode.strict_create = false) :
    ∀ (fuel : Nat) (name : List Nat), (∀ n, chain_end n name s = none) →
      tfs_open fuel name mode s = .out_of_fuel
  | 0, _, _ => rfl
  | fuel + 1, name, h => by
    have h0 := h 0
    unfold chain_end at h0
    cases ht : link_target name s with
    | none => rw [ht] at h0; cases h0
    | some t =>
      rw [tfs_open_link_target hi fuel name t mode hstrict ht]
      apply tfs_open_endless_chain hi mode hstrict fuel t
      intro n
      have hn := h (n + 1)
      unfold chain_end at hn
      rw [ht] at hn
      exact hn

/-- On `ex_ts_cycle` the chain of symbolic links from the 39-byte path does
not end. -/
theorem chain_end_ts_cycle :
    ∀ n : Nat, chain_end n path_39 ex_ts_cycle = none ∧
      chain_end n path_b ex_ts_cycle = none
  | 0 => ⟨by rfl, by rfl⟩
  | n + 1 => by
    obtain ⟨ha, hb⟩ := chain_end_ts_cycle n
    have e1 : link_target path_39 ex_ts_cycle = some path_b := by rfl
    have e2 : link_target path_b ex_ts_cycle = some path_39 := by rfl
    constructor
    · unfold chain_end
      rw [e1]
      exact hb
    · unfold chain_end
      rw [e2]
      exact ha

theorem reachable_ex_ts_alias : Reachable ex_ts_alias :=
  Reachable.sym_link ex_ts_a _ path_a path_39 0
    (Reachable.close _ 0
      (Reachable.open_ ex_ts_init _ 1 path_a TFS_O_CREAT 0 reachable_ex_ts_init (by rfl)))
    (by rfl)

/-- A call of `tfs_open` with the flag `TFS_O_CREAT` on a valid path with no
further `'/'` that is not the name of a symbolic link, with a free inode,
room in the directory and a free open-file entry: the call returns a handle
`h >= 0`, open at offset 0 on the inumber the path resolves to afterwards. -/
theorem tfs_open_creat_handle {t : tfs_state} (hi : Inv t) (fuel : Nat) (r : List Nat)
    (hv : valid_pathname r = true) (hslash : SLASH ∉ r.drop 1)
    (hino : ∃ x ∈ t.inode_table, x.taken = false)
    (hroom : dir_has_room t)
    (hfile : ∃ x ∈ t.open_file_table, x.taken = false)
    (hnl : link_target r t = none) :
    ∃ (h : Int) (s1 : tfs_state) (i : Int),
      tfs_open (fuel + 1) r TFS_O_CREAT t = .done (h, s1) ∧ 0 ≤ h ∧ 0 < i ∧
      get_open_file_entry h s1 = some { of_inumber := i, of_offset := 0 } ∧
      tfs_lookup r ROOT_DIR_INUM s1 = .done i ∧
      (∀ h2 : Int, h2 ≠ h → get_open_file_entry h2 s1 = get_open_file_entry h2 t) ∧
      (tfs_lookup r ROOT_DIR_INUM t = .done (-1) →
        inode_get i s1 = some (fresh_inode .T_FILE)) ∧
      (tfs_lookup r ROOT_DIR_INUM t ≠ .done (-1) →
        tfs_lookup r ROOT_DIR_INUM t = .done i ∧
        s1.inode_table = t.inode_table ∧ s1.fs_data = t.fs_data) := by
  have hl := tfs_lookup_root hi r
  rw [if_pos hv] at hl
  by_cases hnew : find_entry (r.drop 1) (dir_entries t) = -1
  · obtain ⟨k, s1, inum, hopen, hi1, hpos, hent, hfresh, hfind, _, _, _, hoth, _⟩ :=
      tfs_open_creates hi fuel r TFS_O_CREAT hv hslash hnew rfl hino hroom hfile
    refine ⟨(k : Int), s1, inum, hopen, by omega, hpos, hent, ?_, hoth, ?_, ?_⟩
    · rw [tfs_lookup_root hi1, if_pos hv, hfind]
    · intro _; exact hfresh
    · intro hne
      rw [hl, hnew] at hne
      exact absurd rfl hne
  · obtain ⟨hpos, hsome⟩ := find_entry_inv hi _ hnew
    cases hg : inode_get (find_entry (r.drop 1) (dir_entries t)) t with
    | none => rw [hg] at hsome; cases hsome
    | some ino =>
      have hsym := link_target_none hnl _ ino hl hg
      obtain ⟨k, hk1, hk2, _, hk4⟩ := add_to_open_file_table_free
        (find_entry (r.drop 1) (dir_entries t))
        (if TFS_O_CREAT.append then ino.i_size else 0) t hfile
      have hopen := tfs_open_existing hi fuel r TFS_O_CREAT hv ino hnew hg hsym rfl rfl
      have hi1 : Inv (add_to_open_file_table (find_entry (r.drop 1) (dir_entries t))
          (if TFS_O_CREAT.append then ino.i_size else 0) t).2 :=
        inv_tfs_open (fuel + 1) r TFS_O_CREAT t _ _ hi hopen
      refine ⟨(add_to_open_file_table (find_entry (r.drop 1) (dir_entries t))
          (if TFS_O_CREAT.append then ino.i_size else 0) t).1,
        (add_to_open_file_table (find_entry (r.drop 1) (dir_entries t))
          (if TFS_O_CREAT.append then ino.i_size else 0) t).2,
        find_entry (r.drop 1) (dir_entries t), hopen, by rw [hk1]; omega, hpos,
        ?_, ?_, ?_, ?_, ?_⟩
      · rw [hk1]; exact hk2
      · rw [tfs_lookup_root hi1, if_pos hv, dir_entries_add_open]
      · intro h2 hh
        rw [hk1] at hh
        exact hk4 h2 hh
      · intro h1
        rw [hl] at h1
        exact absurd (Run.done.inj h1) hnew
      · intro _
        exact ⟨hl, by simp, by simp⟩
/-! ## The claims -/

theorem reachable_ex_init : Reachable ex_init :=
  Reachable.init (some ex_params) _ (by rfl)

theorem reachable_ex_a_open : Reachable ex_a_open :=
  Reachable.open_ ex_init _ 1 path_a TFS_O_CREAT 0 reachable_ex_init (by rfl)

theorem reachable_ex_a : Reachable ex_a :=
  Reachable.close ex_a_open 0 reachable_ex_a_open

theorem reachable_ex_truncated : Reachable ex_truncated := by
  have h2 : Reachable ex_a_written :=
    Reachable.write ex_a_open _ 0 [97, 98, 99] 3 3 reachable_ex_a_open (by rfl)
  exact Reachable.open_ ex_a_written _ 1 path_a TFS_O_TRUNC 1 h2 (by rfl)

theorem reachable_ex_tb_full : Reachable ex_tb_full := by
  have h0 : Reachable ex_tb_init := Reachable.init (some ex_two_blocks) _ (by rfl)
  have h1 : Reachable ex_tb_a :=
    Reachable.open_ ex_tb_init _ 1 path_a TFS_O_CREAT 0 h0 (by rfl)
  have h2 : Reachable ex_tb_written :=
    Reachable.write ex_tb_a _ 0 [120] 1 1 h1 (by rfl)
  exact Reachable.open_ ex_tb_written _ 1 path_b TFS_O_CREAT 1 h2 (by rfl)

/-- C1, as stated, fails: `"/a/b"` is a valid path (non-empty, leading `'/'`,
shorter than `MAX_FILE_NAME`) and the one byte `"x"` fits in a block, but on
the freshly initialised filesystem `ex_init`, which has a free inode, free
blocks and free handles, `tfs_open("/a/b", CREAT | TRUNC)` returns -1 because
`add_dir_entry` rejects the name `"a/b"`; the write, the second open and the
read then return -1 as well, and the read copies nothing. -/
theorem round_trip_fails_on_nested_path :
    tfs_init (some ex_params) = (0, ex_init) ∧
    valid_pathname path_a_b = true ∧
    [120].length ≤ ex_init.params.block_size ∧
    (∃ x ∈ ex_init.inode_table, x.taken = false) ∧
    (∃ x ∈ ex_init.fs_data, x.taken = false) ∧
    (∃ x ∈ ex_init.open_file_table, x.taken = false) ∧
    tfs_open 1 path_a_b (mode_or TFS_O_CREAT TFS_O_TRUNC) ex_init = .done (-1, ex_init) ∧
    write_read_round_trip 1 path_a_b [120] 1 ex_init = .done (-1, []) :=
  ⟨by rfl, by rfl, by decide, ⟨⟨false, zero_inode⟩, by decide, rfl⟩,
    ⟨⟨false, zero_block 88⟩, by decide, rfl⟩, ⟨⟨false, zero_file⟩, by decide, rfl⟩,
    by rfl, by rfl⟩

/-- C1 (amended): write/read round trip.  On a freshly initialised filesystem
(`tfs_init` returned 0) whose parameters leave a free inode (2 inodes with the
root), a block for the slot array of the directory and one for the data of the
file (2 blocks), a free handle, and whose block holds at least one directory
slot and is shorter than `2 ^ 63`: for every valid path `p` whose name has no
further `'/'`, every `data` of at most `block_size` bytes and every
`len >= |data|`, the sequence `h = tfs_open(p, CREAT | TRUNC)`,
`tfs_write(h, data, |data|)`, `tfs_close(h)`, `h2 = tfs_open(p, 0)`,
`tfs_read(h2, buf, len)` ends with `tfs_read` returning `|data|` and the
buffer holding exactly `data`. -/
theorem write_read_round_trip_fresh (pp : Option tfs_params) (s : tfs_state)
    (fuel : Nat) (p data : List Nat) (len : Nat)
    (hinit : tfs_init pp = (0, s))
    (hv : valid_pathname p = true) (hslash : SLASH ∉ p.drop 1)
    (hinodes : 2 ≤ s.params.max_inode_count)
    (hblocks : 2 ≤ s.params.max_block_count)
    (hfiles : 1 ≤ s.params.max_open_files_count)
    (hentry : entry_size ≤ s.params.block_size)
    (hbs : s.params.block_size < 2 ^ 63)
    (hdata : data.length ≤ s.params.block_size) (hlen : data.length ≤ len) :
    write_read_round_trip (fuel + 1) p data len s =
      .done ((data.length : Int), data) := by
  have hi := inv_tfs_init pp s hinit
  obtain ⟨p0, n, hn, _, hs⟩ := tfs_init_state pp s hinit
  have hpar : s.params = p0 := by rw [hs]
  have h0 : at_index s.inode_table ROOT_DIR_INUM =
      some ⟨true, fresh_inode .T_DIRECTORY⟩ := by
    rw [hs]; simp [at_index, ROOT_DIR_INUM]
  have hrb : root_block s = -1 := by
    unfold root_block; rw [h0]; rfl
  have hfsd : s.fs_data =
      List.replicate p0.max_block_count ⟨false, zero_block p0.block_size⟩ := by rw [hs]
  rw [hpar] at hinodes hblocks hfiles hentry
  apply round_trip_fresh_name hi fuel p data len hv hslash
  · rw [dir_entries_unallocated hrb]; rfl
  · refine ⟨⟨false, zero_inode⟩, ?_, rfl⟩
    rw [hs]
    apply List.mem_cons_of_mem
    exact List.mem_replicate.mpr ⟨by omega, rfl⟩
  · right
    refine ⟨hrb, ⟨⟨false, zero_block p0.block_size⟩, ?_, rfl⟩, ?_⟩
    · rw [hfsd]
      exact List.mem_replicate.mpr ⟨by omega, rfl⟩
    · unfold MAX_DIR_ENTRIES
      rw [hpar]
      exact Nat.div_pos hentry (by decide)
  · refine ⟨⟨false, zero_file⟩, ?_, rfl⟩
    rw [hs]
    exact List.mem_replicate.mpr ⟨by omega, rfl⟩
  · refine ⟨0, 1, ⟨false, zero_block p0.block_size⟩, ⟨false, zero_block p0.block_size⟩,
      by decide, ?_, rfl, ?_, rfl⟩
    · rw [hfsd]
      show at_index _ ((0 : Nat) : Int) = _
      rw [at_index_natCast, List.getElem?_replicate, if_pos (by omega)]
    · rw [hfsd]
      show at_index _ ((1 : Nat) : Int) = _
      rw [at_index_natCast, List.getElem?_replicate, if_pos (by omega)]
  · exact hbs
  · exact hdata
  · exact hlen

/-- Witness of C1 (amended): on `ex_init` the round trip of `"abc"` through
`"/a"`, read back with a length of 10, returns 3 and the 3 bytes. -/
theorem write_read_round_trip_fresh_witness :
    tfs_init (some ex_params) = (0, ex_init) ∧
    valid_pathname path_a = true ∧ SLASH ∉ path_a.drop 1 ∧
    [97, 98, 99].length ≤ ex_init.params.block_size ∧
    write_read_round_trip 1 path_a [97, 98, 99] 10 ex_init = .done (3, [97, 98, 99]) :=
  ⟨by rfl, by rfl, by decide, by decide,
    write_read_round_trip_fresh (some ex_params) ex_init 0 path_a [97, 98, 99] 10
      (by rfl) (by rfl) (by decide) (by decide) (by decide) (by decide) (by decide)
      (by decide) (by decide) (by decide)⟩

/-- C2, as stated, fails at two inputs.  In the reachable state `ex_tb_full`
handle 1 is a valid handle at offset 0 on the empty file `"/b"`, a write of
one byte has the effective length `min 1 (88 - 0) = 1`, and `tfs_write`
returns -1 because no data block is free.  In the reachable state
`ex_truncated` handle 0 is at offset 3 of a file truncated to size 0, a write
of length 0 returns 0 and leaves the size 0, not `max 0 (3 + 0)`. -/
theorem tfs_write_not_always_effective :
    (Reachable ex_tb_full ∧
      get_open_file_entry 1 ex_tb_full = some { of_inumber := 2, of_offset := 0 } ∧
      min 1 (ex_tb_full.params.block_size - 0) = 1 ∧
      tfs_write 1 [55] 1 ex_tb_full = .done (-1, ex_tb_full)) ∧
    (Reachable ex_truncated ∧
      get_open_file_entry 0 ex_truncated = some { of_inumber := 1, of_offset := 3 } ∧
      (inode_get 1 ex_truncated).map (fun i => i.i_size) = some 0 ∧
      tfs_write 0 [] 0 ex_truncated = .done (0, ex_truncated) ∧
      max 0 (3 + 0) ≠ 0) :=
  ⟨⟨reachable_ex_tb_full, by rfl, by rfl, by rfl⟩,
    ⟨reachable_ex_truncated, by rfl, by rfl, by rfl, by decide⟩⟩

/-- C2 (amended): on a reachable state, `tfs_write` on a valid handle with
offset at most the block size (below `2 ^ 63`), for a length `len` such that
`len + offset` does not overflow and a buffer that holds the bytes to copy,
has the effective length `eff = min len (block_size - offset)`.  When
`eff = 0` the call returns 0 and changes nothing.  When `eff` is positive and
the file has a data block (size positive) or a data block is free, the call
returns `eff`, the block of the inode is the old block (for an empty file:
the block just allocated) with the first `eff` bytes of the buffer copied at
the old offset, the offset of the handle is advanced by `eff` and the size is
the maximum of the old size and the new offset.  When the file is empty,
`eff` is positive and no block is free, the call returns -1 and changes
nothing.  In particular a write of at least `block_size` bytes at offset 0
that finds a block returns `block_size`, and the next write on the handle
returns 0 and changes nothing. -/
theorem tfs_write_effective (s : tfs_state) (hs : Reachable s) (fh : Int)
    (file : open_file_entry_t) (inode : inode_t) (buffer : List Nat) (len eff : Nat)
    (hf : get_open_file_entry fh s = some file)
    (hg : inode_get file.of_inumber s = some inode)
    (hoff : file.of_offset ≤ s.params.block_size)
    (hbs : s.params.block_size < 2 ^ 63)
    (hlen : len + file.of_offset < 2 ^ 64)
    (heff : min len (s.params.block_size - file.of_offset) = eff)
    (hbuf : eff ≤ buffer.length) :
    (eff = 0 → tfs_write fh buffer len s = .done (0, s)) ∧
    (0 < eff → (0 < inode.i_size ∨ ∃ x ∈ s.fs_data, x.taken = false) →
      ∃ (s1 : tfs_state) (inode1 : inode_t),
        tfs_write fh buffer len s = .done ((eff : Int), s1) ∧
        get_open_file_entry fh s1 =
          some { file with of_offset := file.of_offset + eff } ∧
        inode_get file.of_inumber s1 = some inode1 ∧
        inode1.i_size = max inode.i_size (file.of_offset + eff) ∧
        (0 < inode.i_size → inode1.i_data_block = inode.i_data_block) ∧
        ∃ blk, data_block_get inode1.i_data_block s = some (.bytes blk) ∧
          blk.length = s.params.block_size ∧
          data_block_get inode1.i_data_block s1 =
            some (.bytes (blk.take file.of_offset ++ buffer.take eff ++
              blk.drop (file.of_offset + eff)))) ∧
    (inode.i_size = 0 → 0 < eff → (∀ x ∈ s.fs_data, x.taken = true) →
      tfs_write fh buffer len s = .done (-1, s)) ∧
    (file.of_offset = 0 → s.params.block_size ≤ len →
      (0 < inode.i_size ∨ ∃ x ∈ s.fs_data, x.taken = false) →
      ∃ s1 : tfs_state,
        tfs_write fh buffer len s = .done ((s.params.block_size : Int), s1) ∧
        ∀ (buffer2 : List Nat) (len2 : Nat), len2 + s.params.block_size < 2 ^ 64 →
          tfs_write fh buffer2 len2 s1 = .done (0, s1)) := by
  have hi := reachable_inv hs
  obtain ⟨c1, c2, c3, c4⟩ :=
    tfs_write_cases hi fh file inode buffer len eff hf hg hoff hbs hlen heff hbuf
  have hfs : (at_index s.open_file_table fh).isSome := by
    rw [get_open_file_entry_some hf]; rfl
  have hgs : (inode_get file.of_inumber s).isSome := by rw [hg]; rfl
  -- the case of a positive effective length with a block at hand
  have main : 0 < eff → (0 < inode.i_size ∨ ∃ x ∈ s.fs_data, x.taken = false) →
      ∃ (s1 : tfs_state) (inode1 : inode_t),
        tfs_write fh buffer len s = .done ((eff : Int), s1) ∧
        get_open_file_entry fh s1 =
          some { file with of_offset := file.of_offset + eff } ∧
        inode_get file.of_inumber s1 = some inode1 ∧
        inode1.i_size = max inode.i_size (file.of_offset + eff) ∧
        (0 < inode.i_size → inode1.i_data_block = inode.i_data_block) ∧
        ∃ blk, data_block_get inode1.i_data_block s = some (.bytes blk) ∧
          blk.length = s.params.block_size ∧
          data_block_get inode1.i_data_block s1 =
            some (.bytes (blk.take file.of_offset ++ buffer.take eff ++
              blk.drop (file.of_offset + eff))) := by
    intro hpos havail
    by_cases hsz : 0 < inode.i_size
    · obtain ⟨blk, hblk, hbl, hw⟩ := c2 hpos hsz
      have hbs1 : (at_index s.fs_data inode.i_data_block).isSome :=
        (inv_own_get hi hg hsz).2.2
      obtain ⟨w1, w2, w3⟩ := written_state file.of_inumber fh inode.i_data_block
        { inode with i_size := max inode.i_size (file.of_offset + eff) }
        { file with of_offset := file.of_offset + eff }
        (.bytes (blk.take file.of_offset ++ buffer.take eff ++
          blk.drop (file.of_offset + eff))) s hgs hfs hbs1
      exact ⟨_, _, hw, w2, w1, rfl, fun _ => rfl, blk, hblk, hbl, w3⟩
    · have hz : inode.i_size = 0 := by omega
      have hfree : ∃ x ∈ s.fs_data, x.taken = false := by
        rcases havail with h | h
        · omega
        · exact h
      obtain ⟨k, x, blk, hx, hx1, hxv, hbl, hk, hw⟩ := c4 hpos hz hfree
      obtain ⟨w1, w2, w3⟩ := written_state file.of_inumber fh (k : Int)
        { inode with i_data_block := (k : Int), i_size := file.of_offset + eff }
        { file with of_offset := file.of_offset + eff }
        (.bytes (blk.take file.of_offset ++ buffer.take eff ++
          blk.drop (file.of_offset + eff)))
        { s with fs_data := set_index s.fs_data (k : Int) ⟨true, x.val⟩ }
        hgs hfs
        (by
          simp only
          rw [at_index_set_index_same, at_index_natCast, hx]; rfl)
      refine ⟨_, _, hw, w2, w1, ?_, fun h => by omega, blk, ?_, hbl, w3⟩
      · simp only [hz]; omega
      · unfold data_block_get
        simp only
        rw [at_index_natCast, hx, ← hxv]; rfl
  -- the next write on the handle, once its offset is the block size
  have next : ∀ (s1 : tfs_state) (inode1 : inode_t), Inv s1 →
      s1.params = s.params →
      get_open_file_entry fh s1 =
        some { file with of_offset := file.of_offset + eff } →
      inode_get file.of_inumber s1 = some inode1 →
      file.of_offset = 0 → eff = s.params.block_size →
        ∀ (buffer2 : List Nat) (len2 : Nat), len2 + s.params.block_size < 2 ^ 64 →
          tfs_write fh buffer2 len2 s1 = .done (0, s1) := by
    intro s1 inode1 hi1 hp1 hf1 hg1 h0 he buffer2 len2 hl2
    have hoff1 : file.of_offset + eff = s1.params.block_size := by
      rw [hp1, h0, he, Nat.zero_add]
    have := (tfs_write_cases hi1 fh _ inode1 buffer2 len2 0 hf1 hg1
      (Nat.le_of_eq hoff1) (by rw [hp1]; exact hbs)
      (by
        show len2 + (file.of_offset + eff) < 2 ^ 64
        rw [hoff1, hp1]; exact hl2)
      (by
        show min len2 (s1.params.block_size - (file.of_offset + eff)) = 0
        rw [hoff1, Nat.sub_self]; exact Nat.min_zero len2)
      (Nat.zero_le _)).1
    exact this rfl
  refine ⟨c1, main, fun a b c => c3 b a c, ?_⟩
  intro h0 hle havail
  have he : eff = s.params.block_size := by
    rw [← heff, h0, Nat.sub_zero]; exact Nat.min_eq_right hle
  by_cases hz : eff = 0
  · refine ⟨s, ?_, ?_⟩
    · rw [c1 hz, ← he, hz]; rfl
    · exact next s inode hi rfl (by rw [hf, hz]; rfl) hg h0 he
  · obtain ⟨s1, inode1, hw, w2, w1, _⟩ := main (by omega) havail
    refine ⟨s1, ?_, ?_⟩
    · rw [hw, he]
    · have hp1 : s1.params = s.params := by
        by_cases hsz : 0 < inode.i_size
        · obtain ⟨blk, _, _, hw2⟩ := c2 (by omega) hsz
          rw [hw2] at hw
          obtain ⟨_, rfl⟩ := done_pair_eq hw
          simp
        · obtain ⟨k, x, blk, _, _, _, _, _, hw2⟩ := c4 (by omega) (by omega)
            (by
              rcases havail with h | h
              · omega
              · exact h)
          rw [hw2] at hw
          obtain ⟨_, rfl⟩ := done_pair_eq hw
          simp
      exact next s1 inode1 (inv_tfs_write hi fh buffer len _ hw) hp1 w2 w1 h0 he

/-- Witness of C2 (amended): on the reachable state `ex_a_open`, handle 0 is
at offset 0 of the empty file `"/a"` and a block is free; the write of the 3
bytes `"abc"` returns 3. -/
theorem tfs_write_effective_witness :
    Reachable ex_a_open ∧
    get_open_file_entry 0 ex_a_open = some { of_inumber := 1, of_offset := 0 } ∧
    inode_get 1 ex_a_open = some (fresh_inode .T_FILE) ∧
    (0 : Nat) ≤ ex_a_open.params.block_size ∧
    ex_a_open.params.block_size < 2 ^ 63 ∧
    3 + 0 < 2 ^ 64 ∧
    min 3 (ex_a_open.params.block_size - 0) = 3 ∧
    3 ≤ [97, 98, 99].length ∧
    ∃ s1 : tfs_state, tfs_write 0 [97, 98, 99] 3 ex_a_open = .done (3, s1) :=
  ⟨reachable_ex_a_open, by rfl, by rfl, by decide, by decide, by decide, by rfl,
    by decide,
    (((tfs_write_effective ex_a_open reachable_ex_a_open 0
        { of_inumber := 1, of_offset := 0 } (fresh_inode .T_FILE) [97, 98, 99] 3 3
        (by rfl) (by rfl) (by decide) (by decide) (by decide) (by rfl)
        (by decide)).2.1 (by decide)
        (Or.inr ⟨⟨false, zero_block 88⟩, by decide, rfl⟩)).elim
      (fun s1 h => h.elim (fun _ h2 => ⟨s1, h2.1⟩)))⟩

/-- C3 fails on the code: in the reachable state `ex_truncated` (create
`"/a"`, write 3 bytes through handle 0, truncate through a second open),
handle 0 is a valid handle at offset 3 of a file of size 0; `tfs_read` of 2
bytes through it returns 2, not 0, copies 2 bytes of the freed block, and
advances the offset to 5: the subtraction `i_size - of_offset` wraps. -/
theorem tfs_read_offset_past_size :
    Reachable ex_truncated ∧
    get_open_file_entry 0 ex_truncated = some { of_inumber := 1, of_offset := 3 } ∧
    (inode_get 1 ex_truncated).map (fun i => i.i_size) = some 0 ∧
    min 2 (0 - 3) = 0 ∧
    tfs_read 0 2 ex_truncated =
      .done (2, [0, 0],
        open_file_put 0 { of_inumber := 1, of_offset := 5 } ex_truncated) :=
  ⟨reachable_ex_truncated, by rfl, by rfl, by rfl, by rfl⟩

/-- C6 fails on the code: in the reachable state `ex_a` the file `"/a"`
exists; the link name `"xb"` has no leading `'/'`, so it is not a valid path,
and yet `tfs_link("/a", "xb")` and `tfs_sym_link("/a", "xb")` both return 0 (and
enter the name `"b"` in the directory). -/
theorem tfs_link_invalid_link_name :
    Reachable ex_a ∧
    valid_pathname path_a = true ∧
    valid_pathname [120, 98] = false ∧
    (∃ s1, tfs_link path_a [120, 98] ex_a = .done (0, s1) ∧
      tfs_lookup path_b ROOT_DIR_INUM s1 = .done 1) ∧
    (∃ s1, tfs_sym_link path_a [120, 98] ex_a = .done (0, s1) ∧
      tfs_lookup path_b ROOT_DIR_INUM s1 = .done 2) :=
  ⟨reachable_ex_a, by rfl, by rfl,
    ⟨state_after (tfs_link path_a [120, 98] ex_a) ex_a, by rfl, by rfl⟩,
    ⟨state_after (tfs_sym_link path_a [120, 98] ex_a) ex_a, by rfl, by rfl⟩⟩

/-- C10: `tfs_link` fails atomically.  If the lookup of `target` in the root
directory returns no inumber (a negative value), or returns the inumber of an
inode that is a symbolic link (non-empty `origin_path`), then
`tfs_link(target, link_name)` returns -1 and the state is unchanged. -/
theorem tfs_link_failure_atomic (s : tfs_state) (target link_name : List Nat)
    (i : Int) (hl : tfs_lookup target ROOT_DIR_INUM s = .done i)
    (hi : i < 0 ∨ ∃ ino, inode_get i s = some ino ∧ ino.origin_path ≠ []) :
    tfs_link target link_name s = .done (-1, s) := by
  rcases hi with hi | ⟨ino, hg, hsym⟩
  · exact tfs_link_missing s target link_name i hl hi
  · exact tfs_link_to_symlink s target link_name i ino hl hg hsym

/-- Witness of C10: on the fresh filesystem `ex_init` the target `"/a"` does
not resolve and `tfs_link("/a", "/b")` returns -1 without changing the state
(the scenario of the test `hardlink_to_unexistent_file`). -/
theorem tfs_link_failure_atomic_witness :
    tfs_lookup path_a ROOT_DIR_INUM ex_init = .done (-1) ∧
    tfs_link path_a path_b ex_init = .done (-1, ex_init) :=
  ⟨by rfl, tfs_link_failure_atomic ex_init path_a path_b (-1) (by rfl)
    (Or.inl (by decide))⟩

/-- C4: existence rejection.  On a reachable state, after
`tfs_open(p, TFS_O_CREAT)` has returned a handle `h >= 0` (then `p` is a valid
path) and `tfs_close(h)` has returned 0, `tfs_open(p, mode)` with the
`STRICT_CREATE` bit set in `mode` returns -1 and leaves the state unchanged.
More generally, in any state `t` in which the lookup of `q` in the root
directory returns an inumber `i >= 0`, `tfs_open(q, mode2)` with the
`STRICT_CREATE` bit set returns -1 and leaves `t` unchanged. -/
theorem tfs_open_strict_create_existing (s : tfs_state) (hs : Reachable s)
    (fuel fuel2 fuel3 : Nat) (p q : List Nat) (h i : Int) (s1 t : tfs_state)
    (mode mode2 : tfs_file_mode_t)
    (hopen : tfs_open fuel p TFS_O_CREAT s = .done (h, s1)) (hh : 0 ≤ h)
    (hm : mode.strict_create = true)
    (hl : tfs_lookup q ROOT_DIR_INUM t = .done i) (hi : 0 ≤ i)
    (hm2 : mode2.strict_create = true) :
    (valid_pathname p = true ∧ (tfs_close h s1).1 = 0 ∧
      tfs_open (fuel2 + 1) p mode (tfs_close h s1).2 =
        .done (-1, (tfs_close h s1).2)) ∧
    tfs_open (fuel3 + 1) q mode2 t = .done (-1, t) := by
  have hinv := reachable_inv hs
  have hinv1 := inv_tfs_open fuel p TFS_O_CREAT s s1 h hinv hopen
  have hinv2 := inv_tfs_close hinv1 h
  obtain ⟨_, hres⟩ := tfs_open_dir fuel p TFS_O_CREAT s s1 h hinv hopen
  obtain ⟨hv, hfound⟩ := hres hh
  refine ⟨⟨hv, ?_, ?_⟩, tfs_open_strict_existing t fuel3 q mode2 i hl hi hm2⟩
  · exact tfs_close_open_handle h s1 (tfs_open_handle fuel p TFS_O_CREAT s s1 h hinv hopen hh)
  · have hl2 := tfs_lookup_root hinv2 p
    rw [if_pos hv, dir_entries_tfs_close] at hl2
    obtain ⟨hpos, _⟩ := find_entry_inv hinv1 _ hfound
    exact tfs_open_strict_existing _ fuel2 p mode _ hl2 (by omega) hm

/-- Witness of C4, the scenario of the test `create_file_with_existing_name`:
on the fresh filesystem `ex_init`, `tfs_open("/a", TFS_O_CREAT)` returns handle
0, `tfs_close(0)` returns 0, and `tfs_open("/a", TFS_O_STRICT_CREATE)` returns
-1 and leaves the state `ex_a` unchanged. -/
theorem tfs_open_strict_create_existing_witness :
    Reachable ex_init ∧
    tfs_open 1 path_a TFS_O_CREAT ex_init = .done (0, ex_a_open) ∧
    tfs_lookup path_a ROOT_DIR_INUM ex_a = .done 1 ∧
    (tfs_close 0 ex_a_open).1 = 0 ∧
    tfs_open 1 path_a TFS_O_STRICT_CREATE ex_a = .done (-1, ex_a) :=
  ⟨reachable_ex_init, by rfl, by rfl,
    (tfs_open_strict_create_existing ex_init reachable_ex_init 1 0 0 path_a path_a
      0 1 ex_a_open ex_a TFS_O_STRICT_CREATE TFS_O_STRICT_CREATE (by rfl) (by decide)
      (by rfl) (by rfl) (by decide) (by rfl)).1.2.1,
    (tfs_open_strict_create_existing ex_init reachable_ex_init 1 0 0 path_a path_a
      0 1 ex_a_open ex_a TFS_O_STRICT_CREATE TFS_O_STRICT_CREATE (by rfl) (by decide)
      (by rfl) (by rfl) (by decide) (by rfl)).1.2.2⟩

/-- C5, as stated, fails at one input.  The state `ex_ts_cycle` is reached
through the public API (`tfs_init`, create the 39-byte path and close it,
`tfs_sym_link(path_39, "/b")`, `tfs_unlink(path_39)`,
`tfs_sym_link("/b", path_39)`); the path has `MAX_FILE_NAME - 1` bytes, begins
with `'/'` and has no further `'/'`; an inode, a directory slot and an
open-file entry are free; and the path is a symbolic link to `"/b"`, itself a
symbolic link to the path, so that `tfs_open(path_39, TFS_O_CREAT)` exhausts
every recursion bound: the call does not return a handle. -/
theorem tfs_open_boundary_symlink_cycle :
    Reachable ex_ts_cycle ∧
    path_39.head? = some SLASH ∧ path_39.length = MAX_FILE_NAME - 1 ∧
    SLASH ∉ path_39.drop 1 ∧
    (∃ x ∈ ex_ts_cycle.inode_table, x.taken = false) ∧
    dir_has_room ex_ts_cycle ∧
    (∃ x ∈ ex_ts_cycle.open_file_table, x.taken = false) ∧
    tfs_lookup path_39 ROOT_DIR_INUM ex_ts_cycle = .done 1 ∧
    (inode_get 1 ex_ts_cycle).map (fun i => i.origin_path) = some path_b ∧
    tfs_lookup path_b ROOT_DIR_INUM ex_ts_cycle = .done 2 ∧
    (inode_get 2 ex_ts_cycle).map (fun i => i.origin_path) = some path_39 ∧
    ∀ fuel : Nat, tfs_open fuel path_39 TFS_O_CREAT ex_ts_cycle = .out_of_fuel :=
  ⟨reachable_ex_ts_cycle, by rfl, by rfl, by decide,
    ⟨⟨false, zero_inode⟩, by decide, rfl⟩,
    Or.inl ⟨empty_entry, by decide, rfl⟩,
    ⟨⟨false, zero_file⟩, by decide, rfl⟩,
    by rfl, by rfl, by rfl, by rfl,
    fun fuel => (tfs_open_ts_cycle_aux TFS_O_CREAT rfl fuel).1⟩

/-- C5 (amended): the name-length boundary.  For a path `p` of exactly
`MAX_FILE_NAME` bytes, `tfs_open(p, mode)` returns -1 in every state and
leaves it unchanged (no inode, no directory entry).  For a path `q` that
begins with `'/'`, has `MAX_FILE_NAME - 1` bytes and no further `'/'`, on a
reachable state `t` with free capacity (a free inode, room in the directory,
a free open-file entry): if the chain of symbolic links from `q` ends after
`n` links at a name `r` that is not a symbolic link, where `r` is `q` itself
(`n = 0`: `q` is unused or names a regular file) or a valid path with no
further `'/'`, then `tfs_open(q, TFS_O_CREAT)` returns a handle `h >= 0`, and
in the state it leaves `h` is open at offset 0 on the inumber `i > 0` that
`r` resolves to, the other handles are as before, `i` is a fresh inode when
`r` was unused, and when `r` was in use `i` is the inumber it resolved to and
the inode table and the data blocks are unchanged; if the chain does not end
(symbolic links in a cycle), `tfs_open(q, TFS_O_CREAT)` exhausts every
recursion bound: it does not return. -/
theorem tfs_open_name_length_boundary (s t : tfs_state) (fuel : Nat)
    (p q : List Nat) (mode : tfs_file_mode_t)
    (hp : p.length = MAX_FILE_NAME)
    (ht : Reachable t) (hq0 : q.head? = some SLASH)
    (hq : q.length = MAX_FILE_NAME - 1) (hslash : SLASH ∉ q.drop 1)
    (hino : ∃ x ∈ t.inode_table, x.taken = false)
    (hroom : dir_has_room t)
    (hfile : ∃ x ∈ t.open_file_table, x.taken = false) :
    tfs_open (fuel + 1) p mode s = .done (-1, s) ∧
    (∀ (n : Nat) (r : List Nat), chain_end n q t = some r →
      (r = q ∨ (valid_pathname r = true ∧ SLASH ∉ r.drop 1)) →
      ∃ (h : Int) (s1 : tfs_state) (i : Int),
        tfs_open (fuel + n + 1) q TFS_O_CREAT t = .done (h, s1) ∧ 0 ≤ h ∧ 0 < i ∧
        get_open_file_entry h s1 = some { of_inumber := i, of_offset := 0 } ∧
        tfs_lookup r ROOT_DIR_INUM s1 = .done i ∧
        (∀ h2 : Int, h2 ≠ h → get_open_file_entry h2 s1 = get_open_file_entry h2 t) ∧
        (tfs_lookup r ROOT_DIR_INUM t = .done (-1) →
          inode_get i s1 = some (fresh_inode .T_FILE)) ∧
        (tfs_lookup r ROOT_DIR_INUM t ≠ .done (-1) →
          tfs_lookup r ROOT_DIR_INUM t = .done i ∧
          s1.inode_table = t.inode_table ∧ s1.fs_data = t.fs_data)) ∧
    ((∀ n : Nat, chain_end n q t = none) →
      ∀ bound : Nat, tfs_open bound q TFS_O_CREAT t = .out_of_fuel) := by
  have hi := reachable_inv ht
  have hv : valid_pathname q = true :=
    valid_pathname_of_length q hq0 (by rw [hq]; decide) (by rw [hq]; decide)
  refine ⟨tfs_open_invalid fuel p mode s
    (valid_pathname_too_long p (by omega)), ?_, ?_⟩
  · intro n r hc hr
    obtain ⟨hnl, k, hk, hopen⟩ := tfs_open_chain hi TFS_O_CREAT rfl n q r hc
    have hvr : valid_pathname r = true ∧ SLASH ∉ r.drop 1 := by
      rcases hr with rfl | h
      · exact ⟨hv, hslash⟩
      · exact h
    have hfuel : tfs_open (fuel + n + 1) q TFS_O_CREAT t =
        tfs_open (fuel + (n - k) + 1) r TFS_O_CREAT t := by
      rw [show fuel + n + 1 = (fuel + (n - k)) + k + 1 from by omega]
      exact hopen _
    rw [hfuel]
    exact tfs_open_creat_handle hi (fuel + (n - k)) r hvr.1 hvr.2 hino hroom hfile hnl
  · intro hend bound
    exact tfs_open_endless_chain hi TFS_O_CREAT rfl bound q hend

/-- Witness of C5 (amended).  On the fresh filesystem `ex_init` the path of
40 bytes is refused (the scenario of the test `invalid_file_name`) and the
unused path of 39 bytes is created and opened with a handle `>= 0`; on
`ex_ts_alias`, where the path of 39 bytes is a symbolic link to the regular
file `"/a"`, the call returns a handle `>= 0` on the inumber of `"/a"`; on
`ex_ts_cycle`, where the chain from the path does not end, the call exhausts
the bound 1000. -/
theorem tfs_open_name_length_boundary_witness :
    path_40.length = MAX_FILE_NAME ∧ Reachable ex_init ∧
    path_39.head? = some SLASH ∧ path_39.length = MAX_FILE_NAME - 1 ∧
    SLASH ∉ path_39.drop 1 ∧
    tfs_lookup path_39 ROOT_DIR_INUM ex_init = .done (-1) ∧
    chain_end 0 path_39 ex_init = some path_39 ∧
    tfs_open 1 path_40 TFS_O_CREAT ex_init = .done (-1, ex_init) ∧
    (∃ (h : Int) (s1 : tfs_state) (i : Int),
      tfs_open 1 path_39 TFS_O_CREAT ex_init = .done (h, s1) ∧ 0 ≤ h ∧ 0 < i ∧
      get_open_file_entry h s1 = some { of_inumber := i, of_offset := 0 } ∧
      tfs_lookup path_39 ROOT_DIR_INUM s1 = .done i) ∧
    Reachable ex_ts_alias ∧ chain_end 1 path_39 ex_ts_alias = some path_a ∧
    (∃ (h : Int) (s1 : tfs_state) (i : Int),
      tfs_open 2 path_39 TFS_O_CREAT ex_ts_alias = .done (h, s1) ∧ 0 ≤ h ∧ 0 < i ∧
      get_open_file_entry h s1 = some { of_inumber := i, of_offset := 0 } ∧
      tfs_lookup path_a ROOT_DIR_INUM s1 = .done i) ∧
    tfs_open 1000 path_39 TFS_O_CREAT ex_ts_cycle = .out_of_fuel := by
  have k1 := tfs_open_name_length_boundary ex_init ex_init 0 path_40 path_39 TFS_O_CREAT
    (by rfl) reachable_ex_init (by rfl) (by rfl) (by decide)
    ⟨⟨false, zero_inode⟩, by decide, rfl⟩
    (Or.inr ⟨by rfl, ⟨⟨false, zero_block 88⟩, by decide, rfl⟩, by decide⟩)
    ⟨⟨false, zero_file⟩, by decide, rfl⟩
  have k2 := tfs_open_name_length_boundary ex_init ex_ts_alias 0 path_40 path_39
    TFS_O_CREAT (by rfl) reachable_ex_ts_alias (by rfl) (by rfl) (by decide)
    ⟨⟨false, zero_inode⟩, by decide, rfl⟩
    (Or.inl ⟨empty_entry, by decide, rfl⟩)
    ⟨⟨false, zero_file⟩, by decide, rfl⟩
  have k3 := tfs_open_name_length_boundary ex_init ex_ts_cycle 0 path_40 path_39
    TFS_O_CREAT (by rfl) reachable_ex_ts_cycle (by rfl) (by rfl) (by decide)
    ⟨⟨false, zero_inode⟩, by decide, rfl⟩
    (Or.inl ⟨empty_entry, by decide, rfl⟩)
    ⟨⟨false, zero_file⟩, by decide, rfl⟩
  obtain ⟨h, s1, i, a1, a2, a3, a4, a5, _⟩ := k1.2.1 0 path_39 (by rfl) (Or.inl rfl)
  obtain ⟨h', s1', i', b1, b2, b3, b4, b5, _⟩ :=
    k2.2.1 1 path_a (by rfl) (Or.inr ⟨by rfl, by decide⟩)
  exact ⟨by rfl, reachable_ex_init, by rfl, by rfl, by decide, by rfl, by rfl, k1.1,
    ⟨h, s1, i, a1, a2, a3, a4, a5⟩, reachable_ex_ts_alias, by rfl,
    ⟨h', s1', i', b1, b2, b3, b4, b5⟩,
    k3.2.2 (fun n => (chain_end_ts_cycle n).1) 1000⟩

/-- C7: busy unlink.  On a reachable state `s` in which the valid path `t`
resolves to an inumber `i` present in the open-file table, through any number
of handles, `tfs_unlink(t)` returns -1 and leaves the state (directory entry,
inode, link count) unchanged, and `tfs_close` returns 0 on every handle on
`i`.  Once every handle on `i` has been closed, by the calls `tfs_close` on
the handles of any list that holds all of them, no handle is open on `i`, `t`
resolves to `i` as before and `tfs_unlink(t)` returns 0; and so it does in
every reachable state in which `t` resolves to `i` and no handle is open on
`i`, whatever the calls that led there. -/
theorem tfs_unlink_busy_until_closed (s : tfs_state) (hs : Reachable s)
    (t : List Nat) (i : Int) (hv : valid_pathname t = true)
    (hl : tfs_lookup t ROOT_DIR_INUM s = .done i)
    (hbusy : is_in_open_file_table i s = true) :
    tfs_unlink t s = .done (-1, s) ∧
    (∀ (h : Int) (f : open_file_entry_t),
      get_open_file_entry h s = some f → f.of_inumber = i → (tfs_close h s).1 = 0) ∧
    (∀ handles : List Int,
      (∀ (h : Int) (f : open_file_entry_t),
        get_open_file_entry h s = some f → f.of_inumber = i → h ∈ handles) →
      is_in_open_file_table i (close_all handles s) = false ∧
      tfs_lookup t ROOT_DIR_INUM (close_all handles s) = .done i ∧
      ∃ s1, tfs_unlink t (close_all handles s) = .done (0, s1)) ∧
    (∀ s2 : tfs_state, Reachable s2 → tfs_lookup t ROOT_DIR_INUM s2 = .done i →
      is_in_open_file_table i s2 = false →
      ∃ s3, tfs_unlink t s2 = .done (0, s3)) := by
  obtain ⟨h0, f0, hf0, hfi0⟩ := (is_in_open_file_table_iff i s).mp hbusy
  have hpos : 0 ≤ i := by
    have := (inv_open_file (reachable_inv hs) hf0).1
    omega
  refine ⟨tfs_unlink_busy s t i hl hbusy, ?_, ?_, ?_⟩
  · intro h f hf _
    exact tfs_close_open_handle h s (by rw [hf]; rfl)
  · intro handles hall
    have hfree := close_all_not_busy handles s i hall
    have hlc : tfs_lookup t ROOT_DIR_INUM (close_all handles s) = .done i := by
      rw [tfs_lookup_congr (close_all_tables handles s).1 (close_all_tables handles s).2]
      exact hl
    exact ⟨hfree, hlc,
      tfs_unlink_closed (reachable_inv (reachable_close_all handles s hs)) t i hv hlc
        hpos hfree⟩
  · intro s2 hs2 hl2 hclosed
    exact tfs_unlink_closed (reachable_inv hs2) t i hv hl2 hpos hclosed

/-- Witness of C7.  On `ex_a_twice` the handles 0 and 1 are both open on
`"/a"` (inumber 1): `tfs_unlink("/a")` returns -1 and changes nothing; after
`tfs_close(0)` and `tfs_close(1)` it returns 0. -/
theorem tfs_unlink_busy_until_closed_witness :
    Reachable ex_a_twice ∧ valid_pathname path_a = true ∧
    tfs_lookup path_a ROOT_DIR_INUM ex_a_twice = .done 1 ∧
    get_open_file_entry 0 ex_a_twice = some { of_inumber := 1, of_offset := 0 } ∧
    get_open_file_entry 1 ex_a_twice = some { of_inumber := 1, of_offset := 0 } ∧
    is_in_open_file_table 1 ex_a_twice = true ∧
    tfs_unlink path_a ex_a_twice = .done (-1, ex_a_twice) ∧
    is_in_open_file_table 1 (tfs_close 0 ex_a_twice).2 = true ∧
    tfs_unlink path_a (tfs_close 0 ex_a_twice).2 = .done (-1, (tfs_close 0 ex_a_twice).2) ∧
    is_in_open_file_table 1 (close_all [0, 1] ex_a_twice) = false ∧
    ∃ s1, tfs_unlink path_a (close_all [0, 1] ex_a_twice) = .done (0, s1) := by
  have k := tfs_unlink_busy_until_closed ex_a_twice reachable_ex_a_twice path_a 1
    (by rfl) (by rfl) (by rfl)
  have k1 := tfs_unlink_busy_until_closed (tfs_close 0 ex_a_twice).2
    (Reachable.close ex_a_twice 0 reachable_ex_a_twice) path_a 1 (by rfl) (by rfl) (by rfl)
  have hall : ∀ (h : Int) (f : open_file_entry_t),
      get_open_file_entry h ex_a_twice = some f → f.of_inumber = 1 → h ∈ [0, 1] := by
    intro h f hf _
    have hx := get_open_file_entry_some hf
    have h0 := at_index_some_nonneg hx
    have h3 : h < 3 := by
      by_contra hn
      have hnone : at_index ex_a_twice.open_file_table h = none := by
        unfold at_index
        rw [if_pos h0]
        exact List.getElem?_eq_none (by
          have hlen : ex_a_twice.open_file_table.length = 3 := by rfl
          rw [hlen]; omega)
      rw [hnone] at hx
      cases hx
    have h2 : h ≠ 2 := by
      intro he
      subst he
      have hnone : get_open_file_entry 2 ex_a_twice = none := by rfl
      rw [hnone] at hf
      cases hf
    have : h = 0 ∨ h = 1 := by omega
    rcases this with rfl | rfl <;> simp
  obtain ⟨c1, _, c3⟩ := k.2.2.1 [0, 1] hall
  exact ⟨reachable_ex_a_twice, by rfl, by rfl, by rfl, by rfl, by rfl, k.1, by rfl,
    k1.1, c1, c3⟩

/-- C8: unlink removes the name.  On a reachable state, if `tfs_unlink(x)`
returns 0 then afterwards the lookup of `x` in the root directory fails and
`tfs_open(x, 0)` returns -1 (changing nothing); and `x` named an inode `ino`
such that, if this was its last hard link (`hard_link_count = 1`), the slot
of the inode is free afterwards, and so is the data block it owned (when its
size was positive). -/
theorem tfs_unlink_removes_name (s s1 : tfs_state) (hs : Reachable s)
    (x : List Nat) (fuel : Nat) (hu : tfs_unlink x s = .done (0, s1)) :
    tfs_lookup x ROOT_DIR_INUM s1 = .done (-1) ∧
    tfs_open (fuel + 1) x TFS_O_NONE s1 = .done (-1, s1) ∧
    ∃ (i : Int) (ino : inode_t),
      tfs_lookup x ROOT_DIR_INUM s = .done i ∧ inode_get i s = some ino ∧
      (ino.i_hard_link_count = 1 →
        (∃ y, at_index s1.inode_table i = some y ∧ y.taken = false) ∧
        (0 < ino.i_size →
          ∃ b, at_index s1.fs_data ino.i_data_block = some b ∧ b.taken = false)) := by
  have hi := reachable_inv hs
  have hi1 := inv_tfs_unlink hi x 0 hu
  by_cases hv : valid_pathname x = true
  swap
  · rw [tfs_unlink_invalid hi x (by simpa using hv)] at hu
    cases hu
  by_cases hf : find_entry (x.drop 1) (dir_entries s) = -1
  · rw [tfs_unlink_missing hi x hf] at hu
    cases hu
  cases hb : is_in_open_file_table (find_entry (x.drop 1) (dir_entries s)) s with
  | true =>
    have hl := tfs_lookup_root hi x
    rw [if_pos hv] at hl
    rw [tfs_unlink_busy s x _ hl hb] at hu
    cases hu
  | false =>
    obtain ⟨es1, fi, hcl, hg, hun⟩ := tfs_unlink_found hi x hv hf hb
    obtain ⟨hpos, _⟩ := find_entry_inv hi _ hf
    have hd : root_block s ≠ -1 := (clear_dir_entry_found hi _ hf).1
    have hn0 : find_entry (x.drop 1) (dir_entries s) ≠ ROOT_DIR_INUM := by
      simp only [ROOT_DIR_INUM]; omega
    rw [hun] at hu
    obtain ⟨_, hs1⟩ := done_pair_eq hu
    simp only at hs1
    -- the state before the inode is deleted
    have hput : Inv (data_block_put (root_block s) (.entries es1) s) := by
      have hc := (clear_dir_entry_found hi _ hf).2
      obtain ⟨es2, he2, hc2⟩ := hc
      rw [hcl] at he2
      cases he2
      exact inv_clear_dir_entry hi _ _ _ hc2
    have hg2 : inode_get (find_entry (x.drop 1) (dir_entries s))
        (data_block_put (root_block s) (.entries es1) s) = some fi := by
      rw [inode_get_data_block_put]; exact hg
    have hi2 : Inv (inode_put (find_entry (x.drop 1) (dir_entries s))
        { fi with i_hard_link_count := fi.i_hard_link_count - 1 }
        (data_block_put (root_block s) (.entries es1) s)) :=
      inv_inode_put hput _ _ hn0 (fun hp => inv_own_get (v := fi) hput hg2 hp)
    have hde2 : dir_entries (inode_put (find_entry (x.drop 1) (dir_entries s))
        { fi with i_hard_link_count := fi.i_hard_link_count - 1 }
        (data_block_put (root_block s) (.entries es1) s)) = es1 := by
      rw [dir_entries_inode_put _ _ _ hn0, dir_entries_put_dir hi hd]
    have hde : dir_entries s1 = es1 := by
      rw [← hs1]
      by_cases hz : fi.i_hard_link_count - 1 = 0
      · rw [if_pos hz, dir_entries_inode_delete hi2 _ hn0, hde2]
      · rw [if_neg hz, hde2]
    have hgone : find_entry (x.drop 1) (dir_entries s1) = -1 := by
      rw [hde]
      exact find_entry_clear_entry _ _ _ hcl (inv_dir_unique hi)
    have hl1 : tfs_lookup x ROOT_DIR_INUM s1 = .done (-1) := by
      rw [tfs_lookup_root hi1, if_pos hv, hgone]
    refine ⟨hl1, ?_, find_entry (x.drop 1) (dir_entries s), fi, ?_, hg, ?_⟩
    · rw [tfs_open_step hi1 fuel x TFS_O_NONE hv, hgone]
      rfl
    · rw [tfs_lookup_root hi, if_pos hv]
    · intro hlast
      have hz : fi.i_hard_link_count - 1 = 0 := by omega
      rw [if_pos hz] at hs1
      have hg3 : inode_get (find_entry (x.drop 1) (dir_entries s))
          (inode_put (find_entry (x.drop 1) (dir_entries s))
            { fi with i_hard_link_count := fi.i_hard_link_count - 1 }
            (data_block_put (root_block s) (.entries es1) s)) =
          some { fi with i_hard_link_count := fi.i_hard_link_count - 1 } := by
        rw [inode_get_inode_put_same, hg2]; rfl
      obtain ⟨r1, r2⟩ := inode_delete_released _ _ _ hg3
      rw [hs1] at r1 r2
      refine ⟨⟨_, r1, rfl⟩, ?_⟩
      intro hp
      refine ⟨_, r2 hp ?_, rfl⟩
      simp only [inode_put_fs_data]
      have hown := inv_own_get hi hg hp
      rw [data_block_put_at_other _ _ _ _ (Ne.symm hown.1)]
      exact hown.2.2

/-- Witness of C8: on `ex_a`, where `"/a"` exists and is not open,
`tfs_unlink("/a")` returns 0 and the name is gone. -/
theorem tfs_unlink_removes_name_witness :
    Reachable ex_a ∧
    tfs_unlink path_a ex_a = .done (0, state_after (tfs_unlink path_a ex_a) ex_a) ∧
    tfs_lookup path_a ROOT_DIR_INUM (state_after (tfs_unlink path_a ex_a) ex_a) =
      .done (-1) :=
  ⟨reachable_ex_a, by rfl,
    (tfs_unlink_removes_name ex_a (state_after (tfs_unlink path_a ex_a) ex_a)
      reachable_ex_a path_a 0 (by rfl)).1⟩

theorem reachable_ex_os_a : Reachable ex_os_a :=
  Reachable.close _ 0
    (Reachable.open_ (tfs_init (some ex_one_slot)).2 _ 1 path_a TFS_O_CREAT 0
      (Reachable.init (some ex_one_slot) _ (by rfl)) (by rfl))

/-- C9, as stated, fails at two inputs.  In the reachable state `ex_os_a` the
regular file `"/a"` exists and is not open, `"/b"` is a valid fresh name, and
`tfs_link("/a", "/b")` returns -1 because the one slot of the directory is
taken.  In the reachable state `ex_a`, which has a free directory slot,
`"/a/b"` is a valid fresh path and `tfs_link("/a", "/a/b")` returns -1 because
`add_dir_entry` rejects the name `"a/b"`. -/
theorem tfs_link_can_fail_on_fresh_name :
    (Reachable ex_os_a ∧
      tfs_lookup path_a ROOT_DIR_INUM ex_os_a = .done 1 ∧
      (inode_get 1 ex_os_a).map (fun i => i.origin_path) = some [] ∧
      is_in_open_file_table 1 ex_os_a = false ∧
      valid_pathname path_b = true ∧
      tfs_lookup path_b ROOT_DIR_INUM ex_os_a = .done (-1) ∧
      tfs_link path_a path_b ex_os_a = .done (-1, ex_os_a)) ∧
    (Reachable ex_a ∧
      tfs_lookup path_a ROOT_DIR_INUM ex_a = .done 1 ∧
      (inode_get 1 ex_a).map (fun i => i.origin_path) = some [] ∧
      is_in_open_file_table 1 ex_a = false ∧
      valid_pathname path_a_b = true ∧
      tfs_lookup path_a_b ROOT_DIR_INUM ex_a = .done (-1) ∧
      tfs_link path_a path_a_b ex_a = .done (-1, ex_a)) :=
  ⟨⟨reachable_ex_os_a, by rfl, by rfl, by rfl, by rfl, by rfl, by rfl⟩,
    ⟨reachable_ex_a, by rfl, by rfl, by rfl, by rfl, by rfl, by rfl⟩⟩

/-- C9 (amended): link/unlink round trip.  On a reachable state in which the
valid path `a` resolves to the inumber `i` of a regular file `ino` (not a
symbolic link) that no handle is open on, for every valid path `b` whose name
has no further `'/'` and is not in the directory, with room in the directory:
`tfs_link(a, b)` returns 0, after which `b` resolves to `i` and the inode is
`ino` with its `hard_link_count` incremented by one; the following
`tfs_unlink(b)` returns 0, after which `a` resolves to `i` and the inode is
`ino` again (same link count, size, data block), with the content of its data
block unchanged. -/
theorem tfs_link_unlink_round_trip (s : tfs_state) (hs : Reachable s)
    (a b : List Nat) (i : Int) (ino : inode_t)
    (hva : valid_pathname a = true)
    (hla : tfs_lookup a ROOT_DIR_INUM s = .done i) (hi0 : 0 ≤ i)
    (hg : inode_get i s = some ino) (hreg : ino.origin_path = [])
    (hclosed : is_in_open_file_table i s = false)
    (hvb : valid_pathname b = true) (hslash : SLASH ∉ b.drop 1)
    (hnew : tfs_lookup b ROOT_DIR_INUM s = .done (-1))
    (hroom : dir_has_room s) :
    ∃ (s1 s2 : tfs_state),
      tfs_link a b s = .done (0, s1) ∧
      tfs_lookup b ROOT_DIR_INUM s1 = .done i ∧
      inode_get i s1 =
        some { ino with i_hard_link_count := ino.i_hard_link_count + 1 } ∧
      tfs_unlink b s1 = .done (0, s2) ∧
      tfs_lookup a ROOT_DIR_INUM s2 = .done i ∧
      inode_get i s2 = some ino ∧
      (0 < ino.i_size →
        data_block_get ino.i_data_block s2 = data_block_get ino.i_data_block s) := by
  have hi := reachable_inv hs
  have hl := reachable_link hs
  -- the names in the directory
  have hfa : find_entry (a.drop 1) (dir_entries s) = i := by
    have := tfs_lookup_root hi a
    rw [if_pos hva, hla] at this
    exact (Run.done.inj this).symm
  have hfb : find_entry (b.drop 1) (dir_entries s) = -1 := by
    have := tfs_lookup_root hi b
    rw [if_pos hvb, hnew] at this
    exact (Run.done.inj this).symm
  have hane : find_entry (a.drop 1) (dir_entries s) ≠ -1 := by omega
  obtain ⟨hpos, hsome⟩ := find_entry_inv hi _ hane
  rw [hfa] at hpos hsome
  have hn0 : i ≠ ROOT_DIR_INUM := by simp only [ROOT_DIR_INUM]; omega
  have hab : a.drop 1 ≠ b.drop 1 := by
    intro h; rw [h] at hfa; omega
  obtain ⟨z, hz, hzv⟩ := at_index_of_inode_get hg
  have hcount : 1 ≤ ino.i_hard_link_count := by
    have := (found_inode_taken hl (a.drop 1) hane z (by rw [hfa]; exact hz)).2
    rw [hzv] at this; exact this
  -- the link
  obtain ⟨hnm, hlen1, _, _⟩ := name_of_valid_path b hvb
  obtain ⟨c, name, rfl⟩ : ∃ c name, b = c :: name := by
    cases b with
    | nil => simp at hlen1
    | cons c name => exact ⟨c, name, rfl⟩
  simp only [List.drop_succ_cons, List.drop_zero] at hslash hfb hnm hab
  have hn : ¬ (SLASH ∈ name ∨ MAX_FILE_NAME - 1 < name.length) := by
    intro h
    rcases h with h | h
    · exact hslash h
    · exact hnm h
  obtain ⟨s1', hadd0⟩ := add_dir_entry_room hi name i hn hfb hroom
  obtain ⟨r, s1x, hadd, hi1', hot, _, hfr, hfs, hres⟩ :=
    add_dir_entry_root hi name i hpos hsome
  rw [hadd0] at hadd
  cases hadd
  have hres' : root_block s1' ≠ -1 ∧ find_entry name (dir_entries s1') = i ∧
      ∀ q, q ≠ name → find_entry q (dir_entries s1') = find_entry q (dir_entries s) := by
    rcases hres with ⟨_, h1, _, h2, h3⟩ | ⟨h0, _⟩
    · exact ⟨h1, h2, h3⟩
    · omega
  obtain ⟨hrb1, hfind1, hother1⟩ := hres'
  have hg1' : inode_get i s1' = some ino := by
    unfold inode_get
    rw [hfr i hn0, hz, ← hzv]; rfl
  have hlink : tfs_link a (c :: name) s =
      .done (0, inode_put i
        { ino with i_hard_link_count := ino.i_hard_link_count + 1 } s1') := by
    unfold tfs_link
    rw [hla]
    simp only
    rw [if_neg (by omega), hg]
    simp only [hreg, ne_eq, not_true_eq_false, if_false, hadd0, hg1']
  have hi1 := inv_tfs_link hi a (c :: name) 0 hlink
  have hde1 : dir_entries (inode_put i
      { ino with i_hard_link_count := ino.i_hard_link_count + 1 } s1') =
      dir_entries s1' := dir_entries_inode_put _ _ _ hn0
  have hg1 : inode_get i (inode_put i
      { ino with i_hard_link_count := ino.i_hard_link_count + 1 } s1') =
      some { ino with i_hard_link_count := ino.i_hard_link_count + 1 } := by
    rw [inode_get_inode_put_same, hg1']; rfl
  have hlb1 : tfs_lookup (c :: name) ROOT_DIR_INUM (inode_put i
      { ino with i_hard_link_count := ino.i_hard_link_count + 1 } s1') = .done i := by
    rw [tfs_lookup_root hi1, if_pos hvb, hde1]
    simp only [List.drop_succ_cons, List.drop_zero, hfind1]
  -- the unlink
  have hfb1 : find_entry ((c :: name).drop 1) (dir_entries (inode_put i
      { ino with i_hard_link_count := ino.i_hard_link_count + 1 } s1')) = i := by
    rw [hde1]
    simp only [List.drop_succ_cons, List.drop_zero, hfind1]
  have hclosed1 : is_in_open_file_table i (inode_put i
      { ino with i_hard_link_count := ino.i_hard_link_count + 1 } s1') = false := by
    rw [is_in_open_file_table_congr (s := s) (by simp [hot])]
    exact hclosed
  obtain ⟨es1, fi, hcl, hgfi, hun⟩ := tfs_unlink_found hi1 (c :: name) hvb
    (by rw [hfb1]; omega) (by rw [hfb1]; exact hclosed1)
  rw [hfb1] at hgfi hun
  rw [hg1] at hgfi
  cases hgfi
  simp only at hun
  have hnz : ¬ (ino.i_hard_link_count + 1 - 1 = 0) := by omega
  rw [if_neg hnz] at hun
  have hback : ({ ino with i_hard_link_count := ino.i_hard_link_count + 1 - 1 } : inode_t) =
      ino := by
    cases ino
    simp
  rw [hback] at hun
  have hrb2 : root_block (inode_put i
      { ino with i_hard_link_count := ino.i_hard_link_count + 1 } s1') = root_block s1' :=
    root_block_inode_put_other _ _ _ hn0
  rw [hrb2] at hun
  have hrb2n : root_block (inode_put i
      { ino with i_hard_link_count := ino.i_hard_link_count + 1 } s1') ≠ -1 := by
    rw [hrb2]; exact hrb1
  have hi2 := inv_tfs_unlink hi1 (c :: name) 0 hun
  refine ⟨_, _, hlink, hlb1, hg1, hun, ?_, ?_, ?_⟩
  · rw [tfs_lookup_root hi2, if_pos hva, dir_entries_inode_put _ _ _ hn0]
    have hdp := dir_entries_put_dir hi1 hrb2n es1
    rw [hrb2] at hdp
    rw [hdp]
    simp only [List.drop_succ_cons, List.drop_zero, hde1] at hcl
    rw [find_entry_clear_entry_other name (a.drop 1) hab _ _ hcl, hother1 _ hab, hfa]
  · rw [inode_get_inode_put_same, inode_get_data_block_put, hg1]
    rfl
  · intro hp
    have hown1 := inv_own_get hi1' hg1' hp
    rw [data_block_get_congr (inode_put_fs_data _ _ _),
      data_block_get_put_other _ _ _ _ (Ne.symm hown1.1),
      data_block_get_congr (inode_put_fs_data _ _ _)]
    unfold data_block_get
    rw [hfs _ hown1.1]

/-- Witness of C9 (amended): on `ex_a`, `tfs_link("/a", "/b")` returns 0 and
the following `tfs_unlink("/b")` returns 0. -/
theorem tfs_link_unlink_round_trip_witness :
    Reachable ex_a ∧ valid_pathname path_a = true ∧
    tfs_lookup path_a ROOT_DIR_INUM ex_a = .done 1 ∧
    inode_get 1 ex_a = some (fresh_inode .T_FILE) ∧
    is_in_open_file_table 1 ex_a = false ∧
    valid_pathname path_b = true ∧ SLASH ∉ path_b.drop 1 ∧
    tfs_lookup path_b ROOT_DIR_INUM ex_a = .done (-1) ∧
    ∃ (s1 s2 : tfs_state), tfs_link path_a path_b ex_a = .done (0, s1) ∧
      tfs_unlink path_b s1 = .done (0, s2) ∧
      tfs_lookup path_a ROOT_DIR_INUM s2 = .done 1 :=
  ⟨reachable_ex_a, by rfl, by rfl, by rfl, by rfl, by rfl, by decide, by rfl,
    (tfs_link_unlink_round_trip ex_a reachable_ex_a path_a path_b 1
      (fresh_inode .T_FILE) (by rfl) (by rfl) (by decide) (by rfl) (by rfl) (by rfl)
      (by rfl) (by decide) (by rfl)
      (Or.inl ⟨empty_entry, by decide, rfl⟩)).elim
      (fun s1 h1 => h1.elim (fun s2 h2 =>
        ⟨s1, s2, h2.1, h2.2.2.2.1, h2.2.2.2.2.1⟩))⟩

/-! ## The claims on symbolic links, exhaustion and the invariants -/

theorem reachable_ex_a_written : Reachable ex_a_written :=
  Reachable.write ex_a_open _ 0 [97, 98, 99] 3 3 reachable_ex_a_open (by rfl)

theorem reachable_ex_ti_a : Reachable ex_ti_a := by
  have h0 : Reachable ex_ti_init := Reachable.init (some ex_two_inodes) _ (by rfl)
  have h1 : Reachable ex_ti_open :=
    Reachable.open_ ex_ti_init _ 1 path_a TFS_O_CREAT 0 h0 (by rfl)
  exact Reachable.close ex_ti_open 0 h1

theorem reachable_ex_cycle : Reachable ex_cycle := by
  have h1 : Reachable ex_ab :=
    Reachable.sym_link ex_a _ path_a path_b 0 reachable_ex_a (by rfl)
  have h2 : Reachable ex_b := Reachable.unlink ex_ab _ path_a 0 h1 (by rfl)
  exact Reachable.sym_link ex_b _ path_b path_a 0 h2 (by rfl)

theorem reachable_ex_hi : Reachable ex_hi := by
  have h1 : Reachable ex_hi_open :=
    Reachable.write ex_a_open _ 0 host_hi 2 2 reachable_ex_a_open (by rfl)
  exact Reachable.close ex_hi_open 0 h1

/-- C11: symlink transparency.  On a reachable state, let the valid path `t`
resolve to an inode `ino` that is not a symbolic link, and let `sl` be a valid
path with `tfs_sym_link(t, sl) = 0`.  In the state after the call, for every
mode and every recursion bound, `tfs_open(sl, mode)` is `tfs_open(t, mode)`
(same result, same state); `t` still resolves to its inumber and inode; and
that call returns -1 if the `STRICT_CREATE` bit is set and otherwise makes an
open-file entry on the inumber of `t`, at offset 0 after a truncation and at
the offset that `APPEND` asks for otherwise. -/
theorem tfs_sym_link_transparent {s s1 : tfs_state} (hr : Reachable s)
    (t sl : List Nat) (ino : inode_t)
    (hvt : valid_pathname t = true) (hvs : valid_pathname sl = true)
    (hfound : find_entry (t.drop 1) (dir_entries s) ≠ -1)
    (hg : inode_get (find_entry (t.drop 1) (dir_entries s)) s = some ino)
    (hreg : ino.origin_path = [])
    (hlink : tfs_sym_link t sl s = .done (0, s1))
    (mode : tfs_file_mode_t) (fuel : Nat) :
    tfs_open (fuel + 2) sl mode s1 = tfs_open (fuel + 1) t mode s1 ∧
    tfs_lookup t ROOT_DIR_INUM s1 = .done (find_entry (t.drop 1) (dir_entries s)) ∧
    inode_get (find_entry (t.drop 1) (dir_entries s)) s1 = some ino ∧
    tfs_open (fuel + 1) t mode s1 =
      (if mode.strict_create then .done (-1, s1)
       else if mode.trunc ∧ 0 < ino.i_size then
         .done (add_to_open_file_table (find_entry (t.drop 1) (dir_entries s)) 0
           (inode_put (find_entry (t.drop 1) (dir_entries s)) { ino with i_size := 0 }
             (data_block_free ino.i_data_block s1)))
       else
         .done (add_to_open_file_table (find_entry (t.drop 1) (dir_entries s))
           (if mode.append then ino.i_size else 0) s1)) := by
  have hi := reachable_inv hr
  have hl := reachable_link hr
  obtain ⟨li, hpos, hi1, ⟨x, hx, hx1⟩, hnew, hfind, hget, hothers, hnodes, _, _, _⟩ :=
    tfs_sym_link_success hi t sl hlink
  obtain ⟨hipos, _⟩ := find_entry_inv hi _ hfound
  have hne : t.drop 1 ≠ sl.drop 1 := by
    intro heq
    rw [heq] at hfound
    exact hfound hnew
  have hfind_t : find_entry (t.drop 1) (dir_entries s1) =
      find_entry (t.drop 1) (dir_entries s) := hothers _ hne
  obtain ⟨z, hz, hzv⟩ := at_index_of_inode_get hg
  obtain ⟨htaken, _⟩ := found_inode_taken hl _ hfound z hz
  have hili : find_entry (t.drop 1) (dir_entries s) ≠ li := by
    intro heq
    rw [heq, hx] at hz
    cases hz
    rw [hx1] at htaken
    cases htaken
  have hget_t : inode_get (find_entry (t.drop 1) (dir_entries s)) s1 = some ino := by
    unfold inode_get
    rw [hnodes _ hili (by simp only [ROOT_DIR_INUM]; omega), hz, ← hzv]
    rfl
  have htake : t.take (MAX_FILE_NAME - 1) = t := by
    obtain ⟨_, _, hlen, _⟩ := name_of_valid_path t hvt
    exact List.take_of_length_le (by omega)
  have hnil : t ≠ [] := by
    obtain ⟨_, hlen, _, _⟩ := name_of_valid_path t hvt
    intro h0
    rw [h0] at hlen
    simp at hlen
  have hstep_t : tfs_open (fuel + 1) t mode s1 =
      (if mode.strict_create then .done (-1, s1)
       else if mode.trunc ∧ 0 < ino.i_size then
         .done (add_to_open_file_table (find_entry (t.drop 1) (dir_entries s)) 0
           (inode_put (find_entry (t.drop 1) (dir_entries s)) { ino with i_size := 0 }
             (data_block_free ino.i_data_block s1)))
       else
         .done (add_to_open_file_table (find_entry (t.drop 1) (dir_entries s))
           (if mode.append then ino.i_size else 0) s1)) := by
    rw [tfs_open_step hi1 fuel t mode hvt, hfind_t, if_pos (by omega), hget_t]
    by_cases hstrict : mode.strict_create = true
    · rw [if_pos hstrict, if_pos hstrict]
    · rw [if_neg hstrict, if_neg hstrict]
      simp only
      rw [if_neg (by rw [hreg]; exact fun h0 => h0 rfl)]
  refine ⟨?_, ?_, hget_t, hstep_t⟩
  · by_cases hstrict : mode.strict_create = true
    · rw [hstep_t, if_pos hstrict, tfs_open_step hi1 (fuel + 1) sl mode hvs, hfind,
        if_pos (by omega), if_pos hstrict]
    · rw [tfs_open_step hi1 (fuel + 1) sl mode hvs, hfind, if_pos (by omega),
        if_neg hstrict, hget]
      simp only
      rw [if_pos (by rw [htake]; exact hnil), htake]
  · rw [tfs_lookup_root hi1 t, if_pos hvt, hfind_t]

/-- Witness of C11, the scenario of the spec: `"/a"` holds `"hi"` in the
reachable state `ex_hi`, `tfs_sym_link("/a", "/b")` returns 0, and in the state
after it `tfs_open("/b", 0)` is `tfs_open("/a", 0)` and a read of up to 10
bytes through the handle returns the 2 bytes `"hi"`. -/
theorem tfs_sym_link_transparent_witness :
    Reachable ex_hi ∧ valid_pathname path_a = true ∧ valid_pathname path_b = true ∧
    tfs_sym_link path_a path_b ex_hi = .done (0, ex_hi_link) ∧
    tfs_open 2 path_b TFS_O_NONE ex_hi_link = tfs_open 1 path_a TFS_O_NONE ex_hi_link ∧
    open_read 2 path_b TFS_O_NONE 10 ex_hi_link = .done (2, host_hi) :=
  ⟨reachable_ex_hi, by rfl, by rfl, by rfl,
    (tfs_sym_link_transparent reachable_ex_hi path_a path_b
      { i_node_type := .T_FILE, i_size := 2, i_data_block := 1,
        i_hard_link_count := 1, origin_path := [] }
      (by rfl) (by rfl) (by decide) (by rfl) rfl (by rfl) TFS_O_NONE 0).1,
    by rfl⟩

/-- C12 fails on the code.  On every reachable state, when the target does
not resolve in the root directory and an inode is free, `tfs_sym_link` returns
-1 after `inode_create` and keeps the inode; and whatever the cause (the
target does not resolve, or the link name cannot be inserted), every
`tfs_sym_link` that returns -1 leaves one more allocated inode than before
the call, in a state that differs from the one before the call. -/
theorem tfs_sym_link_failure_leaks_inode {s : tfs_state} (hr : Reachable s)
    (target link_name : List Nat) :
    (tfs_lookup target ROOT_DIR_INUM s = .done (-1) →
      (∃ x ∈ s.inode_table, x.taken = false) →
      ∃ s1, tfs_sym_link target link_name s = .done (-1, s1)) ∧
    (∀ s1, tfs_sym_link target link_name s = .done (-1, s1) →
      live_inodes s1 = live_inodes s + 1 ∧ s1 ≠ s) := by
  constructor
  · intro hmiss hfree
    obtain ⟨s1, h1, _⟩ :=
      tfs_sym_link_missing_target (reachable_inv hr) target link_name hmiss hfree
    exact ⟨s1, h1⟩
  · intro s1 h
    have h2 := tfs_sym_link_failure (reachable_inv hr) target link_name h
    refine ⟨h2, ?_⟩
    intro heq
    rw [heq] at h2
    omega

/-- Witness of C12's failing runs.  In the reachable state `ex_a` (`"/a"`
exists, nothing is open, 2 inodes allocated) the target `"/b"` does not
resolve, and `tfs_sym_link("/b", "/c")` returns -1 and leaves `ex_a_leak`,
with 3 allocated inodes.  Likewise when the link name cannot be inserted:
`"/a"` resolves, `add_dir_entry` rejects the name `"a/b"`, and
`tfs_sym_link("/a", "/a/b")` returns -1 with 3 allocated inodes. -/
theorem tfs_sym_link_failure_leaks_inode_witness :
    Reachable ex_a ∧
    (tfs_lookup path_b ROOT_DIR_INUM ex_a = .done (-1) ∧
      (∃ s1, tfs_sym_link path_b path_c ex_a = .done (-1, s1)) ∧
      tfs_sym_link path_b path_c ex_a = .done (-1, ex_a_leak) ∧
      (live_inodes ex_a_leak = live_inodes ex_a + 1 ∧ ex_a_leak ≠ ex_a) ∧
      live_inodes ex_a = 2 ∧ live_inodes ex_a_leak = 3) ∧
    (tfs_lookup path_a ROOT_DIR_INUM ex_a = .done 1 ∧
      add_dir_entry ROOT_DIR_INUM (path_a_b.drop 1) 2 ex_a = .done (-1, ex_a) ∧
      returned (tfs_sym_link path_a path_a_b ex_a) = some (-1) ∧
      live_inodes (state_after (tfs_sym_link path_a path_a_b ex_a) ex_a) = 3) :=
  ⟨reachable_ex_a,
    ⟨by rfl,
      (tfs_sym_link_failure_leaks_inode reachable_ex_a path_b path_c).1 (by rfl)
        ⟨⟨false, zero_inode⟩, by decide, rfl⟩,
      by rfl,
      (tfs_sym_link_failure_leaks_inode reachable_ex_a path_b path_c).2 ex_a_leak (by rfl),
      by rfl, by rfl⟩,
    ⟨by rfl, by rfl, by rfl, by rfl⟩⟩

/-- C13 fails on the code for `tfs_sym_link`.  On every reachable state
whose inode table is full, `tfs_open(p, mode)` with the `CREAT` bit on a
valid unused name returns -1 and leaves the state unchanged, but
`tfs_sym_link` does not return, whatever its arguments: the -1 that
`inode_create` returns goes to `inode_get` unchecked and the `strncpy` writes
through its result. -/
theorem tfs_sym_link_full_inode_table_aborts {s : tfs_state} (hr : Reachable s)
    (hfull : ∀ x ∈ s.inode_table, x.taken = true) :
    (∀ target link_name : List Nat, tfs_sym_link target link_name s = .abort) ∧
    (∀ (fuel : Nat) (p : List Nat) (mode : tfs_file_mode_t),
      valid_pathname p = true → find_entry (p.drop 1) (dir_entries s) = -1 →
      mode.creat = true → tfs_open (fuel + 1) p mode s = .done (-1, s)) := by
  refine ⟨fun target link_name => tfs_sym_link_full target link_name s hfull, ?_⟩
  intro fuel p mode hv hnew hcreat
  rw [tfs_open_step (reachable_inv hr) fuel p mode hv, if_neg (by omega), if_pos hcreat,
    inode_create_full .T_FILE s hfull]
  rfl

/-- Witness of C13's failing run.  In the reachable state `ex_ti_a` both
inodes are allocated (the root and `"/a"`), `"/a"` resolves and `"/b"` is a
valid unused name: `tfs_sym_link("/a", "/b")` does not return, and
`tfs_open("/b", TFS_O_CREAT)` returns -1 and leaves the state unchanged. -/
theorem tfs_sym_link_full_inode_table_aborts_witness :
    Reachable ex_ti_a ∧
    (∀ x ∈ ex_ti_a.inode_table, x.taken = true) ∧
    live_inodes ex_ti_a = ex_ti_a.params.max_inode_count ∧
    tfs_lookup path_a ROOT_DIR_INUM ex_ti_a = .done 1 ∧
    valid_pathname path_b = true ∧
    tfs_lookup path_b ROOT_DIR_INUM ex_ti_a = .done (-1) ∧
    inode_create .T_FILE ex_ti_a = (-1, ex_ti_a) ∧
    inode_get (-1) ex_ti_a = none ∧
    tfs_sym_link path_a path_b ex_ti_a = .abort ∧
    tfs_open 1 path_b TFS_O_CREAT ex_ti_a = .done (-1, ex_ti_a) :=
  ⟨reachable_ex_ti_a, by decide, by rfl, by rfl, by rfl, by rfl, by rfl, by rfl,
    (tfs_sym_link_full_inode_table_aborts reachable_ex_ti_a (by decide)).1 path_a path_b,
    (tfs_sym_link_full_inode_table_aborts reachable_ex_ti_a (by decide)).2 0 path_b
      TFS_O_CREAT (by rfl) (by rfl) rfl⟩

/-- C14: open of an existing regular file, and of a file just created.  On a
reachable state, for a valid path `p` and any recursion bound:

* when `p` resolves to an inode that is not a symbolic link and the mode has
  no `STRICT_CREATE` bit, `tfs_open(p, mode)` returns; afterwards the size of
  the inode is 0 if the `TRUNC` bit is set and unchanged otherwise, its data
  block is freed if `TRUNC` is set and the size was positive (the data blocks
  are untouched otherwise), the call returns a handle when the open-file
  table has a free entry, and the offset of a returned handle is the size
  after the truncation if the `APPEND` bit is set and 0 otherwise;
* when `p` does not resolve, the mode has the `CREAT` bit and there is room
  (a name without further `'/'`, a free inode, room in the directory, a free
  open-file entry), `tfs_open(p, mode)` returns a handle at offset 0 on a
  new inode of size 0, whatever the `TRUNC` and `APPEND` bits. -/
theorem tfs_open_truncate_and_offset {s : tfs_state} (hr : Reachable s) (fuel : Nat)
    (p : List Nat) (mode : tfs_file_mode_t) (hv : valid_pathname p = true) :
    (∀ ino : inode_t, find_entry (p.drop 1) (dir_entries s) ≠ -1 →
      inode_get (find_entry (p.drop 1) (dir_entries s)) s = some ino →
      ino.origin_path = [] → mode.strict_create = false →
      ∃ (r : Int) (s1 : tfs_state),
        tfs_open (fuel + 1) p mode s = .done (r, s1) ∧
        inode_get (find_entry (p.drop 1) (dir_entries s)) s1 =
          some { ino with i_size := if mode.trunc then 0 else ino.i_size } ∧
        (mode.trunc = true → 0 < ino.i_size →
          at_index s1.fs_data ino.i_data_block =
            some ⟨false, zero_block s.params.block_size⟩) ∧
        (mode.trunc = false ∨ ino.i_size = 0 → s1.fs_data = s.fs_data) ∧
        ((∃ x ∈ s.open_file_table, x.taken = false) → 0 ≤ r) ∧
        (0 ≤ r → get_open_file_entry r s1 = some
          { of_inumber := find_entry (p.drop 1) (dir_entries s),
            of_offset := if mode.append then (if mode.trunc then 0 else ino.i_size)
              else 0 })) ∧
    (find_entry (p.drop 1) (dir_entries s) = -1 → mode.creat = true →
      SLASH ∉ p.drop 1 → (∃ x ∈ s.inode_table, x.taken = false) → dir_has_room s →
      (∃ x ∈ s.open_file_table, x.taken = false) →
      ∃ (k : Nat) (s1 : tfs_state) (inum : Int),
        tfs_open (fuel + 1) p mode s = .done ((k : Int), s1) ∧
        find_entry (p.drop 1) (dir_entries s1) = inum ∧
        get_open_file_entry (k : Int) s1 = some { of_inumber := inum, of_offset := 0 } ∧
        (inode_get inum s1).map (fun i => i.i_size) = some 0) := by
  have hi := reachable_inv hr
  constructor
  · intro ino hfound hg hsym hstrict
    obtain ⟨hpos, _⟩ := find_entry_inv hi _ hfound
    rw [tfs_open_step hi fuel p mode hv, if_pos (by omega), hstrict, hg]
    simp only [Bool.false_eq_true, if_false]
    rw [if_neg (by rw [hsym]; exact fun h0 => h0 rfl)]
    by_cases htr : mode.trunc = true ∧ 0 < ino.i_size
    · rw [if_pos htr]
      obtain ⟨_, _, hblk⟩ := inv_own_get hi hg htr.2
      refine ⟨(add_to_open_file_table (find_entry (p.drop 1) (dir_entries s)) 0
          (inode_put (find_entry (p.drop 1) (dir_entries s)) { ino with i_size := 0 }
            (data_block_free ino.i_data_block s))).1,
        (add_to_open_file_table (find_entry (p.drop 1) (dir_entries s)) 0
          (inode_put (find_entry (p.drop 1) (dir_entries s)) { ino with i_size := 0 }
            (data_block_free ino.i_data_block s))).2, rfl, ?_, ?_, ?_, ?_, ?_⟩
      · rw [inode_get_congr (add_open_inode_table _ _ _), inode_get_inode_put_same,
          inode_get_data_block_free, hg, htr.1]
        rfl
      · intro _ _
        rw [add_open_fs_data, inode_put_fs_data, data_block_free_at_same]
        cases hb : at_index s.fs_data ino.i_data_block with
        | none => rw [hb] at hblk; cases hblk
        | some x => rfl
      · intro hno
        rcases hno with hno | hno
        · rw [htr.1] at hno; cases hno
        · omega
      · intro hfree
        obtain ⟨k, hk, _⟩ := add_to_open_file_table_free
          (find_entry (p.drop 1) (dir_entries s)) 0
          (inode_put (find_entry (p.drop 1) (dir_entries s)) { ino with i_size := 0 }
            (data_block_free ino.i_data_block s)) (by simpa using hfree)
        rw [hk]; omega
      · intro h0
        rw [add_to_open_file_table_handle _ _ _ h0, htr.1]
        simp
    · rw [if_neg htr]
      have hsize : (if mode.trunc = true then 0 else ino.i_size) = ino.i_size := by
        by_cases ht : mode.trunc = true
        · rw [if_pos ht]
          have : ¬ 0 < ino.i_size := fun h0 => htr ⟨ht, h0⟩
          omega
        · rw [if_neg ht]
      refine ⟨(add_to_open_file_table (find_entry (p.drop 1) (dir_entries s))
          (if mode.append = true then ino.i_size else 0) s).1,
        (add_to_open_file_table (find_entry (p.drop 1) (dir_entries s))
          (if mode.append = true then ino.i_size else 0) s).2, rfl, ?_, ?_, ?_, ?_, ?_⟩
      · rw [inode_get_congr (add_open_inode_table _ _ _), hg, hsize]
      · intro ht h0
        exact absurd ⟨ht, h0⟩ htr
      · intro _
        exact add_open_fs_data _ _ _
      · intro hfree
        obtain ⟨k, hk, _⟩ := add_to_open_file_table_free
          (find_entry (p.drop 1) (dir_entries s))
          (if mode.append = true then ino.i_size else 0) s hfree
        rw [hk]; omega
      · intro h0
        rw [add_to_open_file_table_handle _ _ _ h0, hsize]
  · intro hnew hcreat hslash hino hroom hfile
    obtain ⟨k, s1, inum, hopen, _, _, hent, hget, hfind, _⟩ :=
      tfs_open_creates hi fuel p mode hv hslash hnew hcreat hino hroom hfile
    exact ⟨k, s1, inum, hopen, hfind, hent, by rw [hget]; rfl⟩

/-- Witness of C14: in the reachable state `ex_a_written` the file `"/a"` has
size 3; `tfs_open("/a", TFS_O_TRUNC | TFS_O_APPEND)` returns handle 1 at
offset 0 and leaves the file with size 0 and its block 1 free. -/
theorem tfs_open_truncate_and_offset_witness :
    Reachable ex_a_written ∧ valid_pathname path_a = true ∧
    ∃ (r : Int) (s1 : tfs_state),
      tfs_open 1 path_a (mode_or TFS_O_TRUNC TFS_O_APPEND) ex_a_written = .done (r, s1) ∧
      inode_get 1 s1 =
        some { i_node_type := .T_FILE, i_size := 0, i_data_block := 1,
               i_hard_link_count := 1, origin_path := [] } ∧
      at_index s1.fs_data 1 = some ⟨false, zero_block 88⟩ ∧
      0 ≤ r ∧ get_open_file_entry r s1 = some { of_inumber := 1, of_offset := 0 } := by
  refine ⟨reachable_ex_a_written, by rfl, ?_⟩
  obtain ⟨r, s1, h1, h2, h3, _, h5, h6⟩ :=
    (tfs_open_truncate_and_offset reachable_ex_a_written 0 path_a
      (mode_or TFS_O_TRUNC TFS_O_APPEND) (by rfl)).1
      { i_node_type := .T_FILE, i_size := 3, i_data_block := 1,
        i_hard_link_count := 1, origin_path := [] } (by decide) (by rfl) rfl rfl
  have h0 : 0 ≤ r := h5 ⟨⟨false, zero_file⟩, by decide, rfl⟩
  exact ⟨r, s1, h1, h2, h3 rfl (by decide), h0, h6 h0⟩

/-- C15 fails on the code.  The host file `host_nul` holds the 3 bytes `'A'`,
NUL, `'B'`, fewer than the block size of the freshly initialised `ex_init`,
which has free capacity (`tfs_open("/a", CREAT | TRUNC)` returns handle 0).
Whatever the value of `BUFSIZ`, from 3 up, `fread` returns 3 and
`strlen(buffer)` is 1: `tfs_write` is asked for 1 byte and returns 1, which
differs from `numRead`, and `tfs_copy_from_external_fs` returns -1.  In the
same state the host file `"hi"`, without a NUL, is copied: the call returns 0
and `tfs_open("/a", CREAT)` followed by a read of up to 10 bytes returns the
2 bytes. -/
theorem tfs_copy_from_external_fs_stops_at_nul (BUFSIZ : Nat) (hbuf : 3 ≤ BUFSIZ) :
    Reachable ex_init ∧
    host_nul.length ≤ ex_init.params.block_size ∧
    returned (tfs_open 1 path_a (mode_or TFS_O_CREAT TFS_O_TRUNC) ex_init) = some 0 ∧
    strlen (host_nul.take BUFSIZ ++ (List.replicate BUFSIZ 0).drop 3) = some 1 ∧
    returned (tfs_write 0 (host_nul.take BUFSIZ ++ (List.replicate BUFSIZ 0).drop 3) 1
      ex_a_open) = some 1 ∧
    returned (tfs_copy_from_external_fs BUFSIZ 1 (some host_nul) path_a ex_init) =
      some (-1) ∧
    tfs_copy_from_external_fs BUFSIZ 1 (some host_hi) path_a ex_init = .done (0, ex_hi) ∧
    open_read 1 path_a TFS_O_CREAT 10 ex_hi = .done (2, host_hi) := by
  have htake : host_nul.take BUFSIZ = host_nul :=
    List.take_of_length_le (by simp only [host_nul, List.length]; omega)
  have hstr : strlen (host_nul.take BUFSIZ ++ (List.replicate BUFSIZ 0).drop 3) =
      some 1 := by
    rw [htake]
    simp [host_nul, strlen]
  have hlen : 1 ≤ (host_nul.take BUFSIZ ++ (List.replicate BUFSIZ 0).drop 3).length := by
    rw [htake]
    simp [host_nul]
  obtain ⟨_, _, _, hw⟩ := tfs_write_cases (reachable_inv reachable_ex_a_open) 0
    { of_inumber := 1, of_offset := 0 } (fresh_inode .T_FILE)
    (host_nul.take BUFSIZ ++ (List.replicate BUFSIZ 0).drop 3) 1 1
    (by rfl) (by rfl) (by decide) (by decide) (by decide) (by decide) hlen
  obtain ⟨k, x, blk, _, _, _, _, _, hwr⟩ := hw (by decide) rfl
    ⟨⟨false, zero_block 88⟩, by decide, rfl⟩
  have e1 : tfs_open 1 path_a (mode_or TFS_O_CREAT TFS_O_TRUNC) ex_init =
      .done (0, ex_a_open) := by rfl
  refine ⟨reachable_ex_init, by decide, by rw [e1]; rfl, hstr, by rw [hwr]; rfl, ?_,
    tfs_copy_text_example BUFSIZ hbuf, by rfl⟩
  unfold tfs_copy_from_external_fs
  rw [e1]
  simp only
  rw [if_neg (by decide)]
  show returned (copy_chunks BUFSIZ 0 (2 + 1) host_nul (List.replicate BUFSIZ 0)
    ex_a_open) = some (-1)
  rw [copy_chunks]
  simp only
  have hnum : (host_nul.take BUFSIZ).length = 3 := by rw [htake]; rfl
  rw [hnum, if_neg (by decide), hstr]
  simp only
  rw [hwr]
  simp only
  rw [if_pos (by decide)]
  rfl

/-- Witness of C15's failing run with the `BUFSIZ` of glibc, 8192. -/
theorem tfs_copy_from_external_fs_stops_at_nul_witness :
    3 ≤ 8192 ∧
    returned (tfs_copy_from_external_fs 8192 1 (some host_nul) path_a ex_init) =
      some (-1) :=
  ⟨by decide, (tfs_copy_from_external_fs_stops_at_nul 8192 (by decide)).2.2.2.2.2.1⟩

/-- C16 fails on the code, by the defect of C3.  On every reachable state,
for a valid handle whose offset is within the block size (blocks shorter than
`2 ^ 63`) and past the size of its file, and a length `len` below `2 ^ 63`
with `offset + len` past the block size: the difference
`i_size - of_offset` wraps, `to_read` is `len`, and after the test of the
block reference (`ALWAYS_ASSERT(block != NULL)`) there is no further test:
`tfs_read` copies, stores `file->of_offset += to_read` and returns `len`.
The state it leaves is reachable, and in it the offset of the handle is
`offset + len`, past the block size. -/
theorem tfs_read_offset_past_block {s : tfs_state} (hr : Reachable s) (fh : Int)
    (file : open_file_entry_t) (inode : inode_t) (len : Nat)
    (hfile : get_open_file_entry fh s = some file)
    (hg : inode_get file.of_inumber s = some inode)
    (hoff : file.of_offset ≤ state_block_size s)
    (hpast : inode.i_size < file.of_offset)
    (hbs : state_block_size s < 2 ^ 63) (hlen : len < 2 ^ 63)
    (hbig : state_block_size s < file.of_offset + len) :
    (if len < size_sub inode.i_size file.of_offset then len
      else size_sub inode.i_size file.of_offset) = len ∧
    state_block_size s < size_add file.of_offset len ∧
    tfs_read fh len s =
      (match data_block_get inode.i_data_block s with
      | none => .abort
      | some block =>
        .done ((len : Int), memcpy_from_block (block_bytes block) file.of_offset len,
          open_file_put fh { file with of_offset := file.of_offset + len } s)) ∧
    ((data_block_get inode.i_data_block s).isSome →
      Reachable (open_file_put fh { file with of_offset := file.of_offset + len } s)) ∧
    get_open_file_entry fh
        (open_file_put fh { file with of_offset := file.of_offset + len } s) =
      some { file with of_offset := file.of_offset + len } ∧
    state_block_size (open_file_put fh { file with of_offset := file.of_offset + len } s) <
      file.of_offset + len := by
  have hmod := size_mod_eq
  have e63 : (2 : Nat) ^ 63 = 9223372036854775808 := by norm_num
  unfold state_block_size at hbs hbig hoff
  have hsub : size_sub inode.i_size file.of_offset =
      inode.i_size + SIZE_MOD - file.of_offset := by
    unfold size_sub
    exact Nat.mod_eq_of_lt (by omega)
  have hn : (if len < size_sub inode.i_size file.of_offset then len
      else size_sub inode.i_size file.of_offset) = len :=
    if_pos (by rw [hsub]; omega)
  have hadd : size_add file.of_offset len = file.of_offset + len := by
    unfold size_add
    exact Nat.mod_eq_of_lt (by omega)
  have hss : to_ssize len = (len : Int) := to_ssize_small len (by omega)
  have hread : tfs_read fh len s =
      (match data_block_get inode.i_data_block s with
      | none => .abort
      | some block =>
        .done ((len : Int), memcpy_from_block (block_bytes block) file.of_offset len,
          open_file_put fh { file with of_offset := file.of_offset + len } s)) := by
    unfold tfs_read
    rw [hfile]
    simp only
    rw [hg]
    simp only [hn]
    rw [if_pos (by omega)]
    cases data_block_get inode.i_data_block s with
    | none => rfl
    | some block => simp only [hss, hadd]
  refine ⟨hn, by unfold state_block_size; rw [hadd]; exact hbig, hread, ?_, ?_, ?_⟩
  · intro hsome
    cases hb : data_block_get inode.i_data_block s with
    | none => rw [hb] at hsome; cases hsome
    | some block =>
      rw [hb] at hread
      exact Reachable.read s _ fh len _ _ hr hread
  · exact get_open_file_entry_put_same fh _ s
      (by rw [get_open_file_entry_some hfile]; rfl)
  · unfold state_block_size
    simp only [open_file_put_params]
    exact hbig

/-- Witness of C16's failing run.  In the reachable state `ex_truncated`
handle 0 is at offset 3 of a file that a second handle has truncated to size
0, in blocks of 88 bytes.  For `tfs_read(0, buf, 100)` the difference wraps to
`2 ^ 64 - 3`, `to_read` is 100, the call returns 100 and leaves a reachable
state in which handle 0 has offset 103, past the block size 88. -/
theorem tfs_read_offset_past_block_witness :
    Reachable ex_truncated ∧
    get_open_file_entry 0 ex_truncated = some { of_inumber := 1, of_offset := 3 } ∧
    (inode_get 1 ex_truncated).map (fun i => (i.i_size, i.i_data_block)) = some (0, 1) ∧
    state_block_size ex_truncated = 88 ∧
    size_sub 0 3 = 2 ^ 64 - 3 ∧
    (if 100 < size_sub 0 3 then 100 else size_sub 0 3) = 100 ∧
    size_add 3 100 = 103 ∧
    returned (tfs_read 0 100 ex_truncated) = some 100 ∧
    tfs_read 0 100 ex_truncated =
      .done (100, List.replicate 85 0,
        open_file_put 0 { of_inumber := 1, of_offset := 103 } ex_truncated) ∧
    Reachable (open_file_put 0 { of_inumber := 1, of_offset := 103 } ex_truncated) ∧
    get_open_file_entry 0
        (open_file_put 0 { of_inumber := 1, of_offset := 103 } ex_truncated) =
      some { of_inumber := 1, of_offset := 103 } ∧
    state_block_size (open_file_put 0 { of_inumber := 1, of_offset := 103 } ex_truncated) <
      103 := by
  have k := tfs_read_offset_past_block reachable_ex_truncated 0
    { of_inumber := 1, of_offset := 3 }
    { i_node_type := .T_FILE, i_size := 0, i_data_block := 1,
      i_hard_link_count := 1, origin_path := [] }
    100 (by rfl) (by rfl) (by decide) (by decide) (by decide) (by decide) (by decide)
  exact ⟨reachable_ex_truncated, by rfl, by rfl, by rfl, by decide, by decide, by decide,
    by rfl, k.2.2.1, k.2.2.2.1 (by rfl), k.2.2.2.2.1, k.2.2.2.2.2⟩

/-- C17: live-handle invariant.  In every reachable state the inumber of
every open-file entry is that of an allocated inode: its bit of the bitmap is
set, so no call has deleted it since the handle was opened, and `inode_get`
on it is not `NULL`, which is what the assertions `inode of open file
deleted` of `tfs_read` and `tfs_write` test.  The reachable states are those
of `Reachable`: every call that returns is a step, also the `tfs_read` that
copies past the end of its block and stores an offset past the block size; a
returning `tfs_copy_from_external_fs` stays within them
(`reachable_tfs_copy_from_external_fs`). -/
theorem open_file_inode_is_live {s : tfs_state} (hr : Reachable s) (fh : Int)
    (file : open_file_entry_t) (hfile : get_open_file_entry fh s = some file) :
    ∃ ino : inode_t, at_index s.inode_table file.of_inumber = some ⟨true, ino⟩ ∧
      inode_get file.of_inumber s = some ino := by
  obtain ⟨y, hy, hy1⟩ := (reachable_file hr).live fh _ (get_open_file_entry_some hfile) rfl
  refine ⟨y.val, ?_, inode_get_of_at_index hy⟩
  rw [hy, ← hy1]

/-- Witness of C17: in the reachable state `ex_a_open` handle 0 is open on
inode 1, which is allocated; and so it is in the reachable state `ex_overrun`,
where a `tfs_read` has left handle 0 at offset 103, past the block size. -/
theorem open_file_inode_is_live_witness :
    (Reachable ex_a_open ∧
      get_open_file_entry 0 ex_a_open = some { of_inumber := 1, of_offset := 0 } ∧
      ∃ ino : inode_t, at_index ex_a_open.inode_table 1 = some ⟨true, ino⟩ ∧
        inode_get 1 ex_a_open = some ino) ∧
    (Reachable ex_overrun ∧
      get_open_file_entry 0 ex_overrun = some { of_inumber := 1, of_offset := 103 } ∧
      ∃ ino : inode_t, at_index ex_overrun.inode_table 1 = some ⟨true, ino⟩ ∧
        inode_get 1 ex_overrun = some ino) :=
  ⟨⟨reachable_ex_a_open, by rfl,
    open_file_inode_is_live reachable_ex_a_open 0 { of_inumber := 1, of_offset := 0 }
      (by rfl)⟩,
   ⟨reachable_ex_overrun, by rfl,
    open_file_inode_is_live reachable_ex_overrun 0 { of_inumber := 1, of_offset := 103 }
      (by rfl)⟩⟩

/-- C18: link-count invariant.  In every reachable state the
`hard_link_count` of every inode is at least the number of entries of the
root directory that point at it, and every entry of the directory points at
an allocated inode; in particular, after any `tfs_unlink` that returns, no
entry of the directory names an inode that the call deleted.  The reachable
states are those of `Reachable`: every call that returns is a step, also the
`tfs_read` that copies past the end of its block and stores an offset past
the block size; a returning `tfs_copy_from_external_fs` stays within them
(`reachable_tfs_copy_from_external_fs`). -/
theorem hard_link_count_covers_entries {s : tfs_state} (hr : Reachable s) :
    (∀ (i : Int) (x : slot inode_t), at_index s.inode_table i = some x →
      (links_to i (dir_entries s) : Int) ≤ x.val.i_hard_link_count) ∧
    (∀ e ∈ dir_entries s, used e →
      ∃ x, at_index s.inode_table e.d_inumber = some x ∧ x.taken = true) ∧
    (∀ (target : List Nat) (r : Int) (s1 : tfs_state),
      tfs_unlink target s = .done (r, s1) →
        ∀ e ∈ dir_entries s1, used e →
          ∃ x, at_index s1.inode_table e.d_inumber = some x ∧ x.taken = true) := by
  refine ⟨(reachable_link hr).count, ?_, ?_⟩
  · intro e he hu
    exact dir_entry_inode_taken (reachable_inv hr) (reachable_link hr) e he hu
  · intro target r s1 h e he hu
    have hr1 : Reachable s1 := Reachable.unlink s s1 target r hr h
    exact dir_entry_inode_taken (reachable_inv hr1) (reachable_link hr1) e he hu

/-- Witness of C18: in the reachable state `ex_a` one entry of the directory
points at inode 1, whose `hard_link_count` is 1; and so it is in the
reachable state `ex_overrun`, where a `tfs_read` has left handle 0 at offset
103, past the block size. -/
theorem hard_link_count_covers_entries_witness :
    (Reachable ex_a ∧ links_to 1 (dir_entries ex_a) = 1 ∧
      (∀ x : slot inode_t, at_index ex_a.inode_table 1 = some x →
        (links_to 1 (dir_entries ex_a) : Int) ≤ x.val.i_hard_link_count)) ∧
    (Reachable ex_overrun ∧ links_to 1 (dir_entries ex_overrun) = 1 ∧
      get_open_file_entry 0 ex_overrun = some { of_inumber := 1, of_offset := 103 } ∧
      (∀ x : slot inode_t, at_index ex_overrun.inode_table 1 = some x →
        (links_to 1 (dir_entries ex_overrun) : Int) ≤ x.val.i_hard_link_count)) :=
  ⟨⟨reachable_ex_a, by rfl, (hard_link_count_covers_entries reachable_ex_a).1 1⟩,
   ⟨reachable_ex_overrun, by rfl, by rfl,
    (hard_link_count_covers_entries reachable_ex_overrun).1 1⟩⟩

/-- C19, as stated for every mode, fails: in the reachable state `ex_cycle`,
where `"/a"` and `"/b"` are symbolic links to each other,
`tfs_open("/a", TFS_O_STRICT_CREATE)` returns -1, because the name exists and
the test of the flag comes before the inode is read.  The state is reached
with the handle of the creation closed: while it is open (`ex_open_ab`),
`tfs_unlink("/a")` returns -1 and changes nothing. -/
theorem tfs_open_cycle_strict_create_returns :
    Reachable ex_cycle ∧
    (inode_get 1 ex_cycle).map (fun i => i.origin_path) = some path_b ∧
    (inode_get 2 ex_cycle).map (fun i => i.origin_path) = some path_a ∧
    tfs_lookup path_a ROOT_DIR_INUM ex_cycle = .done 1 ∧
    tfs_lookup path_b ROOT_DIR_INUM ex_cycle = .done 2 ∧
    tfs_open 1 path_a TFS_O_STRICT_CREATE ex_cycle = .done (-1, ex_cycle) ∧
    tfs_sym_link path_a path_b ex_a_open = .done (0, ex_open_ab) ∧
    tfs_unlink path_a ex_open_ab = .done (-1, ex_open_ab) :=
  ⟨reachable_ex_cycle, by rfl, by rfl, by rfl, by rfl, by rfl, by rfl, by rfl⟩

/-- C19 (amended): unbounded symlink recursion.  The state `ex_cycle` is
reached through the public API (`tfs_init`, create `"/a"` and close it,
`tfs_sym_link("/a", "/b")`, `tfs_unlink("/a")`, `tfs_sym_link("/b", "/a")`);
in it `"/a"` resolves to inode 1, a symbolic link to `"/b"`, and `"/b"` to
inode 2, a symbolic link to `"/a"`; and for every mode without the
`STRICT_CREATE` bit, `tfs_open("/a", mode)` exhausts every recursion
bound. -/
theorem tfs_open_cycle_never_returns (mode : tfs_file_mode_t)
    (h : mode.strict_create = false) (fuel : Nat) :
    Reachable ex_cycle ∧
    (inode_get 1 ex_cycle).map (fun i => i.origin_path) = some path_b ∧
    (inode_get 2 ex_cycle).map (fun i => i.origin_path) = some path_a ∧
    tfs_lookup path_a ROOT_DIR_INUM ex_cycle = .done 1 ∧
    tfs_lookup path_b ROOT_DIR_INUM ex_cycle = .done 2 ∧
    tfs_open fuel path_a mode ex_cycle = .out_of_fuel :=
  ⟨reachable_ex_cycle, by rfl, by rfl, by rfl, by rfl, (tfs_open_cycle_aux mode h fuel).1⟩

/-- Witness of C19 (amended): with the mode 0 and a recursion bound of 1000,
`tfs_open("/a", 0)` on `ex_cycle` has not returned. -/
theorem tfs_open_cycle_never_returns_witness :
    TFS_O_NONE.strict_create = false ∧
    tfs_open 1000 path_a TFS_O_NONE ex_cycle = .out_of_fuel :=
  ⟨rfl, (tfs_open_cycle_never_returns TFS_O_NONE rfl 1000).2.2.2.2.2⟩

/-- C20 fails on the code.  On every reachable state, for a valid handle
with offset at most the block size (below `2 ^ 63`) on a file of positive
size, and for every 64-bit length for which `to_write + file->of_offset`
wraps: the wrapped sum is not above the block size, the clamp is skipped, the
length of the copy stays `to_write`, more than the block holds, and the
`memcpy` leaves the block, whatever the buffer: the call does not return. -/
theorem tfs_write_length_wraps {s : tfs_state} (hr : Reachable s) (fh : Int)
    (file : open_file_entry_t) (inode : inode_t) (buffer : List Nat) (to_write : Nat)
    (hfile : get_open_file_entry fh s = some file)
    (hg : inode_get file.of_inumber s = some inode) (hsize : 0 < inode.i_size)
    (hoff : file.of_offset ≤ state_block_size s) (hbs : state_block_size s < 2 ^ 63)
    (hlen : to_write < SIZE_MOD) (hwrap : SIZE_MOD ≤ to_write + file.of_offset) :
    size_add to_write file.of_offset ≤ state_block_size s ∧
    state_block_size s - file.of_offset < to_write ∧
    tfs_write fh buffer to_write s = .abort := by
  have hi := reachable_inv hr
  have hmod := size_mod_eq
  have hsum : size_add to_write file.of_offset = to_write + file.of_offset - SIZE_MOD := by
    unfold size_add
    rw [Nat.mod_eq_sub_mod hwrap, Nat.mod_eq_of_lt (by omega)]
  have h1 : size_add to_write file.of_offset ≤ state_block_size s := by
    rw [hsum]; omega
  refine ⟨h1, by omega, ?_⟩
  obtain ⟨blk, hblk, hblen⟩ := inv_sized_block hi hg hsize
  have hn : (if state_block_size s < size_add to_write file.of_offset
      then size_sub (state_block_size s) file.of_offset else to_write) = to_write :=
    if_neg (Nat.not_lt.mpr h1)
  have hpos : 0 < to_write := by omega
  unfold tfs_write
  rw [hfile]
  simp only
  rw [hg]
  simp only [hn]
  rw [if_pos hpos, if_neg (by omega)]
  unfold tfs_write_copy memcpy_to_block
  rw [hblk]
  simp only
  rw [if_neg (by
    intro h0
    have := h0.1
    unfold state_block_size at hoff hbs
    omega)]

/-- Witness of C20's failing run.  In the reachable state `ex_a_written`
handle 0 is at offset 3 of a file of size 3, in blocks of 88 bytes.  For the
length `2 ^ 64 - 3` the sum wraps to 0 and the copy of `2 ^ 64 - 3` bytes
does not fit in the 85 bytes left in the block: `tfs_write` does not
return. -/
theorem tfs_write_length_wraps_witness :
    Reachable ex_a_written ∧
    get_open_file_entry 0 ex_a_written = some { of_inumber := 1, of_offset := 3 } ∧
    3 ≤ state_block_size ex_a_written ∧
    2 ^ 64 - 3 < SIZE_MOD ∧
    size_add (2 ^ 64 - 3) 3 = 0 ∧
    state_block_size ex_a_written - 3 < 2 ^ 64 - 3 ∧
    tfs_write 0 [] (2 ^ 64 - 3) ex_a_written = .abort :=
  ⟨reachable_ex_a_written, by rfl, by decide, by decide, by decide, by decide,
    (tfs_write_length_wraps reachable_ex_a_written 0 { of_inumber := 1, of_offset := 3 }
      { i_node_type := .T_FILE, i_size := 3, i_data_block := 1,
        i_hard_link_count := 1, origin_path := [] }
      [] (2 ^ 64 - 3) (by rfl) (by rfl) (by decide) (by decide) (by decide) (by decide)
      (by decide)).2.2⟩

end TFS
